import Mathlib

/-!
# Binary interchange format: tables and the streaming encoder

A shallow embedding of `format.go`, `format_message.go` and `encoder.go`.

Conventions of the embedding:

* a byte slice is a `List Nat` (one entry per byte); a nil slice is `[]`;
* Go `int` values (buffer offsets, stack offsets, the data cursor) are `Int`;
  `uint16` tags and `uint32` offsets are `Nat`, truncated with `% 2 ^ w`
  where the source converts;
* a slice expression that Go would reject at run time (index out of range)
  makes the embedded function return `none`.
-/

namespace Spec

/-! ## Slice expressions -/

/-- The slice expression `s[lo:]`; `none` when `lo` is outside `0..len(s)`. -/
def sliceFrom {α : Type} (s : List α) (lo : Int) : Option (List α) :=
  if 0 ≤ lo ∧ lo ≤ (s.length : Int) then some (s.drop lo.toNat) else none

/-- The slice expression `s[:hi]`; `none` when `hi` is outside `0..len(s)`.
The embedding has no capacity, so a bound past the length is out of range. -/
def sliceTo {α : Type} (s : List α) (hi : Int) : Option (List α) :=
  if 0 ≤ hi ∧ hi ≤ (s.length : Int) then some (s.take hi.toNat) else none

/-- The slice expression `s[lo:hi]`; `none` unless `0 ≤ lo ≤ hi ≤ len(s)`. -/
def sliceRange {α : Type} (s : List α) (lo hi : Int) : Option (List α) :=
  if 0 ≤ lo ∧ lo ≤ hi ∧ hi ≤ (s.length : Int) then
    some ((s.take hi.toNat).drop lo.toNat)
  else none

/-! ## format.go: list and message stacks -/

/-- Go `listElement`: an element end offset (`uint32`). -/
structure listElement where
  offset : Nat
deriving DecidableEq

/-- Go `messageField`: a field tag (`uint16`) and end offset (`uint32`). -/
structure messageField where
  tag : Nat
  offset : Nat
deriving DecidableEq

/-- Go `listStack`: the buffer of nested list element tables. -/
structure listStack where
  stack : List listElement
deriving DecidableEq

/-- Go `messageStack`: the buffer of nested message field tables. -/
structure messageStack where
  stack : List messageField
deriving DecidableEq

/-- Go `listStack.reset`: `s.stack = s.stack[:0]`. -/
def listStack.reset (_s : listStack) : listStack :=
  { stack := [] }

/-- Go `listStack.offset`: the next list table offset, `len(s.stack)`. -/
def listStack.offset (s : listStack) : Int :=
  (s.stack.length : Int)

/-- Go `listStack.push`: append an element to the last list. -/
def listStack.push (s : listStack) (elem : listElement) : listStack :=
  { stack := s.stack ++ [elem] }

/-- Go `listStack.pop`: returns `s.stack[offset:]` and truncates the stack to
`s.stack[:offset]`. -/
def listStack.pop (s : listStack) (offset : Int) :
    Option (listStack × List listElement) :=
  match sliceFrom s.stack offset, sliceTo s.stack offset with
  | some table, some rest => some ({ stack := rest }, table)
  | _, _ => none

/-- Go `messageStack.reset`: `s.stack = s.stack[:0]`. -/
def messageStack.reset (_s : messageStack) : messageStack :=
  { stack := [] }

/-- Go `messageStack.offset`: the next message table offset, `len(s.stack)`. -/
def messageStack.offset (s : messageStack) : Int :=
  (s.stack.length : Int)

/-- The loop of `messageStack.insert`, entered with Go's `i` equal to the
argument: `for ; i > 0; i-- { left := table[i-1]; right := table[i];
if left.tag < right.tag { break }; table[i-1] = right; table[i] = left }`. -/
def insertLoop (table : List messageField) : Nat → List messageField
  | 0 => table
  | k + 1 =>
    match table[k]?, table[k + 1]? with
    | some left, some right =>
      if left.tag < right.tag then table
      else insertLoop ((table.set k right).set (k + 1) left) k
    | _, _ => table

/-- Go `messageStack.insert`: appends `f`, takes `table := s.stack[offset:]` and
moves the new field towards the front of the table until the field on its
left has a smaller tag. The table aliases the stack, so the stack becomes
`s.stack[:offset]` followed by the rearranged table. -/
def messageStack.insert (s : messageStack) (offset : Int) (f : messageField) :
    Option messageStack :=
  let stack := s.stack ++ [f]
  match sliceFrom stack offset with
  | none => none
  | some table =>
    some { stack := stack.take offset.toNat ++ insertLoop table (table.length - 1) }

/-- Go `messageStack.pop`: returns `s.stack[offset:]` and truncates the stack to
`s.stack[:offset]`. -/
def messageStack.pop (s : messageStack) (offset : Int) :
    Option (messageStack × List messageField) :=
  match sliceFrom s.stack offset, sliceTo s.stack offset with
  | some table, some rest => some ({ stack := rest }, table)
  | _, _ => none

/-- One `insert(offset, f)` call per field, in list order, as in the loop
`for _, f := range ff { buffer.insert(offset, f) }`. -/
def insertAll (s : messageStack) (offset : Int) :
    List messageField → Option messageStack
  | [] => some s
  | f :: fs => (s.insert offset f).bind (fun s' => insertAll s' offset fs)

/-- The order of a message table: by tag. -/
def tagLE (a b : messageField) : Prop := a.tag ≤ b.tag

instance : DecidableRel tagLE := fun a b => inferInstanceAs (Decidable (a.tag ≤ b.tag))

instance : IsTotal messageField tagLE := ⟨fun a b => Nat.le_total a.tag b.tag⟩

instance : IsTrans messageField tagLE := ⟨fun _ _ _ h₁ h₂ => Nat.le_trans h₁ h₂⟩

/-- The strict order of a message table: by tag. -/
def tagLT (a b : messageField) : Prop := a.tag < b.tag

instance : DecidableRel tagLT := fun a b => inferInstanceAs (Decidable (a.tag < b.tag))

/-! ## format_message.go and format.go: serialized message tables -/

/-- Go `binary.BigEndian.Uint16(b)`: `uint16(b[1]) | uint16(b[0])<<8`; `none` when
`b` is shorter than 2 bytes. -/
def uint16BE : List Nat → Option Nat
  | b0 :: b1 :: _ => some (b0 * 256 + b1)
  | _ => none

/-- Go `binary.BigEndian.Uint32(b)`; `none` when `b` is shorter than 4 bytes. -/
def uint32BE : List Nat → Option Nat
  | b0 :: b1 :: b2 :: b3 :: _ => some (((b0 * 256 + b1) * 256 + b2) * 256 + b3)
  | _ => none

/-- Go `messageFieldSmallSize = 1 + 2`: tag(1) + offset(2). -/
def messageFieldSmallSize : Nat := 1 + 2

/-- Go `messageFieldBigSize = 2 + 4`: tag(2) + offset(4). -/
def messageFieldBigSize : Nat := 2 + 4

/-- Go `messageFieldSize = 2 + 4` of format.go: tag(2) + offset(4). -/
def messageFieldSize : Nat := 2 + 4

/-- The tag of a big entry `b`: `binary.BigEndian.Uint16(b)`. -/
def bigTag (b : List Nat) : Option Nat := uint16BE b

/-- The offset of a big entry `b`: `binary.BigEndian.Uint32(b[2:])`. -/
def bigOffset (b : List Nat) : Option Nat := (sliceFrom b 2).bind uint32BE

/-- The tag of a small entry `b`: `uint16(b[0])`. -/
def smallTag (b : List Nat) : Option Nat := b[0]?

/-- The offset of a small entry `b`: `binary.BigEndian.Uint16(b[1:])`. -/
def smallOffset (b : List Nat) : Option Nat := (sliceFrom b 1).bind uint16BE

/-- The binary search loop shared, up to the entry size and the two reads, by
`offset_big`, `offset_small` and format.go's `offset`:
`for left <= right { middle := int(uint(left+right) >> 1); off := middle * size;
b := t[off : off+size]; cur := tag of b; switch { case cur < tag: left = middle + 1;
case cur > tag: right = middle - 1; case cur == tag: return int(offset of b) } };
return -1`.
The first argument bounds the number of iterations; `none` means that the
bound was reached or that a slice expression was out of range. -/
def searchLoop (size : Nat) (readTag readOffset : List Nat → Option Nat)
    (t : List Nat) (tag : Nat) : Nat → Int → Int → Option Int
  | 0, _, _ => none
  | fuel + 1, left, right =>
    if left ≤ right then
      let middle : Int := ((left + right) % 2 ^ 64) / 2
      let off : Int := middle * (size : Int)
      match sliceRange t off (off + (size : Int)) with
      | none => none
      | some b =>
        match readTag b with
        | none => none
        | some cur =>
          if cur < tag then searchLoop size readTag readOffset t tag fuel (middle + 1) right
          else if cur > tag then searchLoop size readTag readOffset t tag fuel left (middle - 1)
          else (readOffset b).map Int.ofNat
    else some (-1)

/-- The loop of `fields`: `for i := 0; i < n; i++ { field, ok := field(i);
if !ok { continue }; result = append(result, field) }`. -/
def collectFields (field : Int → Option (messageField × Bool)) (n : Nat) :
    Option (List messageField) :=
  (List.range n).foldlM
    (fun (result : List messageField) (i : Nat) =>
      match field (i : Int) with
      | none => none
      | some (f, ok) => if ok then some (result ++ [f]) else some result)
    []

/-- The body shared by `field_big`, `field_small` and format.go's `field`:
the zero field and `false` when `i < 0` or `i >= n`, else the entry
`t[i*size : i*size+size]` decoded. -/
def fieldAt (size : Nat) (readTag readOffset : List Nat → Option Nat)
    (t : List Nat) (i : Int) : Option (messageField × Bool) :=
  let n : Int := ((t.length / size : Nat) : Int)
  if i < 0 then some (⟨0, 0⟩, false)
  else if i ≥ n then some (⟨0, 0⟩, false)
  else
    let off : Int := i * (size : Int)
    match sliceRange t off (off + (size : Int)) with
    | none => none
    | some b =>
      match readTag b, readOffset b with
      | some tag, some offset => some (⟨tag, offset⟩, true)
      | _, _ => none

/-- Go `messageTable.count(big)`: `len(t) / size`. -/
def messageTable.count (t : List Nat) (big : Bool) : Int :=
  let size := if big then messageFieldBigSize else messageFieldSmallSize
  ((t.length / size : Nat) : Int)

/-- Go `messageTable.field_big(i)`. -/
def messageTable.field_big (t : List Nat) (i : Int) : Option (messageField × Bool) :=
  fieldAt messageFieldBigSize bigTag bigOffset t i

/-- Go `messageTable.field_small(i)`. -/
def messageTable.field_small (t : List Nat) (i : Int) : Option (messageField × Bool) :=
  fieldAt messageFieldSmallSize smallTag smallOffset t i

/-- Go `messageTable.fields(big)`: parses the table into a slice of fields. -/
def messageTable.fields (t : List Nat) (big : Bool) : Option (List messageField) :=
  collectFields (fun i => if big then messageTable.field_big t i else messageTable.field_small t i)
    (messageTable.count t big).toNat

/-- Go `messageTable.offset_big(tag)`: binary search over 6-byte entries. -/
def messageTable.offset_big (t : List Nat) (tag : Nat) : Option Int :=
  let n : Nat := t.length / messageFieldBigSize
  searchLoop messageFieldBigSize bigTag bigOffset t tag (n + 1) 0 ((n : Int) - 1)

/-- Go `messageTable.offset_small(tag)`: binary search over 3-byte entries. -/
def messageTable.offset_small (t : List Nat) (tag : Nat) : Option Int :=
  let n : Nat := t.length / messageFieldSmallSize
  searchLoop messageFieldSmallSize smallTag smallOffset t tag (n + 1) 0 ((n : Int) - 1)

/-- format.go `messageTable.count()`: `len(t) / messageFieldSize`. -/
def FormatGo.messageTable.count (t : List Nat) : Int :=
  ((t.length / messageFieldSize : Nat) : Int)

/-- format.go `messageTable.field(i)`. -/
def FormatGo.messageTable.field (t : List Nat) (i : Int) : Option (messageField × Bool) :=
  fieldAt messageFieldSize bigTag bigOffset t i

/-- format.go `messageTable.fields()`. -/
def FormatGo.messageTable.fields (t : List Nat) : Option (List messageField) :=
  collectFields (FormatGo.messageTable.field t) (FormatGo.messageTable.count t).toNat

/-- format.go `messageTable.offset(tag)`: `-1` on an empty table, else the
binary search over 6-byte entries. -/
def FormatGo.messageTable.offset (t : List Nat) (tag : Nat) : Option Int :=
  let n : Nat := t.length / messageFieldSize
  if n = 0 then some (-1)
  else searchLoop messageFieldSize bigTag bigOffset t tag (n + 1) 0 ((n : Int) - 1)

/-- The bytes of entry `m` of a table with entries of `size` bytes. -/
def entryBytes (size : Nat) (t : List Nat) (m : Nat) : List Nat :=
  (t.drop (m * size)).take size

/-- The tag of entry `m`, read with `readTag` (0 if the read fails). -/
def entryTag (size : Nat) (readTag : List Nat → Option Nat) (t : List Nat) (m : Nat) : Nat :=
  (readTag (entryBytes size t m)).getD 0

/-- The offset of entry `m`, read with `readOffset` (0 if the read fails). -/
def entryOffset (size : Nat) (readOffset : List Nat → Option Nat) (t : List Nat) (m : Nat) :
    Nat :=
  (readOffset (entryBytes size t m)).getD 0

/-- The loop of `isBigMessage`, entered with Go's `i + 1` equal to the argument:
`for ; i >= 0; i-- { field := table[i]; switch { case field.tag > math.MaxUint8:
return true; case field.offset > math.MaxUint16: return true } }; return false`.
The index is always below `len(table)`, so the `none` branch is not reached. -/
def isBigMessageLoop (table : List messageField) : Nat → Bool
  | 0 => false
  | k + 1 =>
    match table[k]? with
    | none => false
    | some field =>
      if field.tag > 255 then true
      else if field.offset > 65535 then true
      else isBigMessageLoop table k

/-- Go `isBigMessage`: true if any field tag > uint8 or offset > uint16; scans the
table from its last field to its first. -/
def isBigMessage (table : List messageField) : Bool :=
  let ln := table.length
  if ln = 0 then false
  else isBigMessageLoop table ln

/-- A field that does not fit a small table entry. -/
def exceedsSmall (f : messageField) : Bool :=
  decide (f.tag > 255) || decide (f.offset > 65535)

/-! ## encoder.go: the streaming encoder -/

/-- Go `error` values returned by the encoder. -/
inductive EncodeError where
  /-- `fmt.Errorf("end: incomplete object, nested stack size=%d", size)`. -/
  | endIncompleteObject (size : Nat)
  /-- `errors.New("element: cannot encode element, not list encoder")`. -/
  | elementNotList
  /-- `errors.New("end list: not list encoder")`. -/
  | endListNotList
  /-- `errors.New("field: cannot encode field, not message encoder")`. -/
  | fieldNotMessage
  /-- `errors.New("end message: not message encoder")`. -/
  | endMessageNotMessage
  /-- `errors.New("field: cannot encode struct field, not struct encoder")`. -/
  | structFieldNotStruct
  /-- `errors.New("end struct: not struct encoder")`. -/
  | endStructNotStruct
  /-- `errors.New("encode: cannot encode more data, element/field must be written first")`. -/
  | dataNotConsumed
  /-- An error returned by a primitive or metadata encoder. -/
  | encoding (code : Nat)
deriving DecidableEq

/-- Modelled from the spec: the kind of an object on the object stack
(`objectTypeList`, `objectTypeMessage`, `objectTypeStruct`); the declaration is
outside the embedded files. -/
inductive objectType where
  | objectTypeList
  | objectTypeMessage
  | objectTypeStruct
deriving DecidableEq

open objectType

/-- Modelled from the spec: an entry of the object stack, "a tagged variant
carrying the composite kind, `buf_start` (the buffer offset where its payload
began), and `table_start` (offset into the appropriate interior stack where its
table begins)"; the declaration is outside the embedded files. -/
structure objectEntry where
  type_ : objectType
  start : Int
  tableStart : Int
deriving DecidableEq

/-- Modelled from the spec: the object stack, "a stack of in-progress
composites"; the declaration and its methods `len`, `peek`, `pop`, `pushList`,
`pushMessage`, `pushStruct` and `reset` are outside the embedded files. The
top of the stack is the last entry. -/
structure objectStack where
  stack : List objectEntry
deriving DecidableEq

/-- Modelled from the spec: `objectStack.reset`, the stack with length 0. -/
def objectStack.reset (_s : objectStack) : objectStack :=
  { stack := [] }

/-- Modelled from the spec: `objectStack.len`, the number of open composites. -/
def objectStack.len (s : objectStack) : Int :=
  (s.stack.length : Int)

/-- Modelled from the spec: `objectStack.peek`, the top object, or `none`
(Go: `ok = false`) on an empty stack. -/
def objectStack.peek (s : objectStack) : Option objectEntry :=
  s.stack.getLast?

/-- Modelled from the spec: `objectStack.pop`, removes and returns the top
object, or `none` (Go: `ok = false`) on an empty stack, which stays empty. -/
def objectStack.pop (s : objectStack) : objectStack × Option objectEntry :=
  ({ stack := s.stack.dropLast }, s.stack.getLast?)

/-- Modelled from the spec: `objectStack.pushList(start, tableStart)`. -/
def objectStack.pushList (s : objectStack) (start tableStart : Int) : objectStack :=
  { stack := s.stack ++ [⟨objectTypeList, start, tableStart⟩] }

/-- Modelled from the spec: `objectStack.pushMessage(start, tableStart)`. -/
def objectStack.pushMessage (s : objectStack) (start tableStart : Int) : objectStack :=
  { stack := s.stack ++ [⟨objectTypeMessage, start, tableStart⟩] }

/-- Modelled from the spec: `objectStack.pushStruct(start)`; a struct has no
table, its `tableStart` is the zero value. -/
def objectStack.pushStruct (s : objectStack) (start : Int) : objectStack :=
  { stack := s.stack ++ [⟨objectTypeStruct, start, 0⟩] }

/-- Go `encodeData`: the last written data start/end; `(0, 0)` means that no
data is outstanding. -/
structure encodeData where
  start : Int
  end_ : Int
deriving DecidableEq

/-- The primitive and metadata encoders called by the encoder (`EncodeNil`, ...,
`encodeListMeta`, `encodeMessageMeta`, `encodeStruct`). They are defined outside
the embedded files, so the encoder is parameterised by them. Floats are passed
as their IEEE-754 bit patterns, `u128`/`u256` values as numbers, strings as
their bytes. A fallible encoder returns the buffer together with its error. -/
structure Codec where
  EncodeNil : List Nat → List Nat
  EncodeBool : List Nat → Bool → List Nat
  EncodeByte : List Nat → Nat → List Nat
  EncodeInt32 : List Nat → Int → List Nat
  EncodeInt64 : List Nat → Int → List Nat
  EncodeUint32 : List Nat → Nat → List Nat
  EncodeUint64 : List Nat → Nat → List Nat
  EncodeU128 : List Nat → Nat → List Nat
  EncodeU256 : List Nat → Nat → List Nat
  EncodeFloat32 : List Nat → Nat → List Nat
  EncodeFloat64 : List Nat → Nat → List Nat
  EncodeBytes : List Nat → List Nat → List Nat × Option EncodeError
  EncodeString : List Nat → List Nat → List Nat × Option EncodeError
  encodeListMeta : List Nat → Int → List listElement → List Nat × Option EncodeError
  encodeMessageMeta : List Nat → Int → List messageField → List Nat × Option EncodeError
  encodeStruct : List Nat → Int → List Nat × Option EncodeError

/-- Go `Encoder`: buffer, stored error, data cursor and the three stacks. The
preallocated arrays only back the stacks and are not part of the state. -/
structure Encoder where
  buf : List Nat
  err : Option EncodeError
  data : encodeData
  objects : objectStack
  elements : listStack
  fields : messageStack
deriving DecidableEq

/-- Go `newEncoder(buf)`: `buf[:0]`, an empty data cursor and empty stacks. -/
def newEncoder : Encoder :=
  { buf := [], err := none, data := ⟨0, 0⟩, objects := ⟨[]⟩, elements := ⟨[]⟩, fields := ⟨[]⟩ }

/-- Go `Encoder.Reset`: clears the encoder and nils the buffer. -/
def Encoder.Reset (e : Encoder) : Encoder :=
  { buf := [], err := none, data := ⟨0, 0⟩,
    objects := e.objects.reset, elements := e.elements.reset, fields := e.fields.reset }

/-- Go `Encoder.fail`: stores `err` unless an error is already stored; returns `err`. -/
def Encoder.fail (e : Encoder) (err : EncodeError) : Encoder × Option EncodeError :=
  match e.err with
  | some _ => (e, some err)
  | none => ({ e with err := some err }, some err)

/-- Go `Encoder.setData`: rejects the data when `e.data.start != 0 || e.data.end != 0`,
else sets the cursor. -/
def Encoder.setData (e : Encoder) (start end_ : Int) : Encoder × Option EncodeError :=
  if e.data.start ≠ 0 ∨ e.data.end_ ≠ 0 then (e, some EncodeError.dataNotConsumed)
  else ({ e with data := ⟨start, end_⟩ }, none)

/-- Go `Encoder.popData`: returns the cursor and clears it. -/
def Encoder.popData (e : Encoder) : Encoder × encodeData :=
  ({ e with data := ⟨0, 0⟩ }, e.data)

/-- The tail shared by the writes: `if err := e.setData(start, end); err != nil
{ return e.fail(err) }; return nil`. -/
def Encoder.setDataOrFail (e : Encoder) (start end_ : Int) : Encoder × Option EncodeError :=
  match e.setData start end_ with
  | (e1, some err) => e1.fail err
  | (e1, none) => (e1, none)

/-- The body shared by `Nil`, `Bool`, `Byte`, `Int32`, `Int64`, `Uint32`,
`Uint64`, `U128`, `U256`, `Float32` and `Float64`:
`if e.err != nil { return e.err }; start := len(e.buf); e.buf = Encode(e.buf, v)`,
then `end := len(e.buf); if err := e.setData(start, end); err != nil { return e.fail(err) }`
and `return nil`. -/
def Encoder.writeValue (e : Encoder) (encode : List Nat → List Nat) :
    Encoder × Option EncodeError :=
  match e.err with
  | some err => (e, some err)
  | none =>
    let start : Int := (e.buf.length : Int)
    let e1 := { e with buf := encode e.buf }
    let end_ : Int := (e1.buf.length : Int)
    e1.setDataOrFail start end_

/-- The body shared by `Bytes` and `String`: as `writeValue`, with an encoder
that can fail: `e.buf, err = Encode(e.buf, v); if err != nil { return e.fail(err) }`. -/
def Encoder.writeFallible (e : Encoder) (encode : List Nat → List Nat × Option EncodeError) :
    Encoder × Option EncodeError :=
  match e.err with
  | some err => (e, some err)
  | none =>
    let start : Int := (e.buf.length : Int)
    let e1 := { e with buf := (encode e.buf).1 }
    match (encode e.buf).2 with
    | some err => e1.fail err
    | none =>
      let end_ : Int := (e1.buf.length : Int)
      e1.setDataOrFail start end_

/-- Go `Encoder.Nil`. -/
def Encoder.Nil (c : Codec) (e : Encoder) : Encoder × Option EncodeError :=
  e.writeValue c.EncodeNil

/-- Go `Encoder.Bool`. -/
def Encoder.Bool (c : Codec) (e : Encoder) (v : Bool) : Encoder × Option EncodeError :=
  e.writeValue (fun buf => c.EncodeBool buf v)

/-- Go `Encoder.Byte`. -/
def Encoder.Byte (c : Codec) (e : Encoder) (v : Nat) : Encoder × Option EncodeError :=
  e.writeValue (fun buf => c.EncodeByte buf v)

/-- Go `Encoder.Int32`. -/
def Encoder.Int32 (c : Codec) (e : Encoder) (v : Int) : Encoder × Option EncodeError :=
  e.writeValue (fun buf => c.EncodeInt32 buf v)

/-- Go `Encoder.Int64`. -/
def Encoder.Int64 (c : Codec) (e : Encoder) (v : Int) : Encoder × Option EncodeError :=
  e.writeValue (fun buf => c.EncodeInt64 buf v)

/-- Go `Encoder.Uint32`. -/
def Encoder.Uint32 (c : Codec) (e : Encoder) (v : Nat) : Encoder × Option EncodeError :=
  e.writeValue (fun buf => c.EncodeUint32 buf v)

/-- Go `Encoder.Uint64`. -/
def Encoder.Uint64 (c : Codec) (e : Encoder) (v : Nat) : Encoder × Option EncodeError :=
  e.writeValue (fun buf => c.EncodeUint64 buf v)

/-- Go `Encoder.U128`. -/
def Encoder.U128 (c : Codec) (e : Encoder) (v : Nat) : Encoder × Option EncodeError :=
  e.writeValue (fun buf => c.EncodeU128 buf v)

/-- Go `Encoder.U256`. -/
def Encoder.U256 (c : Codec) (e : Encoder) (v : Nat) : Encoder × Option EncodeError :=
  e.writeValue (fun buf => c.EncodeU256 buf v)

/-- Go `Encoder.Float32`. -/
def Encoder.Float32 (c : Codec) (e : Encoder) (v : Nat) : Encoder × Option EncodeError :=
  e.writeValue (fun buf => c.EncodeFloat32 buf v)

/-- Go `Encoder.Float64`. -/
def Encoder.Float64 (c : Codec) (e : Encoder) (v : Nat) : Encoder × Option EncodeError :=
  e.writeValue (fun buf => c.EncodeFloat64 buf v)

/-- Go `Encoder.Bytes`. -/
def Encoder.Bytes (c : Codec) (e : Encoder) (v : List Nat) : Encoder × Option EncodeError :=
  e.writeFallible (fun buf => c.EncodeBytes buf v)

/-- Go `Encoder.String`. -/
def Encoder.String (c : Codec) (e : Encoder) (v : List Nat) : Encoder × Option EncodeError :=
  e.writeFallible (fun buf => c.EncodeString buf v)

/-- Go `Encoder.BeginList`: pushes a list object with `start = len(e.buf)` and
`tableStart = e.elements.offset()`. -/
def Encoder.BeginList (e : Encoder) : Encoder × Option EncodeError :=
  match e.err with
  | some err => (e, some err)
  | none =>
    let start : Int := (e.buf.length : Int)
    let tableStart : Int := e.elements.offset
    ({ e with objects := e.objects.pushList start tableStart }, none)

/-- Go `Encoder.Element`: checks that the top object is a list, pops the data and
pushes the element offset `uint32(data.end - list.start)`. -/
def Encoder.Element (e : Encoder) : Encoder × Option EncodeError :=
  match e.err with
  | some err => (e, some err)
  | none =>
    match e.objects.peek with
    | none => e.fail EncodeError.elementNotList
    | some list =>
      if list.type_ ≠ objectTypeList then e.fail EncodeError.elementNotList
      else
        let (e1, data) := e.popData
        let offset : Nat := ((data.end_ - list.start) % 2 ^ 32).toNat
        ({ e1 with elements := e1.elements.push ⟨offset⟩ }, none)

/-- Go `Encoder.EndList`: pops the top object, which must be a list, pops its
table, appends the list metadata and sets the data cursor to the whole list. -/
def Encoder.EndList (c : Codec) (e : Encoder) : Option (Encoder × Option EncodeError) :=
  match e.err with
  | some err => some (e, some err)
  | none =>
    let e1 := { e with objects := e.objects.pop.1 }
    match e.objects.pop.2 with
    | none => some (e1.fail EncodeError.endListNotList)
    | some list =>
      if list.type_ ≠ objectTypeList then some (e1.fail EncodeError.endListNotList)
      else
        let bsize : Int := (e1.buf.length : Int) - list.start
        match e1.elements.pop list.tableStart with
        | none => none
        | some (elements, table) =>
          let e2 := { e1 with elements := elements }
          let e3 := { e2 with buf := (c.encodeListMeta e2.buf bsize table).1 }
          match (c.encodeListMeta e2.buf bsize table).2 with
          | some err => some (e3.fail err)
          | none => some (e3.setDataOrFail list.start (e3.buf.length : Int))

/-- Go `Encoder.BeginMessage`: pushes a message object with `start = len(e.buf)`
and `tableStart = e.fields.offset()`. -/
def Encoder.BeginMessage (e : Encoder) : Encoder × Option EncodeError :=
  match e.err with
  | some err => (e, some err)
  | none =>
    let start : Int := (e.buf.length : Int)
    let tableStart : Int := e.fields.offset
    ({ e with objects := e.objects.pushMessage start tableStart }, none)

/-- Go `Encoder.Field`: checks that the top object is a message, pops the data and
inserts the field `{tag, uint32(data.end - message.start)}` into its table. -/
def Encoder.Field (e : Encoder) (tag : Nat) : Option (Encoder × Option EncodeError) :=
  match e.err with
  | some err => some (e, some err)
  | none =>
    match e.objects.peek with
    | none => some (e.fail EncodeError.fieldNotMessage)
    | some message =>
      if message.type_ ≠ objectTypeMessage then some (e.fail EncodeError.fieldNotMessage)
      else
        let (e1, data) := e.popData
        let f : messageField :=
          { tag := tag, offset := ((data.end_ - message.start) % 2 ^ 32).toNat }
        match e1.fields.insert message.tableStart f with
        | none => none
        | some fields => some ({ e1 with fields := fields }, none)

/-- Go `Encoder.EndMessage`: pops the top object, which must be a message, pops
its table, appends the message metadata and sets the data cursor to the whole
message. -/
def Encoder.EndMessage (c : Codec) (e : Encoder) : Option (Encoder × Option EncodeError) :=
  match e.err with
  | some err => some (e, some err)
  | none =>
    let e1 := { e with objects := e.objects.pop.1 }
    match e.objects.pop.2 with
    | none => some (e1.fail EncodeError.endMessageNotMessage)
    | some message =>
      if message.type_ ≠ objectTypeMessage then
        some (e1.fail EncodeError.endMessageNotMessage)
      else
        let bsize : Int := (e1.buf.length : Int) - message.start
        match e1.fields.pop message.tableStart with
        | none => none
        | some (fields, table) =>
          let e2 := { e1 with fields := fields }
          let e3 := { e2 with buf := (c.encodeMessageMeta e2.buf bsize table).1 }
          match (c.encodeMessageMeta e2.buf bsize table).2 with
          | some err => some (e3.fail err)
          | none => some (e3.setDataOrFail message.start (e3.buf.length : Int))

/-- Go `Encoder.BeginStruct`: pushes a struct object with `start = len(e.buf)`. -/
def Encoder.BeginStruct (e : Encoder) : Encoder × Option EncodeError :=
  match e.err with
  | some err => (e, some err)
  | none =>
    let start : Int := (e.buf.length : Int)
    ({ e with objects := e.objects.pushStruct start }, none)

/-- Go `Encoder.StructField`: checks that the top object is a struct and consumes
the data. -/
def Encoder.StructField (e : Encoder) : Encoder × Option EncodeError :=
  match e.err with
  | some err => (e, some err)
  | none =>
    match e.objects.peek with
    | none => e.fail EncodeError.structFieldNotStruct
    | some obj =>
      if obj.type_ ≠ objectTypeStruct then e.fail EncodeError.structFieldNotStruct
      else (e.popData.1, none)

/-- Go `Encoder.EndStruct`: pops the top object, which must be a struct, appends
the struct trailer and sets the data cursor to the whole struct. -/
def Encoder.EndStruct (c : Codec) (e : Encoder) : Encoder × Option EncodeError :=
  match e.err with
  | some err => (e, some err)
  | none =>
    let e1 := { e with objects := e.objects.pop.1 }
    match e.objects.pop.2 with
    | none => e1.fail EncodeError.endStructNotStruct
    | some obj =>
      if obj.type_ ≠ objectTypeStruct then e1.fail EncodeError.endStructNotStruct
      else
        let bsize : Int := (e1.buf.length : Int) - obj.start
        let e2 := { e1 with buf := (c.encodeStruct e1.buf bsize).1 }
        match (c.encodeStruct e1.buf bsize).2 with
        | some err => e2.fail err
        | none => e2.setDataOrFail obj.start (e2.buf.length : Int)

/-- Go `Encoder.End`: with a stored error returns `(nil, e.err)`; with objects on
the stack returns `(nil, error)`; else pops the data, takes
`b := e.buf[data.start:data.end]`, resets the encoder and returns `(b, nil)`. -/
def Encoder.End (e : Encoder) : Option (Encoder × List Nat × Option EncodeError) :=
  match e.err with
  | some err => some (e, [], some err)
  | none =>
    if e.objects.len > 0 then
      some (e, [], some (EncodeError.endIncompleteObject e.objects.len.toNat))
    else
      let (e1, data) := e.popData
      match sliceRange e1.buf data.start data.end_ with
      | none => none
      | some b => some (e1.Reset, b, none)

/-- A call of one of the write operations of the encoder. -/
inductive Call where
  | nil
  | bool (v : Bool)
  | byte (v : Nat)
  | int32 (v : Int)
  | int64 (v : Int)
  | uint32 (v : Nat)
  | uint64 (v : Nat)
  | u128 (v : Nat)
  | u256 (v : Nat)
  | float32 (v : Nat)
  | float64 (v : Nat)
  | bytes (v : List Nat)
  | string (v : List Nat)
  | beginList
  | element
  | endList
  | beginMessage
  | field (tag : Nat)
  | endMessage
  | beginStruct
  | structField
  | endStruct
deriving DecidableEq

/-- The effect of a write call: the new encoder state and the returned error. -/
def Encoder.call (c : Codec) (e : Encoder) : Call → Option (Encoder × Option EncodeError)
  | Call.nil => some (e.Nil c)
  | Call.bool v => some (e.Bool c v)
  | Call.byte v => some (e.Byte c v)
  | Call.int32 v => some (e.Int32 c v)
  | Call.int64 v => some (e.Int64 c v)
  | Call.uint32 v => some (e.Uint32 c v)
  | Call.uint64 v => some (e.Uint64 c v)
  | Call.u128 v => some (e.U128 c v)
  | Call.u256 v => some (e.U256 c v)
  | Call.float32 v => some (e.Float32 c v)
  | Call.float64 v => some (e.Float64 c v)
  | Call.bytes v => some (e.Bytes c v)
  | Call.string v => some (e.String c v)
  | Call.beginList => some e.BeginList
  | Call.element => some e.Element
  | Call.endList => e.EndList c
  | Call.beginMessage => some e.BeginMessage
  | Call.field tag => e.Field tag
  | Call.endMessage => e.EndMessage c
  | Call.beginStruct => some e.BeginStruct
  | Call.structField => some e.StructField
  | Call.endStruct => some (e.EndStruct c)

/-- A sequence of write calls, the returned errors dropped. -/
def Encoder.run (c : Codec) (e : Encoder) : List Call → Option Encoder
  | [] => some e
  | call :: calls => (e.call c call).bind (fun r => Encoder.run c r.1 calls)

/-! ## A codec instance following the wire grammar -/

/-- Modelled from the spec: the reverse varuint ("read bytes backward until a
byte with its high bit CLEAR is encountered (that byte is the most-significant);
continuation bytes have the high bit SET; each byte contributes 7 bits"), at
most `fuel + 1` bytes; the encoder is outside the embedded files. -/
def revVaruint : Nat → Nat → List Nat
  | 0, n => [n % 128]
  | fuel + 1, n =>
    if n < 128 then [n] else revVaruint fuel (n / 128) ++ [n % 128 + 128]

/-- Modelled from the spec: zig-zag, `(n << 1) ^ (n >> (w-1))`. -/
def zigzag (v : Int) : Nat :=
  if 0 ≤ v then (2 * v).toNat else (-2 * v - 1).toNat

/-- Modelled from the spec: a fixed-size big-endian field of `width` bytes. -/
def bigEndian (width v : Nat) : List Nat :=
  (List.range width).reverse.map (fun i => (v / 256 ^ i) % 256)

/-- Modelled from the spec: `bytes := raw_bytes varuint_rev TYPE`, with the
Overflow error when the length exceeds `2^32 - 1`. -/
def sampleBytes (typeCode : Nat) (terminator : List Nat) (buf v : List Nat) :
    List Nat × Option EncodeError :=
  if v.length > 2 ^ 32 - 1 then (buf, some (EncodeError.encoding 1))
  else (buf ++ v ++ terminator ++ revVaruint 9 v.length ++ [typeCode], none)

/-- Modelled from the spec: a small message entry is 1 + 2 bytes, a big one
2 + 4 bytes, big-endian. -/
def sampleEntry (big : Bool) (f : messageField) : List Nat :=
  if big then bigEndian 2 f.tag ++ bigEndian 4 f.offset
  else bigEndian 1 f.tag ++ bigEndian 2 f.offset

/-- Modelled from the spec: the primitive and metadata encoders of the wire
grammar (sections 4.1 and 6), which are outside the embedded files: nil `0x00`,
true `0x01`, false `0x02`, byte `u8 0x03`, integers as (zig-zag) reverse
varuints, floats and `u128`/`u256` as big-endian fields, bytes and strings with a
reverse varuint length, composites with the trailer
`table body_size table_size type`. The grammar leaves the type codes after
`0x03` symbolic; the numbers `0x10 ..` used here stand for them. -/
def sampleCodec : Codec where
  EncodeNil := fun buf => buf ++ [0]
  EncodeBool := fun buf v => buf ++ [if v then 1 else 2]
  EncodeByte := fun buf v => buf ++ [v % 256, 3]
  EncodeInt32 := fun buf v => buf ++ revVaruint 9 (zigzag v) ++ [16]
  EncodeInt64 := fun buf v => buf ++ revVaruint 9 (zigzag v) ++ [17]
  EncodeUint32 := fun buf v => buf ++ revVaruint 9 v ++ [18]
  EncodeUint64 := fun buf v => buf ++ revVaruint 9 v ++ [19]
  EncodeU128 := fun buf v => buf ++ bigEndian 16 v ++ [20]
  EncodeU256 := fun buf v => buf ++ bigEndian 32 v ++ [21]
  EncodeFloat32 := fun buf v => buf ++ bigEndian 4 v ++ [22]
  EncodeFloat64 := fun buf v => buf ++ bigEndian 8 v ++ [23]
  EncodeBytes := fun buf v => sampleBytes 24 [] buf v
  EncodeString := fun buf v => sampleBytes 25 [0] buf v
  encodeListMeta := fun buf bsize table =>
    (buf ++ (table.map (fun el => bigEndian 4 el.offset)).flatten
      ++ revVaruint 9 bsize.toNat ++ revVaruint 9 (4 * table.length) ++ [32], none)
  encodeMessageMeta := fun buf bsize table =>
    let big := isBigMessage table
    let entries := (table.map (sampleEntry big)).flatten
    (buf ++ entries ++ revVaruint 9 bsize.toNat ++ revVaruint 9 entries.length
      ++ [if big then 35 else 34], none)
  encodeStruct := fun buf bsize => (buf ++ revVaruint 9 bsize.toNat ++ [48], none)

/-- The primitive writes: `Nil`, `Bool`, `Byte`, `Int32`, `Int64`, `Uint32`,
`Uint64`, `U128`, `U256`, `Float32`, `Float64`, `Bytes`, `String`. -/
def Call.isPrimitive : Call → Bool
  | Call.nil | Call.bool _ | Call.byte _ | Call.int32 _ | Call.int64 _ | Call.uint32 _
  | Call.uint64 _ | Call.u128 _ | Call.u256 _ | Call.float32 _ | Call.float64 _
  | Call.bytes _ | Call.string _ => true
  | _ => false

/-- The kind that a call requires of the top object: a list for `Element` and
`EndList`, a message for `Field` and `EndMessage`, a struct for `StructField`
and `EndStruct`. -/
def Call.requiredKind : Call → Option objectType
  | Call.element | Call.endList => some objectTypeList
  | Call.field _ | Call.endMessage => some objectTypeMessage
  | Call.structField | Call.endStruct => some objectTypeStruct
  | _ => none

/-- A poisoned encoder with an open list and an outstanding value. -/
def poisonedState : Encoder :=
  { buf := [0], err := some EncodeError.elementNotList, data := ⟨0, 1⟩,
    objects := ⟨[⟨objectTypeList, 0, 0⟩]⟩, elements := ⟨[]⟩, fields := ⟨[]⟩ }

/-- The encoder after `Nil` on a fresh encoder: the value `[0]` is outstanding. -/
def outstandingState : Encoder :=
  { buf := [0], err := none, data := ⟨0, 1⟩, objects := ⟨[]⟩, elements := ⟨[]⟩,
    fields := ⟨[]⟩ }

/-- An unpoisoned encoder whose top object is a message: `BeginList`,
`BeginMessage` on a fresh encoder. -/
def messageOnTopState : Encoder :=
  { buf := [], err := none, data := ⟨0, 0⟩,
    objects := ⟨[⟨objectTypeList, 0, 0⟩, ⟨objectTypeMessage, 0, 0⟩]⟩,
    elements := ⟨[]⟩, fields := ⟨[]⟩ }

/-- The encoder after `BeginMessage`, `Bool(true)`, `Field(1)`, `Bool(false)` on a
fresh encoder: the message on top holds a field with tag 1 and the value `[2]`
is outstanding. -/
def duplicateTagState : Encoder :=
  { buf := [1, 2], err := none, data := ⟨1, 2⟩,
    objects := ⟨[⟨objectTypeMessage, 0, 0⟩]⟩, elements := ⟨[]⟩, fields := ⟨[⟨1, 1⟩]⟩ }

/-- The encoder after `BeginList`, `Nil`, `Element`, `BeginList` on a fresh
encoder: the list on top starts at offset 1 and no value is outstanding. -/
def emptyCursorListState : Encoder :=
  { buf := [0], err := none, data := ⟨0, 0⟩,
    objects := ⟨[⟨objectTypeList, 0, 0⟩, ⟨objectTypeList, 1, 1⟩]⟩,
    elements := ⟨[⟨1⟩]⟩, fields := ⟨[]⟩ }

/-- The encoder after `BeginMessage` on a fresh encoder: no value is
outstanding. -/
def emptyCursorMessageState : Encoder :=
  { buf := [], err := none, data := ⟨0, 0⟩,
    objects := ⟨[⟨objectTypeMessage, 0, 0⟩]⟩, elements := ⟨[]⟩, fields := ⟨[]⟩ }

/-- The encoder after `BeginList` on a fresh encoder. -/
def openListState : Encoder :=
  { buf := [], err := none, data := ⟨0, 0⟩,
    objects := ⟨[⟨objectTypeList, 0, 0⟩]⟩, elements := ⟨[]⟩, fields := ⟨[]⟩ }

/-- The buffer `new` is `old` with bytes appended. -/
def Extends (old new : List Nat) : Prop :=
  ∃ suffix : List Nat, new = old ++ suffix

/-- The primitive and metadata encoders only append to the buffer they are
given ("append the encoded primitive", "append a metadata trailer"). -/
structure Codec.Appends (c : Codec) : Prop where
  EncodeNil : ∀ buf, Extends buf (c.EncodeNil buf)
  EncodeBool : ∀ buf v, Extends buf (c.EncodeBool buf v)
  EncodeByte : ∀ buf v, Extends buf (c.EncodeByte buf v)
  EncodeInt32 : ∀ buf v, Extends buf (c.EncodeInt32 buf v)
  EncodeInt64 : ∀ buf v, Extends buf (c.EncodeInt64 buf v)
  EncodeUint32 : ∀ buf v, Extends buf (c.EncodeUint32 buf v)
  EncodeUint64 : ∀ buf v, Extends buf (c.EncodeUint64 buf v)
  EncodeU128 : ∀ buf v, Extends buf (c.EncodeU128 buf v)
  EncodeU256 : ∀ buf v, Extends buf (c.EncodeU256 buf v)
  EncodeFloat32 : ∀ buf v, Extends buf (c.EncodeFloat32 buf v)
  EncodeFloat64 : ∀ buf v, Extends buf (c.EncodeFloat64 buf v)
  EncodeBytes : ∀ buf v, Extends buf (c.EncodeBytes buf v).1
  EncodeString : ∀ buf v, Extends buf (c.EncodeString buf v).1
  encodeListMeta : ∀ buf bsize table, Extends buf (c.encodeListMeta buf bsize table).1
  encodeMessageMeta : ∀ buf bsize table, Extends buf (c.encodeMessageMeta buf bsize table).1
  encodeStruct : ∀ buf bsize, Extends buf (c.encodeStruct buf bsize).1

/-- The encoder after `BeginList`, `Nil` on a fresh encoder: the list on top is
open and the value `[0]` is outstanding. -/
def listValueState : Encoder :=
  { buf := [0], err := none, data := ⟨0, 1⟩,
    objects := ⟨[⟨objectTypeList, 0, 0⟩]⟩, elements := ⟨[]⟩, fields := ⟨[]⟩ }

/-- The encoder after `BeginList`, `Nil`, `Element` on a fresh encoder: the list
on top has one element and no value is outstanding. -/
def listElementState : Encoder :=
  { buf := [0], err := none, data := ⟨0, 0⟩,
    objects := ⟨[⟨objectTypeList, 0, 0⟩]⟩, elements := ⟨[⟨1⟩]⟩, fields := ⟨[]⟩ }

/-- The encoder after `BeginMessage`, `Bool(true)`, `Field(1)` on a fresh
encoder: the message on top has one field and no value is outstanding. -/
def messageFieldState : Encoder :=
  { buf := [1], err := none, data := ⟨0, 0⟩,
    objects := ⟨[⟨objectTypeMessage, 0, 0⟩]⟩, elements := ⟨[]⟩, fields := ⟨[⟨1, 1⟩]⟩ }

/-- The encoder after `BeginList`, `Nil`, `Element`, `EndList` on a fresh encoder
with the codec instance of the wire grammar: the list `[0, 0, 0, 0, 1, 1, 4, 32]`
is outstanding. -/
def listClosedState : Encoder :=
  { buf := [0, 0, 0, 0, 1, 1, 4, 32], err := none, data := ⟨0, 8⟩,
    objects := ⟨[]⟩, elements := ⟨[]⟩, fields := ⟨[]⟩ }

/-- The encoder after a successful write that produced the buffer `out`: the
buffer is `out` and the data cursor is `(old len(buf), len(out))`. -/
def Encoder.written (e : Encoder) (out : List Nat) : Encoder :=
  { e with buf := out, data := ⟨(e.buf.length : Int), (out.length : Int)⟩ }

/-! ## format.go: serialized list tables -/

/-- Go `listElementSize = 4`. -/
def listElementSize : Nat := 4

/-- Go `listTable.count()`: `len(t) / listElementSize`. -/
def listTable.count (t : List Nat) : Int :=
  ((t.length / listElementSize : Nat) : Int)

/-- Go `listTable.offset(i)`: `-1` when `i < 0` or `i >= n`, else
`int(binary.BigEndian.Uint32(t[off : off+listElementSize]))` with
`off := i * listElementSize`. -/
def listTable.offset (t : List Nat) (i : Int) : Option Int :=
  let n := listTable.count t
  if i < 0 then some (-1)
  else if i ≥ n then some (-1)
  else
    let off : Int := i * (listElementSize : Int)
    match sliceRange t off (off + (listElementSize : Int)) with
    | none => none
    | some b => (uint32BE b).map Int.ofNat

/-! ## format_message.go: access by index, message metadata, serialization -/

/-- Go `messageTable.offsetByIndex_big(i)`: `-1` when `i < 0` or `i >= n`, else
`int(binary.BigEndian.Uint32(t[off+2:]))` with `off := i * size`. -/
def messageTable.offsetByIndex_big (t : List Nat) (i : Int) : Option Int :=
  let n : Int := ((t.length / messageFieldBigSize : Nat) : Int)
  if i < 0 then some (-1)
  else if i ≥ n then some (-1)
  else
    let off : Int := i * (messageFieldBigSize : Int)
    ((sliceFrom t (off + 2)).bind uint32BE).map Int.ofNat

/-- Go `messageTable.offsetByIndex_small(i)`: `-1` when `i < 0` or `i >= n`, else
`int(binary.BigEndian.Uint16(t[off+1:]))` with `off := i * size`. -/
def messageTable.offsetByIndex_small (t : List Nat) (i : Int) : Option Int :=
  let n : Int := ((t.length / messageFieldSmallSize : Nat) : Int)
  if i < 0 then some (-1)
  else if i ≥ n then some (-1)
  else
    let off : Int := i * (messageFieldSmallSize : Int)
    ((sliceFrom t (off + 1)).bind uint16BE).map Int.ofNat

/-- Go `messageMeta`: the table, the message data size and the table format. -/
structure messageMeta where
  table : List Nat
  data : Nat
  big : Bool
deriving DecidableEq

/-- Go `messageMeta.offset(tag)`: `offset_big` on a big table, else
`offset_small`. -/
def messageMeta.offset (m : messageMeta) (tag : Nat) : Option Int :=
  if m.big then messageTable.offset_big m.table tag
  else messageTable.offset_small m.table tag

/-- The small serialization of a field list, in the words of the format: per
entry the tag as 1 byte and the end offset as 2 bytes, big-endian. -/
def smallSerialization (fs : List messageField) : List Nat :=
  (fs.map (sampleEntry false)).flatten

/-- The big serialization of a field list, in the words of the format: per
entry the tag as 2 bytes and the end offset as 4 bytes, big-endian. -/
def bigSerialization (fs : List messageField) : List Nat :=
  (fs.map (sampleEntry true)).flatten

/-- The serialization of a field list in the width selected by `big`. -/
def serializeTable (big : Bool) (fs : List messageField) : List Nat :=
  if big then bigSerialization fs else smallSerialization fs

/-- One probe of the binary search at entry `m`: the tag and the offset read
from `t[m*size : m*size+size]`, `none` when the slice or the tag read fails. -/
def probe (size : Nat) (readTag readOffset : List Nat → Option Nat) (t : List Nat)
    (m : Int) : Option (Nat × Option Int) :=
  match sliceRange t (m * (size : Int)) (m * (size : Int) + (size : Int)) with
  | none => none
  | some b =>
    match readTag b with
    | none => none
    | some cur => some (cur, (readOffset b).map Int.ofNat)

/-- The answer of access by index on a table that holds the fields `fs`: the
zero field and `false` out of range, else field `i` and `true`. -/
def fieldOf (fs : List messageField) (i : Int) : Option (messageField × Bool) :=
  if i < 0 then some (⟨0, 0⟩, false)
  else if i ≥ (fs.length : Int) then some (⟨0, 0⟩, false)
  else (fs[i.toNat]?).map (fun f => (f, true))

/-- The answer of `offsetByIndex` on a table that holds the fields `fs`: `-1` out
of range, else the end offset of field `i`. -/
def offsetOf (fs : List messageField) (i : Int) : Option Int :=
  if i < 0 then some (-1)
  else if i ≥ (fs.length : Int) then some (-1)
  else (fs[i.toNat]?).map (fun f => ((f.offset : Nat) : Int))

/-! ## Runs of the encoder -/

/-- A sequence of write calls in which every call returns nil: `none` as soon as
a call returns an error (or a slice expression is out of range). -/
def Encoder.runErrorFree (c : Codec) (e : Encoder) : List Call → Option Encoder
  | [] => some e
  | call :: calls =>
    match e.call c call with
    | some (e', none) => Encoder.runErrorFree c e' calls
    | _ => none

/-- The condition under which `Field(tag)` extends the table of the top message
in write order: a value is outstanding, the buffer is shorter than `2^32` bytes
and `tag` is greater than every tag already in that table. -/
def fieldAscending (e : Encoder) (tag : Nat) : Bool :=
  decide (e.data ≠ ⟨0, 0⟩) && decide (e.buf.length < 2 ^ 32) &&
    match e.objects.peek with
    | none => true
    | some o =>
      match sliceFrom e.fields.stack o.tableStart with
      | none => true
      | some table => table.all (fun g => decide (g.tag < tag))

/-- The condition `fieldAscending` for a `Field` call; no condition for the
other calls. -/
def callAscending (e : Encoder) : Call → Bool
  | Call.field tag => fieldAscending e tag
  | _ => true

/-- An error-free sequence of write calls in which every `Field` call satisfies
`fieldAscending`. -/
def Encoder.runAscending (c : Codec) (e : Encoder) : List Call → Option Encoder
  | [] => some e
  | call :: calls =>
    if callAscending e call = true then
      match e.call c call with
      | some (e', none) => Encoder.runAscending c e' calls
      | _ => none
    else none

/-- The end offsets of a table do not decrease. -/
def offsetLE (a b : messageField) : Prop := a.offset ≤ b.offset

instance : DecidableRel offsetLE :=
  fun a b => inferInstanceAs (Decidable (a.offset ≤ b.offset))

/-- The tables of the open messages, for a buffer of `buflen` bytes, the open
objects listed from the top of the object stack down, and the field stack:
every object starts inside the buffer; the top message owns the field stack
from its `tableStart` on, its table is strictly ascending by tag with
non-decreasing end offsets that lie inside its payload so far, and the
messages below own the field stack below that `tableStart`. -/
def TablesOk (buflen : Int) : List objectEntry → List messageField → Prop
  | [], _ => True
  | o :: below, fstack =>
    0 ≤ o.start ∧ o.start ≤ buflen ∧
    ((o.type_ = objectTypeMessage ∧
        ∃ table : List messageField,
          sliceFrom fstack o.tableStart = some table ∧
          table.Pairwise tagLT ∧ table.Pairwise offsetLE ∧
          (∀ f ∈ table, ((f.offset : Nat) : Int) ≤ buflen - o.start) ∧
          TablesOk buflen below (fstack.take o.tableStart.toNat)) ∨
      (o.type_ ≠ objectTypeMessage ∧ TablesOk buflen below fstack))

/-- The invariant of error-free runs used for message tables: the data cursor
is empty or ends at the end of the buffer, and the tables of the open messages
are well formed. -/
def Encoder.TablesInv (e : Encoder) : Prop :=
  e.err = none ∧
  (e.data = ⟨0, 0⟩ ∨ e.data.end_ = (e.buf.length : Int)) ∧
  TablesOk (e.buf.length : Int) e.objects.stack.reverse e.fields.stack

/-- The encoder after `BeginMessage`, `Nil`, `Field(5)`, `Nil`, `Field(1)` on a
fresh encoder: the table is sorted by tag, the end offsets are 2, 1. -/
def descendingOffsetsState : Encoder :=
  { buf := [0, 0], err := none, data := ⟨0, 0⟩,
    objects := ⟨[⟨objectTypeMessage, 0, 0⟩]⟩, elements := ⟨[]⟩,
    fields := ⟨[⟨1, 2⟩, ⟨5, 1⟩]⟩ }

/-- The encoder after `BeginMessage`, `Nil`, `Field(1)`, `Nil`, `Field(5)` on a
fresh encoder: the end offsets are 1, 2. -/
def ascendingOffsetsState : Encoder :=
  { buf := [0, 0], err := none, data := ⟨0, 0⟩,
    objects := ⟨[⟨objectTypeMessage, 0, 0⟩]⟩, elements := ⟨[]⟩,
    fields := ⟨[⟨1, 1⟩, ⟨5, 2⟩]⟩ }

/-- What a successful write call does to the object stack and the field stack:
nothing (`keep`), push one object that starts at the end of the buffer
(`push`), insert a field into the table of the top message (`insert`), pop a top
object that is not a message (`popOther`), or pop the top message together with
its table (`popMessage`). -/
inductive StackEffect (call : Call) (e e' : Encoder) : Prop where
  | keep (hobj : e'.objects = e.objects) (hfields : e'.fields = e.fields)
  | push (o : objectEntry) (hobj : e'.objects.stack = e.objects.stack ++ [o])
      (hfields : e'.fields = e.fields) (hstart : o.start = (e.buf.length : Int))
      (hbuf : e'.buf = e.buf)
      (htable : o.type_ = objectTypeMessage → o.tableStart = (e.fields.stack.length : Int))
  | insert (o : objectEntry) (tag : Nat) (table : List messageField)
      (hcall : call = Call.field tag) (hobj : e'.objects = e.objects)
      (hbuf : e'.buf = e.buf)
      (htop : e.objects.stack = e.objects.stack.dropLast ++ [o])
      (hkind : o.type_ = objectTypeMessage)
      (htable : sliceFrom e.fields.stack o.tableStart = some table)
      (hfields : e'.fields.stack
        = e.fields.stack.take o.tableStart.toNat
          ++ insertLoop (table ++ [⟨tag, ((e.data.end_ - o.start) % 2 ^ 32).toNat⟩])
              table.length)
  | popOther (o : objectEntry) (hobj : e.objects.stack = e'.objects.stack ++ [o])
      (hkind : o.type_ ≠ objectTypeMessage) (hfields : e'.fields = e.fields)
  | popMessage (o : objectEntry) (table : List messageField)
      (hobj : e.objects.stack = e'.objects.stack ++ [o])
      (hkind : o.type_ = objectTypeMessage)
      (htable : sliceFrom e.fields.stack o.tableStart = some table)
      (hfields : e'.fields.stack = e.fields.stack.take o.tableStart.toNat)

/-! ## list.go: the list reader -/

/-- Modelled from the spec: the two-valued `listTable.offset(i)` that list.go
calls (format.go holds the one-valued form only). In the words of the spec
it returns `(-1, -1)` when `i` is out of range; otherwise the end is entry
`i` and the start is 0 for `i = 0` or the end stored in entry `i - 1`. -/
def ListGo.listTable.offset (t : List Nat) (i : Int) : Option (Int × Int) :=
  let n := Spec.listTable.count t
  if i < 0 then some (-1, -1)
  else if i ≥ n then some (-1, -1)
  else
    match (if i = 0 then some 0 else Spec.listTable.offset t (i - 1)),
      Spec.listTable.offset t i with
    | some start, some end_ => some (start, end_)
    | _, _ => none

/-- Go `List`: the exact list bytes, the element table and the element data. -/
structure ListView where
  buffer : List Nat
  table : List Nat
  data : List Nat
deriving DecidableEq

/-- Go `List{}`, the zero value. -/
def emptyList : ListView := ⟨[], [], []⟩

/-- Go `List.Data`: the exact list bytes. -/
def ListView.Data (l : ListView) : List Nat :=
  l.buffer

/-- Go `List.Len`: `l.table.count()`. -/
def ListView.Len (l : ListView) : Int :=
  listTable.count l.table

/-- Go `List.Element`: `start, end := l.table.offset(i)`, then `nil` when
`start < 0`, `nil` when `end > len(l.data)`, else `l.data[start:end]`. The
result is `none` when the slice expression is out of range. -/
def ListView.Element (l : ListView) (i : Int) : Option (List Nat) :=
  match ListGo.listTable.offset l.table i with
  | none => none
  | some (start, end_) =>
    if start < 0 then some []
    else if end_ > (l.data.length : Int) then some []
    else sliceRange l.data start end_

/-- The body shared by the typed getters of list.go, up to the zero value and
the reader: `start, end := l.table.offset(i)`, the zero value when `start < 0`
or `end > len(l.data)`, else `b := l.data[start:end]; v, _ := read(b); return v`. -/
def ListView.getter {α : Type} (zero : α) (read : List Nat → α) (l : ListView) (i : Int) :
    Option α :=
  match ListGo.listTable.offset l.table i with
  | none => none
  | some (start, end_) =>
    if start < 0 then some zero
    else if end_ > (l.data.length : Int) then some zero
    else (sliceRange l.data start end_).map read

/-- The loop of `List.Validate` over the indices still to visit:
`data := l.Element(i); if len(data) == 0 { continue };
if _, err := ReadValue(data); err != nil { return err }`, and `return nil` after
the last index. `ReadValue` is passed in; the outer `none` stands for a call
that does not return. -/
def ListView.validateLoop {ε : Type} (ReadValue : List Nat → Option (Option ε))
    (l : ListView) : List Nat → Option (Option ε)
  | [] => some none
  | i :: rest =>
    match l.Element (i : Int) with
    | none => none
    | some data =>
      if data.length = 0 then ListView.validateLoop ReadValue l rest
      else
        match ReadValue data with
        | none => none
        | some (some err) => some (some err)
        | some none => ListView.validateLoop ReadValue l rest

/-- Go `List.Validate`: `n := l.Len(); for i := 0; i < n; i++ { ... }; return nil`. -/
def ListView.Validate {ε : Type} (ReadValue : List Nat → Option (Option ε))
    (l : ListView) : Option (Option ε) :=
  l.validateLoop ReadValue (List.range l.Len.toNat)

/-- Go `GetList`: parses and returns a list, but does not validate it. -/
def GetList {ε : Type} (readList : List Nat → ListView × Option ε) (b : List Nat) :
    ListView × Option ε :=
  readList b

/-- Go `ReadList`: `readList`, then `Validate`; `List{}` and the error when
either fails. -/
def ReadList {ε : Type} (readList : List Nat → ListView × Option ε)
    (ReadValue : List Nat → Option (Option ε)) (b : List Nat) :
    Option (ListView × Option ε) :=
  match readList b with
  | (_, some err) => some (emptyList, some err)
  | (l, none) =>
    match l.Validate ReadValue with
    | none => none
    | some (some err) => some (emptyList, some err)
    | some none => some (l, none)

/-- The readers that the typed getters of list.go call, values only
(`v, _ := ReadBool(b)`). They and the message view are defined outside the
embedded files, so they are taken as given; `emptyMessage` is Go `Message{}`.
Floats are carried as their bit patterns and strings as their bytes. -/
structure Readers (M : Type) where
  ReadBool : List Nat → Bool
  ReadInt8 : List Nat → Int
  ReadInt16 : List Nat → Int
  ReadInt32 : List Nat → Int
  ReadInt64 : List Nat → Int
  ReadUInt8 : List Nat → Nat
  ReadUInt16 : List Nat → Nat
  ReadUInt32 : List Nat → Nat
  ReadUInt64 : List Nat → Nat
  ReadFloat32 : List Nat → Nat
  ReadFloat64 : List Nat → Nat
  ReadBytes : List Nat → List Nat
  ReadString : List Nat → List Nat
  GetList : List Nat → ListView
  GetMessage : List Nat → M
  emptyMessage : M

/-- Go `List.Int8`. -/
def ListView.Int8 {M : Type} (r : Readers M) (l : ListView) (i : Int) : Option Int :=
  l.getter 0 r.ReadInt8 i

/-- Go `List.Int16`. -/
def ListView.Int16 {M : Type} (r : Readers M) (l : ListView) (i : Int) : Option Int :=
  l.getter 0 r.ReadInt16 i

/-- Go `List.Int32`. -/
def ListView.Int32 {M : Type} (r : Readers M) (l : ListView) (i : Int) : Option Int :=
  l.getter 0 r.ReadInt32 i

/-- Go `List.Int64`. -/
def ListView.Int64 {M : Type} (r : Readers M) (l : ListView) (i : Int) : Option Int :=
  l.getter 0 r.ReadInt64 i

/-- Go `List.UInt8`. -/
def ListView.UInt8 {M : Type} (r : Readers M) (l : ListView) (i : Int) : Option Nat :=
  l.getter 0 r.ReadUInt8 i

/-- Go `List.UInt16`. -/
def ListView.UInt16 {M : Type} (r : Readers M) (l : ListView) (i : Int) : Option Nat :=
  l.getter 0 r.ReadUInt16 i

/-- Go `List.UInt32`. -/
def ListView.UInt32 {M : Type} (r : Readers M) (l : ListView) (i : Int) : Option Nat :=
  l.getter 0 r.ReadUInt32 i

/-- Go `List.UInt64`. -/
def ListView.UInt64 {M : Type} (r : Readers M) (l : ListView) (i : Int) : Option Nat :=
  l.getter 0 r.ReadUInt64 i

/-- Go `List.Float32`; the zero value is the bit pattern 0. -/
def ListView.Float32 {M : Type} (r : Readers M) (l : ListView) (i : Int) : Option Nat :=
  l.getter 0 r.ReadFloat32 i

/-- Go `List.Float64`; the zero value is the bit pattern 0. -/
def ListView.Float64 {M : Type} (r : Readers M) (l : ListView) (i : Int) : Option Nat :=
  l.getter 0 r.ReadFloat64 i

/-- Go `List.Message`. -/
def ListView.Message {M : Type} (r : Readers M) (l : ListView) (i : Int) : Option M :=
  l.getter r.emptyMessage r.GetMessage i

/-- Go `List.Bytes`; `nil` is the empty list. -/
def ListView.Bytes {M : Type} (r : Readers M) (l : ListView) (i : Int) : Option (List Nat) :=
  l.getter [] r.ReadBytes i

/-- Go `List.String`; the empty string is the empty list of bytes. -/
def ListView.String {M : Type} (r : Readers M) (l : ListView) (i : Int) : Option (List Nat) :=
  l.getter [] r.ReadString i

/-- Go `List.Bool`. -/
def ListView.Bool {M : Type} (r : Readers M) (l : ListView) (i : Int) : Option Bool :=
  l.getter false r.ReadBool i

/-- Go `List.List`. -/
def ListView.List {M : Type} (r : Readers M) (l : ListView) (i : Int) : Option ListView :=
  l.getter emptyList r.GetList i

/-- A list whose table holds the ends 5 and 2 over five bytes of data: the
range of element 1 is inverted. -/
def invertedList : ListView :=
  ⟨[], [0, 0, 0, 5, 0, 0, 0, 2], [1, 2, 3, 4, 5]⟩

/-- A list of two elements, `[1, 2]` and `[3]`, over three bytes of data. -/
def twoElementList : ListView :=
  ⟨[], [0, 0, 0, 2, 0, 0, 0, 3], [1, 2, 3]⟩

/-- Readers that return fixed values, none of them a zero value. -/
def constantReaders : Readers Nat where
  ReadBool := fun _ => true
  ReadInt8 := fun _ => 1
  ReadInt16 := fun _ => 1
  ReadInt32 := fun _ => 1
  ReadInt64 := fun _ => 1
  ReadUInt8 := fun _ => 1
  ReadUInt16 := fun _ => 1
  ReadUInt32 := fun _ => 1
  ReadUInt64 := fun _ => 1
  ReadFloat32 := fun _ => 1
  ReadFloat64 := fun _ => 1
  ReadBytes := fun b => b
  ReadString := fun b => b
  GetList := fun b => ⟨b, [], []⟩
  GetMessage := fun _ => 1
  emptyMessage := 0

/-- A `ReadValue` that accepts every value. -/
def acceptAll : List Nat → Option (Option Nat) :=
  fun _ => some none

/-- A `ReadValue` that rejects the values starting with byte 3 with error 7
and accepts the others. -/
def rejectThree : List Nat → Option (Option Nat) :=
  fun b => if b.head? = some 3 then some (some 7) else some none

/-! ## encoder_state_test.go: building and draining the element stack -/

/-- The inner loop of the list buffer test:
`for _, elem := range elements { buffer.push(elem) }`. -/
def pushEach (s : listStack) : List listElement → listStack
  | [] => s
  | elem :: elements => pushEach (s.push elem) elements

/-- The building loop of the list buffer test: per element list, record
`offset := buffer.offset()` and push its elements. Returns the stack and the
recorded offsets in push order. -/
def buildLists (s : listStack) : List (List listElement) → listStack × List Int
  | [] => (s, [])
  | elements :: matrix =>
    let r := buildLists (pushEach s elements) matrix
    (r.1, s.offset :: r.2)

/-- The checking loop of the list buffer test over the offsets in the order
given: `ff := buffer.pop(offset)` for each. Returns the stack left and the
tables popped, in pop order. -/
def popEach (s : listStack) : List Int → Option (listStack × List (List listElement))
  | [] => some (s, [])
  | offset :: offsets =>
    match s.pop offset with
    | none => none
    | some (s', table) =>
      match popEach s' offsets with
      | none => none
      | some (s'', tables) => some (s'', table :: tables)

/-! ## typed_list.go: typed lists -/

/-- The list decoding that typed_list.go calls: `decodeList`, the methods
`Len` and `GetBytes` of the list it returns, and the zero value `List{}`.
They are defined outside the embedded files, so they are taken as given. -/
structure ListDecoding (L ε : Type) where
  decodeList : List Nat → L × Int × Option ε
  Len : L → Int
  GetBytes : L → Int → List Nat
  zeroList : L

/-- Go `TypedList[T]`: a list and its element decoder (`none` is the nil
function of the zero value). -/
structure TypedList (L T ε : Type) where
  list : L
  element : Option (List Nat → T × Int × Option ε)

/-- The loop of `ParseTypedList` over the indices still to visit:
`b1 := l.GetBytes(i); if len(b1) == 0 { continue };
if _, _, err = element(b1); err != nil { return }`. Returns the error that
ends the loop, `none` when the loop runs to its end. -/
def parseLoop {L T ε : Type} (d : ListDecoding L ε) (l : L)
    (element : List Nat → T × Int × Option ε) : List Nat → Option ε
  | [] => none
  | i :: rest =>
    let b1 := d.GetBytes l (i : Int)
    if b1.length = 0 then parseLoop d l element rest
    else
      match (element b1).2.2 with
      | some err => some err
      | none => parseLoop d l element rest

/-- Go `ParseTypedList`: `l, size, err := decodeList(b)` assigns the named
results `size` and `err`; a bare `return` gives the zero typed list with
them. -/
def ParseTypedList {L T ε : Type} (d : ListDecoding L ε) (b : List Nat)
    (element : List Nat → T × Int × Option ε) : TypedList L T ε × Int × Option ε :=
  match d.decodeList b with
  | (_, size, some err) => (⟨d.zeroList, none⟩, size, some err)
  | (l, size, none) =>
    match parseLoop d l element (List.range (d.Len l).toNat) with
    | some err => (⟨d.zeroList, none⟩, size, some err)
    | none => (⟨l, some element⟩, size, none)

/-- A list decoding for evaluation: the list is the sequence of its element
bytes, one element per input byte (empty for the byte 0); the empty input is
rejected with error 1. -/
def sampleListDecoding : ListDecoding (List (List Nat)) Nat where
  decodeList := fun b =>
    if b.length = 0 then ([], 0, some 1)
    else (b.map (fun x => if x = 0 then [] else [x]), (b.length : Int), none)
  Len := fun l => (l.length : Int)
  GetBytes := fun l i => l.getD i.toNat []
  zeroList := []

/-- An element decoder for evaluation: rejects the elements that start with
byte 3 with error 7, rejects those starting with 4 with error 8. -/
def sampleElement : List Nat → Nat × Int × Option Nat :=
  fun b1 =>
    (b1.sum, (b1.length : Int),
      if b1.head? = some 3 then some 7 else if b1.head? = some 4 then some 8 else none)

/-! ## fixtures_test.go: the test struct -/

/-- Go `TestStruct`: two `int64` fields. -/
structure TestStruct where
  X : Int
  Y : Int
deriving DecidableEq

/-- The codec functions that fixtures_test.go calls. `EncodeInt64(b, v)` and
`EncodeStruct(b, dataSize)` write to the buffer `b` and return the number of
bytes written and an error; `DecodeInt64(b)` returns `(value, n, err)` and
`DecodeStruct(b)` returns `(dataSize, size, err)`, both reading from the tail of
`b`. They are defined outside the embedded files, so they are taken as given;
the buffer is passed as its contents. -/
structure StructCodec (ε : Type) where
  EncodeInt64 : List Nat → Int → List Nat × Int × Option ε
  EncodeStruct : List Nat → Int → List Nat × Int × Option ε
  DecodeInt64 : List Nat → Int × Int × Option ε
  DecodeStruct : List Nat → Int × Int × Option ε

/-- Go `EncodeTestStruct`: encodes `X`, then `Y`, then the struct trailer with
the accumulated `dataSize`; returns the buffer contents, `dataSize + n` and the
error (`0` and the error when a step fails). -/
def EncodeTestStruct {ε : Type} (c : StructCodec ε) (b : List Nat) (s : TestStruct) :
    List Nat × Int × Option ε :=
  let dataSize : Int := 0
  match c.EncodeInt64 b s.X with
  | (b1, _, some err) => (b1, 0, some err)
  | (b1, n, none) =>
    let dataSize := dataSize + n
    match c.EncodeInt64 b1 s.Y with
    | (b2, _, some err) => (b2, 0, some err)
    | (b2, n, none) =>
      let dataSize := dataSize + n
      match c.EncodeStruct b2 dataSize with
      | (b3, _, some err) => (b3, 0, some err)
      | (b3, n, none) => (b3, dataSize + n, none)

/-- Go `DecodeTestStruct` with the named results `(result, total, err)`:
`dataSize, size, err := DecodeStruct(b)`; `b = b[len(b)-size:]`;
`n := size - dataSize`; `off := len(b)`; `off -= n`;
`result.Y, n, err = DecodeInt64(b[:off])`; `off -= n`;
`result.X, n, err = DecodeInt64(b[:off])`; every `return` is bare. No statement
assigns `total`, so it keeps its zero value. The result is `none` when a slice
expression is out of range. -/
def DecodeTestStruct {ε : Type} (c : StructCodec ε) (b : List Nat) :
    Option (TestStruct × Int × Option ε) :=
  let total : Int := 0
  match c.DecodeStruct b with
  | (_, _, some err) => some (⟨0, 0⟩, total, some err)
  | (dataSize, size, none) =>
    match sliceFrom b ((b.length : Int) - size) with
    | none => none
    | some b' =>
      let n := size - dataSize
      let off : Int := (b'.length : Int)
      let off := off - n
      match sliceTo b' off with
      | none => none
      | some bY =>
        match c.DecodeInt64 bY with
        | (y, _, some err) => some (⟨0, y⟩, total, some err)
        | (y, n, none) =>
          let off := off - n
          match sliceTo b' off with
          | none => none
          | some bX =>
            match c.DecodeInt64 bX with
            | (x, _, some err) => some (⟨x, y⟩, total, some err)
            | (x, _, none) => some (⟨x, y⟩, total, none)

/-- Modelled from the spec: the error kind of the decoders, `Malformed`. -/
inductive DecodeError where
  | malformed
deriving DecidableEq

/-- Modelled from the spec: reading a reverse varuint from the tail, "read
bytes backward until a byte with its high bit CLEAR is encountered (that byte
is the most-significant)", at most `fuel + 1` bytes. The input is the byte
sequence in backward order; the result is the value and the number of bytes
consumed, `none` when the varuint is truncated or too long. -/
def revVaruintFrom : Nat → List Nat → Option (Nat × Nat)
  | _, [] => none
  | 0, x :: _ => if x < 128 then some (x, 1) else none
  | fuel + 1, x :: rest =>
    if x < 128 then some (x, 1)
    else
      match revVaruintFrom fuel rest with
      | none => none
      | some (high, n) => some (high * 128 + (x - 128), n + 1)

/-- Modelled from the spec: the inverse of zig-zag. -/
def unzigzag (n : Nat) : Int :=
  if n % 2 = 0 then ((n / 2 : Nat) : Int) else -(((n + 1) / 2 : Nat) : Int)

/-- Modelled from the spec: the struct codec functions of the wire grammar, in
the shape fixtures_test.go calls them: `int := zigzag_varuint_rev TYPE_INT`,
`struct := payload varuint_rev(body) TYPE_STRUCT`, the decoders are the reverse,
return the bytes consumed and fail with `Malformed` on a wrong type byte, a
truncated varuint or a size that exceeds the buffer. The type codes are those
of `sampleCodec`. -/
def sampleStructCodec : StructCodec DecodeError where
  EncodeInt64 := fun b v =>
    (sampleCodec.EncodeInt64 b v,
      ((sampleCodec.EncodeInt64 b v).length : Int) - (b.length : Int), none)
  EncodeStruct := fun b dataSize =>
    ((sampleCodec.encodeStruct b dataSize).1,
      (((sampleCodec.encodeStruct b dataSize).1).length : Int) - (b.length : Int), none)
  DecodeInt64 := fun b =>
    match b.reverse with
    | [] => (0, 0, some DecodeError.malformed)
    | t :: rest =>
      if t = 16 ∨ t = 17 then
        match revVaruintFrom 9 rest with
        | none => (0, 0, some DecodeError.malformed)
        | some (v, n) => (unzigzag v, (n : Int) + 1, none)
      else (0, 0, some DecodeError.malformed)
  DecodeStruct := fun b =>
    match b.reverse with
    | [] => (0, 0, some DecodeError.malformed)
    | t :: rest =>
      if t = 48 then
        match revVaruintFrom 9 rest with
        | none => (0, 0, some DecodeError.malformed)
        | some (bodySize, n) =>
          if bodySize + n + 1 > b.length then (0, 0, some DecodeError.malformed)
          else ((bodySize : Int), (bodySize : Int) + (n : Int) + 1, none)
      else (0, 0, some DecodeError.malformed)

/-! ## Whole values: the writer side -/

/-- Modelled from the spec: the primitive values of the wire grammar. Floats
are carried as their bit patterns and strings as their bytes. -/
inductive Prim where
  | nil
  | bool (v : Bool)
  | byte (v : Nat)
  | int32 (v : Int)
  | int64 (v : Int)
  | uint32 (v : Nat)
  | uint64 (v : Nat)
  | u128 (v : Nat)
  | u256 (v : Nat)
  | float32 (v : Nat)
  | float64 (v : Nat)
  | bytes (v : List Nat)
  | string (v : List Nat)
deriving DecidableEq

mutual
/-- Modelled from the spec: a value of the wire grammar, restricted to
primitives, lists and messages. -/
inductive Value where
  | prim (p : Prim)
  | list (elements : ValueList)
  | message (fields : FieldList)
/-- The elements of a list value, in order. -/
inductive ValueList where
  | nil
  | cons (v : Value) (rest : ValueList)
/-- The fields of a message value with their tags, in the order written. -/
inductive FieldList where
  | nil
  | cons (tag : Nat) (v : Value) (rest : FieldList)
end

/-- The write call of the encoder for a primitive value. -/
def Prim.call : Prim → Call
  | Prim.nil => Call.nil
  | Prim.bool v => Call.bool v
  | Prim.byte v => Call.byte v
  | Prim.int32 v => Call.int32 v
  | Prim.int64 v => Call.int64 v
  | Prim.uint32 v => Call.uint32 v
  | Prim.uint64 v => Call.uint64 v
  | Prim.u128 v => Call.u128 v
  | Prim.u256 v => Call.u256 v
  | Prim.float32 v => Call.float32 v
  | Prim.float64 v => Call.float64 v
  | Prim.bytes v => Call.bytes v
  | Prim.string v => Call.string v

mutual
/-- The calls by which a value is built through the writer: a primitive is one
write; a list is `BeginList`, per element its calls and `Element`, then
`EndList`; a message is `BeginMessage`, per field its calls and `Field(tag)`,
then `EndMessage`. -/
def Value.calls : Value → List Call
  | Value.prim p => [p.call]
  | Value.list es => Call.beginList :: (es.calls ++ [Call.endList])
  | Value.message fs => Call.beginMessage :: (fs.calls ++ [Call.endMessage])
/-- The calls that write the elements of a list. -/
def ValueList.calls : ValueList → List Call
  | ValueList.nil => []
  | ValueList.cons v rest => v.calls ++ Call.element :: rest.calls
/-- The calls that write the fields of a message. -/
def FieldList.calls : FieldList → List Call
  | FieldList.nil => []
  | FieldList.cons tag v rest => v.calls ++ Call.field tag :: rest.calls
end

/-- Modelled from the spec: the bytes of a primitive value in the wire
grammar, as `sampleCodec` appends them. -/
def Prim.ser : Prim → List Nat
  | Prim.nil => sampleCodec.EncodeNil []
  | Prim.bool v => sampleCodec.EncodeBool [] v
  | Prim.byte v => sampleCodec.EncodeByte [] v
  | Prim.int32 v => sampleCodec.EncodeInt32 [] v
  | Prim.int64 v => sampleCodec.EncodeInt64 [] v
  | Prim.uint32 v => sampleCodec.EncodeUint32 [] v
  | Prim.uint64 v => sampleCodec.EncodeUint64 [] v
  | Prim.u128 v => sampleCodec.EncodeU128 [] v
  | Prim.u256 v => sampleCodec.EncodeU256 [] v
  | Prim.float32 v => sampleCodec.EncodeFloat32 [] v
  | Prim.float64 v => sampleCodec.EncodeFloat64 [] v
  | Prim.bytes v => v ++ revVaruint 9 v.length ++ [24]
  | Prim.string v => v ++ [0] ++ revVaruint 9 v.length ++ [25]

mutual
/-- Modelled from the spec: the bytes of a value in the wire grammar. A list
is its payload (the elements in order), the table of element end offsets and
the trailer; a message is its payload (the fields in the order written), the
table of `(tag, end offset)` entries in ascending tag order and the trailer. -/
def Value.ser : Value → List Nat
  | Value.prim p => p.ser
  | Value.list es =>
    (sampleCodec.encodeListMeta es.payload (es.payload.length : Int) (es.offsets 0)).1
  | Value.message fs =>
    (sampleCodec.encodeMessageMeta fs.payload (fs.payload.length : Int)
      ((fs.entries 0).foldl (fun t f => t.orderedInsert tagLE f) [])).1
/-- The payload of a list: the bytes of its elements in order. -/
def ValueList.payload : ValueList → List Nat
  | ValueList.nil => []
  | ValueList.cons v rest => v.ser ++ rest.payload
/-- The end offsets of the elements of a list whose payload so far has `base`
bytes. -/
def ValueList.offsets : ValueList → Nat → List listElement
  | ValueList.nil, _ => []
  | ValueList.cons v rest, base =>
    ⟨base + v.ser.length⟩ :: rest.offsets (base + v.ser.length)
/-- The payload of a message: the bytes of its fields in the order written. -/
def FieldList.payload : FieldList → List Nat
  | FieldList.nil => []
  | FieldList.cons _ v rest => v.ser ++ rest.payload
/-- The table entries of the fields of a message, in the order written, for
a payload that so far has `base` bytes. -/
def FieldList.entries : FieldList → Nat → List messageField
  | FieldList.nil, _ => []
  | FieldList.cons tag v rest, base =>
    ⟨tag, base + v.ser.length⟩ :: rest.entries (base + v.ser.length)
end

/-- The number of elements of a list value. -/
def ValueList.length : ValueList → Nat
  | ValueList.nil => 0
  | ValueList.cons _ rest => rest.length + 1

/-- The tags of the fields of a message value, in the order written. -/
def FieldList.tags : FieldList → List Nat
  | FieldList.nil => []
  | FieldList.cons tag _ rest => tag :: rest.tags

/-- A primitive value lies in the range of its Go type (`byte`, `int32`, ...,
`[16]byte`, `[32]byte`, the IEEE-754 widths), and a byte or string value is at
most `2^32 - 1` bytes long. -/
def Prim.valid : Prim → Bool
  | Prim.nil => true
  | Prim.bool _ => true
  | Prim.byte v => decide (v < 2 ^ 8)
  | Prim.int32 v => decide (-(2 ^ 31) ≤ v ∧ v < 2 ^ 31)
  | Prim.int64 v => decide (-(2 ^ 63) ≤ v ∧ v < 2 ^ 63)
  | Prim.uint32 v => decide (v < 2 ^ 32)
  | Prim.uint64 v => decide (v < 2 ^ 64)
  | Prim.u128 v => decide (v < 2 ^ 128)
  | Prim.u256 v => decide (v < 2 ^ 256)
  | Prim.float32 v => decide (v < 2 ^ 32)
  | Prim.float64 v => decide (v < 2 ^ 64)
  | Prim.bytes v => decide (v.length ≤ 2 ^ 32 - 1)
  | Prim.string v => decide (v.length ≤ 2 ^ 32 - 1)

mutual
/-- A value fits the format: every primitive is valid, every payload is
shorter than `2^32` bytes (the width of a table offset), and the tags of
a message are 16-bit and pairwise distinct. -/
def Value.valid : Value → Bool
  | Value.prim p => p.valid
  | Value.list es => es.valid && decide (es.payload.length < 2 ^ 32)
  | Value.message fs =>
    fs.valid && decide (fs.payload.length < 2 ^ 32) && decide (fs.tags.Nodup)
/-- Every element is valid. -/
def ValueList.valid : ValueList → Bool
  | ValueList.nil => true
  | ValueList.cons v rest => v.valid && rest.valid
/-- Every field value is valid and every tag is 16-bit. -/
def FieldList.valid : FieldList → Bool
  | FieldList.nil => true
  | FieldList.cons tag v rest => decide (tag < 2 ^ 16) && v.valid && rest.valid
end

/-! ## Whole values: the reader side -/

/-- Modelled from the spec: a fixed-size big-endian field of `width` bytes
read from the tail; the input is the byte sequence in backward order. -/
def bigEndianFrom (width : Nat) (r : List Nat) : Option Nat :=
  if r.length < width then none
  else some ((r.take width).reverse.foldl (fun acc x => acc * 256 + x) 0)

/-- Modelled from the spec: the primitive decoders, "the reverse" of the
encoders. A value is read from the tail of `b`: the type byte, then the body
in front of it. Returns the value and the number of bytes consumed; `none` is
`Malformed` (unknown type byte, truncated body). The type codes are those of
`sampleCodec`. -/
def decodePrim (b : List Nat) : Option (Prim × Nat) :=
  match b.reverse with
  | [] => none
  | t :: r =>
    if t = 0 then some (Prim.nil, 1)
    else if t = 1 then some (Prim.bool true, 1)
    else if t = 2 then some (Prim.bool false, 1)
    else if t = 3 then
      match r with
      | [] => none
      | v :: _ => some (Prim.byte v, 2)
    else if t = 16 then
      (revVaruintFrom 9 r).map (fun x => (Prim.int32 (unzigzag x.1), x.2 + 1))
    else if t = 17 then
      (revVaruintFrom 9 r).map (fun x => (Prim.int64 (unzigzag x.1), x.2 + 1))
    else if t = 18 then (revVaruintFrom 9 r).map (fun x => (Prim.uint32 x.1, x.2 + 1))
    else if t = 19 then (revVaruintFrom 9 r).map (fun x => (Prim.uint64 x.1, x.2 + 1))
    else if t = 20 then (bigEndianFrom 16 r).map (fun v => (Prim.u128 v, 17))
    else if t = 21 then (bigEndianFrom 32 r).map (fun v => (Prim.u256 v, 33))
    else if t = 22 then (bigEndianFrom 4 r).map (fun v => (Prim.float32 v, 5))
    else if t = 23 then (bigEndianFrom 8 r).map (fun v => (Prim.float64 v, 9))
    else if t = 24 then
      match revVaruintFrom 9 r with
      | none => none
      | some (len, n) =>
        if (r.drop n).length < len then none
        else some (Prim.bytes ((r.drop n).take len).reverse, len + n + 1)
    else if t = 25 then
      match revVaruintFrom 9 r with
      | none => none
      | some (len, n) =>
        match r.drop n with
        | [] => none
        | z :: r' =>
          if z ≠ 0 then none
          else if r'.length < len then none
          else some (Prim.string (r'.take len).reverse, len + 1 + n + 1)
    else none

/-- Modelled from the spec: the trailer of a list or message read from the
tail, after its type byte: "parse `table_size` then `body_size`; compute
`table_start` and `payload` ranges; fail if any range is outside the buffer".
The input is the byte sequence in backward order; returns the table, the
payload and the number of bytes of the two sizes. -/
def parseTrailer (r : List Nat) : Option (List Nat × List Nat × Nat) :=
  match revVaruintFrom 9 r with
  | none => none
  | some (tableSize, n1) =>
    match revVaruintFrom 9 (r.drop n1) with
    | none => none
    | some (bodySize, n2) =>
      let r' := (r.drop n1).drop n2
      if r'.length < tableSize + bodySize then none
      else
        some ((r'.take tableSize).reverse, ((r'.drop tableSize).take bodySize).reverse,
          n2 + n1)

/-- Modelled from the spec: `List::new(bytes)`, which "parses the trailer from
the tail: verify type byte is List" and fails on a table length that is not
a multiple of the entry width. Returns the view and the size of the list
in bytes. -/
def parseList (b : List Nat) : Option (ListView × Nat) :=
  match b.reverse with
  | [] => none
  | t :: r =>
    if t = 32 then
      match parseTrailer r with
      | none => none
      | some (table, data, n) =>
        if table.length % 4 ≠ 0 then none
        else
          let size := data.length + table.length + n + 1
          some (⟨b.drop (b.length - size), table, data⟩, size)
    else none

/-- Modelled from the spec: the message view, a parsed message: its
`messageMeta` (table, payload size, table format) and its payload. -/
structure MessageView where
  meta : messageMeta
  bytes : List Nat
deriving DecidableEq

/-- Modelled from the spec: `Message::new(bytes)`, which "parses analogously to
List"; the type byte tells the small from the big table format. Returns the
view and the size of the message in bytes. -/
def parseMessage (b : List Nat) : Option (MessageView × Nat) :=
  match b.reverse with
  | [] => none
  | t :: r =>
    if t = 34 ∨ t = 35 then
      match parseTrailer r with
      | none => none
      | some (table, data, n) =>
        let big : Bool := decide (t = 35)
        if table.length % (if big then 6 else 3) ≠ 0 then none
        else some (⟨⟨table, data.length, big⟩, data⟩, data.length + table.length + n + 1)
    else none

/-- Modelled from the spec: `field(tag)`, which "uses the table's binary search;
returns empty slice when absent". The search gives the end offset of the
field; the field bytes are the payload up to that end, from whose tail the
decoders read. -/
def MessageView.Field (m : MessageView) (tag : Nat) : Option (List Nat) :=
  match m.meta.offset tag with
  | none => none
  | some end_ =>
    if end_ < 0 then some []
    else if end_ > (m.meta.data : Int) then some []
    else sliceTo m.bytes end_

mutual
/-- The reader returns the value that was written: a primitive is what the
primitive decoder reads from the tail of `b`; a list parses, has as many
elements as were written, and `Element(i)` reads back element `i`; a message
parses and `Field(tag)` reads back the field written with `tag`. -/
def Value.readsBack : Value → List Nat → Bool
  | Value.prim p, b =>
    match decodePrim b with
    | none => false
    | some (q, _) => decide (q = p)
  | Value.list es, b =>
    match parseList b with
    | none => false
    | some (l, _) => decide (l.Len = (es.length : Int)) && es.readsBack l 0
  | Value.message fs, b =>
    match parseMessage b with
    | none => false
    | some (m, _) => fs.readsBack m
/-- The elements from index `i` on read back through `Element`. -/
def ValueList.readsBack : ValueList → ListView → Nat → Bool
  | ValueList.nil, _, _ => true
  | ValueList.cons v rest, l, i =>
    (match l.Element (i : Int) with
      | none => false
      | some b => v.readsBack b) && rest.readsBack l (i + 1)
/-- The fields read back through `Field`. -/
def FieldList.readsBack : FieldList → MessageView → Bool
  | FieldList.nil, _ => true
  | FieldList.cons tag v rest, m =>
    (match m.Field tag with
      | none => false
      | some b => v.readsBack b) && rest.readsBack m
end

/-- A message with an `int32` field 7 and, written after it, a field 2 that
holds a list of a bool and a string. -/
def sampleMessage : Value :=
  Value.message (FieldList.cons 7 (Value.prim (Prim.int32 (-3)))
    (FieldList.cons 2 (Value.list (ValueList.cons (Value.prim (Prim.bool true))
      (ValueList.cons (Value.prim (Prim.string [104, 105])) ValueList.nil)))
      FieldList.nil))

/-! ## Validation of nested values -/

/-- Modelled from the spec: the kinds that the validating routine tells apart
when it "dispatches on the type byte". -/
inductive ValueKind where
  | list
  | message
  | scalar
deriving DecidableEq

/-- The parts of the validating reader that are outside the embedded files and
are taken as given: `kind` reads the type byte of a value, `readList` is Go
`readList`, `readMessage` is its counterpart for messages, `fieldCount` and
`fieldBytes` give the fields of a parsed message by index, `readScalar`
validates a value that is neither a list nor a message, and `zeroMessage` is
Go `Message{}`. -/
structure ValueReader (M ε : Type) where
  kind : List Nat → ValueKind
  readList : List Nat → ListView × Option ε
  readMessage : List Nat → M × Option ε
  fieldCount : M → Int
  fieldBytes : M → Int → List Nat
  readScalar : List Nat → Option ε
  zeroMessage : M

/-- Modelled from the spec: the loop of message validation, which "recursively
parses every field"; the loop of `List.Validate` over the fields by index. -/
def ValueReader.validateFields {M ε : Type} (r : ValueReader M ε)
    (ReadValue : List Nat → Option (Option ε)) (m : M) : List Nat → Option (Option ε)
  | [] => some none
  | i :: rest =>
    if (r.fieldBytes m (i : Int)).length = 0 then r.validateFields ReadValue m rest
    else
      match ReadValue (r.fieldBytes m (i : Int)) with
      | none => none
      | some (some err) => some (some err)
      | some none => r.validateFields ReadValue m rest

/-- Modelled from the spec: the validating read of a message, the counterpart
of `ReadList`: parse, then validate every field. -/
def ValueReader.ReadMessage {M ε : Type} (r : ValueReader M ε)
    (ReadValue : List Nat → Option (Option ε)) (b : List Nat) : Option (M × Option ε) :=
  match r.readMessage b with
  | (_, some err) => some (r.zeroMessage, some err)
  | (m, none) =>
    match r.validateFields ReadValue m (List.range (r.fieldCount m).toNat) with
    | none => none
    | some (some err) => some (r.zeroMessage, some err)
    | some none => some (m, none)

/-- Modelled from the spec: `ReadValue`, "a single recursive routine" that
"walks a byte slice, dispatches on the type byte" and "recurses into list
elements and message fields", failing "on the first `Malformed`": a list is
read with `ReadList`, a message with its counterpart. The first argument
bounds the depth of nesting; the result is `none` when the bound is reached
or a call does not return. -/
def ValueReader.ReadValue {M ε : Type} (r : ValueReader M ε) :
    Nat → List Nat → Option (Option ε)
  | 0, _ => none
  | fuel + 1, b =>
    match r.kind b with
    | ValueKind.list => (ReadList r.readList (ValueReader.ReadValue r fuel) b).map Prod.snd
    | ValueKind.message => (r.ReadMessage (ValueReader.ReadValue r fuel) b).map Prod.snd
    | ValueKind.scalar => some (r.readScalar b)

/-- Modelled from the spec: the validating reader of the wire grammar, built
from `parseList`, `parseMessage` and `decodePrim`; the bytes of field `i` of
a message are the payload up to the end offset of entry `i`. -/
def sampleValueReader : ValueReader MessageView DecodeError where
  kind := fun b =>
    if b.getLast? = some 32 then ValueKind.list
    else if b.getLast? = some 34 ∨ b.getLast? = some 35 then ValueKind.message
    else ValueKind.scalar
  readList := fun b =>
    match parseList b with
    | some (l, _) => (l, none)
    | none => (emptyList, some DecodeError.malformed)
  readMessage := fun b =>
    match parseMessage b with
    | some (m, _) => (m, none)
    | none => (⟨⟨[], 0, false⟩, []⟩, some DecodeError.malformed)
  fieldCount := fun m => messageTable.count m.meta.table m.meta.big
  fieldBytes := fun m i =>
    match (if m.meta.big then messageTable.offsetByIndex_big m.meta.table i
      else messageTable.offsetByIndex_small m.meta.table i) with
    | none => []
    | some end_ =>
      if end_ < 0 then []
      else if end_ > (m.meta.data : Int) then []
      else m.bytes.take end_.toNat
  readScalar := fun b =>
    match decodePrim b with
    | some _ => none
    | none => some DecodeError.malformed
  zeroMessage := ⟨⟨[], 0, false⟩, []⟩

/-- A list that holds the list `[nil]` and the message `{1: true}`. -/
def nestedList : Value :=
  Value.list (ValueList.cons
    (Value.list (ValueList.cons (Value.prim Prim.nil) ValueList.nil))
    (ValueList.cons
      (Value.message (FieldList.cons 1 (Value.prim (Prim.bool true)) FieldList.nil))
      ValueList.nil))

/-! ## mpx/channel_state.go: the send window -/

/-- Go `math.MaxInt32`. -/
def maxInt32 : Int := 2 ^ 31 - 1

/-- The value that Go's `int32` arithmetic keeps of an integer: it wraps
modulo `2^32` into `[-2^31, 2^31)`. -/
def wrapInt32 (x : Int) : Int :=
  (x + 2 ^ 31) % 2 ^ 32 - 2 ^ 31

/-- How one pass through `decrementSendWindow` ends: with the error
"message too large", with `status.OK`, or at the `select` that waits for
a window increment. -/
inductive SendResult where
  | tooLarge
  | ok
  | wait
deriving DecidableEq

/-- Go `channelState.decrementSendWindow`, one pass with a single sender:
`n := len(data)`, `window` is the value that `s.sendWindow.Load()` returns
and `initWindow` is `s.initWindow`. Returns how the pass ends and the send
window after it; `s.sendWindow.Add(-size)` is `int32` arithmetic and
`s.initWindow/2` truncates towards zero. The `select` that waits (and the
next pass after it) is outside the embedding. -/
def channelState.decrementSendWindow (n window initWindow : Int) : SendResult × Int :=
  if n > maxInt32 then (SendResult.tooLarge, window)
  else
    let size : Int := n
    if window ≥ size then (SendResult.ok, wrapInt32 (window + -size))
    else if window ≥ Int.tdiv initWindow 2 then (SendResult.ok, wrapInt32 (window + -size))
    else (SendResult.wait, window)

/-! ## format.go: the parsed list table -/

/-- Go `listTable.elements()`: `n := t.count(); for i := 0; i < n; i++ {
off := t.offset(i); elem := listElement{uint32(off)};
result = append(result, elem) }; return result`. -/
def listTable.elements (t : List Nat) : Option (List listElement) :=
  (List.range (listTable.count t).toNat).foldlM
    (fun (result : List listElement) (i : Nat) =>
      match listTable.offset t (i : Int) with
      | none => none
      | some off => some (result ++ [⟨(off % 2 ^ 32).toNat⟩]))
    []

/-! ## encoder.go: public operations and the effect of a successful write -/

/-- Go `Encoder.Init(b)`: `e.Reset(); e.buf = b[:0]`. -/
def Encoder.Init (e : Encoder) (b : List Nat) : Encoder :=
  { e.Reset with buf := b.take 0 }

/-- A public operation of the encoder: a write call, `End`, `Init(b)` or `Reset`. -/
inductive Op where
  | write (call : Call)
  | finish
  | init (b : List Nat)
  | reset
deriving DecidableEq

/-- The encoder state after a public operation, the returned values dropped. -/
def Encoder.op (c : Codec) (e : Encoder) : Op → Option Encoder
  | Op.write call => (e.call c call).map (fun r => r.1)
  | Op.finish => e.End.map (fun r => r.1)
  | Op.init b => some (e.Init b)
  | Op.reset => some e.Reset

/-- A sequence of public operations. -/
def Encoder.runOps (c : Codec) (e : Encoder) : List Op → Option Encoder
  | [] => some e
  | op :: ops => (e.op c op).bind (fun e' => Encoder.runOps c e' ops)

/-- The buffer that the primitive encoder of a primitive write returns for
`buf`; `buf` itself for the other calls. -/
def Codec.encodePrimitive (c : Codec) (buf : List Nat) : Call → List Nat
  | Call.nil => c.EncodeNil buf
  | Call.bool v => c.EncodeBool buf v
  | Call.byte v => c.EncodeByte buf v
  | Call.int32 v => c.EncodeInt32 buf v
  | Call.int64 v => c.EncodeInt64 buf v
  | Call.uint32 v => c.EncodeUint32 buf v
  | Call.uint64 v => c.EncodeUint64 buf v
  | Call.u128 v => c.EncodeU128 buf v
  | Call.u256 v => c.EncodeU256 buf v
  | Call.float32 v => c.EncodeFloat32 buf v
  | Call.float64 v => c.EncodeFloat64 buf v
  | Call.bytes v => (c.EncodeBytes buf v).1
  | Call.string v => (c.EncodeString buf v).1
  | _ => buf

/-- The primitive and metadata encoders append at least one byte: their output
is longer than the buffer they are given. -/
structure Codec.Grows (c : Codec) : Prop where
  EncodeNil : ∀ buf, buf.length < (c.EncodeNil buf).length
  EncodeBool : ∀ buf v, buf.length < (c.EncodeBool buf v).length
  EncodeByte : ∀ buf v, buf.length < (c.EncodeByte buf v).length
  EncodeInt32 : ∀ buf v, buf.length < (c.EncodeInt32 buf v).length
  EncodeInt64 : ∀ buf v, buf.length < (c.EncodeInt64 buf v).length
  EncodeUint32 : ∀ buf v, buf.length < (c.EncodeUint32 buf v).length
  EncodeUint64 : ∀ buf v, buf.length < (c.EncodeUint64 buf v).length
  EncodeU128 : ∀ buf v, buf.length < (c.EncodeU128 buf v).length
  EncodeU256 : ∀ buf v, buf.length < (c.EncodeU256 buf v).length
  EncodeFloat32 : ∀ buf v, buf.length < (c.EncodeFloat32 buf v).length
  EncodeFloat64 : ∀ buf v, buf.length < (c.EncodeFloat64 buf v).length
  EncodeBytes : ∀ buf v, (c.EncodeBytes buf v).2 = none →
    buf.length < (c.EncodeBytes buf v).1.length
  EncodeString : ∀ buf v, (c.EncodeString buf v).2 = none →
    buf.length < (c.EncodeString buf v).1.length
  encodeListMeta : ∀ buf bsize table, (c.encodeListMeta buf bsize table).2 = none →
    buf.length < (c.encodeListMeta buf bsize table).1.length
  encodeMessageMeta : ∀ buf bsize table, (c.encodeMessageMeta buf bsize table).2 = none →
    buf.length < (c.encodeMessageMeta buf bsize table).1.length
  encodeStruct : ∀ buf bsize, (c.encodeStruct buf bsize).2 = none →
    buf.length < (c.encodeStruct buf bsize).1.length

/-- What a write call that returns nil does to an unpoisoned encoder `e`, case
by case, `e'` being the state after the call: a primitive write, a `Begin*`,
`Element`, `StructField`, `Field`, `EndList`, `EndMessage` or `EndStruct`. -/
inductive Step (c : Codec) (e e' : Encoder) : Call → Prop where
  | primitive (call : Call) (hprim : call.isPrimitive = true) (hdata : e.data = ⟨0, 0⟩)
      (hfail : ∀ v, call = Call.bytes v → (c.EncodeBytes e.buf v).2 = none)
      (hfail2 : ∀ v, call = Call.string v → (c.EncodeString e.buf v).2 = none)
      (he : e' = e.written (c.encodePrimitive e.buf call)) : Step c e e' call
  | begin_ (call : Call) (o : objectEntry)
      (hcall : (call = Call.beginList ∧ o.type_ = objectTypeList) ∨
        (call = Call.beginMessage ∧ o.type_ = objectTypeMessage) ∨
        (call = Call.beginStruct ∧ o.type_ = objectTypeStruct))
      (hstart : o.start = (e.buf.length : Int))
      (hlist : o.type_ = objectTypeList → o.tableStart = (e.elements.stack.length : Int))
      (hmessage : o.type_ = objectTypeMessage → o.tableStart = (e.fields.stack.length : Int))
      (he : e' = { e with objects := ⟨e.objects.stack ++ [o]⟩ }) : Step c e e' call
  | element (o : objectEntry) (below : List objectEntry)
      (hstack : e.objects.stack = below ++ [o]) (hkind : o.type_ = objectTypeList)
      (he : e' = { e with
        data := ⟨0, 0⟩,
        elements := ⟨e.elements.stack ++ [⟨((e.data.end_ - o.start) % 2 ^ 32).toNat⟩]⟩ }) :
      Step c e e' Call.element
  | structField (o : objectEntry) (below : List objectEntry)
      (hstack : e.objects.stack = below ++ [o]) (hkind : o.type_ = objectTypeStruct)
      (he : e' = { e with data := ⟨0, 0⟩ }) : Step c e e' Call.structField
  | field (tag : Nat) (o : objectEntry) (below : List objectEntry) (fields : messageStack)
      (hstack : e.objects.stack = below ++ [o]) (hkind : o.type_ = objectTypeMessage)
      (hinsert : e.fields.insert o.tableStart
        ⟨tag, ((e.data.end_ - o.start) % 2 ^ 32).toNat⟩ = some fields)
      (he : e' = { e with data := ⟨0, 0⟩, fields := fields }) : Step c e e' (Call.field tag)
  | endList (o : objectEntry) (below : List objectEntry) (table : List listElement)
      (hstack : e.objects.stack = below ++ [o]) (hkind : o.type_ = objectTypeList)
      (htable : sliceFrom e.elements.stack o.tableStart = some table)
      (hdata : e.data = ⟨0, 0⟩)
      (henc : (c.encodeListMeta e.buf ((e.buf.length : Int) - o.start) table).2 = none)
      (he : e' = { e with
        buf := (c.encodeListMeta e.buf ((e.buf.length : Int) - o.start) table).1,
        data := ⟨o.start,
          ((c.encodeListMeta e.buf ((e.buf.length : Int) - o.start) table).1.length : Int)⟩,
        objects := ⟨below⟩,
        elements := ⟨e.elements.stack.take o.tableStart.toNat⟩ }) : Step c e e' Call.endList
  | endMessage (o : objectEntry) (below : List objectEntry) (table : List messageField)
      (hstack : e.objects.stack = below ++ [o]) (hkind : o.type_ = objectTypeMessage)
      (htable : sliceFrom e.fields.stack o.tableStart = some table)
      (hdata : e.data = ⟨0, 0⟩)
      (henc : (c.encodeMessageMeta e.buf ((e.buf.length : Int) - o.start) table).2 = none)
      (he : e' = { e with
        buf := (c.encodeMessageMeta e.buf ((e.buf.length : Int) - o.start) table).1,
        data := ⟨o.start,
          ((c.encodeMessageMeta e.buf ((e.buf.length : Int) - o.start) table).1.length : Int)⟩,
        objects := ⟨below⟩,
        fields := ⟨e.fields.stack.take o.tableStart.toNat⟩ }) : Step c e e' Call.endMessage
  | endStruct (o : objectEntry) (below : List objectEntry)
      (hstack : e.objects.stack = below ++ [o]) (hkind : o.type_ = objectTypeStruct)
      (hdata : e.data = ⟨0, 0⟩)
      (henc : (c.encodeStruct e.buf ((e.buf.length : Int) - o.start)).2 = none)
      (he : e' = { e with
        buf := (c.encodeStruct e.buf ((e.buf.length : Int) - o.start)).1,
        data := ⟨o.start,
          ((c.encodeStruct e.buf ((e.buf.length : Int) - o.start)).1.length : Int)⟩,
        objects := ⟨below⟩ }) : Step c e e' Call.endStruct

/-! ## encoder.go: invariants of the writer state -/

/-- The numbers `xs` do not decrease and none of them exceeds `bound`. -/
def NonDecreasingBelow (bound : Int) (xs : List Int) : Prop :=
  xs.Pairwise (fun a b => a ≤ b) ∧ ∀ x ∈ xs, x ≤ bound

/-- The `tableStart` values of the objects of one kind, bottom to top. -/
def tableStarts (kind : objectType) (objs : List objectEntry) : List Int :=
  (objs.filter (fun o => decide (o.type_ = kind))).map (fun o => o.tableStart)

/-- The invariant of the stacks: the starts of the open objects, bottom to
top, do not decrease and lie inside the buffer; the `tableStart` values of the
open lists do not decrease and lie inside the element stack; those of the open
messages do not decrease and lie inside the field stack. -/
def Encoder.StacksInv (e : Encoder) : Prop :=
  NonDecreasingBelow (e.buf.length : Int) (e.objects.stack.map (fun o => o.start)) ∧
  NonDecreasingBelow (e.elements.stack.length : Int)
    (tableStarts objectTypeList e.objects.stack) ∧
  NonDecreasingBelow (e.fields.stack.length : Int)
    (tableStarts objectTypeMessage e.objects.stack) ∧
  ∀ o ∈ e.objects.stack, 0 ≤ o.start

/-- The invariant of the data cursor: it is `(0, 0)`, or it is a non-empty
range that ends at the end of the buffer. -/
def Encoder.CursorInv (e : Encoder) : Prop :=
  e.data = ⟨0, 0⟩ ∨
    (0 ≤ e.data.start ∧ e.data.start < e.data.end_ ∧ e.data.end_ = (e.buf.length : Int))

/-- The calls that complete a value: the primitive writes and `EndList`,
`EndMessage`, `EndStruct`. -/
def Call.completesValue : Call → Bool
  | Call.endList | Call.endMessage | Call.endStruct => true
  | call => call.isPrimitive

/-- The encoder after `BeginList`, `Nil`, `Element`, `BeginMessage`, `Nil` on a
fresh encoder: a message is open inside a list and a value is outstanding. -/
def nestedOpenState : Encoder :=
  { buf := [0, 0], err := none, data := ⟨1, 2⟩,
    objects := ⟨[⟨objectTypeList, 0, 0⟩, ⟨objectTypeMessage, 1, 0⟩]⟩,
    elements := ⟨[⟨1⟩]⟩, fields := ⟨[]⟩ }

/-! ## encoder.go: a composite between its `Begin*` and its `End*` -/

/-- An error-free sequence of write calls after each of which the object stack
holds more than `depth` objects: `none` as soon as a call returns an error or
leaves `depth` objects or fewer. -/
def Encoder.runAbove (c : Codec) (depth : Nat) (e : Encoder) : List Call → Option Encoder
  | [] => some e
  | call :: calls =>
    match e.call c call with
    | some (e', none) =>
      if depth < e'.objects.stack.length then Encoder.runAbove c depth e' calls else none
    | _ => none

/-- The tables of the objects opened above a state with `ne` elements and `nf`
fields, the objects listed from the top down, for element and field stacks of
the lengths `le` and `lf`: the table of the top list (message) starts at its
`tableStart` and reaches to the end of the element (field) stack, and the
objects below own the stacks up to that `tableStart`; with no object left the
lengths are `ne` and `nf`. -/
def Chain (ne nf : Int) : List objectEntry → Int → Int → Prop
  | [], le, lf => ne = le ∧ nf = lf
  | o :: below, le, lf =>
    (o.type_ = objectTypeList ∧ o.tableStart ≤ le ∧ Chain ne nf below o.tableStart lf) ∨
    (o.type_ = objectTypeMessage ∧ o.tableStart ≤ lf ∧ Chain ne nf below le o.tableStart) ∨
    (o.type_ = objectTypeStruct ∧ Chain ne nf below le lf)

/-- The state `e` lies inside the composite `o` that was opened in the state
`s`: `e` is unpoisoned, its object stack is that of `s` followed by `o` and the
objects `above` (listed from the top down, `o` last), the element and field
stacks of `s` are prefixes of those of `e` and the rest is made of the tables of
`above`, and the buffer of `s` is a prefix of the buffer of `e`. -/
def Encoder.Inside (s : Encoder) (o : objectEntry) (e : Encoder) : Prop :=
  e.err = none ∧
  ∃ above : List objectEntry,
    e.objects.stack = s.objects.stack ++ above.reverse ∧
    above.getLast? = some o ∧
    Chain (s.elements.stack.length : Int) (s.fields.stack.length : Int) above
      (e.elements.stack.length : Int) (e.fields.stack.length : Int) ∧
    e.elements.stack.take s.elements.stack.length = s.elements.stack ∧
    e.fields.stack.take s.fields.stack.length = s.fields.stack ∧
    Extends s.buf e.buf

/-- The encoder after `BeginMessage`, `Bool(true)`, `Field(1)`, then
`BeginList`, `Nil`, `Element`, `BeginStruct`, `Nil`, `StructField`, `EndStruct`,
`Element`, `EndList` with the codec instance of the wire grammar: the list is
outstanding and the stacks are those before `BeginList`. -/
def listInMessageState : Encoder :=
  { buf := [1, 0, 0, 1, 48, 0, 0, 0, 1, 0, 0, 0, 4, 4, 8, 32], err := none, data := ⟨1, 16⟩,
    objects := ⟨[⟨objectTypeMessage, 0, 0⟩]⟩, elements := ⟨[]⟩, fields := ⟨[⟨1, 1⟩]⟩ }

/-! ## encoder.go: element offsets of the open lists -/

/-- The condition of a run in which each `Element` call is made while a value
is outstanding: the data cursor is not `(0, 0)`; no condition for the other
calls. -/
def elementOutstanding (e : Encoder) : Call → Bool
  | Call.element => decide (e.data ≠ ⟨0, 0⟩)
  | _ => true

/-- An error-free sequence of write calls in which every `Element` call
satisfies `elementOutstanding`. -/
def Encoder.runOutstanding (c : Codec) (e : Encoder) : List Call → Option Encoder
  | [] => some e
  | call :: calls =>
    if elementOutstanding e call = true then
      match e.call c call with
      | some (e', none) => Encoder.runOutstanding c e' calls
      | _ => none
    else none

/-- The offsets of an element table do not decrease. -/
def elementLE (a b : listElement) : Prop := a.offset ≤ b.offset

instance : DecidableRel elementLE :=
  fun a b => inferInstanceAs (Decidable (a.offset ≤ b.offset))

/-- The tables of the open lists, for a buffer of `buflen` bytes, the open
objects listed from the top of the object stack down, and the element stack:
every object starts inside the buffer; the top list owns the element stack from
its `tableStart` on and, when its body so far is shorter than `2^32` bytes, its
offsets do not decrease and lie inside that body; the lists below own the
element stack below that `tableStart`. -/
def ListsOk (buflen : Int) : List objectEntry → List listElement → Prop
  | [], _ => True
  | o :: below, estack =>
    0 ≤ o.start ∧ o.start ≤ buflen ∧
    ((o.type_ = objectTypeList ∧
        ∃ table : List listElement,
          sliceFrom estack o.tableStart = some table ∧
          (buflen - o.start < 2 ^ 32 →
            table.Pairwise elementLE ∧
            ∀ x ∈ table, ((x.offset : Nat) : Int) ≤ buflen - o.start) ∧
          ListsOk buflen below (estack.take o.tableStart.toNat)) ∨
      (o.type_ ≠ objectTypeList ∧ ListsOk buflen below estack))

/-- The invariant of error-free runs used for element tables: the data cursor
is empty or ends at the end of the buffer, and the tables of the open lists are
well formed. -/
def Encoder.ListsInv (e : Encoder) : Prop :=
  e.err = none ∧
  (e.data = ⟨0, 0⟩ ∨ e.data.end_ = (e.buf.length : Int)) ∧
  ListsOk (e.buf.length : Int) e.objects.stack.reverse e.elements.stack

/-- The encoder after `BeginList`, `Nil`, `Element`, `Bytes(v)`, `Element` on a
fresh encoder with the codec instance of the wire grammar: the table holds the
offset 1 and the offset of the end of the bytes value, truncated to 32 bits. -/
def twoElementsState (v : List Nat) : Encoder :=
  { buf := [0] ++ (v ++ [] ++ revVaruint 9 v.length ++ [24]), err := none, data := ⟨0, 0⟩,
    objects := ⟨[⟨objectTypeList, 0, 0⟩]⟩,
    elements := ⟨[⟨1⟩, ⟨(1 + v.length + (revVaruint 9 v.length).length + 1) % 2 ^ 32⟩]⟩,
    fields := ⟨[]⟩ }

/-! ## A message written with a tag twice -/

/-- A message with two fields written with the same tag 1: `true`, then
`false`. -/
def duplicateTagMessage : Value :=
  Value.message (FieldList.cons 1 (Value.prim (Prim.bool true))
    (FieldList.cons 1 (Value.prim (Prim.bool false)) FieldList.nil))

/-! ## A list metadata encoder with a size check -/

/-- The list metadata encoder reports an error for a body of `2^32` bytes or
more, which the 4-byte offsets of the element table cannot address. -/
def Codec.ListBodyChecked (c : Codec) : Prop :=
  ∀ (buf : List Nat) (bsize : Int) (table : List listElement),
    2 ^ 32 ≤ bsize → (c.encodeListMeta buf bsize table).2 ≠ none

/-- Modelled from the spec: the codec instance of the wire grammar, with the
Overflow error ("value length exceeds 2^32 - 1") applied to the body of a
list; the list metadata encoder is outside the embedded files. -/
def checkedCodec : Codec :=
  { sampleCodec with
    encodeListMeta := fun buf bsize table =>
      if bsize ≥ 2 ^ 32 then (buf, some (EncodeError.encoding 1))
      else sampleCodec.encodeListMeta buf bsize table }

/-- The encoder after `BeginList`, `Nil`, `Element`, `Bytes([7])`, `Element`,
`EndList` on a fresh encoder: the list of 15 bytes is outstanding. -/
def twoElementsClosedState : Encoder :=
  { buf := [0, 7, 1, 24, 0, 0, 0, 1, 0, 0, 0, 4, 4, 8, 32], err := none, data := ⟨0, 15⟩,
    objects := ⟨[]⟩, elements := ⟨[]⟩, fields := ⟨[]⟩ }

/-! ## Evaluation on concrete inputs -/

theorem evaluation_1 : messageTable.offset_big [0, 1, 0, 0, 0, 5, 0, 7, 0, 0, 1, 0, 1, 0, 0, 0, 2, 0] 7
    = some 256 := by decide

theorem evaluation_2 : messageTable.offset_big [0, 1, 0, 0, 0, 5, 0, 7, 0, 0, 1, 0, 1, 0, 0, 0, 2, 0] 8
    = some (-1) := by decide

theorem evaluation_3 : messageTable.offset_small [1, 0, 5, 7, 1, 0, 9] 7 = some 256 := by decide

theorem evaluation_4 : messageTable.fields [1, 0, 5, 7, 1, 0, 9] false = some [⟨1, 5⟩, ⟨7, 256⟩] := by decide

theorem evaluation_5 : FormatGo.messageTable.offset [] 7 = some (-1) := by decide

theorem evaluation_6 : isBigMessage [] = false := by decide

theorem evaluation_7 : isBigMessage [⟨1, 5⟩, ⟨255, 65535⟩] = false := by decide

theorem evaluation_8 : isBigMessage [⟨256, 5⟩, ⟨1, 1⟩] = true := by decide

theorem evaluation_9 : isBigMessage [⟨1, 5⟩, ⟨2, 65536⟩, ⟨3, 1⟩] = true := by decide

theorem evaluation_10 : (Encoder.run sampleCodec newEncoder [Call.beginMessage, Call.endMessage]).bind
    (fun e => e.End) = some (newEncoder, [0, 0, 34], none) := by decide

theorem evaluation_11 : (Encoder.run sampleCodec newEncoder
    [Call.beginMessage, Call.bool true, Call.field 1, Call.endMessage]).bind
    (fun e => e.End) = some (newEncoder, [1, 1, 0, 1, 1, 3, 34], none) := by decide

theorem evaluation_12 : (Encoder.run sampleCodec newEncoder
    [Call.beginMessage, Call.byte 9, Call.field 300, Call.endMessage]).bind
    (fun e => e.End) = some (newEncoder, [9, 3, 1, 44, 0, 0, 0, 2, 2, 6, 35], none) := by decide

theorem evaluation_13 : (Encoder.run sampleCodec newEncoder
    [Call.beginList, Call.int32 10, Call.element, Call.int32 (-1), Call.element,
     Call.int32 0, Call.element, Call.endList]).bind
    (fun e => e.End) = some (newEncoder,
      [20, 16, 1, 16, 0, 16, 0, 0, 0, 2, 0, 0, 0, 4, 0, 0, 0, 6, 6, 12, 32], none) := by decide

theorem evaluation_14 : insertLoop [⟨1, 10⟩, ⟨5, 20⟩, ⟨3, 30⟩] 2 = [⟨1, 10⟩, ⟨3, 30⟩, ⟨5, 20⟩] := by decide

theorem evaluation_15 : insertAll ⟨[⟨9, 9⟩]⟩ 1 [⟨5, 1⟩, ⟨1, 2⟩, ⟨3, 3⟩]
    = some ⟨[⟨9, 9⟩, ⟨1, 2⟩, ⟨3, 3⟩, ⟨5, 1⟩]⟩ := by decide

/-! ## Theorems: the message stack -/

theorem getElem?_length_append {α : Type} (init : List α) (a : α) (post : List α) :
    (init ++ a :: post)[init.length]? = some a := by
  induction init with
  | nil => simp
  | cons h t ih => simpa using ih

theorem getElem?_length_succ_append {α : Type} (init : List α) (a b : α) (post : List α) :
    (init ++ a :: b :: post)[init.length + 1]? = some b := by
  induction init with
  | nil => simp
  | cons h t ih => simpa using ih

theorem set_length_append {α : Type} (init : List α) (a c : α) (post : List α) :
    (init ++ a :: post).set init.length c = init ++ c :: post := by
  induction init with
  | nil => rfl
  | cons h t ih => simp [ih]

theorem set_length_succ_append {α : Type} (init : List α) (a b c : α) (post : List α) :
    (init ++ a :: b :: post).set (init.length + 1) c = init ++ a :: c :: post := by
  induction init with
  | nil => rfl
  | cons h t ih => simp [ih]

/-- One iteration of the loop of `insert` with the new field `x` right after `l`. -/
theorem insertLoop_step (init : List messageField) (l x : messageField)
    (post : List messageField) :
    insertLoop (init ++ l :: x :: post) (init.length + 1) =
      if l.tag < x.tag then init ++ l :: x :: post
      else insertLoop (init ++ x :: l :: post) init.length := by
  rw [insertLoop, getElem?_length_append, getElem?_length_succ_append]
  simp only [set_length_append, set_length_succ_append]

theorem orderedInsert_all_lt (x : messageField) (l : List messageField)
    (h : ∀ b ∈ l, b.tag < x.tag) : l.orderedInsert tagLE x = l ++ [x] := by
  induction l with
  | nil => rfl
  | cons b t ih =>
    have hb : ¬ tagLE x b := by
      have := h b (List.mem_cons_self _ _)
      unfold tagLE; omega
    rw [List.orderedInsert, if_neg hb, ih (fun c hc => h c (List.mem_cons_of_mem _ hc))]
    rfl

theorem orderedInsert_snoc_le (x l : messageField) (init : List messageField)
    (h : x.tag ≤ l.tag) :
    (init ++ [l]).orderedInsert tagLE x = init.orderedInsert tagLE x ++ [l] := by
  induction init with
  | nil => simp [List.orderedInsert, tagLE, h]
  | cons b t ih =>
    by_cases hb : tagLE x b
    · simp [List.orderedInsert, hb]
    · simp [List.orderedInsert, hb, ih]

/-- On a table sorted by tag, the loop of `insert` is an ordered insertion:
the new field lands in front of the first field whose tag is not smaller. -/
theorem insertLoop_eq_orderedInsert (pre : List messageField) :
    ∀ (x : messageField) (post : List messageField), pre.Sorted tagLE →
      insertLoop (pre ++ x :: post) pre.length = pre.orderedInsert tagLE x ++ post := by
  induction pre using List.reverseRecOn with
  | nil => intro x post _; rfl
  | append_singleton init l ih =>
    intro x post hs
    have hstep := insertLoop_step init l x post
    simp only [List.append_assoc, List.singleton_append, List.length_append,
      List.length_singleton] at hstep ⊢
    rw [hstep]
    by_cases hlt : l.tag < x.tag
    · rw [if_pos hlt]
      have hall : ∀ b ∈ init ++ [l], b.tag < x.tag := by
        intro b hb
        rcases List.mem_append.1 hb with hb | hb
        · have := (List.pairwise_append.1 hs).2.2 b hb l (by simp)
          unfold tagLE at this; omega
        · simp at hb; subst hb; exact hlt
      have := orderedInsert_all_lt x (init ++ [l]) hall
      simp only [List.append_assoc, List.singleton_append] at this
      rw [this]; simp
    · rw [if_neg hlt]
      have hinit : init.Sorted tagLE := (List.pairwise_append.1 hs).1
      rw [ih x (l :: post) hinit]
      have := orderedInsert_snoc_le x l init (by omega)
      simp only [List.append_assoc, List.singleton_append] at this
      rw [this]; simp

theorem sliceFrom_length_append {α : Type} (base table : List α) :
    sliceFrom (base ++ table) (base.length : Int) = some table := by
  unfold sliceFrom
  rw [if_pos]
  · simp
  · constructor
    · omega
    · simp

theorem sliceTo_length_append {α : Type} (base table : List α) :
    sliceTo (base ++ table) (base.length : Int) = some base := by
  unfold sliceTo
  rw [if_pos]
  · simp
  · constructor
    · omega
    · simp

/-- Inserting into a message table that is sorted by tag. -/
theorem insert_sorted (base table : List messageField) (f : messageField)
    (hs : table.Sorted tagLE) :
    messageStack.insert ⟨base ++ table⟩ (base.length : Int) f
      = some ⟨base ++ table.orderedInsert tagLE f⟩ := by
  have hslice : sliceFrom (base ++ table ++ [f]) (base.length : Int) = some (table ++ [f]) := by
    rw [List.append_assoc]; exact sliceFrom_length_append base (table ++ [f])
  have hloop := insertLoop_eq_orderedInsert table f [] hs
  simp only [messageStack.insert, hslice]
  simp only [List.length_append, List.length_singleton, Nat.add_sub_cancel, hloop,
    List.append_nil, Int.toNat_ofNat, List.append_assoc, List.take_left]

/-- The table built by successive insertions, starting from `table`. -/
theorem insertAll_sorted (base : List messageField) (fields : List messageField) :
    ∀ table : List messageField, table.Sorted tagLE →
      insertAll ⟨base ++ table⟩ (base.length : Int) fields
        = some ⟨base ++ fields.foldl (fun t f => t.orderedInsert tagLE f) table⟩ := by
  induction fields with
  | nil => intro table _; rfl
  | cons f fs ih =>
    intro table hs
    rw [insertAll, insert_sorted base table f hs]
    exact ih _ (hs.orderedInsert f table)

theorem foldl_orderedInsert_perm (fields : List messageField) :
    ∀ table : List messageField,
      (fields.foldl (fun t f => t.orderedInsert tagLE f) table).Perm (table ++ fields) := by
  induction fields with
  | nil => intro table; simp
  | cons f fs ih =>
    intro table
    refine (ih _).trans ?_
    have h1 : (table.orderedInsert tagLE f).Perm (f :: table) := List.perm_orderedInsert _ _ _
    have h2 : (table.orderedInsert tagLE f ++ fs).Perm ((f :: table) ++ fs) := h1.append_right fs
    refine h2.trans ?_
    simpa using (@List.perm_middle _ f table fs).symm

theorem foldl_orderedInsert_sorted (fields : List messageField) :
    ∀ table : List messageField, table.Sorted tagLE →
      (fields.foldl (fun t f => t.orderedInsert tagLE f) table).Sorted tagLE := by
  induction fields with
  | nil => intro table hs; exact hs
  | cons f fs ih => intro table hs; exact ih _ (hs.orderedInsert f table)

/-- A table sorted by tag whose tags are pairwise distinct is strictly sorted. -/
theorem sorted_strict_of_nodup (l : List messageField) (hs : l.Sorted tagLE)
    (hn : (l.map messageField.tag).Nodup) : l.Pairwise tagLT := by
  have hne : l.Pairwise (fun a b => a.tag ≠ b.tag) := by
    have := hn
    unfold List.Nodup at this
    exact List.pairwise_map.1 this
  refine (List.Pairwise.and hs hne).imp ?_
  intro a b h
  have h1 : a.tag ≤ b.tag := h.1
  have h2 : a.tag ≠ b.tag := h.2
  unfold tagLT; omega

/-- Two strictly sorted tables with the same fields are equal. -/
theorem eq_of_perm_of_strict (l₁ l₂ : List messageField) (hp : l₁.Perm l₂)
    (h₁ : l₁.Pairwise tagLT) (h₂ : l₂.Pairwise tagLT) : l₁ = l₂ := by
  haveI : IsAntisymm messageField tagLT :=
    ⟨fun a b hab hba => by unfold tagLT at hab hba; omega⟩
  exact List.eq_of_perm_of_sorted hp h₁ h₂

theorem pop_length_append (base table : List messageField) :
    messageStack.pop ⟨base ++ table⟩ (base.length : Int) = some (⟨base⟩, table) := by
  simp only [messageStack.pop, sliceFrom_length_append, sliceTo_length_append]

/-- C1: for every field stack `s` and every list `fields` with pairwise distinct
tags, starting a table at `offset = s.offset()` and calling `insert(offset, f)`
once per field, in any order `order` of the fields, succeeds and leaves
`s.stack[offset:]` equal to the fields sorted strictly ascending by tag (the
same table for every order); the stack below `offset` is untouched and
`pop(offset)` returns exactly that tag-sorted table and restores `s`. -/
theorem C1_insert_any_order_sorted (s : messageStack) (fields order : List messageField)
    (hperm : order.Perm fields) (hnodup : (fields.map messageField.tag).Nodup) :
    ∃ table : List messageField,
      insertAll s s.offset order = some ⟨s.stack ++ table⟩ ∧
      sliceFrom (s.stack ++ table) s.offset = some table ∧
      messageStack.pop ⟨s.stack ++ table⟩ s.offset = some (s, table) ∧
      table.Perm fields ∧ table.Pairwise tagLT ∧
      table = fields.insertionSort tagLE := by
  have hp : (order.foldl (fun t f => t.orderedInsert tagLE f) []).Perm fields := by
    have h := foldl_orderedInsert_perm order []
    rw [List.nil_append] at h
    exact h.trans hperm
  have hsorted := foldl_orderedInsert_sorted order [] List.sorted_nil
  have hstrict : (order.foldl (fun t f => t.orderedInsert tagLE f) []).Pairwise tagLT :=
    sorted_strict_of_nodup _ hsorted ((hp.map messageField.tag).nodup_iff.2 hnodup)
  have hq : (fields.insertionSort tagLE).Perm fields := List.perm_insertionSort _ _
  refine ⟨order.foldl (fun t f => t.orderedInsert tagLE f) [], ?_, ?_, ?_, hp, hstrict, ?_⟩
  · have := insertAll_sorted s.stack order [] List.sorted_nil
    simpa [messageStack.offset] using this
  · exact sliceFrom_length_append _ _
  · exact pop_length_append _ _
  · refine eq_of_perm_of_strict _ _ (hp.trans hq.symm) hstrict ?_
    exact sorted_strict_of_nodup _ (List.sorted_insertionSort _ _)
      ((hq.map messageField.tag).nodup_iff.2 hnodup)

/-- C1 at the stack `[(9,9)]` with the fields of tags 1, 3, 5 inserted in the
order 5, 1, 3. -/
theorem C1_insert_any_order_sorted_witness :
    ∃ table : List messageField,
      insertAll ⟨[⟨9, 9⟩]⟩ (messageStack.offset ⟨[⟨9, 9⟩]⟩) [⟨5, 1⟩, ⟨1, 2⟩, ⟨3, 3⟩]
        = some ⟨[⟨9, 9⟩] ++ table⟩ ∧
      sliceFrom ([⟨9, 9⟩] ++ table) (messageStack.offset ⟨[⟨9, 9⟩]⟩) = some table ∧
      messageStack.pop ⟨[⟨9, 9⟩] ++ table⟩ (messageStack.offset ⟨[⟨9, 9⟩]⟩)
        = some (⟨[⟨9, 9⟩]⟩, table) ∧
      table.Perm [⟨1, 2⟩, ⟨3, 3⟩, ⟨5, 1⟩] ∧ table.Pairwise tagLT ∧
      table = List.insertionSort tagLE [⟨1, 2⟩, ⟨3, 3⟩, ⟨5, 1⟩] :=
  C1_insert_any_order_sorted ⟨[⟨9, 9⟩]⟩ [⟨1, 2⟩, ⟨3, 3⟩, ⟨5, 1⟩] [⟨5, 1⟩, ⟨1, 2⟩, ⟨3, 3⟩]
    (by decide) (by decide)

/-! ## Theorems: serialized message tables -/

theorem entry_fits (size : Nat) (t : List Nat) (m : Nat) (hm : m < t.length / size) :
    m * size + size ≤ t.length := by
  have h1 : (m + 1) * size ≤ (t.length / size) * size := Nat.mul_le_mul_right _ hm
  have h2 : (t.length / size) * size ≤ t.length := Nat.div_mul_le_self _ _
  have h3 : (m + 1) * size = m * size + size := by ring
  omega

theorem entryBytes_length (size : Nat) (t : List Nat) (m : Nat) (hm : m < t.length / size) :
    (entryBytes size t m).length = size := by
  have := entry_fits size t m hm
  simp only [entryBytes, List.length_take, List.length_drop]
  omega

/-- The slice `t[off : off+size]` of an in-range entry is defined. -/
theorem sliceRange_entry (size : Nat) (t : List Nat) (m : Nat) (hm : m < t.length / size) :
    sliceRange t ((m : Int) * (size : Int)) ((m : Int) * (size : Int) + (size : Int))
      = some (entryBytes size t m) := by
  have hfit := entry_fits size t m hm
  have e1 : (m : Int) * (size : Int) = ((m * size : Nat) : Int) := by push_cast; rfl
  have e2 : (m : Int) * (size : Int) + (size : Int) = ((m * size + size : Nat) : Int) := by
    push_cast; rfl
  rw [e2, e1]
  unfold sliceRange
  rw [if_pos (by omega)]
  simp only [Int.toNat_ofNat, entryBytes, List.drop_take, Nat.add_sub_cancel_left]

/-- The binary search finds the entry that holds `tag` in a strictly ascending
table. -/
theorem searchLoop_found (size : Nat) (readTag readOffset : List Nat → Option Nat)
    (t : List Nat) (tag : Nat) (hlen : t.length < 2 ^ 63)
    (hread : ∀ b : List Nat, b.length = size →
      ∃ c o, readTag b = some c ∧ readOffset b = some o)
    (hsorted : ∀ i j : Nat, i < j → j < t.length / size →
      entryTag size readTag t i < entryTag size readTag t j) :
    ∀ (fuel : Nat) (left right : Int), 0 ≤ left → right < ((t.length / size : Nat) : Int) →
      right - left + 2 ≤ (fuel : Int) →
      ∀ k : Nat, left ≤ (k : Int) → (k : Int) ≤ right → entryTag size readTag t k = tag →
        searchLoop size readTag readOffset t tag fuel left right
          = some ((entryOffset size readOffset t k : Nat) : Int) := by
  have hn : t.length / size ≤ t.length := Nat.div_le_self _ _
  intro fuel
  induction fuel with
  | zero => intro left right _ _ hfuel k hk1 hk2 _; omega
  | succ fuel ih =>
    intro left right h0 hr hfuel k hk1 hk2 htag
    have hle : left ≤ right := by omega
    obtain ⟨m, hm⟩ : ∃ m : Nat, ((left + right) % 2 ^ 64) / 2 = (m : Int) :=
      ⟨(((left + right) % 2 ^ 64) / 2).toNat, by omega⟩
    have hm1 : left ≤ (m : Int) ∧ (m : Int) ≤ right := by omega
    have hmn : m < t.length / size := by omega
    obtain ⟨c, o, hc, ho⟩ := hread _ (entryBytes_length size t m hmn)
    have hcm : entryTag size readTag t m = c := by simp [entryTag, hc]
    have hom : entryOffset size readOffset t m = o := by simp [entryOffset, ho]
    simp only [searchLoop, if_pos hle, hm, sliceRange_entry size t m hmn, hc]
    by_cases h1 : c < tag
    · rw [if_pos h1]
      have hkm : m < k := by
        by_contra hcon
        rcases Nat.lt_or_ge k m with h | h
        · have := hsorted k m h hmn; omega
        · have : k = m := by omega
          subst this; omega
      exact ih _ _ (by omega) hr (by omega) k (by omega) hk2 htag
    · rw [if_neg h1]
      by_cases h2 : c > tag
      · rw [if_pos h2]
        have hkn : k < t.length / size := by omega
        have hkm : k < m := by
          by_contra hcon
          rcases Nat.lt_or_ge m k with h | h
          · have := hsorted m k h hkn; omega
          · have : k = m := by omega
            subst this; omega
        exact ih _ _ h0 (by omega) (by omega) k hk1 (by omega) htag
      · rw [if_neg h2]
        have hkn : k < t.length / size := by omega
        have hkm : k = m := by
          rcases Nat.lt_trichotomy k m with h | h | h
          · have := hsorted k m h hmn; omega
          · exact h
          · have := hsorted m k h hkn; omega
        subst hkm
        simp [ho, hom]

/-- The binary search answers `-1` when no entry holds `tag`. -/
theorem searchLoop_absent (size : Nat) (readTag readOffset : List Nat → Option Nat)
    (t : List Nat) (tag : Nat) (hlen : t.length < 2 ^ 63)
    (hread : ∀ b : List Nat, b.length = size →
      ∃ c o, readTag b = some c ∧ readOffset b = some o)
    (habsent : ∀ k : Nat, k < t.length / size → entryTag size readTag t k ≠ tag) :
    ∀ (fuel : Nat) (left right : Int), 0 ≤ left → right < ((t.length / size : Nat) : Int) →
      left ≤ right + 1 → right - left + 2 ≤ (fuel : Int) →
        searchLoop size readTag readOffset t tag fuel left right = some (-1) := by
  have hn : t.length / size ≤ t.length := Nat.div_le_self _ _
  intro fuel
  induction fuel with
  | zero => intro left right _ _ _ hfuel; omega
  | succ fuel ih =>
    intro left right h0 hr hlr hfuel
    by_cases hle : left ≤ right
    · obtain ⟨m, hm⟩ : ∃ m : Nat, ((left + right) % 2 ^ 64) / 2 = (m : Int) :=
        ⟨(((left + right) % 2 ^ 64) / 2).toNat, by omega⟩
      have hm1 : left ≤ (m : Int) ∧ (m : Int) ≤ right := by omega
      have hmn : m < t.length / size := by omega
      obtain ⟨c, o, hc, ho⟩ := hread _ (entryBytes_length size t m hmn)
      have hcm : entryTag size readTag t m = c := by simp [entryTag, hc]
      have hne := habsent m hmn
      simp only [searchLoop, if_pos hle, hm, sliceRange_entry size t m hmn, hc]
      by_cases h1 : c < tag
      · rw [if_pos h1]
        exact ih _ _ (by omega) hr (by omega) (by omega)
      · rw [if_neg h1, if_pos (by omega)]
        exact ih _ _ h0 (by omega) (by omega) (by omega)
    · simp only [searchLoop, if_neg hle]

/-- An in-range entry is decoded by `fieldAt`. -/
theorem fieldAt_in_range (size : Nat) (readTag readOffset : List Nat → Option Nat)
    (t : List Nat)
    (hread : ∀ b : List Nat, b.length = size →
      ∃ c o, readTag b = some c ∧ readOffset b = some o)
    (m : Nat) (hm : m < t.length / size) :
    fieldAt size readTag readOffset t (m : Int)
      = some (⟨entryTag size readTag t m, entryOffset size readOffset t m⟩, true) := by
  obtain ⟨c, o, hc, ho⟩ := hread _ (entryBytes_length size t m hm)
  have h1 : ¬ ((m : Int) < 0) := by omega
  have h2 : ¬ ((m : Int) ≥ ((t.length / size : Nat) : Int)) := by omega
  simp only [fieldAt, if_neg h1, if_neg h2, sliceRange_entry size t m hm, hc, ho,
    entryTag, entryOffset, Option.getD_some]

theorem foldlM_collect (size : Nat) (readTag readOffset : List Nat → Option Nat)
    (t : List Nat)
    (hread : ∀ b : List Nat, b.length = size →
      ∃ c o, readTag b = some c ∧ readOffset b = some o)
    (l : List Nat) :
    ∀ acc : List messageField, (∀ i ∈ l, i < t.length / size) →
      l.foldlM
        (fun (result : List messageField) (i : Nat) =>
          match fieldAt size readTag readOffset t (i : Int) with
          | none => none
          | some (f, ok) => if ok then some (result ++ [f]) else some result)
        acc
      = some (acc ++ l.map (fun m =>
          (⟨entryTag size readTag t m, entryOffset size readOffset t m⟩ : messageField))) := by
  induction l with
  | nil => intro acc _; simp
  | cons i l ih =>
    intro acc h
    have hi := h i (List.mem_cons_self _ _)
    rw [List.foldlM_cons, fieldAt_in_range size readTag readOffset t hread i hi]
    simp only [if_true, Option.bind_eq_bind, Option.some_bind]
    rw [ih _ (fun j hj => h j (List.mem_cons_of_mem _ hj))]
    simp

/-- The parsed fields of a table are its entries in index order. -/
theorem collectFields_eq (size : Nat) (readTag readOffset : List Nat → Option Nat)
    (t : List Nat)
    (hread : ∀ b : List Nat, b.length = size →
      ∃ c o, readTag b = some c ∧ readOffset b = some o) :
    collectFields (fieldAt size readTag readOffset t) (t.length / size)
      = some ((List.range (t.length / size)).map (fun m =>
          (⟨entryTag size readTag t m, entryOffset size readOffset t m⟩ : messageField))) := by
  have := foldlM_collect size readTag readOffset t hread (List.range (t.length / size)) []
    (fun i hi => List.mem_range.1 hi)
  simpa [collectFields] using this

/-- The binary search on a table whose parsed fields are strictly ascending. -/
theorem search_spec (size : Nat) (readTag readOffset : List Nat → Option Nat)
    (t : List Nat) (tag : Nat) (hlen : t.length < 2 ^ 63)
    (hread : ∀ b : List Nat, b.length = size →
      ∃ c o, readTag b = some c ∧ readOffset b = some o)
    (fs : List messageField)
    (hfs : collectFields (fieldAt size readTag readOffset t) (t.length / size) = some fs)
    (hs : fs.Pairwise tagLT) :
    (∀ f ∈ fs, f.tag = tag →
      searchLoop size readTag readOffset t tag (t.length / size + 1) 0
        (((t.length / size : Nat) : Int) - 1) = some ((f.offset : Nat) : Int)) ∧
    ((∀ f ∈ fs, f.tag ≠ tag) →
      searchLoop size readTag readOffset t tag (t.length / size + 1) 0
        (((t.length / size : Nat) : Int) - 1) = some (-1)) := by
  rw [collectFields_eq size readTag readOffset t hread] at hfs
  have hfs' := Option.some.inj hfs
  subst hfs'
  have hsorted : ∀ i j : Nat, i < j → j < t.length / size →
      entryTag size readTag t i < entryTag size readTag t j := by
    intro i j hij hj
    have h := List.pairwise_iff_getElem.1 hs i j (by simp; omega) (by simpa using hj) hij
    simpa [tagLT] using h
  constructor
  · intro f hf htag
    obtain ⟨k, hk, rfl⟩ := List.mem_map.1 hf
    have hk' := List.mem_range.1 hk
    exact searchLoop_found size readTag readOffset t tag hlen hread hsorted _ 0 _
      (le_refl _) (by omega) (by push_cast; omega) k (by omega) (by omega) htag
  · intro habs
    have hnn : (0 : Int) ≤ ((t.length / size : Nat) : Int) := Int.ofNat_nonneg _
    refine searchLoop_absent size readTag readOffset t tag hlen hread ?_ _ 0 _
      (le_refl _) (by omega) (by omega) (by push_cast; omega)
    intro k hk
    exact habs _ (List.mem_map.2 ⟨k, List.mem_range.2 hk, rfl⟩)

theorem big_reads (b : List Nat) (hb : b.length = messageFieldBigSize) :
    ∃ c o, bigTag b = some c ∧ bigOffset b = some o := by
  rcases b with _ | ⟨b0, _ | ⟨b1, _ | ⟨b2, _ | ⟨b3, _ | ⟨b4, _ | ⟨b5, _ | ⟨b6, r⟩⟩⟩⟩⟩⟩⟩ <;>
    simp [messageFieldBigSize] at hb
  exact ⟨b0 * 256 + b1, ((b2 * 256 + b3) * 256 + b4) * 256 + b5, rfl,
    by simp [bigOffset, sliceFrom, uint32BE]⟩

theorem small_reads (b : List Nat) (hb : b.length = messageFieldSmallSize) :
    ∃ c o, smallTag b = some c ∧ smallOffset b = some o := by
  rcases b with _ | ⟨b0, _ | ⟨b1, _ | ⟨b2, _ | ⟨b3, r⟩⟩⟩⟩ <;>
    simp [messageFieldSmallSize] at hb
  exact ⟨b0, b1 * 256 + b2, rfl, by simp [smallOffset, sliceFrom, uint16BE]⟩

/-- C2: for every serialized message table `t` (a Go slice, so shorter than
`2^63` bytes) whose parsed entry tags are strictly ascending, and every tag:
the binary-search lookup (`offset_big` on 6-byte entries, `offset_small` on
3-byte entries, and format.go's `messageTable.offset`) returns the end offset
stored in the entry whose tag is `tag` when such an entry exists, and `-1` when
no entry has that tag. -/
theorem C2_binary_search_lookup (t : List Nat) (tag : Nat) (hlen : t.length < 2 ^ 63) :
    (∀ fs : List messageField, messageTable.fields t true = some fs → fs.Pairwise tagLT →
      (∀ f ∈ fs, f.tag = tag → messageTable.offset_big t tag = some ((f.offset : Nat) : Int)) ∧
      ((∀ f ∈ fs, f.tag ≠ tag) → messageTable.offset_big t tag = some (-1))) ∧
    (∀ fs : List messageField, messageTable.fields t false = some fs → fs.Pairwise tagLT →
      (∀ f ∈ fs, f.tag = tag →
        messageTable.offset_small t tag = some ((f.offset : Nat) : Int)) ∧
      ((∀ f ∈ fs, f.tag ≠ tag) → messageTable.offset_small t tag = some (-1))) ∧
    (∀ fs : List messageField, FormatGo.messageTable.fields t = some fs → fs.Pairwise tagLT →
      (∀ f ∈ fs, f.tag = tag →
        FormatGo.messageTable.offset t tag = some ((f.offset : Nat) : Int)) ∧
      ((∀ f ∈ fs, f.tag ≠ tag) → FormatGo.messageTable.offset t tag = some (-1))) := by
  refine ⟨?_, ?_, ?_⟩
  · intro fs hfs hs
    have hfs' : collectFields (fieldAt messageFieldBigSize bigTag bigOffset t)
        (t.length / messageFieldBigSize) = some fs := by
      simpa [messageTable.fields, messageTable.count, messageTable.field_big] using hfs
    exact search_spec messageFieldBigSize bigTag bigOffset t tag hlen big_reads fs hfs' hs
  · intro fs hfs hs
    have hfs' : collectFields (fieldAt messageFieldSmallSize smallTag smallOffset t)
        (t.length / messageFieldSmallSize) = some fs := by
      simpa [messageTable.fields, messageTable.count, messageTable.field_small] using hfs
    exact search_spec messageFieldSmallSize smallTag smallOffset t tag hlen small_reads fs hfs' hs
  · intro fs hfs hs
    have hfs' : collectFields (fieldAt messageFieldSize bigTag bigOffset t)
        (t.length / messageFieldSize) = some fs := by
      simpa [FormatGo.messageTable.fields, FormatGo.messageTable.count,
        FormatGo.messageTable.field] using hfs
    have hspec := search_spec messageFieldSize bigTag bigOffset t tag hlen big_reads fs hfs' hs
    by_cases hn : t.length / messageFieldSize = 0
    · have hnil : fs = [] := by
        rw [hn] at hfs'
        simpa [collectFields] using hfs'.symm
      subst hnil
      constructor
      · intro f hf; simp at hf
      · intro _; simp [FormatGo.messageTable.offset, hn]
    · simpa [FormatGo.messageTable.offset, hn] using hspec

/-- C2 at a big table with the entries (1, 5), (7, 256), (256, 512) and a small
table with the entries (1, 5), (7, 256): tag 7 is found, tag 8 is absent. -/
theorem C2_binary_search_lookup_witness :
    messageTable.offset_big [0, 1, 0, 0, 0, 5, 0, 7, 0, 0, 1, 0, 1, 0, 0, 0, 2, 0] 7
      = some 256 ∧
    messageTable.offset_big [0, 1, 0, 0, 0, 5, 0, 7, 0, 0, 1, 0, 1, 0, 0, 0, 2, 0] 8
      = some (-1) ∧
    messageTable.offset_small [1, 0, 5, 7, 1, 0, 9] 7 = some 256 ∧
    FormatGo.messageTable.offset [0, 1, 0, 0, 0, 5, 0, 7, 0, 0, 1, 0, 1, 0, 0, 0, 2, 0] 7
      = some 256 :=
  ⟨((C2_binary_search_lookup [0, 1, 0, 0, 0, 5, 0, 7, 0, 0, 1, 0, 1, 0, 0, 0, 2, 0] 7
      (by decide)).1 [⟨1, 5⟩, ⟨7, 256⟩, ⟨256, 512⟩] (by decide) (by decide)).1 ⟨7, 256⟩
      (by decide) rfl,
   ((C2_binary_search_lookup [0, 1, 0, 0, 0, 5, 0, 7, 0, 0, 1, 0, 1, 0, 0, 0, 2, 0] 8
      (by decide)).1 [⟨1, 5⟩, ⟨7, 256⟩, ⟨256, 512⟩] (by decide) (by decide)).2 (by decide),
   ((C2_binary_search_lookup [1, 0, 5, 7, 1, 0, 9] 7
      (by decide)).2.1 [⟨1, 5⟩, ⟨7, 256⟩] (by decide) (by decide)).1 ⟨7, 256⟩
      (by decide) rfl,
   ((C2_binary_search_lookup [0, 1, 0, 0, 0, 5, 0, 7, 0, 0, 1, 0, 1, 0, 0, 0, 2, 0] 7
      (by decide)).2.2 [⟨1, 5⟩, ⟨7, 256⟩, ⟨256, 512⟩] (by decide) (by decide)).1 ⟨7, 256⟩
      (by decide) rfl⟩

/-! ## Theorems: table width -/

/-- The tail-inward scan over the first `k` fields is a head-first scan. -/
theorem isBigMessageLoop_eq_any (table : List messageField) :
    ∀ k : Nat, k ≤ table.length →
      isBigMessageLoop table k = (table.take k).any exceedsSmall := by
  intro k
  induction k with
  | zero => intro _; rfl
  | succ k ih =>
    intro hk
    have hlt : k < table.length := by omega
    have hget : table[k]? = some table[k] := List.getElem?_eq_getElem hlt
    have htake : table.take (k + 1) = table.take k ++ [table[k]] := by
      rw [List.take_succ, hget]; rfl
    rw [isBigMessageLoop, hget, htake, List.any_append, ← ih (by omega)]
    simp only [List.any_cons, List.any_nil, Bool.or_false, exceedsSmall]
    by_cases h1 : table[k].tag > 255
    · simp [h1]
    · by_cases h2 : table[k].offset > 65535
      · simp [h1, h2]
      · simp [h1, h2]

theorem isBigMessage_eq_any (table : List messageField) :
    isBigMessage table = table.any exceedsSmall := by
  unfold isBigMessage
  by_cases h : table.length = 0
  · have : table = [] := List.length_eq_zero.1 h
    subst this; rfl
  · simp only [h, if_false]
    rw [isBigMessageLoop_eq_any table table.length (le_refl _), List.take_length]

/-- C3: for every field table (the empty one included), `isBigMessage(table)` is
false if and only if every field has tag <= 255 and end offset <= 65535, and true
if and only if some field has tag > 255 or offset > 65535; the tail-inward scan
gives the result of a head-first scan, and the result is the same for the
reversed table and for every reordering of the table. -/
theorem C3_isBigMessage_iff (table : List messageField) :
    (isBigMessage table = false ↔ ∀ f ∈ table, f.tag ≤ 255 ∧ f.offset ≤ 65535) ∧
    (isBigMessage table = true ↔ ∃ f ∈ table, f.tag > 255 ∨ f.offset > 65535) ∧
    isBigMessage table = table.any exceedsSmall ∧
    isBigMessage table.reverse = isBigMessage table ∧
    (∀ table' : List messageField, table'.Perm table →
      isBigMessage table' = isBigMessage table) := by
  have htrue : ∀ l : List messageField,
      isBigMessage l = true ↔ ∃ f ∈ l, f.tag > 255 ∨ f.offset > 65535 := by
    intro l
    rw [isBigMessage_eq_any, List.any_eq_true]
    simp [exceedsSmall]
  have hperm : ∀ table' : List messageField, table'.Perm table →
      isBigMessage table' = isBigMessage table := by
    intro table' hp
    rw [Bool.eq_iff_iff, htrue, htrue]
    constructor
    · rintro ⟨f, hf, h⟩; exact ⟨f, hp.mem_iff.1 hf, h⟩
    · rintro ⟨f, hf, h⟩; exact ⟨f, hp.mem_iff.2 hf, h⟩
  refine ⟨?_, htrue table, isBigMessage_eq_any table, hperm _ (List.reverse_perm table), hperm⟩
  rw [← Bool.not_eq_true, htrue]
  constructor
  · intro h f hf
    by_contra hcon
    exact h ⟨f, hf, by omega⟩
  · rintro h ⟨f, hf, hbig⟩
    have := h f hf
    omega

/-- C3 at the table `[(256, 5), (1, 1)]`: the first field has tag 256 > 255, so
the table is big, and so is the reordered table `[(1, 1), (256, 5)]`. -/
theorem C3_isBigMessage_iff_witness :
    isBigMessage [⟨256, 5⟩, ⟨1, 1⟩] = true ∧
    isBigMessage [⟨1, 1⟩, ⟨256, 5⟩] = isBigMessage [⟨256, 5⟩, ⟨1, 1⟩] :=
  ⟨(C3_isBigMessage_iff [⟨256, 5⟩, ⟨1, 1⟩]).2.1.2 ⟨⟨256, 5⟩, by decide, by decide⟩,
   (C3_isBigMessage_iff [⟨256, 5⟩, ⟨1, 1⟩]).2.2.2.2 [⟨1, 1⟩, ⟨256, 5⟩] (by decide)⟩

/-! ## Theorems: the encoder -/

/-- On a poisoned encoder every write call and `End` return the stored error
and change nothing. -/
theorem poisoned_noop (c : Codec) (e : Encoder) (err : EncodeError)
    (h : e.err = some err) :
    (∀ call : Call, e.call c call = some (e, some err)) ∧
    e.End = some (e, [], some err) := by
  constructor
  · intro call
    cases call <;>
      simp [Encoder.call, Encoder.Nil, Encoder.Bool, Encoder.Byte, Encoder.Int32,
        Encoder.Int64, Encoder.Uint32, Encoder.Uint64, Encoder.U128, Encoder.U256,
        Encoder.Float32, Encoder.Float64, Encoder.Bytes, Encoder.String,
        Encoder.writeValue, Encoder.writeFallible, Encoder.BeginList, Encoder.Element,
        Encoder.EndList, Encoder.BeginMessage, Encoder.Field, Encoder.EndMessage,
        Encoder.BeginStruct, Encoder.StructField, Encoder.EndStruct, h]
  · simp [Encoder.End, h]

/-- C4: for every encoder state whose stored error is set, each write operation
(`Nil`, `Bool`, `Byte`, `Int32`, `Int64`, `Uint32`, `Uint64`, `U128`, `U256`,
`Float32`, `Float64`, `Bytes`, `String`, `BeginList`, `Element`, `EndList`,
`BeginMessage`, `Field`, `EndMessage`, `BeginStruct`, `StructField`, `EndStruct`)
returns exactly the stored error and leaves the whole state (buffer, data
cursor, object, element and field stacks, stored error) unchanged, and `End`
returns no bytes together with the stored error, also without changing the
state. -/
theorem C4_poisoned_calls_are_noops (c : Codec) (e : Encoder) (err : EncodeError)
    (h : e.err = some err) :
    (∀ call : Call, e.call c call = some (e, some err)) ∧
    e.End = some (e, [], some err) :=
  poisoned_noop c e err h

/-- C4 at a poisoned encoder with an open list and an outstanding value. -/
theorem C4_poisoned_calls_are_noops_witness :
    (∀ call : Call,
      poisonedState.call sampleCodec call
        = some (poisonedState, some EncodeError.elementNotList)) ∧
    poisonedState.End = some (poisonedState, [], some EncodeError.elementNotList) :=
  C4_poisoned_calls_are_noops sampleCodec poisonedState EncodeError.elementNotList rfl

theorem fail_unpoisoned (e : Encoder) (err : EncodeError) (h : e.err = none) :
    e.fail err = ({ e with err := some err }, some err) := by
  simp [Encoder.fail, h]

theorem setDataOrFail_outstanding (e : Encoder) (start end_ : Int) (h : e.err = none)
    (hd : e.data.start ≠ 0 ∨ e.data.end_ ≠ 0) :
    e.setDataOrFail start end_
      = ({ e with err := some EncodeError.dataNotConsumed },
          some EncodeError.dataNotConsumed) := by
  simp [Encoder.setDataOrFail, Encoder.setData, hd, Encoder.fail, h]

theorem writeValue_outstanding (e : Encoder) (encode : List Nat → List Nat)
    (herr : e.err = none) (hdata : e.data.start ≠ 0 ∨ e.data.end_ ≠ 0) :
    e.writeValue encode
      = ({ e with buf := encode e.buf, err := some EncodeError.dataNotConsumed },
          some EncodeError.dataNotConsumed) := by
  simp only [Encoder.writeValue, herr]
  exact setDataOrFail_outstanding _ _ _ rfl hdata

theorem writeFallible_outstanding (e : Encoder)
    (encode : List Nat → List Nat × Option EncodeError)
    (herr : e.err = none) (hdata : e.data.start ≠ 0 ∨ e.data.end_ ≠ 0) :
    ∃ err : EncodeError,
      e.writeFallible encode
        = ({ e with buf := (encode e.buf).1, err := some err }, some err) := by
  cases hres : (encode e.buf).2 with
  | some err =>
    refine ⟨err, ?_⟩
    simp only [Encoder.writeFallible, herr, hres]
    exact fail_unpoisoned _ _ rfl
  | none =>
    refine ⟨EncodeError.dataNotConsumed, ?_⟩
    simp only [Encoder.writeFallible, herr, hres]
    exact setDataOrFail_outstanding _ _ _ rfl hdata

/-- A result that stores the error it returns. -/
theorem stored_of_eq (r : Encoder × Option EncodeError) (e0 : Encoder) (err : EncodeError)
    (h : r = ({ e0 with err := some err }, some err)) :
    ∃ (e' : Encoder) (err' : EncodeError), some r = some (e', some err') ∧ e'.err = some err' := by
  subst h
  exact ⟨_, _, rfl, rfl⟩

/-- C6: for every unpoisoned encoder state in which a written value is still
outstanding (the data cursor is not `(0, 0)`), every primitive write (`Nil`,
`Bool`, `Byte`, `Int32`, `Int64`, `Uint32`, `Uint64`, `U128`, `U256`, `Float32`,
`Float64`, `Bytes`, `String`) returns a non-nil error and records that error as
the stored error of the encoder. -/
theorem C6_outstanding_value_rejects_write (c : Codec) (e : Encoder) (call : Call)
    (herr : e.err = none) (hdata : e.data.start ≠ 0 ∨ e.data.end_ ≠ 0)
    (hprim : call.isPrimitive = true) :
    ∃ (e' : Encoder) (err : EncodeError),
      e.call c call = some (e', some err) ∧ e'.err = some err := by
  have hv := fun encode : List Nat → List Nat =>
    stored_of_eq _ { e with buf := encode e.buf } _ (writeValue_outstanding e encode herr hdata)
  have hf : ∀ encode : List Nat → List Nat × Option EncodeError,
      ∃ (e' : Encoder) (err' : EncodeError),
        some (e.writeFallible encode) = some (e', some err') ∧ e'.err = some err' := by
    intro encode
    obtain ⟨err, h⟩ := writeFallible_outstanding e encode herr hdata
    exact stored_of_eq _ { e with buf := (encode e.buf).1 } _ h
  cases call <;> simp [Call.isPrimitive] at hprim
  case nil => exact hv c.EncodeNil
  case bool v => exact hv (fun buf => c.EncodeBool buf v)
  case byte v => exact hv (fun buf => c.EncodeByte buf v)
  case int32 v => exact hv (fun buf => c.EncodeInt32 buf v)
  case int64 v => exact hv (fun buf => c.EncodeInt64 buf v)
  case uint32 v => exact hv (fun buf => c.EncodeUint32 buf v)
  case uint64 v => exact hv (fun buf => c.EncodeUint64 buf v)
  case u128 v => exact hv (fun buf => c.EncodeU128 buf v)
  case u256 v => exact hv (fun buf => c.EncodeU256 buf v)
  case float32 v => exact hv (fun buf => c.EncodeFloat32 buf v)
  case float64 v => exact hv (fun buf => c.EncodeFloat64 buf v)
  case bytes v => exact hf (fun buf => c.EncodeBytes buf v)
  case string v => exact hf (fun buf => c.EncodeString buf v)

/-- C6 at the state after `Nil` on a fresh encoder, with a second `Nil`. -/
theorem C6_outstanding_value_rejects_write_witness :
    ∃ (e' : Encoder) (err : EncodeError),
      outstandingState.call sampleCodec Call.nil = some (e', some err) ∧ e'.err = some err :=
  C6_outstanding_value_rejects_write sampleCodec outstandingState Call.nil rfl (by decide) rfl

/-- A failing call on an unpoisoned encoder stores the error it returns. -/
theorem fail_stores (e : Encoder) (err : EncodeError) (h : e.err = none) :
    ∃ (e' : Encoder) (err' : EncodeError),
      some (e.fail err) = some (e', some err') ∧ e'.err = some err' :=
  stored_of_eq _ e _ (fail_unpoisoned e err h)

/-- C9: for every unpoisoned encoder state, each of `Element`, `EndList`
(required kind list), `Field`, `EndMessage` (required kind message),
`StructField` and `EndStruct` (required kind struct) returns a non-nil error and
records it as the stored error whenever the object stack is empty or its top
object is of a different kind. -/
theorem C9_wrong_kind_rejected (c : Codec) (e : Encoder) (call : Call) (kind : objectType)
    (herr : e.err = none) (hkind : call.requiredKind = some kind)
    (htop : ∀ o : objectEntry, e.objects.peek = some o → o.type_ ≠ kind) :
    ∃ (e' : Encoder) (err : EncodeError),
      e.call c call = some (e', some err) ∧ e'.err = some err := by
  have hpop : e.objects.pop.2 = e.objects.peek := rfl
  cases call <;> simp [Call.requiredKind] at hkind <;> subst hkind
  case element =>
    have h : e.Element = e.fail EncodeError.elementNotList := by
      cases hp : e.objects.peek with
      | none => simp [Encoder.Element, herr, hp]
      | some o => simp [Encoder.Element, herr, hp, htop o hp]
    simp only [Encoder.call, h]
    exact fail_stores e _ herr
  case endList =>
    have h : e.EndList c
        = some (Encoder.fail { e with objects := e.objects.pop.1 }
            EncodeError.endListNotList) := by
      cases hp : e.objects.peek with
      | none => simp [Encoder.EndList, herr, hpop, hp]
      | some o => simp [Encoder.EndList, herr, hpop, hp, htop o hp]
    simp only [Encoder.call, h]
    exact fail_stores _ _ herr
  case field tag =>
    have h : e.Field tag = some (e.fail EncodeError.fieldNotMessage) := by
      cases hp : e.objects.peek with
      | none => simp [Encoder.Field, herr, hp]
      | some o => simp [Encoder.Field, herr, hp, htop o hp]
    simp only [Encoder.call, h]
    exact fail_stores e _ herr
  case endMessage =>
    have h : e.EndMessage c
        = some (Encoder.fail { e with objects := e.objects.pop.1 }
            EncodeError.endMessageNotMessage) := by
      cases hp : e.objects.peek with
      | none => simp [Encoder.EndMessage, herr, hpop, hp]
      | some o => simp [Encoder.EndMessage, herr, hpop, hp, htop o hp]
    simp only [Encoder.call, h]
    exact fail_stores _ _ herr
  case structField =>
    have h : e.StructField = e.fail EncodeError.structFieldNotStruct := by
      cases hp : e.objects.peek with
      | none => simp [Encoder.StructField, herr, hp]
      | some o => simp [Encoder.StructField, herr, hp, htop o hp]
    simp only [Encoder.call, h]
    exact fail_stores e _ herr
  case endStruct =>
    have h : e.EndStruct c
        = Encoder.fail { e with objects := e.objects.pop.1 }
            EncodeError.endStructNotStruct := by
      cases hp : e.objects.peek with
      | none => simp [Encoder.EndStruct, herr, hpop, hp]
      | some o => simp [Encoder.EndStruct, herr, hpop, hp, htop o hp]
    simp only [Encoder.call, h]
    exact fail_stores _ _ herr

/-- C9 at `Element` with a message on top of the object stack. -/
theorem C9_wrong_kind_rejected_witness :
    ∃ (e' : Encoder) (err : EncodeError),
      messageOnTopState.call sampleCodec Call.element = some (e', some err) ∧
        e'.err = some err :=
  C9_wrong_kind_rejected sampleCodec messageOnTopState Call.element objectTypeList rfl rfl
    (by decide)

theorem end_unpoisoned_closed (e : Encoder) (herr : e.err = none)
    (hobj : ¬ e.objects.len > 0) :
    e.End = (sliceRange e.buf e.data.start e.data.end_).map
      (fun b => (e.Reset, b, none)) := by
  simp only [Encoder.End, herr, if_neg hobj, Encoder.popData]
  cases sliceRange e.buf e.data.start e.data.end_ <;> rfl

/-- C10: for every encoder state, `End` fails if and only if the stored error is
set or the object stack is non-empty, and a failing `End` returns no bytes and
changes nothing; otherwise `End` returns exactly `buf[data.start : data.end]`
(the empty slice when nothing is outstanding, for example on a fresh encoder)
and leaves the encoder in the reset state: buffer nil, stored error nil, data
cursor empty, object, element and field stacks all of length 0. -/
theorem C10_end_result (e : Encoder) :
    ((∃ (e' : Encoder) (b : List Nat) (err : EncodeError), e.End = some (e', b, some err)) ↔
      (e.err ≠ none ∨ e.objects.len > 0)) ∧
    (∀ (e' : Encoder) (b : List Nat) (err : EncodeError),
      e.End = some (e', b, some err) → e' = e ∧ b = []) ∧
    (e.err = none → ¬ e.objects.len > 0 →
      ∀ b : List Nat, sliceRange e.buf e.data.start e.data.end_ = some b →
        e.End = some (e.Reset, b, none) ∧
        e.Reset.buf = [] ∧ e.Reset.err = none ∧ e.Reset.data = ⟨0, 0⟩ ∧
        e.Reset.objects.len = 0 ∧ e.Reset.elements.stack.length = 0 ∧
        e.Reset.fields.stack.length = 0) ∧
    (e.err = none → ¬ e.objects.len > 0 → e.data = ⟨0, 0⟩ →
      e.End = some (e.Reset, [], none)) ∧
    newEncoder.End = some (newEncoder, [], none) := by
  refine ⟨?_, ?_, ?_, ?_, by decide⟩
  · constructor
    · rintro ⟨e', b, err, h⟩
      by_contra hcon
      have h1 : e.err = none := by
        by_contra h1; exact hcon (Or.inl h1)
      have h2 : ¬ e.objects.len > 0 := fun h2 => hcon (Or.inr h2)
      rw [end_unpoisoned_closed e h1 h2] at h
      cases hs : sliceRange e.buf e.data.start e.data.end_ <;> simp [hs] at h
    · intro h
      cases herr : e.err with
      | some err => exact ⟨e, [], err, by simp [Encoder.End, herr]⟩
      | none =>
        have hobj : e.objects.len > 0 := by
          rcases h with h | h
          · exact absurd herr h
          · exact h
        exact ⟨e, [], EncodeError.endIncompleteObject e.objects.len.toNat,
          by simp only [Encoder.End, herr, if_pos hobj]⟩
  · intro e' b err h
    cases herr : e.err with
    | some err0 =>
      simp only [Encoder.End, herr, Option.some.injEq, Prod.mk.injEq] at h
      exact ⟨h.1.symm, h.2.1.symm⟩
    | none =>
      by_cases hobj : e.objects.len > 0
      · simp only [Encoder.End, herr, if_pos hobj, Option.some.injEq, Prod.mk.injEq] at h
        exact ⟨h.1.symm, h.2.1.symm⟩
      · rw [end_unpoisoned_closed e herr hobj] at h
        cases hs : sliceRange e.buf e.data.start e.data.end_ <;> simp [hs] at h
  · intro herr hobj b hb
    refine ⟨?_, rfl, rfl, rfl, rfl, rfl, rfl⟩
    rw [end_unpoisoned_closed e herr hobj, hb]; rfl
  · intro herr hobj hdata
    have hb : sliceRange e.buf e.data.start e.data.end_ = some [] := by
      rw [hdata]
      simp [sliceRange]
    rw [end_unpoisoned_closed e herr hobj, hb]; rfl

/-- C10 at the state after `Nil` on a fresh encoder: `End` returns the byte
`[0]` and resets the encoder. -/
theorem C10_end_result_witness :
    outstandingState.End = some (outstandingState.Reset, [0], none) ∧
    outstandingState.Reset.buf = [] ∧ outstandingState.Reset.err = none ∧
    outstandingState.Reset.data = ⟨0, 0⟩ ∧
    outstandingState.Reset.objects.len = 0 ∧
    outstandingState.Reset.elements.stack.length = 0 ∧
    outstandingState.Reset.fields.stack.length = 0 :=
  (C10_end_result outstandingState).2.2.1 rfl (by decide) [0] (by decide)

/-! ## Theorems: `Field` and `Element` without checks -/

/-- Two adjacent in-range entries split the table around them. -/
theorem split_at_pair {α : Type} (table : List α) (k : Nat) (l x : α)
    (h1 : table[k]? = some l) (h2 : table[k + 1]? = some x) :
    ∃ init post : List α, table = init ++ l :: x :: post ∧ init.length = k := by
  have hk1 : k + 1 < table.length := by
    by_contra hcon
    rw [List.getElem?_eq_none (by omega)] at h2
    exact Option.noConfusion h2
  have hk : k < table.length := by omega
  have e1 : table[k] = l := by
    rw [List.getElem?_eq_getElem hk] at h1; exact Option.some.inj h1
  have e2 : table[k + 1] = x := by
    rw [List.getElem?_eq_getElem hk1] at h2; exact Option.some.inj h2
  refine ⟨table.take k, table.drop (k + 2), ?_, ?_⟩
  · have d1 : table.drop k = table[k] :: table.drop (k + 1) := List.drop_eq_getElem_cons hk
    have d2 : table.drop (k + 1) = table[k + 1] :: table.drop (k + 2) :=
      List.drop_eq_getElem_cons hk1
    calc table = table.take k ++ table.drop k := (List.take_append_drop k table).symm
      _ = table.take k ++ l :: x :: table.drop (k + 2) := by rw [d1, d2, e1, e2]
  · rw [List.length_take]; omega

/-- The loop of `insert` only reorders the table. -/
theorem insertLoop_perm : ∀ (k : Nat) (table : List messageField),
    (insertLoop table k).Perm table := by
  intro k
  induction k with
  | zero => intro table; exact List.Perm.refl _
  | succ k ih =>
    intro table
    rw [insertLoop]
    cases h1 : table[k]? with
    | none => exact List.Perm.refl _
    | some l =>
      cases h2 : table[k + 1]? with
      | none => exact List.Perm.refl _
      | some x =>
        simp only []
        by_cases hlt : l.tag < x.tag
        · rw [if_pos hlt]
        · rw [if_neg hlt]
          obtain ⟨init, post, rfl, hlen⟩ := split_at_pair table k l x h1 h2
          subst hlen
          refine (ih _).trans ?_
          rw [set_length_append, set_length_succ_append]
          exact List.Perm.append_left init (List.Perm.swap l x post)

/-- The call `insert` with an in-range offset: the stack below the offset is kept and the
table is the old table with the new field, reordered by the loop. -/
theorem insert_in_range (s : messageStack) (offset : Int) (f : messageField)
    (table : List messageField) (h : sliceFrom s.stack offset = some table) :
    s.insert offset f
      = some ⟨s.stack.take offset.toNat ++ insertLoop (table ++ [f]) table.length⟩ ∧
    (offset.toNat : Int) = offset ∧ offset.toNat ≤ s.stack.length ∧
    table = s.stack.drop offset.toNat := by
  unfold sliceFrom at h
  by_cases hr : 0 ≤ offset ∧ offset ≤ (s.stack.length : Int)
  · rw [if_pos hr] at h
    have htab : table = s.stack.drop offset.toNat := (Option.some.inj h).symm
    have hn : offset.toNat ≤ s.stack.length := by omega
    have hslice : sliceFrom (s.stack ++ [f]) offset = some (table ++ [f]) := by
      unfold sliceFrom
      rw [if_pos (by rw [List.length_append]; constructor <;> [omega; (push_cast; omega)])]
      rw [htab, List.drop_append_of_le_length hn]
    refine ⟨?_, by omega, hn, htab⟩
    simp only [messageStack.insert, hslice]
    rw [List.take_append_of_le_length hn]
    simp
  · rw [if_neg hr] at h
    exact Option.noConfusion h

/-- The call `Field` on an unpoisoned encoder with a message on top always succeeds: it
clears the data cursor and adds the field to the table of that message. -/
theorem field_accepts (e : Encoder) (tag : Nat) (m : objectEntry)
    (table : List messageField)
    (herr : e.err = none) (hp : e.objects.peek = some m) (hm : m.type_ = objectTypeMessage)
    (htab : sliceFrom e.fields.stack m.tableStart = some table) :
    ∃ table' : List messageField,
      e.Field tag
        = some ({ e with data := ⟨0, 0⟩,
                         fields := ⟨e.fields.stack.take m.tableStart.toNat ++ table'⟩ },
                none) ∧
      sliceFrom (e.fields.stack.take m.tableStart.toNat ++ table') m.tableStart
        = some table' ∧
      table'.Perm (⟨tag, ((e.data.end_ - m.start) % 2 ^ 32).toNat⟩ :: table) := by
  obtain ⟨hins, hoff, hn, _⟩ := insert_in_range e.fields m.tableStart
    ⟨tag, ((e.data.end_ - m.start) % 2 ^ 32).toNat⟩ table htab
  refine ⟨insertLoop (table ++ [⟨tag, ((e.data.end_ - m.start) % 2 ^ 32).toNat⟩])
    table.length, ?_, ?_, ?_⟩
  · have hne : ¬ (m.type_ ≠ objectTypeMessage) := by simp [hm]
    simp only [Encoder.Field, herr, hp, if_neg hne, Encoder.popData, hins]
  · have hlen : ((e.fields.stack.take m.tableStart.toNat).length : Int) = m.tableStart := by
      rw [List.length_take, Nat.min_eq_left hn]; exact hoff
    have := sliceFrom_length_append (e.fields.stack.take m.tableStart.toNat)
      (insertLoop (table ++ [⟨tag, ((e.data.end_ - m.start) % 2 ^ 32).toNat⟩]) table.length)
    rw [hlen] at this
    exact this
  · refine (insertLoop_perm _ _).trans ?_
    exact List.perm_append_singleton _ _

/-- C7 (counterexample): after `BeginMessage`, `Bool(true)`, `Field(1)`,
`Bool(false)` the message on top holds tag 1; `Field(1)` then returns nil, the
encoder stays unpoisoned and the table holds two entries with tag 1. -/
theorem C7_duplicate_tag_counterexample :
    Encoder.run sampleCodec newEncoder
        [Call.beginMessage, Call.bool true, Call.field 1, Call.bool false]
      = some duplicateTagState ∧
    duplicateTagState.Field 1
      = some ({ duplicateTagState with data := ⟨0, 0⟩, fields := ⟨[⟨1, 2⟩, ⟨1, 1⟩]⟩ }, none) ∧
    ¬ ∃ (e' : Encoder) (err : EncodeError),
        duplicateTagState.Field 1 = some (e', some err) := by
  refine ⟨by decide, by decide, ?_⟩
  rintro ⟨e', err, h⟩
  have h2 : duplicateTagState.Field 1
      = some ({ duplicateTagState with data := ⟨0, 0⟩, fields := ⟨[⟨1, 2⟩, ⟨1, 1⟩]⟩ }, none) := by
    decide
  rw [h2] at h
  simp at h

/-- C7 (amended): for every unpoisoned encoder whose top object is a message that
already holds a field with tag `tag`, `Field(tag)` succeeds: it returns nil, the
encoder stays unpoisoned, the data cursor is cleared, and the table of the
message becomes a reordering of the old table plus the new entry
`(tag, uint32(data.end - start))`, so it holds at least two entries with that
tag. -/
theorem C7_duplicate_tag_accepted (e : Encoder) (tag : Nat) (m : objectEntry)
    (table : List messageField)
    (herr : e.err = none) (hp : e.objects.peek = some m) (hm : m.type_ = objectTypeMessage)
    (htab : sliceFrom e.fields.stack m.tableStart = some table)
    (hdup : ∃ g ∈ table, g.tag = tag) :
    ∃ (e' : Encoder) (table' : List messageField),
      e.Field tag = some (e', none) ∧ e'.err = none ∧ e'.data = ⟨0, 0⟩ ∧
      e'.buf = e.buf ∧ e'.objects = e.objects ∧ e'.elements = e.elements ∧
      sliceFrom e'.fields.stack m.tableStart = some table' ∧
      table'.Perm (⟨tag, ((e.data.end_ - m.start) % 2 ^ 32).toNat⟩ :: table) ∧
      2 ≤ table'.countP (fun g => decide (g.tag = tag)) := by
  obtain ⟨table', h1, h2, h3⟩ := field_accepts e tag m table herr hp hm htab
  refine ⟨_, table', h1, herr, rfl, rfl, rfl, rfl, h2, h3, ?_⟩
  rw [h3.countP_eq, List.countP_cons_of_pos _ _ (by simp)]
  have : 0 < table.countP (fun g => decide (g.tag = tag)) := by
    obtain ⟨g, hg, hgt⟩ := hdup
    exact List.countP_pos_iff.2 ⟨g, hg, by simp [hgt]⟩
  omega

/-- C7 (amended) at the state after `BeginMessage`, `Bool(true)`, `Field(1)`,
`Bool(false)`, with `Field(1)` again. -/
theorem C7_duplicate_tag_accepted_witness :
    ∃ (e' : Encoder) (table' : List messageField),
      duplicateTagState.Field 1 = some (e', none) ∧ e'.err = none ∧ e'.data = ⟨0, 0⟩ ∧
      e'.buf = duplicateTagState.buf ∧ e'.objects = duplicateTagState.objects ∧
      e'.elements = duplicateTagState.elements ∧
      sliceFrom e'.fields.stack 0 = some table' ∧
      table'.Perm (⟨1, ((2 - 0) % 2 ^ 32 : Int).toNat⟩ :: [⟨1, 1⟩]) ∧
      2 ≤ table'.countP (fun g => decide (g.tag = 1)) :=
  C7_duplicate_tag_accepted duplicateTagState 1 ⟨objectTypeMessage, 0, 0⟩ [⟨1, 1⟩]
    rfl rfl rfl (by decide) ⟨⟨1, 1⟩, by decide, rfl⟩

/-- C8 (counterexample): with a list on top and an empty data cursor `Element`
returns nil and pushes the entry `uint32(0 - 1) = 4294967295`; with a message on
top and an empty data cursor `Field(7)` returns nil and pushes the entry
`(7, 0)`. Both states are reached from a fresh encoder. -/
theorem C8_empty_cursor_counterexample :
    Encoder.run sampleCodec newEncoder
        [Call.beginList, Call.nil, Call.element, Call.beginList]
      = some emptyCursorListState ∧
    emptyCursorListState.Element
      = ({ emptyCursorListState with elements := ⟨[⟨1⟩, ⟨4294967295⟩]⟩ }, none) ∧
    Encoder.run sampleCodec newEncoder [Call.beginMessage] = some emptyCursorMessageState ∧
    emptyCursorMessageState.Field 7
      = some ({ emptyCursorMessageState with fields := ⟨[⟨7, 0⟩]⟩ }, none) := by
  refine ⟨by decide, by decide, by decide, by decide⟩

/-- C8 (amended): `Element` and `Field` do not check for an outstanding value.
For every unpoisoned encoder state whose top object `o` has the right kind and
whose data cursor is empty, `Element` (resp. `Field`) returns nil, leaves the
encoder unpoisoned and pushes exactly one table entry, with the offset
`uint32(0 - o.start)`. -/
theorem C8_empty_cursor_accepted (e : Encoder) (o : objectEntry)
    (herr : e.err = none) (hp : e.objects.peek = some o) (hdata : e.data = ⟨0, 0⟩) :
    (o.type_ = objectTypeList →
      e.Element
        = ({ e with elements := ⟨e.elements.stack ++ [⟨((0 - o.start) % 2 ^ 32).toNat⟩]⟩ },
            none)) ∧
    (o.type_ = objectTypeMessage →
      ∀ (tag : Nat) (table : List messageField),
        sliceFrom e.fields.stack o.tableStart = some table →
        ∃ (e' : Encoder) (table' : List messageField),
          e.Field tag = some (e', none) ∧ e'.err = none ∧
          e'.fields.stack.length = e.fields.stack.length + 1 ∧
          sliceFrom e'.fields.stack o.tableStart = some table' ∧
          table'.Perm (⟨tag, ((0 - o.start) % 2 ^ 32).toNat⟩ :: table)) := by
  have hend : e.data.end_ = 0 := by rw [hdata]
  constructor
  · intro hk
    have hne : ¬ (o.type_ ≠ objectTypeList) := by simp [hk]
    simp only [Encoder.Element, herr, hp, if_neg hne, Encoder.popData, listStack.push, hend]
    rw [← hdata]
  · intro hk tag table htab
    obtain ⟨table', h1, h2, h3⟩ := field_accepts e tag o table herr hp hk htab
    rw [hend] at h3
    obtain ⟨_, _, hn, hdrop⟩ := insert_in_range e.fields o.tableStart ⟨tag, 0⟩ table htab
    refine ⟨_, table', h1, herr, ?_, h2, h3⟩
    have hl := h3.length_eq
    simp only [List.length_append, List.length_take, List.length_cons, Nat.min_eq_left hn, hl]
    rw [hdrop, List.length_drop]
    omega

/-- C8 (amended) at the state after `BeginList`, `Nil`, `Element`, `BeginList`:
`Element` pushes the offset `uint32(0 - 1)`. -/
theorem C8_empty_cursor_accepted_witness :
    emptyCursorListState.Element
      = ({ emptyCursorListState with
            elements := ⟨emptyCursorListState.elements.stack
              ++ [⟨((0 - 1) % 2 ^ 32 : Int).toNat⟩]⟩ }, none) :=
  (C8_empty_cursor_accepted emptyCursorListState ⟨objectTypeList, 1, 1⟩ rfl rfl rfl).1 rfl

/-- C5 (the failing input): after `BeginList` on a fresh encoder, `End` returns
the incomplete-object error without storing it: the state is unchanged and
unpoisoned, the next call `Nil` returns nil, and after `Element` and `EndList`
a second `End` returns bytes and no error. -/
theorem C5_end_error_not_stored :
    newEncoder.BeginList = (openListState, none) ∧
    openListState.End
      = some (openListState, [], some (EncodeError.endIncompleteObject 1)) ∧
    openListState.err = none ∧
    (openListState.call sampleCodec Call.nil).map Prod.snd = some none ∧
    (Encoder.run sampleCodec openListState [Call.nil, Call.element, Call.endList]).bind
        (fun e => e.End)
      = some (newEncoder, [0, 0, 0, 0, 1, 1, 4, 32], none) := by
  refine ⟨by decide, by decide, rfl, by decide, by decide⟩

/-- A write call that returns an error on an unpoisoned encoder stores it. -/
theorem call_error_is_stored (c : Codec) (e e' : Encoder) (call : Call) (err : EncodeError)
    (herr : e.err = none) (h : e.call c call = some (e', some err)) :
    e'.err = some err := by
  have hfail : ∀ (e0 : Encoder) (x : EncodeError) (r : Encoder × Option EncodeError),
      e0.err = none → e0.fail x = r → r.2 = some err → r.1.err = some err := by
    intro e0 x r h0 hr h2
    rw [fail_unpoisoned e0 x h0] at hr
    subst hr
    exact h2
  have hset : ∀ (e0 : Encoder) (a b : Int) (r : Encoder × Option EncodeError),
      e0.err = none → e0.setDataOrFail a b = r → r.2 = some err → r.1.err = some err := by
    intro e0 a b r h0 hr h2
    unfold Encoder.setDataOrFail Encoder.setData at hr
    by_cases hd : e0.data.start ≠ 0 ∨ e0.data.end_ ≠ 0
    · rw [if_pos hd] at hr
      exact hfail e0 _ r h0 hr h2
    · rw [if_neg hd] at hr
      subst hr
      exact absurd h2 (by simp)
  have hv : ∀ encode : List Nat → List Nat,
      some (e.writeValue encode) = some (e', some err) → e'.err = some err := by
    intro encode hw
    have hw' := Option.some.inj hw
    simp only [Encoder.writeValue, herr] at hw'
    have := hset _ _ _ _ rfl hw' rfl
    exact this
  have hf : ∀ encode : List Nat → List Nat × Option EncodeError,
      some (e.writeFallible encode) = some (e', some err) → e'.err = some err := by
    intro encode hw
    have hw' := Option.some.inj hw
    simp only [Encoder.writeFallible, herr] at hw'
    cases hres : (encode e.buf).2 with
    | some x =>
      rw [hres] at hw'
      exact hfail _ _ _ rfl hw' rfl
    | none =>
      rw [hres] at hw'
      exact hset _ _ _ _ rfl hw' rfl
  cases call
  case nil => exact hv _ h
  case bool v => exact hv _ h
  case byte v => exact hv _ h
  case int32 v => exact hv _ h
  case int64 v => exact hv _ h
  case uint32 v => exact hv _ h
  case uint64 v => exact hv _ h
  case u128 v => exact hv _ h
  case u256 v => exact hv _ h
  case float32 v => exact hv _ h
  case float64 v => exact hv _ h
  case bytes v => exact hf _ h
  case string v => exact hf _ h
  case beginList => simp [Encoder.call, Encoder.BeginList, herr] at h
  case beginMessage => simp [Encoder.call, Encoder.BeginMessage, herr] at h
  case beginStruct => simp [Encoder.call, Encoder.BeginStruct, herr] at h
  case element =>
    have h' := Option.some.inj h
    simp only [Encoder.Element, herr] at h'
    cases hp : e.objects.peek with
    | none => rw [hp] at h'; exact hfail _ _ _ herr h' rfl
    | some o =>
      rw [hp] at h'
      by_cases hk : o.type_ ≠ objectTypeList
      · simp only [if_pos hk] at h'; exact hfail _ _ _ herr h' rfl
      · simp [if_neg hk, Encoder.popData] at h'
  case structField =>
    have h' := Option.some.inj h
    simp only [Encoder.StructField, herr] at h'
    cases hp : e.objects.peek with
    | none => rw [hp] at h'; exact hfail _ _ _ herr h' rfl
    | some o =>
      rw [hp] at h'
      by_cases hk : o.type_ ≠ objectTypeStruct
      · simp only [if_pos hk] at h'; exact hfail _ _ _ herr h' rfl
      · simp [if_neg hk] at h'
  case field tag =>
    simp only [Encoder.call, Encoder.Field, herr] at h
    cases hp : e.objects.peek with
    | none => rw [hp] at h; exact hfail _ _ _ herr (Option.some.inj h) rfl
    | some o =>
      rw [hp] at h
      by_cases hk : o.type_ ≠ objectTypeMessage
      · simp only [if_pos hk] at h; exact hfail _ _ _ herr (Option.some.inj h) rfl
      · simp only [if_neg hk, Encoder.popData] at h
        split at h <;> simp at h
  case endStruct =>
    have h' := Option.some.inj h
    simp only [Encoder.EndStruct, herr] at h'
    cases hp : e.objects.pop.2 with
    | none => rw [hp] at h'; exact hfail _ _ _ rfl h' rfl
    | some o =>
      rw [hp] at h'
      by_cases hk : o.type_ ≠ objectTypeStruct
      · simp only [if_pos hk] at h'; exact hfail _ _ _ rfl h' rfl
      · simp only [if_neg hk] at h'
        cases hres : (c.encodeStruct e.buf ((e.buf.length : Int) - o.start)).2 with
        | some x => rw [hres] at h'; exact hfail _ _ _ rfl h' rfl
        | none => rw [hres] at h'; exact hset _ _ _ _ rfl h' rfl
  case endList =>
    simp only [Encoder.call, Encoder.EndList, herr] at h
    cases hp : e.objects.pop.2 with
    | none => rw [hp] at h; exact hfail _ _ _ rfl (Option.some.inj h) rfl
    | some o =>
      rw [hp] at h
      by_cases hk : o.type_ ≠ objectTypeList
      · simp only [if_pos hk] at h; exact hfail _ _ _ rfl (Option.some.inj h) rfl
      · simp only [if_neg hk] at h
        cases hpop : e.elements.pop o.tableStart with
        | none => rw [hpop] at h; exact Option.noConfusion h
        | some r =>
          obtain ⟨els, table⟩ := r
          rw [hpop] at h
          simp only [] at h
          cases hres : (c.encodeListMeta e.buf ((e.buf.length : Int) - o.start) table).2 with
          | some x => rw [hres] at h; exact hfail _ _ _ rfl (Option.some.inj h) rfl
          | none => rw [hres] at h; exact hset _ _ _ _ rfl (Option.some.inj h) rfl
  case endMessage =>
    simp only [Encoder.call, Encoder.EndMessage, herr] at h
    cases hp : e.objects.pop.2 with
    | none => rw [hp] at h; exact hfail _ _ _ rfl (Option.some.inj h) rfl
    | some o =>
      rw [hp] at h
      by_cases hk : o.type_ ≠ objectTypeMessage
      · simp only [if_pos hk] at h; exact hfail _ _ _ rfl (Option.some.inj h) rfl
      · simp only [if_neg hk] at h
        cases hpop : e.fields.pop o.tableStart with
        | none => rw [hpop] at h; exact Option.noConfusion h
        | some r =>
          obtain ⟨fs, table⟩ := r
          rw [hpop] at h
          simp only [] at h
          cases hres : (c.encodeMessageMeta e.buf ((e.buf.length : Int) - o.start) table).2 with
          | some x => rw [hres] at h; exact hfail _ _ _ rfl (Option.some.inj h) rfl
          | none => rw [hres] at h; exact hset _ _ _ _ rfl (Option.some.inj h) rfl

/-- After a write call has returned an error on an unpoisoned encoder, every
further write call and `End` return that same error and change nothing. -/
theorem call_error_poisons (c : Codec) (e e' : Encoder) (call : Call) (err : EncodeError)
    (herr : e.err = none) (h : e.call c call = some (e', some err)) :
    (∀ next : Call, e'.call c next = some (e', some err)) ∧
    e'.End = some (e', [], some err) :=
  poisoned_noop c e' err (call_error_is_stored c e e' call err herr h)

/-! ## Theorems: committing and closing composites -/

theorem sampleBytes_extends (typeCode : Nat) (terminator buf v : List Nat) :
    Extends buf (sampleBytes typeCode terminator buf v).1 := by
  unfold sampleBytes
  by_cases h : v.length > 2 ^ 32 - 1
  · rw [if_pos h]; exact ⟨[], (List.append_nil buf).symm⟩
  · rw [if_neg h]; exact ⟨v ++ terminator ++ revVaruint 9 v.length ++ [typeCode], by simp⟩

/-- The codec instance that follows the wire grammar only appends. -/
theorem sampleCodec_appends : sampleCodec.Appends := by
  constructor
  case EncodeBytes => intro buf v; exact sampleBytes_extends _ _ _ _
  case EncodeString => intro buf v; exact sampleBytes_extends _ _ _ _
  all_goals
    intros
    simp only [sampleCodec, Extends, List.append_assoc]
    exact ⟨_, rfl⟩

theorem sliceFrom_in_range {α : Type} (s : List α) (lo : Int) (table : List α)
    (h : sliceFrom s lo = some table) :
    0 ≤ lo ∧ lo ≤ (s.length : Int) ∧ table = s.drop lo.toNat ∧
    sliceTo s lo = some (s.take lo.toNat) := by
  unfold sliceFrom at h
  by_cases hr : 0 ≤ lo ∧ lo ≤ (s.length : Int)
  · rw [if_pos hr] at h
    exact ⟨hr.1, hr.2, (Option.some.inj h).symm, by simp [sliceTo, hr]⟩
  · rw [if_neg hr] at h
    exact Option.noConfusion h

/-- C11: for every unpoisoned encoder state with data cursor `d` (in particular
one with an outstanding value) and top object `o`: if `o` is a list, `Element` appends exactly one entry with the
offset `uint32(d.end - o.start)` to the element stack; if `o` is a message (its
`tableStart` inside the field stack), `Field(tag)` adds exactly one entry
`(tag, uint32(d.end - o.start))` to the field-stack slice starting at
`o.tableStart` and leaves the stack below it alone; in both cases the data
cursor is cleared, nil is returned, and the buffer, the object stack and the
other table stack are unchanged. -/
theorem C11_element_field_commit (e : Encoder) (o : objectEntry)
    (herr : e.err = none) (hp : e.objects.peek = some o) :
    (o.type_ = objectTypeList →
      e.Element
        = ({ e with data := ⟨0, 0⟩,
                    elements :=
                      ⟨e.elements.stack ++ [⟨((e.data.end_ - o.start) % 2 ^ 32).toNat⟩]⟩ },
            none)) ∧
    (o.type_ = objectTypeMessage →
      ∀ (tag : Nat) (table : List messageField),
        sliceFrom e.fields.stack o.tableStart = some table →
        ∃ (e' : Encoder) (table' : List messageField),
          e.Field tag = some (e', none) ∧ e'.err = none ∧ e'.data = ⟨0, 0⟩ ∧
          e'.buf = e.buf ∧ e'.objects = e.objects ∧ e'.elements = e.elements ∧
          sliceTo e'.fields.stack o.tableStart = sliceTo e.fields.stack o.tableStart ∧
          sliceFrom e'.fields.stack o.tableStart = some table' ∧
          table'.Perm (⟨tag, ((e.data.end_ - o.start) % 2 ^ 32).toNat⟩ :: table) ∧
          table'.length = table.length + 1) := by
  constructor
  · intro hk
    have hne : ¬ (o.type_ ≠ objectTypeList) := by simp [hk]
    simp only [Encoder.Element, herr, hp, if_neg hne, Encoder.popData, listStack.push]
  · intro hk tag table htab
    obtain ⟨table', h1, h2, h3⟩ := field_accepts e tag o table herr hp hk htab
    obtain ⟨h0, hle, _, hto⟩ := sliceFrom_in_range _ _ _ htab
    refine ⟨_, table', h1, herr, rfl, rfl, rfl, rfl, ?_, h2, h3, ?_⟩
    · rw [hto]
      have hn : o.tableStart.toNat ≤ e.fields.stack.length := by omega
      have hlen : ((e.fields.stack.take o.tableStart.toNat).length : Int) = o.tableStart := by
        rw [List.length_take, Nat.min_eq_left hn]; omega
      have := sliceTo_length_append (e.fields.stack.take o.tableStart.toNat) table'
      rw [hlen] at this
      exact this
    · rw [h3.length_eq]; rfl

/-- C11 at the state after `BeginList`, `Nil` (`Element` pushes the offset 1)
and at the state after `BeginMessage`, `Bool(true)`, `Field(1)`, `Bool(false)`
(`Field(7)` adds the entry `(7, 2)`). -/
theorem C11_element_field_commit_witness :
    listValueState.Element
      = ({ listValueState with
            data := ⟨0, 0⟩,
            elements := ⟨listValueState.elements.stack
              ++ [⟨((listValueState.data.end_ - 0) % 2 ^ 32).toNat⟩]⟩ }, none) ∧
    ∃ (e' : Encoder) (table' : List messageField),
      duplicateTagState.Field 7 = some (e', none) ∧ e'.err = none ∧ e'.data = ⟨0, 0⟩ ∧
      e'.buf = duplicateTagState.buf ∧ e'.objects = duplicateTagState.objects ∧
      e'.elements = duplicateTagState.elements ∧
      sliceTo e'.fields.stack 0 = sliceTo duplicateTagState.fields.stack 0 ∧
      sliceFrom e'.fields.stack 0 = some table' ∧
      table'.Perm (⟨7, ((duplicateTagState.data.end_ - 0) % 2 ^ 32).toNat⟩ :: [⟨1, 1⟩]) ∧
      table'.length = [(⟨1, 1⟩ : messageField)].length + 1 :=
  ⟨(C11_element_field_commit listValueState ⟨objectTypeList, 0, 0⟩ rfl rfl).1 rfl,
   (C11_element_field_commit duplicateTagState ⟨objectTypeMessage, 0, 0⟩ rfl rfl).2 rfl
      7 [⟨1, 1⟩] (by decide)⟩

/-- The effect of `EndList` on an unpoisoned encoder whose top object is the
list `o`. -/
theorem endList_unfold (c : Codec) (e : Encoder) (o : objectEntry)
    (herr : e.err = none) (hp : e.objects.peek = some o) (hk : o.type_ = objectTypeList) :
    e.EndList c =
      match sliceFrom e.elements.stack o.tableStart with
      | none => none
      | some table =>
        match (c.encodeListMeta e.buf ((e.buf.length : Int) - o.start) table).2 with
        | some err =>
          some (Encoder.fail
            { e with buf := (c.encodeListMeta e.buf ((e.buf.length : Int) - o.start) table).1,
                     objects := e.objects.pop.1,
                     elements := ⟨e.elements.stack.take o.tableStart.toNat⟩ } err)
        | none =>
          some (Encoder.setDataOrFail
            { e with buf := (c.encodeListMeta e.buf ((e.buf.length : Int) - o.start) table).1,
                     objects := e.objects.pop.1,
                     elements := ⟨e.elements.stack.take o.tableStart.toNat⟩ }
            o.start
            ((c.encodeListMeta e.buf ((e.buf.length : Int) - o.start) table).1.length : Int)) := by
  have hpop : e.objects.pop.2 = some o := hp
  have hne : ¬ (o.type_ ≠ objectTypeList) := by simp [hk]
  simp only [Encoder.EndList, herr, hpop, if_neg hne, listStack.pop]
  cases hs : sliceFrom e.elements.stack o.tableStart with
  | none => rfl
  | some table =>
    obtain ⟨_, _, _, hto⟩ := sliceFrom_in_range _ _ _ hs
    simp only [hto]

/-- The effect of `EndMessage` on an unpoisoned encoder whose top object is the
message `o`. -/
theorem endMessage_unfold (c : Codec) (e : Encoder) (o : objectEntry)
    (herr : e.err = none) (hp : e.objects.peek = some o) (hk : o.type_ = objectTypeMessage) :
    e.EndMessage c =
      match sliceFrom e.fields.stack o.tableStart with
      | none => none
      | some table =>
        match (c.encodeMessageMeta e.buf ((e.buf.length : Int) - o.start) table).2 with
        | some err =>
          some (Encoder.fail
            { e with buf := (c.encodeMessageMeta e.buf ((e.buf.length : Int) - o.start) table).1,
                     objects := e.objects.pop.1,
                     fields := ⟨e.fields.stack.take o.tableStart.toNat⟩ } err)
        | none =>
          some (Encoder.setDataOrFail
            { e with buf := (c.encodeMessageMeta e.buf ((e.buf.length : Int) - o.start) table).1,
                     objects := e.objects.pop.1,
                     fields := ⟨e.fields.stack.take o.tableStart.toNat⟩ }
            o.start
            ((c.encodeMessageMeta e.buf ((e.buf.length : Int) - o.start) table).1.length
              : Int)) := by
  have hpop : e.objects.pop.2 = some o := hp
  have hne : ¬ (o.type_ ≠ objectTypeMessage) := by simp [hk]
  simp only [Encoder.EndMessage, herr, hpop, if_neg hne, messageStack.pop]
  cases hs : sliceFrom e.fields.stack o.tableStart with
  | none => rfl
  | some table =>
    obtain ⟨_, _, _, hto⟩ := sliceFrom_in_range _ _ _ hs
    simp only [hto]

/-- The effect of `EndStruct` on an unpoisoned encoder whose top object is the
struct `o`. -/
theorem endStruct_unfold (c : Codec) (e : Encoder) (o : objectEntry)
    (herr : e.err = none) (hp : e.objects.peek = some o) (hk : o.type_ = objectTypeStruct) :
    e.EndStruct c =
      match (c.encodeStruct e.buf ((e.buf.length : Int) - o.start)).2 with
      | some err =>
        Encoder.fail
          { e with buf := (c.encodeStruct e.buf ((e.buf.length : Int) - o.start)).1,
                   objects := e.objects.pop.1 } err
      | none =>
        Encoder.setDataOrFail
          { e with buf := (c.encodeStruct e.buf ((e.buf.length : Int) - o.start)).1,
                   objects := e.objects.pop.1 }
          o.start
          ((c.encodeStruct e.buf ((e.buf.length : Int) - o.start)).1.length : Int) := by
  have hpop : e.objects.pop.2 = some o := hp
  have hne : ¬ (o.type_ ≠ objectTypeStruct) := by simp [hk]
  simp only [Encoder.EndStruct, herr, hpop, if_neg hne]

/-- On an unpoisoned encoder with an empty cursor `setData` succeeds. -/
theorem setDataOrFail_empty (e : Encoder) (start end_ : Int) (hd : e.data = ⟨0, 0⟩) :
    e.setDataOrFail start end_ = ({ e with data := ⟨start, end_⟩ }, none) := by
  have h1 : e.data.start = 0 := by rw [hd]
  have h2 : e.data.end_ = 0 := by rw [hd]
  simp [Encoder.setDataOrFail, Encoder.setData, h1, h2]

/-- A failing step never returns nil. -/
theorem fail_ne_ok (e e' : Encoder) (err : EncodeError) : e.fail err ≠ (e', none) := by
  unfold Encoder.fail
  cases e.err <;> simp

/-- C12: for every unpoisoned encoder state with no outstanding value whose top
object is a list `o` (resp. a message `o`), a successful `EndList` (resp.
`EndMessage`) pops `o`, passes the body size `len(buf) - o.start` and the table
`elements.stack[o.tableStart:]` (resp. `fields.stack[o.tableStart:]`) in stored
order to the metadata encoder, truncates that stack to length `o.tableStart`,
takes the output of the metadata encoder as the new buffer (the old buffer is
a prefix of it when the encoders only append), and sets the data cursor to
`(o.start, len(new buf))`. The call is successful whenever `o.tableStart` lies
inside the stack and the metadata encoder reports no error. -/
theorem C12_end_composite (c : Codec) (e : Encoder) (o : objectEntry)
    (herr : e.err = none) (hdata : e.data = ⟨0, 0⟩) (hp : e.objects.peek = some o) :
    (o.type_ = objectTypeList → ∀ e' : Encoder, e.EndList c = some (e', none) →
      ∃ table : List listElement,
        sliceFrom e.elements.stack o.tableStart = some table ∧
        c.encodeListMeta e.buf ((e.buf.length : Int) - o.start) table = (e'.buf, none) ∧
        e.objects.pop = (e'.objects, some o) ∧
        e'.elements.stack = e.elements.stack.take o.tableStart.toNat ∧
        (e'.elements.stack.length : Int) = o.tableStart ∧
        e'.fields = e.fields ∧ e'.err = none ∧
        e'.data = ⟨o.start, (e'.buf.length : Int)⟩ ∧
        (c.Appends → Extends e.buf e'.buf)) ∧
    (o.type_ = objectTypeMessage → ∀ e' : Encoder, e.EndMessage c = some (e', none) →
      ∃ table : List messageField,
        sliceFrom e.fields.stack o.tableStart = some table ∧
        c.encodeMessageMeta e.buf ((e.buf.length : Int) - o.start) table = (e'.buf, none) ∧
        e.objects.pop = (e'.objects, some o) ∧
        e'.fields.stack = e.fields.stack.take o.tableStart.toNat ∧
        (e'.fields.stack.length : Int) = o.tableStart ∧
        e'.elements = e.elements ∧ e'.err = none ∧
        e'.data = ⟨o.start, (e'.buf.length : Int)⟩ ∧
        (c.Appends → Extends e.buf e'.buf)) ∧
    (o.type_ = objectTypeList → ∀ table : List listElement,
      sliceFrom e.elements.stack o.tableStart = some table →
      (c.encodeListMeta e.buf ((e.buf.length : Int) - o.start) table).2 = none →
      ∃ e' : Encoder, e.EndList c = some (e', none)) ∧
    (o.type_ = objectTypeMessage → ∀ table : List messageField,
      sliceFrom e.fields.stack o.tableStart = some table →
      (c.encodeMessageMeta e.buf ((e.buf.length : Int) - o.start) table).2 = none →
      ∃ e' : Encoder, e.EndMessage c = some (e', none)) := by
  have hpop : e.objects.pop = (e.objects.pop.1, some o) := by
    have h2 : e.objects.pop.2 = some o := hp
    rw [← h2]
  refine ⟨?_, ?_, ?_, ?_⟩
  · intro hk e' hres
    rw [endList_unfold c e o herr hp hk] at hres
    cases hs : sliceFrom e.elements.stack o.tableStart with
    | none => rw [hs] at hres; exact Option.noConfusion hres
    | some table =>
      rw [hs] at hres
      obtain ⟨h0, hle, _, _⟩ := sliceFrom_in_range _ _ _ hs
      cases henc : (c.encodeListMeta e.buf ((e.buf.length : Int) - o.start) table).2 with
      | some err =>
        simp only [henc] at hres
        exact absurd (Option.some.inj hres) (fail_ne_ok _ _ _)
      | none =>
        simp only [henc] at hres
        rw [setDataOrFail_empty] at hres
        case hd => exact hdata
        have he := (Prod.mk.inj (Option.some.inj hres)).1
        subst he
        refine ⟨table, rfl, ?_, hpop, rfl, ?_, rfl, herr, rfl, ?_⟩
        · exact Prod.ext rfl henc
        · simp only [List.length_take]; omega
        · intro happ; exact happ.encodeListMeta _ _ _
  · intro hk e' hres
    rw [endMessage_unfold c e o herr hp hk] at hres
    cases hs : sliceFrom e.fields.stack o.tableStart with
    | none => rw [hs] at hres; exact Option.noConfusion hres
    | some table =>
      rw [hs] at hres
      obtain ⟨h0, hle, _, _⟩ := sliceFrom_in_range _ _ _ hs
      cases henc : (c.encodeMessageMeta e.buf ((e.buf.length : Int) - o.start) table).2 with
      | some err =>
        simp only [henc] at hres
        exact absurd (Option.some.inj hres) (fail_ne_ok _ _ _)
      | none =>
        simp only [henc] at hres
        rw [setDataOrFail_empty] at hres
        case hd => exact hdata
        have he := (Prod.mk.inj (Option.some.inj hres)).1
        subst he
        refine ⟨table, rfl, ?_, hpop, rfl, ?_, rfl, herr, rfl, ?_⟩
        · exact Prod.ext rfl henc
        · simp only [List.length_take]; omega
        · intro happ; exact happ.encodeMessageMeta _ _ _
  · intro hk table hs henc
    rw [endList_unfold c e o herr hp hk, hs]
    simp only [henc]
    rw [setDataOrFail_empty]
    case hd => exact hdata
    exact ⟨_, rfl⟩
  · intro hk table hs henc
    rw [endMessage_unfold c e o herr hp hk, hs]
    simp only [henc]
    rw [setDataOrFail_empty]
    case hd => exact hdata
    exact ⟨_, rfl⟩

/-- C12 at the state after `BeginList`, `Nil`, `Element`: `EndList` passes the
body size 1 and the table `[1]`, empties both stacks and sets the cursor to
`(0, 8)`. -/
theorem C12_end_composite_witness :
    ∃ table : List listElement,
      sliceFrom listElementState.elements.stack 0 = some table ∧
      sampleCodec.encodeListMeta listElementState.buf
        ((listElementState.buf.length : Int) - 0) table = (listClosedState.buf, none) ∧
      listElementState.objects.pop = (listClosedState.objects, some ⟨objectTypeList, 0, 0⟩) ∧
      listClosedState.elements.stack = listElementState.elements.stack.take (0 : Int).toNat ∧
      (listClosedState.elements.stack.length : Int) = 0 ∧
      listClosedState.fields = listElementState.fields ∧ listClosedState.err = none ∧
      listClosedState.data = ⟨0, (listClosedState.buf.length : Int)⟩ ∧
      (sampleCodec.Appends → Extends listElementState.buf listClosedState.buf) :=
  (C12_end_composite sampleCodec listElementState ⟨objectTypeList, 0, 0⟩ rfl rfl rfl).1 rfl
    listClosedState (by decide)

/-- C13 (counterexample): after `BeginList`, `Nil` the value `[0]` is
outstanding; `EndList` then pops the list and appends the metadata, but returns
the error of `setData`, poisons the encoder and leaves the cursor at `(0, 1)`. -/
theorem C13_end_outstanding_counterexample :
    Encoder.run sampleCodec newEncoder [Call.beginList, Call.nil] = some listValueState ∧
    listValueState.EndList sampleCodec
      = some ({ buf := [0, 1, 0, 32], err := some EncodeError.dataNotConsumed,
                data := ⟨0, 1⟩, objects := ⟨[]⟩, elements := ⟨[]⟩, fields := ⟨[]⟩ },
              some EncodeError.dataNotConsumed) := by
  refine ⟨by decide, by decide⟩

/-- C13 (amended): `EndList`, `EndMessage` and `EndStruct` do not clear an
outstanding value. For every unpoisoned encoder state whose top object has the
matching kind (its `tableStart` inside the table stack) and whose data cursor is
still set, the call returns a non-nil error, stores it as the stored error and
leaves the data cursor as it was; the error is that of `setData`
("cannot encode more data, element/field must be written first") whenever the
metadata encoder reports none. -/
theorem C13_end_outstanding_rejected (c : Codec) (e : Encoder) (o : objectEntry)
    (herr : e.err = none) (hp : e.objects.peek = some o)
    (hd : e.data.start ≠ 0 ∨ e.data.end_ ≠ 0) :
    (o.type_ = objectTypeList → ∀ table : List listElement,
      sliceFrom e.elements.stack o.tableStart = some table →
      ∃ (e' : Encoder) (err : EncodeError),
        e.EndList c = some (e', some err) ∧ e'.err = some err ∧ e'.data = e.data ∧
        ((c.encodeListMeta e.buf ((e.buf.length : Int) - o.start) table).2 = none →
          err = EncodeError.dataNotConsumed)) ∧
    (o.type_ = objectTypeMessage → ∀ table : List messageField,
      sliceFrom e.fields.stack o.tableStart = some table →
      ∃ (e' : Encoder) (err : EncodeError),
        e.EndMessage c = some (e', some err) ∧ e'.err = some err ∧ e'.data = e.data ∧
        ((c.encodeMessageMeta e.buf ((e.buf.length : Int) - o.start) table).2 = none →
          err = EncodeError.dataNotConsumed)) ∧
    (o.type_ = objectTypeStruct →
      ∃ (e' : Encoder) (err : EncodeError),
        e.EndStruct c = (e', some err) ∧ e'.err = some err ∧ e'.data = e.data ∧
        ((c.encodeStruct e.buf ((e.buf.length : Int) - o.start)).2 = none →
          err = EncodeError.dataNotConsumed)) := by
  refine ⟨?_, ?_, ?_⟩
  · intro hk table hs
    rw [endList_unfold c e o herr hp hk, hs]
    cases henc : (c.encodeListMeta e.buf ((e.buf.length : Int) - o.start) table).2 with
    | some err =>
      simp only [henc]
      rw [fail_unpoisoned]
      case h => exact herr
      exact ⟨_, err, rfl, rfl, rfl, fun h => Option.noConfusion h⟩
    | none =>
      simp only [henc]
      rw [setDataOrFail_outstanding]
      case h => exact herr
      case hd => exact hd
      exact ⟨_, _, rfl, rfl, rfl, fun _ => rfl⟩
  · intro hk table hs
    rw [endMessage_unfold c e o herr hp hk, hs]
    cases henc : (c.encodeMessageMeta e.buf ((e.buf.length : Int) - o.start) table).2 with
    | some err =>
      simp only [henc]
      rw [fail_unpoisoned]
      case h => exact herr
      exact ⟨_, err, rfl, rfl, rfl, fun h => Option.noConfusion h⟩
    | none =>
      simp only [henc]
      rw [setDataOrFail_outstanding]
      case h => exact herr
      case hd => exact hd
      exact ⟨_, _, rfl, rfl, rfl, fun _ => rfl⟩
  · intro hk
    rw [endStruct_unfold c e o herr hp hk]
    cases henc : (c.encodeStruct e.buf ((e.buf.length : Int) - o.start)).2 with
    | some err =>
      simp only [henc]
      rw [fail_unpoisoned]
      case h => exact herr
      exact ⟨_, err, rfl, rfl, rfl, fun h => Option.noConfusion h⟩
    | none =>
      simp only [henc]
      rw [setDataOrFail_outstanding]
      case h => exact herr
      case hd => exact hd
      exact ⟨_, _, rfl, rfl, rfl, fun _ => rfl⟩

/-- C13 (amended) at the state after `BeginList`, `Nil`, with `EndList`. -/
theorem C13_end_outstanding_rejected_witness :
    ∃ (e' : Encoder) (err : EncodeError),
      listValueState.EndList sampleCodec = some (e', some err) ∧ e'.err = some err ∧
      e'.data = listValueState.data ∧
      ((sampleCodec.encodeListMeta listValueState.buf
          ((listValueState.buf.length : Int) - 0) []).2 = none →
        err = EncodeError.dataNotConsumed) :=
  (C13_end_outstanding_rejected sampleCodec listValueState ⟨objectTypeList, 0, 0⟩ rfl rfl
    (by decide)).1 rfl [] (by decide)

/-- C14 (counterexample): after `Nil` on a fresh encoder the value `[0]` is
outstanding; `BeginList`, `BeginMessage` and `BeginStruct` each return nil and
open a composite on top of it, the cursor still at `(0, 1)`. -/
theorem C14_begin_outstanding_counterexample :
    Encoder.run sampleCodec newEncoder [Call.nil] = some outstandingState ∧
    outstandingState.BeginList
      = ({ outstandingState with objects := ⟨[⟨objectTypeList, 1, 0⟩]⟩ }, none) ∧
    outstandingState.BeginMessage
      = ({ outstandingState with objects := ⟨[⟨objectTypeMessage, 1, 0⟩]⟩ }, none) ∧
    outstandingState.BeginStruct
      = ({ outstandingState with objects := ⟨[⟨objectTypeStruct, 1, 0⟩]⟩ }, none) := by
  refine ⟨by decide, by decide, by decide, by decide⟩

/-- C14 (amended): `BeginList`, `BeginMessage` and `BeginStruct` do not check the
data cursor. For every unpoisoned encoder state whose data cursor is set, each
of them returns nil, leaves the encoder unpoisoned, pushes its object on top
of the object stack and leaves the outstanding value in the cursor. -/
theorem C14_begin_outstanding_accepted (e : Encoder)
    (herr : e.err = none) (hd : e.data.start ≠ 0 ∨ e.data.end_ ≠ 0) :
    (e.BeginList.2 = none ∧ e.BeginList.1.err = none ∧ e.BeginList.1.data = e.data ∧
      (e.BeginList.1.data.start ≠ 0 ∨ e.BeginList.1.data.end_ ≠ 0) ∧
      e.BeginList.1.objects.peek
        = some ⟨objectTypeList, (e.buf.length : Int), e.elements.offset⟩) ∧
    (e.BeginMessage.2 = none ∧ e.BeginMessage.1.err = none ∧
      e.BeginMessage.1.data = e.data ∧
      (e.BeginMessage.1.data.start ≠ 0 ∨ e.BeginMessage.1.data.end_ ≠ 0) ∧
      e.BeginMessage.1.objects.peek
        = some ⟨objectTypeMessage, (e.buf.length : Int), e.fields.offset⟩) ∧
    (e.BeginStruct.2 = none ∧ e.BeginStruct.1.err = none ∧
      e.BeginStruct.1.data = e.data ∧
      (e.BeginStruct.1.data.start ≠ 0 ∨ e.BeginStruct.1.data.end_ ≠ 0) ∧
      e.BeginStruct.1.objects.peek = some ⟨objectTypeStruct, (e.buf.length : Int), 0⟩) := by
  have hl : e.BeginList
      = ({ e with objects := e.objects.pushList (e.buf.length : Int) e.elements.offset },
          none) := by
    simp only [Encoder.BeginList, herr]
  have hm : e.BeginMessage
      = ({ e with objects := e.objects.pushMessage (e.buf.length : Int) e.fields.offset },
          none) := by
    simp only [Encoder.BeginMessage, herr]
  have hs : e.BeginStruct
      = ({ e with objects := e.objects.pushStruct (e.buf.length : Int) }, none) := by
    simp only [Encoder.BeginStruct, herr]
  rw [hl, hm, hs]
  refine ⟨⟨rfl, herr, rfl, hd, ?_⟩, ⟨rfl, herr, rfl, hd, ?_⟩, ⟨rfl, herr, rfl, hd, ?_⟩⟩
  · simp [objectStack.peek, objectStack.pushList]
  · simp [objectStack.peek, objectStack.pushMessage]
  · simp [objectStack.peek, objectStack.pushStruct]

/-- C14 (amended) at the state after `Nil` on a fresh encoder. -/
theorem C14_begin_outstanding_accepted_witness :
    outstandingState.BeginList.2 = none ∧ outstandingState.BeginList.1.err = none ∧
    outstandingState.BeginList.1.data = outstandingState.data ∧
    (outstandingState.BeginList.1.data.start ≠ 0 ∨
      outstandingState.BeginList.1.data.end_ ≠ 0) ∧
    outstandingState.BeginList.1.objects.peek
      = some ⟨objectTypeList, (outstandingState.buf.length : Int),
          outstandingState.elements.offset⟩ :=
  (C14_begin_outstanding_accepted outstandingState rfl (by decide)).1

/-- C15: for every unpoisoned encoder state, `BeginList` pushes exactly one list
object with `start = len(buf)` and `tableStart = len(element stack)`
(`BeginMessage` likewise a message object with the length of the field stack)
and changes nothing else: the buffer, the element and field stacks, the stored
error, the objects below (popping the new object gives the old object stack
back) and the data cursor (an outstanding value is not cleared) are all
unchanged, and nil is returned. -/
theorem C15_begin_pushes_one_object (e : Encoder) (herr : e.err = none) :
    (e.BeginList
        = ({ e with objects :=
              ⟨e.objects.stack ++ [⟨objectTypeList, (e.buf.length : Int),
                (e.elements.stack.length : Int)⟩]⟩ }, none) ∧
      e.BeginList.1.objects.pop
        = (e.objects, some ⟨objectTypeList, (e.buf.length : Int),
            (e.elements.stack.length : Int)⟩) ∧
      e.BeginList.1.objects.len = e.objects.len + 1 ∧
      e.BeginList.1.buf = e.buf ∧ e.BeginList.1.elements = e.elements ∧
      e.BeginList.1.fields = e.fields ∧ e.BeginList.1.data = e.data ∧
      e.BeginList.1.err = none) ∧
    (e.BeginMessage
        = ({ e with objects :=
              ⟨e.objects.stack ++ [⟨objectTypeMessage, (e.buf.length : Int),
                (e.fields.stack.length : Int)⟩]⟩ }, none) ∧
      e.BeginMessage.1.objects.pop
        = (e.objects, some ⟨objectTypeMessage, (e.buf.length : Int),
            (e.fields.stack.length : Int)⟩) ∧
      e.BeginMessage.1.objects.len = e.objects.len + 1 ∧
      e.BeginMessage.1.buf = e.buf ∧ e.BeginMessage.1.elements = e.elements ∧
      e.BeginMessage.1.fields = e.fields ∧ e.BeginMessage.1.data = e.data ∧
      e.BeginMessage.1.err = none) := by
  have hl : e.BeginList
      = ({ e with objects :=
            ⟨e.objects.stack ++ [⟨objectTypeList, (e.buf.length : Int),
              (e.elements.stack.length : Int)⟩]⟩ }, none) := by
    simp only [Encoder.BeginList, herr, objectStack.pushList, listStack.offset]
  have hm : e.BeginMessage
      = ({ e with objects :=
            ⟨e.objects.stack ++ [⟨objectTypeMessage, (e.buf.length : Int),
              (e.fields.stack.length : Int)⟩]⟩ }, none) := by
    simp only [Encoder.BeginMessage, herr, objectStack.pushMessage, messageStack.offset]
  refine ⟨⟨hl, ?_, ?_, ?_, ?_, ?_, ?_, ?_⟩, ⟨hm, ?_, ?_, ?_, ?_, ?_, ?_, ?_⟩⟩
  · rw [hl]; simp [objectStack.pop]
  · rw [hl]; simp [objectStack.len]
  · rw [hl]
  · rw [hl]
  · rw [hl]
  · rw [hl]
  · rw [hl]; exact herr
  · rw [hm]; simp [objectStack.pop]
  · rw [hm]; simp [objectStack.len]
  · rw [hm]
  · rw [hm]
  · rw [hm]
  · rw [hm]
  · rw [hm]; exact herr

/-- C15 at the state after `Nil` on a fresh encoder: `BeginList` pushes the list
object `(start 1, tableStart 0)` and keeps the outstanding value. -/
theorem C15_begin_pushes_one_object_witness :
    outstandingState.BeginList
      = ({ outstandingState with objects :=
            ⟨outstandingState.objects.stack ++ [⟨objectTypeList,
              (outstandingState.buf.length : Int),
              (outstandingState.elements.stack.length : Int)⟩]⟩ }, none) :=
  (C15_begin_pushes_one_object outstandingState rfl).1.1

/-! ## Theorems: primitive writes -/

theorem writeValue_empty (e : Encoder) (encode : List Nat → List Nat)
    (herr : e.err = none) (hdata : e.data = ⟨0, 0⟩) :
    e.writeValue encode = (e.written (encode e.buf), none) := by
  simp only [Encoder.writeValue, herr]
  rw [setDataOrFail_empty]
  case hd => exact hdata
  simp only [Encoder.written, herr]

theorem writeFallible_empty (e : Encoder) (encode : List Nat → List Nat × Option EncodeError)
    (herr : e.err = none) (hdata : e.data = ⟨0, 0⟩) (henc : (encode e.buf).2 = none) :
    e.writeFallible encode = (e.written (encode e.buf).1, none) := by
  simp only [Encoder.writeFallible, herr, henc]
  rw [setDataOrFail_empty]
  case hd => exact hdata
  simp only [Encoder.written, herr]

theorem writeFallible_ok (e e' : Encoder) (encode : List Nat → List Nat × Option EncodeError)
    (herr : e.err = none) (h : e.writeFallible encode = (e', none)) :
    (encode e.buf).2 = none := by
  cases henc : (encode e.buf).2 with
  | none => rfl
  | some x =>
    simp only [Encoder.writeFallible, herr, henc] at h
    exact absurd h (fail_ne_ok _ _ _)

/-- C16: for every unpoisoned encoder state with no outstanding value, a
primitive write (`Nil`, `Bool`, `Byte`, `Int32`, `Int64`, `Uint32`, `Uint64`,
`U128`, `U256`, `Float32`, `Float64`, and `Bytes`, `String` when their encoder
reports no error) returns nil, replaces the buffer by the output of the
primitive encoder (which has the old buffer as a prefix when the encoders only
append), sets the data cursor to `(old len(buf), new len(buf))`, and leaves the
object, element and field stacks unchanged. -/
theorem C16_primitive_write (c : Codec) (e : Encoder)
    (herr : e.err = none) (hdata : e.data = ⟨0, 0⟩) :
    (e.Nil c = (e.written (c.EncodeNil e.buf), none) ∧
      (∀ v, e.Bool c v = (e.written (c.EncodeBool e.buf v), none)) ∧
      (∀ v, e.Byte c v = (e.written (c.EncodeByte e.buf v), none)) ∧
      (∀ v, e.Int32 c v = (e.written (c.EncodeInt32 e.buf v), none)) ∧
      (∀ v, e.Int64 c v = (e.written (c.EncodeInt64 e.buf v), none)) ∧
      (∀ v, e.Uint32 c v = (e.written (c.EncodeUint32 e.buf v), none)) ∧
      (∀ v, e.Uint64 c v = (e.written (c.EncodeUint64 e.buf v), none)) ∧
      (∀ v, e.U128 c v = (e.written (c.EncodeU128 e.buf v), none)) ∧
      (∀ v, e.U256 c v = (e.written (c.EncodeU256 e.buf v), none)) ∧
      (∀ v, e.Float32 c v = (e.written (c.EncodeFloat32 e.buf v), none)) ∧
      (∀ v, e.Float64 c v = (e.written (c.EncodeFloat64 e.buf v), none)) ∧
      (∀ v, (c.EncodeBytes e.buf v).2 = none →
        e.Bytes c v = (e.written (c.EncodeBytes e.buf v).1, none)) ∧
      (∀ v, (c.EncodeString e.buf v).2 = none →
        e.String c v = (e.written (c.EncodeString e.buf v).1, none))) ∧
    (∀ out : List Nat,
      (e.written out).buf = out ∧
      (e.written out).data = ⟨(e.buf.length : Int), (out.length : Int)⟩ ∧
      (e.written out).objects = e.objects ∧ (e.written out).elements = e.elements ∧
      (e.written out).fields = e.fields ∧ (e.written out).err = none) ∧
    (c.Appends → ∀ (call : Call) (e' : Encoder), call.isPrimitive = true →
      e.call c call = some (e', none) →
      Extends e.buf e'.buf ∧ e'.data = ⟨(e.buf.length : Int), (e'.buf.length : Int)⟩ ∧
      e'.objects = e.objects ∧ e'.elements = e.elements ∧ e'.fields = e.fields) := by
  have hv := fun encode => writeValue_empty e encode herr hdata
  have hf := fun encode => writeFallible_empty e encode herr hdata
  refine ⟨⟨hv _, fun v => hv _, fun v => hv _, fun v => hv _, fun v => hv _, fun v => hv _,
    fun v => hv _, fun v => hv _, fun v => hv _, fun v => hv _, fun v => hv _,
    fun v h => hf _ h, fun v h => hf _ h⟩, fun out => ⟨rfl, rfl, rfl, rfl, rfl, herr⟩, ?_⟩
  intro happ call e' hprim hcall
  have key : ∀ out : List Nat, Extends e.buf out → some (e.written out, (none : Option EncodeError))
      = some (e', none) →
      Extends e.buf e'.buf ∧ e'.data = ⟨(e.buf.length : Int), (e'.buf.length : Int)⟩ ∧
      e'.objects = e.objects ∧ e'.elements = e.elements ∧ e'.fields = e.fields := by
    intro out hext h
    have he := (Prod.mk.inj (Option.some.inj h)).1
    subst he
    exact ⟨hext, rfl, rfl, rfl, rfl⟩
  have keyf : ∀ encode : List Nat → List Nat × Option EncodeError,
      Extends e.buf (encode e.buf).1 → some (e.writeFallible encode) = some (e', none) →
      Extends e.buf e'.buf ∧ e'.data = ⟨(e.buf.length : Int), (e'.buf.length : Int)⟩ ∧
      e'.objects = e.objects ∧ e'.elements = e.elements ∧ e'.fields = e.fields := by
    intro encode hext h
    have henc := writeFallible_ok e e' encode herr (Option.some.inj h)
    rw [hf encode henc] at h
    exact key _ hext h
  have keyv : ∀ encode : List Nat → List Nat,
      Extends e.buf (encode e.buf) → some (e.writeValue encode) = some (e', none) →
      Extends e.buf e'.buf ∧ e'.data = ⟨(e.buf.length : Int), (e'.buf.length : Int)⟩ ∧
      e'.objects = e.objects ∧ e'.elements = e.elements ∧ e'.fields = e.fields := by
    intro encode hext h
    rw [hv encode] at h
    exact key _ hext h
  cases call <;> simp [Call.isPrimitive] at hprim
  case nil => exact keyv c.EncodeNil (happ.EncodeNil _) hcall
  case bool v => exact keyv (fun buf => c.EncodeBool buf v) (happ.EncodeBool _ v) hcall
  case byte v => exact keyv (fun buf => c.EncodeByte buf v) (happ.EncodeByte _ v) hcall
  case int32 v => exact keyv (fun buf => c.EncodeInt32 buf v) (happ.EncodeInt32 _ v) hcall
  case int64 v => exact keyv (fun buf => c.EncodeInt64 buf v) (happ.EncodeInt64 _ v) hcall
  case uint32 v => exact keyv (fun buf => c.EncodeUint32 buf v) (happ.EncodeUint32 _ v) hcall
  case uint64 v => exact keyv (fun buf => c.EncodeUint64 buf v) (happ.EncodeUint64 _ v) hcall
  case u128 v => exact keyv (fun buf => c.EncodeU128 buf v) (happ.EncodeU128 _ v) hcall
  case u256 v => exact keyv (fun buf => c.EncodeU256 buf v) (happ.EncodeU256 _ v) hcall
  case float32 v => exact keyv (fun buf => c.EncodeFloat32 buf v) (happ.EncodeFloat32 _ v) hcall
  case float64 v => exact keyv (fun buf => c.EncodeFloat64 buf v) (happ.EncodeFloat64 _ v) hcall
  case bytes v => exact keyf (fun buf => c.EncodeBytes buf v) (happ.EncodeBytes _ v) hcall
  case string v => exact keyf (fun buf => c.EncodeString buf v) (happ.EncodeString _ v) hcall

/-- C16 at a fresh encoder: `Nil` appends the byte `0x00` and sets the cursor to
`(0, 1)`; with the codec instance of the wire grammar the old buffer is a
prefix of the new one. -/
theorem C16_primitive_write_witness :
    newEncoder.Nil sampleCodec = (newEncoder.written (sampleCodec.EncodeNil newEncoder.buf), none) ∧
    (Extends newEncoder.buf outstandingState.buf ∧
      outstandingState.data
        = ⟨(newEncoder.buf.length : Int), (outstandingState.buf.length : Int)⟩ ∧
      outstandingState.objects = newEncoder.objects ∧
      outstandingState.elements = newEncoder.elements ∧
      outstandingState.fields = newEncoder.fields) :=
  ⟨(C16_primitive_write sampleCodec newEncoder rfl rfl).1.1,
   (C16_primitive_write sampleCodec newEncoder rfl rfl).2.2 sampleCodec_appends Call.nil
      outstandingState rfl (by decide)⟩

/-! ## Theorems: serialized list tables -/

theorem length_four {α : Type} (b : List α) (h : b.length = 4) :
    ∃ b0 b1 b2 b3 : α, b = [b0, b1, b2, b3] := by
  rcases b with _ | ⟨b0, _ | ⟨b1, _ | ⟨b2, _ | ⟨b3, _ | ⟨b4, r⟩⟩⟩⟩⟩ <;> simp at h
  exact ⟨b0, b1, b2, b3, rfl⟩

/-- An in-range entry of a list table. -/
theorem listTable_offset_in_range (t : List Nat) (m : Nat) (hm : m < t.length / 4) :
    ∃ b0 b1 b2 b3 : Nat,
      (t.drop (4 * m)).take 4 = [b0, b1, b2, b3] ∧
      listTable.offset t (m : Int)
        = some ((((((b0 * 256 + b1) * 256 + b2) * 256 + b3 : Nat)) : Int)) := by
  have hslice := sliceRange_entry 4 t m hm
  have hlen := entryBytes_length 4 t m hm
  obtain ⟨b0, b1, b2, b3, hb⟩ := length_four _ hlen
  refine ⟨b0, b1, b2, b3, ?_, ?_⟩
  · rw [← hb, entryBytes, Nat.mul_comm]
  · have h1 : ¬ ((m : Int) < 0) := by omega
    have h2 : ¬ ((m : Int) ≥ ((t.length / 4 : Nat) : Int)) := by omega
    simp only [listTable.offset, listTable.count, listElementSize, if_neg h1, if_neg h2]
    have hs : sliceRange t ((m : Int) * ((4 : Nat) : Int)) ((m : Int) * ((4 : Nat) : Int)
        + ((4 : Nat) : Int)) = some [b0, b1, b2, b3] := by rw [hslice, hb]
    simp only [hs, uint32BE, Option.map_some']
    rfl

/-- C20: for every list table `t` (any byte slice) and every integer `i`,
`count()` is `floor(len(t) / 4)`, and `listTable.offset(i)` reports out of range
with `-1` exactly when `i < 0` or `i >= count()`; for `0 <= i < count()` it
returns the unsigned big-endian 32-bit value stored in the bytes `[4i, 4i+4)`,
which is never negative (and below `2^32` when every entry of `t` is a byte). -/
theorem C20_listTable_offset (t : List Nat) (i : Int) :
    listTable.count t = ((t.length / 4 : Nat) : Int) ∧
    (i < 0 ∨ i ≥ listTable.count t → listTable.offset t i = some (-1)) ∧
    (0 ≤ i → i < listTable.count t →
      ∃ b0 b1 b2 b3 : Nat,
        (t.drop (4 * i.toNat)).take 4 = [b0, b1, b2, b3] ∧
        listTable.offset t i
          = some ((((((b0 * 256 + b1) * 256 + b2) * 256 + b3 : Nat)) : Int)) ∧
        ((∀ b ∈ t, b < 256) → ((b0 * 256 + b1) * 256 + b2) * 256 + b3 < 2 ^ 32)) ∧
    (listTable.offset t i = some (-1) ↔ (i < 0 ∨ i ≥ listTable.count t)) ∧
    (0 ≤ i → i < listTable.count t → ∃ v : Int, listTable.offset t i = some v ∧ 0 ≤ v) := by
  have hcount : listTable.count t = ((t.length / 4 : Nat) : Int) := rfl
  have hout : i < 0 ∨ i ≥ listTable.count t → listTable.offset t i = some (-1) := by
    intro h
    by_cases h1 : i < 0
    · simp only [listTable.offset, if_pos h1]
    · have h2 : i ≥ listTable.count t := by
        rcases h with h | h
        · exact absurd h h1
        · exact h
      simp only [listTable.offset, if_neg h1, if_pos h2]
  have hin : 0 ≤ i → i < listTable.count t →
      ∃ b0 b1 b2 b3 : Nat,
        (t.drop (4 * i.toNat)).take 4 = [b0, b1, b2, b3] ∧
        listTable.offset t i
          = some ((((((b0 * 256 + b1) * 256 + b2) * 256 + b3 : Nat)) : Int)) ∧
        ((∀ b ∈ t, b < 256) → ((b0 * 256 + b1) * 256 + b2) * 256 + b3 < 2 ^ 32) := by
    intro h0 hlt
    rw [hcount] at hlt
    have hm : i.toNat < t.length / 4 := by omega
    obtain ⟨b0, b1, b2, b3, hb, hoff⟩ := listTable_offset_in_range t i.toNat hm
    have hi : ((i.toNat : Nat) : Int) = i := Int.toNat_of_nonneg h0
    rw [hi] at hoff
    refine ⟨b0, b1, b2, b3, hb, hoff, ?_⟩
    intro hbytes
    have hmem : ∀ b ∈ [b0, b1, b2, b3], b < 256 := by
      intro b hbm
      rw [← hb] at hbm
      exact hbytes b (List.mem_of_mem_drop (List.mem_of_mem_take hbm))
    have h0' := hmem b0 (by simp)
    have h1' := hmem b1 (by simp)
    have h2' := hmem b2 (by simp)
    have h3' := hmem b3 (by simp)
    omega
  refine ⟨hcount, hout, hin, ⟨?_, hout⟩, ?_⟩
  · intro h
    by_contra hcon
    have h0 : 0 ≤ i := by omega
    have hlt : i < listTable.count t := by omega
    obtain ⟨b0, b1, b2, b3, _, hoff, _⟩ := hin h0 hlt
    rw [hoff] at h
    have := Option.some.inj h
    omega
  · intro h0 hlt
    obtain ⟨b0, b1, b2, b3, _, hoff, _⟩ := hin h0 hlt
    exact ⟨_, hoff, by omega⟩

/-- C20 at the table `[0, 0, 1, 0, 0, 0, 0, 7, 9]` (two entries and a trailing
byte): entry 1 is 7, index 2 is out of range. -/
theorem C20_listTable_offset_witness :
    listTable.offset [0, 0, 1, 0, 0, 0, 0, 7, 9] 2 = some (-1) ∧
    ∃ b0 b1 b2 b3 : Nat,
      (([0, 0, 1, 0, 0, 0, 0, 7, 9] : List Nat).drop (4 * (1 : Int).toNat)).take 4
        = [b0, b1, b2, b3] ∧
      listTable.offset [0, 0, 1, 0, 0, 0, 0, 7, 9] 1
        = some ((((((b0 * 256 + b1) * 256 + b2) * 256 + b3 : Nat)) : Int)) ∧
      ((∀ b ∈ ([0, 0, 1, 0, 0, 0, 0, 7, 9] : List Nat), b < 256) →
        ((b0 * 256 + b1) * 256 + b2) * 256 + b3 < 2 ^ 32) :=
  ⟨(C20_listTable_offset [0, 0, 1, 0, 0, 0, 0, 7, 9] 2).2.1 (Or.inr (by decide)),
   (C20_listTable_offset [0, 0, 1, 0, 0, 0, 0, 7, 9] 1).2.2.1 (by decide) (by decide)⟩

theorem evaluation_16 : listTable.offset [0, 0, 1, 0, 0, 0, 0, 7, 9] 0 = some 256 := by decide

theorem evaluation_17 : listTable.offset [0, 0, 1, 0, 0, 0, 0, 7, 9] (-1) = some (-1) := by
  decide

/-! ## Theorems: serialization and table width -/

theorem sampleEntry_small (f : messageField) :
    sampleEntry false f = [f.tag % 256, f.offset / 256 % 256, f.offset % 256] := by
  simp [sampleEntry, bigEndian, List.range_succ]

theorem sampleEntry_big (f : messageField) :
    sampleEntry true f
      = [f.tag / 256 % 256, f.tag % 256, f.offset / 16777216 % 256, f.offset / 65536 % 256,
          f.offset / 256 % 256, f.offset % 256] := by
  simp [sampleEntry, bigEndian, List.range_succ]

/-- The tail of a concatenation of entries of `size` bytes, from entry `m` on. -/
theorem flatten_drop (size : Nat) (L : List (List Nat)) (hL : ∀ b ∈ L, b.length = size) :
    ∀ m : Nat, L.flatten.drop (m * size) = (L.drop m).flatten := by
  induction L with
  | nil => intro m; simp
  | cons b L ih =>
    intro m
    cases m with
    | zero => simp
    | succ m =>
      have hb : b.length = size := hL b (List.mem_cons_self _ _)
      have hm : (m + 1) * size = b.length + m * size := by rw [hb]; ring
      rw [List.flatten_cons, hm, List.drop_append, List.drop_succ_cons]
      exact ih (fun c hc => hL c (List.mem_cons_of_mem _ hc)) m

theorem flatten_length (size : Nat) (L : List (List Nat)) (hL : ∀ b ∈ L, b.length = size) :
    L.flatten.length = L.length * size := by
  induction L with
  | nil => simp
  | cons b L ih =>
    have hb : b.length = size := hL b (List.mem_cons_self _ _)
    rw [List.flatten_cons, List.length_append, ih (fun c hc => hL c (List.mem_cons_of_mem _ hc)),
      hb, List.length_cons]
    ring

/-- Entry `m` of a concatenation of entries of `size` bytes. -/
theorem flatten_entry (size : Nat) (L : List (List Nat)) (hL : ∀ b ∈ L, b.length = size)
    (m : Nat) (hm : m < L.length) :
    L.flatten.drop (m * size) = L[m] ++ (L.drop (m + 1)).flatten ∧
    entryBytes size L.flatten m = L[m] := by
  have h1 : L.flatten.drop (m * size) = L[m] ++ (L.drop (m + 1)).flatten := by
    rw [flatten_drop size L hL m, List.drop_eq_getElem_cons hm, List.flatten_cons]
  refine ⟨h1, ?_⟩
  rw [entryBytes, h1]
  have hlen : L[m].length = size := hL _ (List.getElem_mem _)
  rw [← hlen, List.take_left']
  rfl

theorem messageFieldSmallSize_eq : messageFieldSmallSize = 3 := rfl

theorem messageFieldBigSize_eq : messageFieldBigSize = 6 := rfl

theorem smallSerialization_length (fs : List messageField) :
    (smallSerialization fs).length = fs.length * 3 := by
  have := flatten_length 3 (fs.map (sampleEntry false)) (by
    intro b hb
    obtain ⟨f, _, rfl⟩ := List.mem_map.1 hb
    rw [sampleEntry_small]; rfl)
  simpa [smallSerialization] using this

theorem bigSerialization_length (fs : List messageField) :
    (bigSerialization fs).length = fs.length * 6 := by
  have := flatten_length 6 (fs.map (sampleEntry true)) (by
    intro b hb
    obtain ⟨f, _, rfl⟩ := List.mem_map.1 hb
    rw [sampleEntry_big]; rfl)
  simpa [bigSerialization] using this

/-- Entry `m` of the small serialization and what follows it. -/
theorem smallSerialization_entry (fs : List messageField) (m : Nat) (hm : m < fs.length) :
    (smallSerialization fs).drop (m * 3)
      = sampleEntry false fs[m] ++ smallSerialization (fs.drop (m + 1)) ∧
    entryBytes 3 (smallSerialization fs) m = sampleEntry false fs[m] := by
  have h := flatten_entry 3 (fs.map (sampleEntry false)) (by
    intro b hb
    obtain ⟨f, _, rfl⟩ := List.mem_map.1 hb
    rw [sampleEntry_small]; rfl) m (by simpa using hm)
  simpa [smallSerialization, List.map_drop] using h

/-- Entry `m` of the big serialization and what follows it. -/
theorem bigSerialization_entry (fs : List messageField) (m : Nat) (hm : m < fs.length) :
    (bigSerialization fs).drop (m * 6)
      = sampleEntry true fs[m] ++ bigSerialization (fs.drop (m + 1)) ∧
    entryBytes 6 (bigSerialization fs) m = sampleEntry true fs[m] := by
  have h := flatten_entry 6 (fs.map (sampleEntry true)) (by
    intro b hb
    obtain ⟨f, _, rfl⟩ := List.mem_map.1 hb
    rw [sampleEntry_big]; rfl) m (by simpa using hm)
  simpa [bigSerialization, List.map_drop] using h

/-- A small entry decodes to the field it encodes when the field fits. -/
theorem small_decode (f : messageField) (h : f.tag ≤ 255 ∧ f.offset ≤ 65535) :
    smallTag (sampleEntry false f) = some f.tag ∧
    smallOffset (sampleEntry false f) = some f.offset := by
  rw [sampleEntry_small]
  constructor
  · simp only [smallTag, List.getElem?_cons_zero]
    congr 1; omega
  · simp only [smallOffset, sliceFrom, uint16BE]
    simp
    omega

/-- A big entry decodes to the field it encodes when the field fits. -/
theorem big_decode (f : messageField) (h : f.tag < 65536 ∧ f.offset < 4294967296) :
    bigTag (sampleEntry true f) = some f.tag ∧
    bigOffset (sampleEntry true f) = some f.offset := by
  rw [sampleEntry_big]
  constructor
  · simp only [bigTag, uint16BE]
    congr 1; omega
  · simp only [bigOffset, sliceFrom, uint32BE]
    simp
    omega

/-- One iteration of the binary search, in terms of the probe. -/
theorem searchLoop_succ (size : Nat) (readTag readOffset : List Nat → Option Nat)
    (t : List Nat) (tag : Nat) (fuel : Nat) (left right : Int) :
    searchLoop size readTag readOffset t tag (fuel + 1) left right =
      if left ≤ right then
        match probe size readTag readOffset t (((left + right) % 2 ^ 64) / 2) with
        | none => none
        | some (cur, off) =>
          if cur < tag then
            searchLoop size readTag readOffset t tag fuel (((left + right) % 2 ^ 64) / 2 + 1)
              right
          else if cur > tag then
            searchLoop size readTag readOffset t tag fuel left
              (((left + right) % 2 ^ 64) / 2 - 1)
          else off
      else some (-1) := by
  by_cases hle : left ≤ right
  · simp only [searchLoop, probe, if_pos hle]
    cases sliceRange t (((left + right) % 2 ^ 64) / 2 * (size : Int))
        (((left + right) % 2 ^ 64) / 2 * (size : Int) + (size : Int)) with
    | none => rfl
    | some b =>
      simp only []
      cases readTag b with
      | none => rfl
      | some cur => rfl
  · simp only [searchLoop, if_neg hle]

/-- Two tables that answer every probe alike are searched alike. -/
theorem searchLoop_congr (sizeA sizeB : Nat)
    (readTagA readOffsetA readTagB readOffsetB : List Nat → Option Nat)
    (tA tB : List Nat) (tag : Nat)
    (h : ∀ m : Int, probe sizeA readTagA readOffsetA tA m
      = probe sizeB readTagB readOffsetB tB m) :
    ∀ (fuel : Nat) (left right : Int),
      searchLoop sizeA readTagA readOffsetA tA tag fuel left right
        = searchLoop sizeB readTagB readOffsetB tB tag fuel left right := by
  intro fuel
  induction fuel with
  | zero => intro left right; rfl
  | succ fuel ih =>
    intro left right
    rw [searchLoop_succ, searchLoop_succ, h]
    by_cases hle : left ≤ right
    · simp only [if_pos hle]
      cases probe sizeB readTagB readOffsetB tB (((left + right) % 2 ^ 64) / 2) with
      | none => rfl
      | some p =>
        obtain ⟨cur, off⟩ := p
        simp only [ih]
    · simp only [if_neg hle]

/-- The probe of the small serialization at entry `m`. -/
theorem probe_small (fs : List messageField)
    (hfit : ∀ f ∈ fs, f.tag ≤ 255 ∧ f.offset ≤ 65535) (m : Int) :
    probe messageFieldSmallSize smallTag smallOffset (smallSerialization fs) m
      = if 0 ≤ m then
          (fs[m.toNat]?).map (fun f => (f.tag, some ((f.offset : Nat) : Int)))
        else none := by
  have hlen := smallSerialization_length fs
  rw [messageFieldSmallSize_eq]
  by_cases hm : 0 ≤ m ∧ m < (fs.length : Int)
  · obtain ⟨k, rfl⟩ : ∃ k : Nat, m = (k : Int) := ⟨m.toNat, by omega⟩
    have hk : k < fs.length := by omega
    have hk' : k < (smallSerialization fs).length / 3 := by
      rw [hlen, Nat.mul_div_cancel _ (by decide)]; exact hk
    obtain ⟨h1, h2⟩ := small_decode fs[k] (hfit _ (List.getElem_mem _))
    simp only [probe, sliceRange_entry 3 (smallSerialization fs) k hk',
      (smallSerialization_entry fs k hk).2, h1, h2, Int.toNat_ofNat,
      List.getElem?_eq_getElem hk, if_pos hm.1, Option.map_some']
    rfl
  · have hnone : sliceRange (smallSerialization fs) (m * ((3 : Nat) : Int))
        (m * ((3 : Nat) : Int) + ((3 : Nat) : Int)) = none := by
      unfold sliceRange
      rw [if_neg]
      rw [hlen]
      push_cast
      omega
    simp only [probe, hnone]
    by_cases h0 : 0 ≤ m
    · rw [if_pos h0, List.getElem?_eq_none (by omega)]; rfl
    · rw [if_neg h0]

/-- The probe of the big serialization at entry `m`. -/
theorem probe_big (fs : List messageField)
    (hfit : ∀ f ∈ fs, f.tag < 65536 ∧ f.offset < 4294967296) (m : Int) :
    probe messageFieldBigSize bigTag bigOffset (bigSerialization fs) m
      = if 0 ≤ m then
          (fs[m.toNat]?).map (fun f => (f.tag, some ((f.offset : Nat) : Int)))
        else none := by
  have hlen := bigSerialization_length fs
  rw [messageFieldBigSize_eq]
  by_cases hm : 0 ≤ m ∧ m < (fs.length : Int)
  · obtain ⟨k, rfl⟩ : ∃ k : Nat, m = (k : Int) := ⟨m.toNat, by omega⟩
    have hk : k < fs.length := by omega
    have hk' : k < (bigSerialization fs).length / 6 := by
      rw [hlen, Nat.mul_div_cancel _ (by decide)]; exact hk
    obtain ⟨h1, h2⟩ := big_decode fs[k] (hfit _ (List.getElem_mem _))
    simp only [probe, sliceRange_entry 6 (bigSerialization fs) k hk',
      (bigSerialization_entry fs k hk).2, h1, h2, Int.toNat_ofNat,
      List.getElem?_eq_getElem hk, if_pos hm.1, Option.map_some']
    rfl
  · have hnone : sliceRange (bigSerialization fs) (m * ((6 : Nat) : Int))
        (m * ((6 : Nat) : Int) + ((6 : Nat) : Int)) = none := by
      unfold sliceRange
      rw [if_neg]
      rw [hlen]
      push_cast
      omega
    simp only [probe, hnone]
    by_cases h0 : 0 ≤ m
    · rw [if_pos h0, List.getElem?_eq_none (by omega)]; rfl
    · rw [if_neg h0]

theorem field_small_serialization (fs : List messageField)
    (hfit : ∀ f ∈ fs, f.tag ≤ 255 ∧ f.offset ≤ 65535) (i : Int) :
    messageTable.field_small (smallSerialization fs) i = fieldOf fs i := by
  have hn : (smallSerialization fs).length / messageFieldSmallSize = fs.length := by
    rw [smallSerialization_length, messageFieldSmallSize_eq, Nat.mul_div_cancel _ (by decide)]
  by_cases h1 : i < 0
  · simp only [messageTable.field_small, fieldAt, fieldOf, if_pos h1]
  · by_cases h2 : i ≥ (fs.length : Int)
    · simp only [messageTable.field_small, fieldAt, fieldOf, if_neg h1, hn, if_pos h2]
    · obtain ⟨k, rfl⟩ : ∃ k : Nat, i = (k : Int) := ⟨i.toNat, by omega⟩
      have hk : k < fs.length := by omega
      have hk' : k < (smallSerialization fs).length / messageFieldSmallSize := by
        rw [hn]; exact hk
      obtain ⟨d1, d2⟩ := small_decode fs[k] (hfit _ (List.getElem_mem _))
      rw [messageTable.field_small,
        fieldAt_in_range messageFieldSmallSize smallTag smallOffset _ small_reads k hk']
      simp only [fieldOf, if_neg h1, if_neg h2, Int.toNat_ofNat, List.getElem?_eq_getElem hk,
        Option.map_some', entryTag, entryOffset, messageFieldSmallSize_eq,
        (smallSerialization_entry fs k hk).2, d1, d2, Option.getD_some]

theorem field_big_serialization (fs : List messageField)
    (hfit : ∀ f ∈ fs, f.tag < 65536 ∧ f.offset < 4294967296) (i : Int) :
    messageTable.field_big (bigSerialization fs) i = fieldOf fs i := by
  have hn : (bigSerialization fs).length / messageFieldBigSize = fs.length := by
    rw [bigSerialization_length, messageFieldBigSize_eq, Nat.mul_div_cancel _ (by decide)]
  by_cases h1 : i < 0
  · simp only [messageTable.field_big, fieldAt, fieldOf, if_pos h1]
  · by_cases h2 : i ≥ (fs.length : Int)
    · simp only [messageTable.field_big, fieldAt, fieldOf, if_neg h1, hn, if_pos h2]
    · obtain ⟨k, rfl⟩ : ∃ k : Nat, i = (k : Int) := ⟨i.toNat, by omega⟩
      have hk : k < fs.length := by omega
      have hk' : k < (bigSerialization fs).length / messageFieldBigSize := by
        rw [hn]; exact hk
      obtain ⟨d1, d2⟩ := big_decode fs[k] (hfit _ (List.getElem_mem _))
      rw [messageTable.field_big,
        fieldAt_in_range messageFieldBigSize bigTag bigOffset _ big_reads k hk']
      simp only [fieldOf, if_neg h1, if_neg h2, Int.toNat_ofNat, List.getElem?_eq_getElem hk,
        Option.map_some', entryTag, entryOffset, messageFieldBigSize_eq,
        (bigSerialization_entry fs k hk).2, d1, d2, Option.getD_some]

theorem offsetByIndex_small_serialization (fs : List messageField)
    (hfit : ∀ f ∈ fs, f.tag ≤ 255 ∧ f.offset ≤ 65535) (i : Int) :
    messageTable.offsetByIndex_small (smallSerialization fs) i = offsetOf fs i := by
  have hlen := smallSerialization_length fs
  have hn : (smallSerialization fs).length / messageFieldSmallSize = fs.length := by
    rw [hlen, messageFieldSmallSize_eq, Nat.mul_div_cancel _ (by decide)]
  by_cases h1 : i < 0
  · simp only [messageTable.offsetByIndex_small, offsetOf, if_pos h1]
  · by_cases h2 : i ≥ (fs.length : Int)
    · simp only [messageTable.offsetByIndex_small, offsetOf, if_neg h1, hn, if_pos h2]
    · obtain ⟨k, rfl⟩ : ∃ k : Nat, i = (k : Int) := ⟨i.toNat, by omega⟩
      have hk : k < fs.length := by omega
      have hfk := hfit fs[k] (List.getElem_mem _)
      have hdrop := (smallSerialization_entry fs k hk).1
      have hslice : sliceFrom (smallSerialization fs)
          ((k : Int) * (messageFieldSmallSize : Int) + 1)
          = some ((sampleEntry false fs[k] ++ smallSerialization (fs.drop (k + 1))).drop 1) := by
        unfold sliceFrom
        rw [messageFieldSmallSize_eq, if_pos (by rw [hlen]; push_cast; omega)]
        have e : ((k : Int) * ((3 : Nat) : Int) + 1).toNat = k * 3 + 1 := by
          push_cast; omega
        rw [e, ← List.drop_drop, hdrop]
      have hv : fs[k].offset / 256 % 256 * 256 + fs[k].offset % 256 = fs[k].offset := by
        omega
      simp only [messageTable.offsetByIndex_small, offsetOf, if_neg h1, if_neg h2, hn,
        hslice, Int.toNat_ofNat, List.getElem?_eq_getElem hk, Option.map_some']
      rw [sampleEntry_small]
      show some (Int.ofNat (fs[k].offset / 256 % 256 * 256 + fs[k].offset % 256))
        = some ((fs[k].offset : Nat) : Int)
      rw [hv]; rfl

theorem offsetByIndex_big_serialization (fs : List messageField)
    (hfit : ∀ f ∈ fs, f.tag < 65536 ∧ f.offset < 4294967296) (i : Int) :
    messageTable.offsetByIndex_big (bigSerialization fs) i = offsetOf fs i := by
  have hlen := bigSerialization_length fs
  have hn : (bigSerialization fs).length / messageFieldBigSize = fs.length := by
    rw [hlen, messageFieldBigSize_eq, Nat.mul_div_cancel _ (by decide)]
  by_cases h1 : i < 0
  · simp only [messageTable.offsetByIndex_big, offsetOf, if_pos h1]
  · by_cases h2 : i ≥ (fs.length : Int)
    · simp only [messageTable.offsetByIndex_big, offsetOf, if_neg h1, hn, if_pos h2]
    · obtain ⟨k, rfl⟩ : ∃ k : Nat, i = (k : Int) := ⟨i.toNat, by omega⟩
      have hk : k < fs.length := by omega
      have hfk := hfit fs[k] (List.getElem_mem _)
      have hdrop := (bigSerialization_entry fs k hk).1
      have hslice : sliceFrom (bigSerialization fs)
          ((k : Int) * (messageFieldBigSize : Int) + 2)
          = some ((sampleEntry true fs[k] ++ bigSerialization (fs.drop (k + 1))).drop 2) := by
        unfold sliceFrom
        rw [messageFieldBigSize_eq, if_pos (by rw [hlen]; push_cast; omega)]
        have e : ((k : Int) * ((6 : Nat) : Int) + 2).toNat = k * 6 + 2 := by
          push_cast; omega
        rw [e, ← List.drop_drop, hdrop]
      have hv : ((fs[k].offset / 16777216 % 256 * 256 + fs[k].offset / 65536 % 256) * 256
          + fs[k].offset / 256 % 256) * 256 + fs[k].offset % 256 = fs[k].offset := by
        omega
      simp only [messageTable.offsetByIndex_big, offsetOf, if_neg h1, if_neg h2, hn,
        hslice, Int.toNat_ofNat, List.getElem?_eq_getElem hk, Option.map_some']
      rw [sampleEntry_big]
      show some (Int.ofNat (((fs[k].offset / 16777216 % 256 * 256
          + fs[k].offset / 65536 % 256) * 256 + fs[k].offset / 256 % 256) * 256
          + fs[k].offset % 256))
        = some ((fs[k].offset : Nat) : Int)
      rw [hv]; rfl

/-- The binary search always returns: it ends within its bound and every probe
is inside the table. -/
theorem searchLoop_defined (size : Nat) (readTag readOffset : List Nat → Option Nat)
    (t : List Nat) (tag : Nat) (hlen : t.length < 2 ^ 63)
    (hread : ∀ b : List Nat, b.length = size →
      ∃ c o, readTag b = some c ∧ readOffset b = some o) :
    ∀ (fuel : Nat) (left right : Int), 0 ≤ left → right < ((t.length / size : Nat) : Int) →
      left ≤ right + 1 → right - left + 2 ≤ (fuel : Int) →
        ∃ v : Int, searchLoop size readTag readOffset t tag fuel left right = some v := by
  have hn : t.length / size ≤ t.length := Nat.div_le_self _ _
  intro fuel
  induction fuel with
  | zero => intro left right _ _ _ hfuel; omega
  | succ fuel ih =>
    intro left right h0 hr hlr hfuel
    by_cases hle : left ≤ right
    · obtain ⟨m, hm⟩ : ∃ m : Nat, ((left + right) % 2 ^ 64) / 2 = (m : Int) :=
        ⟨(((left + right) % 2 ^ 64) / 2).toNat, by omega⟩
      have hm1 : left ≤ (m : Int) ∧ (m : Int) ≤ right := by omega
      have hmn : m < t.length / size := by omega
      obtain ⟨c, o, hc, ho⟩ := hread _ (entryBytes_length size t m hmn)
      simp only [searchLoop, if_pos hle, hm, sliceRange_entry size t m hmn, hc]
      by_cases h1 : c < tag
      · rw [if_pos h1]
        exact ih _ _ (by omega) hr (by omega) (by omega)
      · rw [if_neg h1]
        by_cases h2 : c > tag
        · rw [if_pos h2]
          exact ih _ _ h0 (by omega) (by omega) (by omega)
        · rw [if_neg h2, ho]
          exact ⟨_, rfl⟩
    · exact ⟨-1, by simp only [searchLoop, if_neg hle]⟩

theorem fieldOf_defined (fs : List messageField) (i : Int) :
    ∃ r : messageField × Bool, fieldOf fs i = some r := by
  unfold fieldOf
  by_cases h1 : i < 0
  · exact ⟨_, by rw [if_pos h1]⟩
  · by_cases h2 : i ≥ (fs.length : Int)
    · exact ⟨_, by rw [if_neg h1, if_pos h2]⟩
    · have hk : i.toNat < fs.length := by omega
      exact ⟨_, by rw [if_neg h1, if_neg h2, List.getElem?_eq_getElem hk]; rfl⟩

theorem offsetOf_defined (fs : List messageField) (i : Int) :
    ∃ v : Int, offsetOf fs i = some v := by
  unfold offsetOf
  by_cases h1 : i < 0
  · exact ⟨_, by rw [if_pos h1]⟩
  · by_cases h2 : i ≥ (fs.length : Int)
    · exact ⟨_, by rw [if_neg h1, if_pos h2]⟩
    · have hk : i.toNat < fs.length := by omega
      exact ⟨_, by rw [if_neg h1, if_neg h2, List.getElem?_eq_getElem hk]; rfl⟩

/-- C18: decoded contents do not depend on the table width. For every field
list `fs` in which all tags are <= 255 and all offsets <= 65535, with `S` its
small serialization and `B` its big serialization: `count(false)` on `S` and
`count(true)` on `B` are both `len(fs)`; `field_small(S, i) = field_big(B, i)`
and `offsetByIndex_small(S, i) = offsetByIndex_big(B, i)` for every integer
`i` (the zero field or `-1` out of range, else field `i` of `fs`); and
`offset_small(S, t) = offset_big(B, t)` for every tag `t`, both searches
returning a value. -/
theorem C18_width_independent (fs : List messageField)
    (hfit : ∀ f ∈ fs, f.tag ≤ 255 ∧ f.offset ≤ 65535) :
    messageTable.count (smallSerialization fs) false = (fs.length : Int) ∧
    messageTable.count (bigSerialization fs) true = (fs.length : Int) ∧
    (∀ i : Int,
      messageTable.field_small (smallSerialization fs) i
        = messageTable.field_big (bigSerialization fs) i ∧
      messageTable.field_big (bigSerialization fs) i = fieldOf fs i ∧
      ∃ r : messageField × Bool, messageTable.field_big (bigSerialization fs) i = some r) ∧
    (∀ i : Int,
      messageTable.offsetByIndex_small (smallSerialization fs) i
        = messageTable.offsetByIndex_big (bigSerialization fs) i ∧
      messageTable.offsetByIndex_big (bigSerialization fs) i = offsetOf fs i ∧
      ∃ v : Int, messageTable.offsetByIndex_big (bigSerialization fs) i = some v) ∧
    (∀ tag : Nat,
      messageTable.offset_small (smallSerialization fs) tag
        = messageTable.offset_big (bigSerialization fs) tag) ∧
    (fs.length < 2 ^ 60 → ∀ tag : Nat,
      ∃ v : Int, messageTable.offset_big (bigSerialization fs) tag = some v) := by
  have hfit' : ∀ f ∈ fs, f.tag < 65536 ∧ f.offset < 4294967296 := by
    intro f hf
    have := hfit f hf
    omega
  have hnS : (smallSerialization fs).length / messageFieldSmallSize = fs.length := by
    rw [smallSerialization_length, messageFieldSmallSize_eq, Nat.mul_div_cancel _ (by decide)]
  have hnB : (bigSerialization fs).length / messageFieldBigSize = fs.length := by
    rw [bigSerialization_length, messageFieldBigSize_eq, Nat.mul_div_cancel _ (by decide)]
  refine ⟨?_, ?_, ?_, ?_, ?_, ?_⟩
  · simp only [messageTable.count, Bool.false_eq_true, if_false, hnS]
  · simp only [messageTable.count, if_true, hnB]
  · intro i
    rw [field_small_serialization fs hfit i, field_big_serialization fs hfit' i]
    exact ⟨rfl, rfl, fieldOf_defined fs i⟩
  · intro i
    rw [offsetByIndex_small_serialization fs hfit i, offsetByIndex_big_serialization fs hfit' i]
    exact ⟨rfl, rfl, offsetOf_defined fs i⟩
  · intro tag
    simp only [messageTable.offset_small, messageTable.offset_big, hnS, hnB]
    apply searchLoop_congr
    intro m
    rw [probe_small fs hfit m, probe_big fs hfit' m]
  · intro hlen tag
    have hB : (bigSerialization fs).length < 2 ^ 63 := by
      rw [bigSerialization_length]; omega
    have := searchLoop_defined messageFieldBigSize bigTag bigOffset (bigSerialization fs) tag hB
      big_reads (fs.length + 1) 0 ((fs.length : Int) - 1) (le_refl _)
      (by rw [hnB]; omega) (by omega) (by push_cast; omega)
    simpa only [messageTable.offset_big, hnB] using this

/-- C18 at the fields `(1, 5)`, `(7, 256)`: field 1, offset by index 1 and the
lookup of tag 7 agree on the small and the big serialization. -/
theorem C18_width_independent_witness :
    messageTable.field_small (smallSerialization [⟨1, 5⟩, ⟨7, 256⟩]) 1
      = messageTable.field_big (bigSerialization [⟨1, 5⟩, ⟨7, 256⟩]) 1 ∧
    messageTable.offsetByIndex_small (smallSerialization [⟨1, 5⟩, ⟨7, 256⟩]) 1
      = messageTable.offsetByIndex_big (bigSerialization [⟨1, 5⟩, ⟨7, 256⟩]) 1 ∧
    messageTable.offset_small (smallSerialization [⟨1, 5⟩, ⟨7, 256⟩]) 7
      = messageTable.offset_big (bigSerialization [⟨1, 5⟩, ⟨7, 256⟩]) 7 :=
  ⟨((C18_width_independent [⟨1, 5⟩, ⟨7, 256⟩] (by decide)).2.2.1 1).1,
   ((C18_width_independent [⟨1, 5⟩, ⟨7, 256⟩] (by decide)).2.2.2.1 1).1,
   (C18_width_independent [⟨1, 5⟩, ⟨7, 256⟩] (by decide)).2.2.2.2.1 7⟩

theorem evaluation_18 : smallSerialization [⟨1, 5⟩, ⟨7, 256⟩] = [1, 0, 5, 7, 1, 0] := by
  decide

theorem evaluation_19 :
    bigSerialization [⟨1, 5⟩, ⟨7, 256⟩] = [0, 1, 0, 0, 0, 5, 0, 7, 0, 0, 1, 0] := by
  decide

theorem evaluation_20 :
    messageTable.offsetByIndex_small (smallSerialization [⟨1, 5⟩, ⟨7, 256⟩]) 1 = some 256 ∧
    messageTable.offsetByIndex_big (bigSerialization [⟨1, 5⟩, ⟨7, 256⟩]) 1 = some 256 ∧
    messageTable.offsetByIndex_big (bigSerialization [⟨1, 5⟩, ⟨7, 256⟩]) 2 = some (-1) := by
  decide

/-! ## Theorems: lookup after insertion in any order -/

/-- Parsing the big serialization of fields that fit gives the fields back. -/
theorem collectFields_bigSerialization (fs : List messageField)
    (hfit : ∀ f ∈ fs, f.tag < 65536 ∧ f.offset < 4294967296) :
    collectFields (fieldAt messageFieldBigSize bigTag bigOffset (bigSerialization fs))
      ((bigSerialization fs).length / messageFieldBigSize) = some fs := by
  have hn : (bigSerialization fs).length / messageFieldBigSize = fs.length := by
    rw [bigSerialization_length, messageFieldBigSize_eq, Nat.mul_div_cancel _ (by decide)]
  rw [collectFields_eq messageFieldBigSize bigTag bigOffset _ big_reads, hn]
  congr 1
  apply List.ext_getElem
  · simp
  · intro k h1 h2
    have hk : k < fs.length := by simpa using h1
    obtain ⟨d1, d2⟩ := big_decode fs[k] (hfit _ (List.getElem_mem _))
    simp only [List.getElem_map, List.getElem_range, entryTag, entryOffset,
      messageFieldBigSize_eq, (bigSerialization_entry fs k hk).2, d1, d2, Option.getD_some]

/-- Parsing the small serialization of fields that fit gives the fields back. -/
theorem collectFields_smallSerialization (fs : List messageField)
    (hfit : ∀ f ∈ fs, f.tag ≤ 255 ∧ f.offset ≤ 65535) :
    collectFields (fieldAt messageFieldSmallSize smallTag smallOffset (smallSerialization fs))
      ((smallSerialization fs).length / messageFieldSmallSize) = some fs := by
  have hn : (smallSerialization fs).length / messageFieldSmallSize = fs.length := by
    rw [smallSerialization_length, messageFieldSmallSize_eq, Nat.mul_div_cancel _ (by decide)]
  rw [collectFields_eq messageFieldSmallSize smallTag smallOffset _ small_reads, hn]
  congr 1
  apply List.ext_getElem
  · simp
  · intro k h1 h2
    have hk : k < fs.length := by simpa using h1
    obtain ⟨d1, d2⟩ := small_decode fs[k] (hfit _ (List.getElem_mem _))
    simp only [List.getElem_map, List.getElem_range, entryTag, entryOffset,
      messageFieldSmallSize_eq, (smallSerialization_entry fs k hk).2, d1, d2,
      Option.getD_some]

/-- Fields with pairwise distinct 16-bit tags are at most 65536. -/
theorem length_le_of_nodup_tags (fs : List messageField)
    (hnodup : (fs.map messageField.tag).Nodup) (htag : ∀ f ∈ fs, f.tag < 65536) :
    fs.length ≤ 65536 := by
  have hsub : fs.map messageField.tag ⊆ List.range 65536 := by
    intro t ht
    obtain ⟨f, hf, rfl⟩ := List.mem_map.1 ht
    exact List.mem_range.2 (htag f hf)
  have := (List.subperm_of_subset hnodup hsub).length_le
  simpa using this

/-- The lookup through `messageMeta.offset` on the serialization, in the width
selected by `isBigMessage`, of a strictly tag-sorted table of 16-bit tags and
32-bit offsets. -/
theorem meta_offset_serialized (table : List messageField) (data : Nat)
    (hs : table.Pairwise tagLT)
    (htype : ∀ f ∈ table, f.tag < 65536 ∧ f.offset < 4294967296)
    (hlen : table.length ≤ 65536) :
    messageTable.fields (serializeTable (isBigMessage table) table) (isBigMessage table)
      = some table ∧
    (∀ f ∈ table,
      messageMeta.offset
        ⟨serializeTable (isBigMessage table) table, data, isBigMessage table⟩ f.tag
        = some ((f.offset : Nat) : Int)) ∧
    (∀ tag : Nat, (∀ f ∈ table, f.tag ≠ tag) →
      messageMeta.offset
        ⟨serializeTable (isBigMessage table) table, data, isBigMessage table⟩ tag
        = some (-1)) := by
  cases hbig : isBigMessage table with
  | true =>
    have hB : (bigSerialization table).length < 2 ^ 63 := by
      rw [bigSerialization_length]; omega
    have hfs := collectFields_bigSerialization table htype
    have hspec := fun tag => search_spec messageFieldBigSize bigTag bigOffset
      (bigSerialization table) tag hB big_reads table hfs hs
    refine ⟨?_, ?_, ?_⟩
    · simpa [messageTable.fields, messageTable.count, messageTable.field_big, serializeTable]
        using hfs
    · intro f hf
      simpa [messageMeta.offset, serializeTable, messageTable.offset_big]
        using (hspec f.tag).1 f hf rfl
    · intro tag habs
      simpa [messageMeta.offset, serializeTable, messageTable.offset_big]
        using (hspec tag).2 habs
  | false =>
    have hfit : ∀ f ∈ table, f.tag ≤ 255 ∧ f.offset ≤ 65535 := by
      intro f hf
      rw [isBigMessage_eq_any, List.any_eq_false] at hbig
      have := hbig f hf
      simp only [exceedsSmall, Bool.or_eq_true, decide_eq_true_eq, not_or, not_lt] at this
      omega
    have hS : (smallSerialization table).length < 2 ^ 63 := by
      rw [smallSerialization_length]; omega
    have hfs := collectFields_smallSerialization table hfit
    have hspec := fun tag => search_spec messageFieldSmallSize smallTag smallOffset
      (smallSerialization table) tag hS small_reads table hfs hs
    refine ⟨?_, ?_, ?_⟩
    · simpa [messageTable.fields, messageTable.count, messageTable.field_small, serializeTable]
        using hfs
    · intro f hf
      simpa [messageMeta.offset, serializeTable, messageTable.offset_small]
        using (hspec f.tag).1 f hf rfl
    · intro tag habs
      simpa [messageMeta.offset, serializeTable, messageTable.offset_small]
        using (hspec tag).2 habs

/-- C19: lookup is independent of insertion order. For every list `fields` of
fields with pairwise distinct tags (16-bit tags, 32-bit offsets), inserted with
`messageStack.insert` in any order `order`, the popped table, serialized with
big-endian entries in the width selected by `isBigMessage`, parses back to the
tag-sorted fields, and `messageMeta.offset(t)` returns the end offset that was
inserted together with tag `t`, and `-1` for every tag that was never
inserted. -/
theorem C19_lookup_order_independent (s : messageStack) (fields order : List messageField)
    (data : Nat) (hperm : order.Perm fields)
    (hnodup : (fields.map messageField.tag).Nodup)
    (htype : ∀ f ∈ fields, f.tag < 65536 ∧ f.offset < 4294967296) :
    ∃ (s' : messageStack) (table : List messageField),
      insertAll s s.offset order = some s' ∧
      s'.pop s.offset = some (s, table) ∧
      table = fields.insertionSort tagLE ∧
      messageTable.fields (serializeTable (isBigMessage table) table) (isBigMessage table)
        = some table ∧
      (∀ f ∈ fields,
        messageMeta.offset
          ⟨serializeTable (isBigMessage table) table, data, isBigMessage table⟩ f.tag
          = some ((f.offset : Nat) : Int)) ∧
      (∀ tag : Nat, (∀ f ∈ fields, f.tag ≠ tag) →
        messageMeta.offset
          ⟨serializeTable (isBigMessage table) table, data, isBigMessage table⟩ tag
          = some (-1)) := by
  have hp : (order.foldl (fun t f => t.orderedInsert tagLE f) []).Perm fields := by
    have h := foldl_orderedInsert_perm order []
    rw [List.nil_append] at h
    exact h.trans hperm
  have hsorted := foldl_orderedInsert_sorted order [] List.sorted_nil
  have hstrict : (order.foldl (fun t f => t.orderedInsert tagLE f) []).Pairwise tagLT :=
    sorted_strict_of_nodup _ hsorted ((hp.map messageField.tag).nodup_iff.2 hnodup)
  have hq : (fields.insertionSort tagLE).Perm fields := List.perm_insertionSort _ _
  have heq : order.foldl (fun t f => t.orderedInsert tagLE f) []
      = fields.insertionSort tagLE :=
    eq_of_perm_of_strict _ _ (hp.trans hq.symm) hstrict
      (sorted_strict_of_nodup _ (List.sorted_insertionSort _ _)
        ((hq.map messageField.tag).nodup_iff.2 hnodup))
  have htype' : ∀ f ∈ order.foldl (fun t f => t.orderedInsert tagLE f) [],
      f.tag < 65536 ∧ f.offset < 4294967296 :=
    fun f hf => htype f (hp.mem_iff.1 hf)
  have hlen : (order.foldl (fun t f => t.orderedInsert tagLE f) []).length ≤ 65536 := by
    rw [hp.length_eq]
    exact length_le_of_nodup_tags fields hnodup (fun f hf => (htype f hf).1)
  obtain ⟨h1, h2, h3⟩ := meta_offset_serialized _ data hstrict htype' hlen
  refine ⟨⟨s.stack ++ order.foldl (fun t f => t.orderedInsert tagLE f) []⟩, _, ?_, ?_, heq,
    h1, ?_, ?_⟩
  · have := insertAll_sorted s.stack order [] List.sorted_nil
    simpa [messageStack.offset] using this
  · exact pop_length_append _ _
  · intro f hf
    exact h2 f (hp.mem_iff.2 hf)
  · intro tag habs
    exact h3 tag (fun f hf => habs f (hp.mem_iff.1 hf))

/-- C19 at the stack `[(9, 9)]` with the fields of tags 300, 1, 7 inserted in the
order 7, 300, 1: the table is big, tag 300 is found with its offset 4 and tag 8
is absent. -/
theorem C19_lookup_order_independent_witness :
    ∃ (s' : messageStack) (table : List messageField),
      insertAll ⟨[⟨9, 9⟩]⟩ (messageStack.offset ⟨[⟨9, 9⟩]⟩) [⟨7, 2⟩, ⟨300, 4⟩, ⟨1, 6⟩]
        = some s' ∧
      s'.pop (messageStack.offset ⟨[⟨9, 9⟩]⟩) = some (⟨[⟨9, 9⟩]⟩, table) ∧
      table = List.insertionSort tagLE [⟨300, 4⟩, ⟨1, 6⟩, ⟨7, 2⟩] ∧
      messageTable.fields (serializeTable (isBigMessage table) table) (isBigMessage table)
        = some table ∧
      (∀ f ∈ ([⟨300, 4⟩, ⟨1, 6⟩, ⟨7, 2⟩] : List messageField),
        messageMeta.offset
          ⟨serializeTable (isBigMessage table) table, 6, isBigMessage table⟩ f.tag
          = some ((f.offset : Nat) : Int)) ∧
      (∀ tag : Nat, (∀ f ∈ ([⟨300, 4⟩, ⟨1, 6⟩, ⟨7, 2⟩] : List messageField), f.tag ≠ tag) →
        messageMeta.offset
          ⟨serializeTable (isBigMessage table) table, 6, isBigMessage table⟩ tag
          = some (-1)) :=
  C19_lookup_order_independent ⟨[⟨9, 9⟩]⟩ [⟨300, 4⟩, ⟨1, 6⟩, ⟨7, 2⟩]
    [⟨7, 2⟩, ⟨300, 4⟩, ⟨1, 6⟩] 6 (by decide) (by decide) (by decide)

theorem evaluation_21 :
    messageMeta.offset ⟨serializeTable true [⟨1, 6⟩, ⟨7, 2⟩, ⟨300, 4⟩], 6, true⟩ 300 = some 4 ∧
    messageMeta.offset ⟨serializeTable true [⟨1, 6⟩, ⟨7, 2⟩, ⟨300, 4⟩], 6, true⟩ 8
      = some (-1) ∧
    messageMeta.offset ⟨serializeTable false [⟨1, 6⟩, ⟨7, 2⟩], 6, false⟩ 7 = some 2 := by
  decide

/-! ## Theorems: end offsets of message tables -/

/-- C17 (counterexample): the error-free sequence `BeginMessage`, `Nil`,
`Field(5)`, `Nil`, `Field(1)` leaves the table `[(1, 2), (5, 1)]` on top: it is
sorted by tag and its end offsets decrease. -/
theorem C17_offsets_counterexample :
    Encoder.runErrorFree sampleCodec newEncoder
        [Call.beginMessage, Call.nil, Call.field 5, Call.nil, Call.field 1]
      = some descendingOffsetsState ∧
    descendingOffsetsState.objects.peek = some ⟨objectTypeMessage, 0, 0⟩ ∧
    sliceFrom descendingOffsetsState.fields.stack 0 = some [⟨1, 2⟩, ⟨5, 1⟩] ∧
    ¬ List.Pairwise offsetLE [⟨1, 2⟩, ⟨5, 1⟩] := by
  refine ⟨by decide, by decide, by decide, by decide⟩

theorem evaluation_22 :
    Encoder.runAscending sampleCodec newEncoder
        [Call.beginMessage, Call.nil, Call.field 1, Call.nil, Call.field 5]
      = some ascendingOffsetsState ∧
    Encoder.runAscending sampleCodec newEncoder
        [Call.beginMessage, Call.nil, Call.field 5, Call.nil, Call.field 1] = none := by
  decide

/-- A successful `setData`: the cursor was empty and is now `(start, end)`. -/
theorem setDataOrFail_ok (e e' : Encoder) (start end_ : Int)
    (h : e.setDataOrFail start end_ = (e', none)) :
    e.data = ⟨0, 0⟩ ∧ e' = { e with data := ⟨start, end_⟩ } := by
  unfold Encoder.setDataOrFail Encoder.setData at h
  by_cases hd : e.data.start ≠ 0 ∨ e.data.end_ ≠ 0
  · rw [if_pos hd] at h
    exact absurd h (fail_ne_ok _ _ _)
  · rw [if_neg hd] at h
    have h1 : e.data.start = 0 := by
      by_contra hc; exact hd (Or.inl hc)
    have h2 : e.data.end_ = 0 := by
      by_contra hc; exact hd (Or.inr hc)
    refine ⟨?_, ((Prod.mk.inj h).1).symm⟩
    cases hdata : e.data with
    | mk a b =>
      rw [hdata] at h1 h2
      simp only at h1 h2
      rw [h1, h2]

theorem writeValue_ok (e e' : Encoder) (encode : List Nat → List Nat)
    (herr : e.err = none) (h : e.writeValue encode = (e', none)) :
    e' = e.written (encode e.buf) := by
  simp only [Encoder.writeValue, herr] at h
  obtain ⟨_, he⟩ := setDataOrFail_ok _ _ _ _ h
  rw [he]
  simp only [Encoder.written, herr]

theorem writeFallible_ok_state (e e' : Encoder)
    (encode : List Nat → List Nat × Option EncodeError)
    (herr : e.err = none) (h : e.writeFallible encode = (e', none)) :
    e' = e.written (encode e.buf).1 := by
  have henc := writeFallible_ok e e' encode herr h
  simp only [Encoder.writeFallible, herr, henc] at h
  obtain ⟨_, he⟩ := setDataOrFail_ok _ _ _ _ h
  rw [he]
  simp only [Encoder.written, herr]

/-- The top object is the last entry of the object stack. -/
theorem stack_of_peek (s : objectStack) (o : objectEntry) (h : s.peek = some o) :
    s.stack = s.pop.1.stack ++ [o] :=
  (List.dropLast_append_getLast? o h).symm

theorem extends_refl (buf : List Nat) : Extends buf buf := ⟨[], (List.append_nil buf).symm⟩

theorem extends_length (old new : List Nat) (h : Extends old new) :
    (old.length : Int) ≤ (new.length : Int) := by
  obtain ⟨suffix, rfl⟩ := h
  rw [List.length_append]; omega

/-- The effect of a successful write of the buffer `out`. -/
theorem written_effect (call : Call) (e e' : Encoder) (out : List Nat)
    (herr : e.err = none) (hext : Extends e.buf out) (he : e' = e.written out) :
    e'.err = none ∧ Extends e.buf e'.buf ∧
    (e'.data = ⟨0, 0⟩ ∨ e'.data.end_ = (e'.buf.length : Int) ∨
      (e'.data = e.data ∧ e'.buf = e.buf)) ∧
    StackEffect call e e' := by
  subst he
  exact ⟨herr, hext, Or.inr (Or.inl rfl), StackEffect.keep rfl rfl⟩

/-- What a successful write call on an unpoisoned encoder does, when the
encoders only append: the encoder stays unpoisoned, the buffer is extended, the
cursor is empty, ends at the end of the buffer or is untouched together with
the buffer, and the stacks change as described by `StackEffect`. -/
theorem call_ok_effect (c : Codec) (happ : c.Appends) (e e' : Encoder) (call : Call)
    (herr : e.err = none)
    (hwf : ∀ o : objectEntry, e.objects.peek = some o → o.type_ = objectTypeMessage →
      ∃ table : List messageField, sliceFrom e.fields.stack o.tableStart = some table)
    (h : e.call c call = some (e', none)) :
    e'.err = none ∧ Extends e.buf e'.buf ∧
    (e'.data = ⟨0, 0⟩ ∨ e'.data.end_ = (e'.buf.length : Int) ∨
      (e'.data = e.data ∧ e'.buf = e.buf)) ∧
    StackEffect call e e' := by
  have hv : ∀ encode : List Nat → List Nat, Extends e.buf (encode e.buf) →
      some (e.writeValue encode) = some (e', none) →
      e'.err = none ∧ Extends e.buf e'.buf ∧
      (e'.data = ⟨0, 0⟩ ∨ e'.data.end_ = (e'.buf.length : Int) ∨
        (e'.data = e.data ∧ e'.buf = e.buf)) ∧
      StackEffect call e e' := fun encode hext hw =>
    written_effect call e e' _ herr hext (writeValue_ok e e' encode herr (Option.some.inj hw))
  have hf : ∀ encode : List Nat → List Nat × Option EncodeError,
      Extends e.buf (encode e.buf).1 →
      some (e.writeFallible encode) = some (e', none) →
      e'.err = none ∧ Extends e.buf e'.buf ∧
      (e'.data = ⟨0, 0⟩ ∨ e'.data.end_ = (e'.buf.length : Int) ∨
        (e'.data = e.data ∧ e'.buf = e.buf)) ∧
      StackEffect call e e' := fun encode hext hw =>
    written_effect call e e' _ herr hext
      (writeFallible_ok_state e e' encode herr (Option.some.inj hw))
  cases call
  case nil => exact hv c.EncodeNil (happ.EncodeNil _) h
  case bool v => exact hv (fun buf => c.EncodeBool buf v) (happ.EncodeBool _ v) h
  case byte v => exact hv (fun buf => c.EncodeByte buf v) (happ.EncodeByte _ v) h
  case int32 v => exact hv (fun buf => c.EncodeInt32 buf v) (happ.EncodeInt32 _ v) h
  case int64 v => exact hv (fun buf => c.EncodeInt64 buf v) (happ.EncodeInt64 _ v) h
  case uint32 v => exact hv (fun buf => c.EncodeUint32 buf v) (happ.EncodeUint32 _ v) h
  case uint64 v => exact hv (fun buf => c.EncodeUint64 buf v) (happ.EncodeUint64 _ v) h
  case u128 v => exact hv (fun buf => c.EncodeU128 buf v) (happ.EncodeU128 _ v) h
  case u256 v => exact hv (fun buf => c.EncodeU256 buf v) (happ.EncodeU256 _ v) h
  case float32 v => exact hv (fun buf => c.EncodeFloat32 buf v) (happ.EncodeFloat32 _ v) h
  case float64 v => exact hv (fun buf => c.EncodeFloat64 buf v) (happ.EncodeFloat64 _ v) h
  case bytes v => exact hf (fun buf => c.EncodeBytes buf v) (happ.EncodeBytes _ v) h
  case string v => exact hf (fun buf => c.EncodeString buf v) (happ.EncodeString _ v) h
  case beginList =>
    have h' : e.BeginList = (e', none) := Option.some.inj h
    simp only [Encoder.BeginList, herr] at h'
    have he := (Prod.mk.inj h').1
    subst he
    exact ⟨rfl, extends_refl _, Or.inr (Or.inr ⟨rfl, rfl⟩),
      StackEffect.push ⟨objectTypeList, (e.buf.length : Int), e.elements.offset⟩ rfl rfl rfl rfl
        (fun hk => by simp at hk)⟩
  case beginMessage =>
    have h' : e.BeginMessage = (e', none) := Option.some.inj h
    simp only [Encoder.BeginMessage, herr] at h'
    have he := (Prod.mk.inj h').1
    subst he
    exact ⟨rfl, extends_refl _, Or.inr (Or.inr ⟨rfl, rfl⟩),
      StackEffect.push ⟨objectTypeMessage, (e.buf.length : Int), e.fields.offset⟩ rfl rfl rfl rfl
        (fun _ => rfl)⟩
  case beginStruct =>
    have h' : e.BeginStruct = (e', none) := Option.some.inj h
    simp only [Encoder.BeginStruct, herr] at h'
    have he := (Prod.mk.inj h').1
    subst he
    exact ⟨rfl, extends_refl _, Or.inr (Or.inr ⟨rfl, rfl⟩),
      StackEffect.push ⟨objectTypeStruct, (e.buf.length : Int), 0⟩ rfl rfl rfl rfl
        (fun hk => by simp at hk)⟩
  case element =>
    have h' : e.Element = (e', none) := Option.some.inj h
    simp only [Encoder.Element, herr] at h'
    cases hp : e.objects.peek with
    | none => rw [hp] at h'; exact absurd h' (fail_ne_ok _ _ _)
    | some o =>
      rw [hp] at h'
      by_cases hk : o.type_ ≠ objectTypeList
      · simp only [if_pos hk] at h'; exact absurd h' (fail_ne_ok _ _ _)
      · simp only [if_neg hk, Encoder.popData] at h'
        have he := (Prod.mk.inj h').1
        subst he
        exact ⟨herr, extends_refl _, Or.inl rfl, StackEffect.keep rfl rfl⟩
  case structField =>
    have h' : e.StructField = (e', none) := Option.some.inj h
    simp only [Encoder.StructField, herr] at h'
    cases hp : e.objects.peek with
    | none => rw [hp] at h'; exact absurd h' (fail_ne_ok _ _ _)
    | some o =>
      rw [hp] at h'
      by_cases hk : o.type_ ≠ objectTypeStruct
      · simp only [if_pos hk] at h'; exact absurd h' (fail_ne_ok _ _ _)
      · simp only [if_neg hk, Encoder.popData] at h'
        have he := (Prod.mk.inj h').1
        subst he
        exact ⟨herr, extends_refl _, Or.inl rfl, StackEffect.keep rfl rfl⟩
  case field tag =>
    have h' : e.Field tag = some (e', none) := h
    cases hp : e.objects.peek with
    | none =>
      simp only [Encoder.Field, herr, hp] at h'
      exact absurd (Option.some.inj h') (fail_ne_ok _ _ _)
    | some o =>
      by_cases hk : o.type_ = objectTypeMessage
      · obtain ⟨table, hs⟩ := hwf o hp hk
        obtain ⟨hins, _, _, _⟩ := insert_in_range e.fields o.tableStart
          ⟨tag, ((e.data.end_ - o.start) % 2 ^ 32).toNat⟩ table hs
        have hne : ¬ (o.type_ ≠ objectTypeMessage) := by simp [hk]
        simp only [Encoder.Field, herr, hp, if_neg hne, Encoder.popData, hins] at h'
        have he := (Prod.mk.inj (Option.some.inj h')).1
        subst he
        exact ⟨rfl, extends_refl _, Or.inl rfl,
          StackEffect.insert o tag table rfl rfl rfl (stack_of_peek _ _ hp) hk hs rfl⟩
      · simp only [Encoder.Field, herr, hp, if_pos hk] at h'
        exact absurd (Option.some.inj h') (fail_ne_ok _ _ _)
  case endList =>
    have h' : e.EndList c = some (e', none) := h
    cases hp : e.objects.peek with
    | none =>
      have hpop : e.objects.pop.2 = none := hp
      simp only [Encoder.EndList, herr, hpop] at h'
      exact absurd (Option.some.inj h') (fail_ne_ok _ _ _)
    | some o =>
      have hpop : e.objects.pop.2 = some o := hp
      by_cases hk : o.type_ = objectTypeList
      · rw [endList_unfold c e o herr hp hk] at h'
        cases hs : sliceFrom e.elements.stack o.tableStart with
        | none => rw [hs] at h'; exact Option.noConfusion h'
        | some table =>
          rw [hs] at h'
          cases henc : (c.encodeListMeta e.buf ((e.buf.length : Int) - o.start) table).2 with
          | some err =>
            simp only [henc] at h'
            exact absurd (Option.some.inj h') (fail_ne_ok _ _ _)
          | none =>
            simp only [henc] at h'
            obtain ⟨_, he⟩ := setDataOrFail_ok _ _ _ _ (Option.some.inj h')
            subst he
            exact ⟨herr, happ.encodeListMeta _ _ _, Or.inr (Or.inl rfl),
              StackEffect.popOther o (stack_of_peek _ _ hp) (by simp [hk]) rfl⟩
      · simp only [Encoder.EndList, herr, hpop, if_pos hk] at h'
        exact absurd (Option.some.inj h') (fail_ne_ok _ _ _)
  case endMessage =>
    have h' : e.EndMessage c = some (e', none) := h
    cases hp : e.objects.peek with
    | none =>
      have hpop : e.objects.pop.2 = none := hp
      simp only [Encoder.EndMessage, herr, hpop] at h'
      exact absurd (Option.some.inj h') (fail_ne_ok _ _ _)
    | some o =>
      have hpop : e.objects.pop.2 = some o := hp
      by_cases hk : o.type_ = objectTypeMessage
      · rw [endMessage_unfold c e o herr hp hk] at h'
        cases hs : sliceFrom e.fields.stack o.tableStart with
        | none => rw [hs] at h'; exact Option.noConfusion h'
        | some table =>
          rw [hs] at h'
          cases henc : (c.encodeMessageMeta e.buf ((e.buf.length : Int) - o.start) table).2 with
          | some err =>
            simp only [henc] at h'
            exact absurd (Option.some.inj h') (fail_ne_ok _ _ _)
          | none =>
            simp only [henc] at h'
            obtain ⟨_, he⟩ := setDataOrFail_ok _ _ _ _ (Option.some.inj h')
            subst he
            exact ⟨herr, happ.encodeMessageMeta _ _ _, Or.inr (Or.inl rfl),
              StackEffect.popMessage o table (stack_of_peek _ _ hp) hk hs rfl⟩
      · simp only [Encoder.EndMessage, herr, hpop, if_pos hk] at h'
        exact absurd (Option.some.inj h') (fail_ne_ok _ _ _)
  case endStruct =>
    have h' : e.EndStruct c = (e', none) := Option.some.inj h
    cases hp : e.objects.peek with
    | none =>
      have hpop : e.objects.pop.2 = none := hp
      simp only [Encoder.EndStruct, herr, hpop] at h'
      exact absurd h' (fail_ne_ok _ _ _)
    | some o =>
      have hpop : e.objects.pop.2 = some o := hp
      by_cases hk : o.type_ = objectTypeStruct
      · rw [endStruct_unfold c e o herr hp hk] at h'
        cases henc : (c.encodeStruct e.buf ((e.buf.length : Int) - o.start)).2 with
        | some err =>
          simp only [henc] at h'
          exact absurd h' (fail_ne_ok _ _ _)
        | none =>
          simp only [henc] at h'
          obtain ⟨_, he⟩ := setDataOrFail_ok _ _ _ _ h'
          subst he
          exact ⟨herr, happ.encodeStruct _ _, Or.inr (Or.inl rfl),
            StackEffect.popOther o (stack_of_peek _ _ hp) (by simp [hk]) rfl⟩
      · simp only [Encoder.EndStruct, herr, hpop, if_pos hk] at h'
        exact absurd h' (fail_ne_ok _ _ _)

/-- The tables stay well formed when the buffer grows. -/
theorem tablesOk_mono (n n' : Int) (hn : n ≤ n') :
    ∀ (objs : List objectEntry) (fstack : List messageField),
      TablesOk n objs fstack → TablesOk n' objs fstack := by
  intro objs
  induction objs with
  | nil => intro fstack _; trivial
  | cons o below ih =>
    intro fstack h
    obtain ⟨h0, h1, h2⟩ := h
    refine ⟨h0, by omega, ?_⟩
    rcases h2 with ⟨hk, table, hs, ht, ho, hb, hrest⟩ | ⟨hk, hrest⟩
    · exact Or.inl ⟨hk, table, hs, ht, ho, fun f hf => by have := hb f hf; omega,
        ih _ hrest⟩
    · exact Or.inr ⟨hk, ih _ hrest⟩

/-- A slice that starts inside the stack, after the part from there on has been
replaced by `table`. -/
theorem sliceFrom_take_append {α : Type} (stack table : List α) (lo : Int)
    (h0 : 0 ≤ lo) (hle : lo ≤ (stack.length : Int)) :
    sliceFrom (stack.take lo.toNat ++ table) lo = some table ∧
    (stack.take lo.toNat ++ table).take lo.toNat = stack.take lo.toNat := by
  have hn : lo.toNat ≤ stack.length := by omega
  have hlen : (stack.take lo.toNat).length = lo.toNat := by
    rw [List.length_take, Nat.min_eq_left hn]
  constructor
  · have := sliceFrom_length_append (stack.take lo.toNat) table
    rw [hlen, Int.toNat_of_nonneg h0] at this
    exact this
  · exact List.take_left' hlen

/-- The table of the top message of an encoder that satisfies the invariant. -/
theorem tablesInv_top (e : Encoder) (hinv : e.TablesInv) (o : objectEntry)
    (hp : e.objects.peek = some o) (hk : o.type_ = objectTypeMessage) :
    0 ≤ o.start ∧ o.start ≤ (e.buf.length : Int) ∧
    ∃ table : List messageField,
      sliceFrom e.fields.stack o.tableStart = some table ∧
      table.Pairwise tagLT ∧ table.Pairwise offsetLE ∧
      (∀ f ∈ table, ((f.offset : Nat) : Int) ≤ (e.buf.length : Int) - o.start) ∧
      TablesOk (e.buf.length : Int) e.objects.pop.1.stack.reverse
        (e.fields.stack.take o.tableStart.toNat) := by
  obtain ⟨_, _, hok⟩ := hinv
  rw [stack_of_peek _ _ hp, List.reverse_append, List.reverse_singleton,
    List.singleton_append] at hok
  obtain ⟨h0, h1, h2⟩ := hok
  refine ⟨h0, h1, ?_⟩
  rcases h2 with ⟨_, table, hs, ht, ho, hb, hrest⟩ | ⟨hne, _⟩
  · exact ⟨table, hs, ht, ho, hb, hrest⟩
  · exact absurd hk hne

/-- What `fieldAscending` says about a state whose top message has the table
`table`. -/
theorem fieldAscending_spec (e : Encoder) (tag : Nat) (o : objectEntry)
    (table : List messageField) (h : fieldAscending e tag = true)
    (hp : e.objects.peek = some o)
    (hs : sliceFrom e.fields.stack o.tableStart = some table) :
    e.data ≠ ⟨0, 0⟩ ∧ e.buf.length < 2 ^ 32 ∧ ∀ g ∈ table, g.tag < tag := by
  simp only [fieldAscending, hp, hs, Bool.and_eq_true, decide_eq_true_eq,
    List.all_eq_true] at h
  exact ⟨h.1.1, h.1.2, h.2⟩

/-- On a strictly ascending table `Field` with a tag above all its tags appends
the new field at the end. -/
theorem insertLoop_ascending (table : List messageField) (f : messageField)
    (hs : table.Pairwise tagLT) (hlt : ∀ g ∈ table, g.tag < f.tag) :
    insertLoop (table ++ [f]) table.length = table ++ [f] := by
  have hsorted : table.Sorted tagLE := hs.imp (fun h => Nat.le_of_lt h)
  have h := insertLoop_eq_orderedInsert table f [] hsorted
  rw [List.append_nil, orderedInsert_all_lt f table hlt] at h
  exact h

/-- A successful write call keeps the invariant, provided a `Field` call
satisfies `fieldAscending`. -/
theorem tablesInv_step (c : Codec) (happ : c.Appends) (e e' : Encoder) (call : Call)
    (hinv : e.TablesInv) (h : e.call c call = some (e', none))
    (hasc : ∀ tag : Nat, call = Call.field tag → fieldAscending e tag = true) :
    e'.TablesInv := by
  have herr := hinv.1
  have hdata := hinv.2.1
  have hok := hinv.2.2
  have hwf : ∀ o : objectEntry, e.objects.peek = some o → o.type_ = objectTypeMessage →
      ∃ table : List messageField, sliceFrom e.fields.stack o.tableStart = some table := by
    intro o hp hk
    obtain ⟨_, _, table, hs, _⟩ := tablesInv_top e hinv o hp hk
    exact ⟨table, hs⟩
  obtain ⟨herr', hext, hd', heff⟩ := call_ok_effect c happ e e' call herr hwf h
  have hlen := extends_length _ _ hext
  have hdata' : e'.data = ⟨0, 0⟩ ∨ e'.data.end_ = (e'.buf.length : Int) := by
    rcases hd' with h1 | h1 | ⟨h1, h2⟩
    · exact Or.inl h1
    · exact Or.inr h1
    · rw [h1, h2]; exact hdata
  refine ⟨herr', hdata', ?_⟩
  cases heff with
  | keep hobj hfields =>
    rw [hobj, hfields]
    exact tablesOk_mono _ _ hlen _ _ hok
  | push o hobj hfields hstart hbuf htable =>
    rw [hobj, hfields, hbuf, List.reverse_append, List.reverse_singleton,
      List.singleton_append]
    refine ⟨by omega, by omega, ?_⟩
    by_cases hk : o.type_ = objectTypeMessage
    · refine Or.inl ⟨hk, [], ?_, List.Pairwise.nil, List.Pairwise.nil,
        fun f hf => absurd hf (List.not_mem_nil f), ?_⟩
      · have := sliceFrom_length_append e.fields.stack []
        rw [List.append_nil] at this
        rw [htable hk]; exact this
      · rw [htable hk, Int.toNat_ofNat, List.take_length]
        exact hok
    · exact Or.inr ⟨hk, hok⟩
  | insert o tag table hcall hobj hbuf htop hkind htable hfields =>
    have hp : e.objects.peek = some o := by
      unfold objectStack.peek
      rw [htop, List.getLast?_append, List.getLast?_singleton]
      rfl
    obtain ⟨h0, h1, table0, hs0, ht, ho, hb, hrest⟩ := tablesInv_top e hinv o hp hkind
    have htab : table0 = table := by
      rw [hs0] at htable; exact Option.some.inj htable
    subst htab
    obtain ⟨hne, hsmall, hlt⟩ := fieldAscending_spec e tag o table0 (hasc tag hcall) hp hs0
    have hend : e.data.end_ = (e.buf.length : Int) := by
      rcases hdata with hz | hz
      · exact absurd hz hne
      · exact hz
    have hoff : (((e.data.end_ - o.start) % 2 ^ 32).toNat : Int)
        = (e.buf.length : Int) - o.start := by
      rw [hend]
      have hmod : ((e.buf.length : Int) - o.start) % 2 ^ 32 = (e.buf.length : Int) - o.start :=
        Int.emod_eq_of_lt (by omega) (by omega)
      rw [hmod]
      exact Int.toNat_of_nonneg (by omega)
    obtain ⟨hrange0, hrange1, _, _⟩ := sliceFrom_in_range _ _ _ hs0
    obtain ⟨hsl, htk⟩ := sliceFrom_take_append e.fields.stack
      (table0 ++ [⟨tag, ((e.data.end_ - o.start) % 2 ^ 32).toNat⟩]) o.tableStart hrange0 hrange1
    rw [insertLoop_ascending table0 _ ht hlt] at hfields
    rw [hobj, hfields, hbuf, stack_of_peek _ _ hp, List.reverse_append,
      List.reverse_singleton, List.singleton_append]
    refine ⟨h0, h1, Or.inl ⟨hkind, _, hsl, ?_, ?_, ?_, ?_⟩⟩
    · rw [List.pairwise_append]
      refine ⟨ht, List.pairwise_singleton _ _, ?_⟩
      intro a ha b hb'
      rw [List.mem_singleton] at hb'
      subst hb'
      exact hlt a ha
    · rw [List.pairwise_append]
      refine ⟨ho, List.pairwise_singleton _ _, ?_⟩
      intro a ha b hb'
      rw [List.mem_singleton] at hb'
      subst hb'
      have := hb a ha
      show a.offset ≤ ((e.data.end_ - o.start) % 2 ^ 32).toNat
      omega
    · intro f hf
      rcases List.mem_append.1 hf with hf | hf
      · exact hb f hf
      · rw [List.mem_singleton] at hf
        subst hf
        show (((e.data.end_ - o.start) % 2 ^ 32).toNat : Int) ≤ _
        omega
    · rw [htk]; exact hrest
  | popOther o hobj hkind hfields =>
    rw [hobj, List.reverse_append, List.reverse_singleton, List.singleton_append] at hok
    obtain ⟨_, _, h2⟩ := hok
    rw [hfields]
    rcases h2 with ⟨hk, _⟩ | ⟨_, hrest⟩
    · exact absurd hk hkind
    · exact tablesOk_mono _ _ hlen _ _ hrest
  | popMessage o table hobj hkind htable hfields =>
    rw [hobj, List.reverse_append, List.reverse_singleton, List.singleton_append] at hok
    obtain ⟨_, _, h2⟩ := hok
    rw [hfields]
    rcases h2 with ⟨_, table0, _, _, _, _, hrest⟩ | ⟨hne, _⟩
    · exact tablesOk_mono _ _ hlen _ _ hrest
    · exact absurd hkind hne

theorem newEncoder_tablesInv : newEncoder.TablesInv :=
  ⟨rfl, Or.inl rfl, trivial⟩

/-- The invariant holds along every run in which each `Field` call satisfies
`fieldAscending`. -/
theorem runAscending_inv (c : Codec) (happ : c.Appends) :
    ∀ (calls : List Call) (e e' : Encoder), e.TablesInv →
      Encoder.runAscending c e calls = some e' → e'.TablesInv := by
  intro calls
  induction calls with
  | nil =>
    intro e e' hinv h
    have := Option.some.inj h
    subst this
    exact hinv
  | cons call calls ih =>
    intro e e' hinv h
    rw [Encoder.runAscending] at h
    by_cases hcond : callAscending e call = true
    · rw [if_pos hcond] at h
      cases hres : e.call c call with
      | none => rw [hres] at h; exact Option.noConfusion h
      | some r =>
        obtain ⟨e1, r1⟩ := r
        cases r1 with
        | some err => rw [hres] at h; exact Option.noConfusion h
        | none =>
          rw [hres] at h
          refine ih e1 e' (tablesInv_step c happ e e1 call hinv hres ?_) h
          intro tag hcall
          subst hcall
          exact hcond
    · rw [if_neg hcond] at h
      exact Option.noConfusion h

/-- C17 (amended): for every error-free sequence of writer calls on a fresh
encoder (with encoders that only append) in which every `Field` call is made
with a value outstanding, a buffer shorter than `2^32` bytes and a tag greater
than the tags already in the table of its message, the table of the message on
top of the object stack (`fields.stack[tableStart:]`, in table order) has
non-decreasing end offsets, after each `Field` call and in every other state of
the run; it is also strictly ascending by tag and its offsets lie inside the
payload written so far. -/
theorem C17_offsets_nondecreasing (c : Codec) (calls : List Call) (e : Encoder)
    (o : objectEntry) (happ : c.Appends)
    (hrun : Encoder.runAscending c newEncoder calls = some e)
    (hp : e.objects.peek = some o) (hk : o.type_ = objectTypeMessage) :
    ∃ table : List messageField,
      sliceFrom e.fields.stack o.tableStart = some table ∧
      table.Pairwise offsetLE ∧ table.Pairwise tagLT ∧
      (∀ f ∈ table, ((f.offset : Nat) : Int) ≤ (e.buf.length : Int) - o.start) := by
  have hinv := runAscending_inv c happ calls newEncoder e newEncoder_tablesInv hrun
  obtain ⟨_, _, table, hs, ht, ho, hb, _⟩ := tablesInv_top e hinv o hp hk
  exact ⟨table, hs, ho, ht, hb⟩

/-- C17 (amended) at the run `BeginMessage`, `Nil`, `Field(1)`, `Nil`,
`Field(5)`: the table `[(1, 1), (5, 2)]` has non-decreasing end offsets. -/
theorem C17_offsets_nondecreasing_witness :
    ∃ table : List messageField,
      sliceFrom ascendingOffsetsState.fields.stack 0 = some table ∧
      table.Pairwise offsetLE ∧ table.Pairwise tagLT ∧
      (∀ f ∈ table,
        ((f.offset : Nat) : Int) ≤ (ascendingOffsetsState.buf.length : Int) - 0) :=
  C17_offsets_nondecreasing sampleCodec
    [Call.beginMessage, Call.nil, Call.field 1, Call.nil, Call.field 5]
    ascendingOffsetsState ⟨objectTypeMessage, 0, 0⟩ sampleCodec_appends (by decide) rfl rfl

/-! ## Theorems: access by index -/

/-- Out of range, `fieldAt` answers the zero field and `false`. -/
theorem fieldAt_out_of_range (size : Nat) (readTag readOffset : List Nat → Option Nat)
    (t : List Nat) (i : Int) (h : i < 0 ∨ i ≥ ((t.length / size : Nat) : Int)) :
    fieldAt size readTag readOffset t i = some (⟨0, 0⟩, false) := by
  by_cases h1 : i < 0
  · simp only [fieldAt, if_pos h1]
  · have h2 : i ≥ ((t.length / size : Nat) : Int) := by
      rcases h with h | h
      · exact absurd h h1
      · exact h
    simp only [fieldAt, if_neg h1, if_pos h2]

theorem length_three {α : Type} (b : List α) (h : b.length = 3) :
    ∃ b0 b1 b2 : α, b = [b0, b1, b2] := by
  rcases b with _ | ⟨b0, _ | ⟨b1, _ | ⟨b2, _ | ⟨b3, r⟩⟩⟩⟩ <;> simp at h
  exact ⟨b0, b1, b2, rfl⟩

theorem length_six {α : Type} (b : List α) (h : b.length = 6) :
    ∃ b0 b1 b2 b3 b4 b5 : α, b = [b0, b1, b2, b3, b4, b5] := by
  rcases b with _ | ⟨b0, _ | ⟨b1, _ | ⟨b2, _ | ⟨b3, _ | ⟨b4, _ | ⟨b5, _ | ⟨b6, r⟩⟩⟩⟩⟩⟩⟩ <;>
    simp at h
  exact ⟨b0, b1, b2, b3, b4, b5, rfl⟩

/-- The slice `t[off+k:]` starts with the bytes of entry `m` from position `k`. -/
theorem sliceFrom_entry (size : Nat) (t : List Nat) (m k : Nat) (hk : k ≤ size)
    (hm : m < t.length / size) :
    ∃ rest : List Nat,
      sliceFrom t ((m : Int) * (size : Int) + (k : Int))
        = some ((entryBytes size t m).drop k ++ rest) := by
  have hfit := entry_fits size t m hm
  have e1 : (m : Int) * (size : Int) + (k : Int) = ((m * size + k : Nat) : Int) := by
    push_cast; rfl
  refine ⟨t.drop (m * size + size), ?_⟩
  rw [e1]
  unfold sliceFrom
  rw [if_pos (by omega)]
  simp only [Int.toNat_ofNat, entryBytes, Option.some.injEq]
  have e2 : t.drop (m * size + size) = (t.drop (m * size + k)).drop (size - k) := by
    rw [List.drop_drop]
    congr 1
    omega
  have e3 : ((t.drop (m * size)).take size).drop k
      = (t.drop (m * size + k)).take (size - k) := by
    rw [List.drop_take, List.drop_drop]
  rw [e2, e3]
  exact (List.take_append_drop (size - k) _).symm

/-- An in-range entry of a small message table. -/
theorem small_in_range (t : List Nat) (m : Nat) (hm : m < t.length / 3) :
    ∃ b0 b1 b2 : Nat,
      (t.drop (3 * m)).take 3 = [b0, b1, b2] ∧
      messageTable.field_small t (m : Int) = some (⟨b0, b1 * 256 + b2⟩, true) ∧
      messageTable.offsetByIndex_small t (m : Int) = some (((b1 * 256 + b2 : Nat)) : Int) := by
  have hslice := sliceRange_entry 3 t m hm
  have hlen := entryBytes_length 3 t m hm
  obtain ⟨b0, b1, b2, hb⟩ := length_three _ hlen
  obtain ⟨rest, hrest⟩ := sliceFrom_entry 3 t m 1 (by omega) hm
  have h1 : ¬ ((m : Int) < 0) := by omega
  have h2 : ¬ ((m : Int) ≥ ((t.length / 3 : Nat) : Int)) := by omega
  refine ⟨b0, b1, b2, ?_, ?_, ?_⟩
  · rw [← hb, entryBytes, Nat.mul_comm]
  · simp only [messageTable.field_small, fieldAt, messageFieldSmallSize, if_neg h1, if_neg h2]
    have hs : sliceRange t ((m : Int) * ((3 : Nat) : Int)) ((m : Int) * ((3 : Nat) : Int)
        + ((3 : Nat) : Int)) = some [b0, b1, b2] := by rw [hslice, hb]
    simp only [Nat.reduceAdd, hs]
    simp [smallTag, smallOffset, sliceFrom, uint16BE]
  · simp only [messageTable.offsetByIndex_small, messageFieldSmallSize, if_neg h1, if_neg h2]
    rw [hb] at hrest
    have hs : sliceFrom t ((m : Int) * ((3 : Nat) : Int) + 1) = some ([b1, b2] ++ rest) := by
      have := hrest
      simpa using this
    simp only [Nat.reduceAdd, hs]
    simp [uint16BE]

/-- An in-range entry of a big message table. -/
theorem big_in_range (t : List Nat) (m : Nat) (hm : m < t.length / 6) :
    ∃ b0 b1 b2 b3 b4 b5 : Nat,
      (t.drop (6 * m)).take 6 = [b0, b1, b2, b3, b4, b5] ∧
      messageTable.field_big t (m : Int)
        = some (⟨b0 * 256 + b1, ((b2 * 256 + b3) * 256 + b4) * 256 + b5⟩, true) ∧
      messageTable.offsetByIndex_big t (m : Int)
        = some (((((b2 * 256 + b3) * 256 + b4) * 256 + b5 : Nat)) : Int) := by
  have hslice := sliceRange_entry 6 t m hm
  have hlen := entryBytes_length 6 t m hm
  obtain ⟨b0, b1, b2, b3, b4, b5, hb⟩ := length_six _ hlen
  obtain ⟨rest, hrest⟩ := sliceFrom_entry 6 t m 2 (by omega) hm
  have h1 : ¬ ((m : Int) < 0) := by omega
  have h2 : ¬ ((m : Int) ≥ ((t.length / 6 : Nat) : Int)) := by omega
  refine ⟨b0, b1, b2, b3, b4, b5, ?_, ?_, ?_⟩
  · rw [← hb, entryBytes, Nat.mul_comm]
  · simp only [messageTable.field_big, fieldAt, messageFieldBigSize, if_neg h1, if_neg h2]
    have hs : sliceRange t ((m : Int) * ((6 : Nat) : Int)) ((m : Int) * ((6 : Nat) : Int)
        + ((6 : Nat) : Int)) = some [b0, b1, b2, b3, b4, b5] := by rw [hslice, hb]
    simp only [Nat.reduceAdd, hs]
    simp [bigTag, bigOffset, sliceFrom, uint16BE, uint32BE]
  · simp only [messageTable.offsetByIndex_big, messageFieldBigSize, if_neg h1, if_neg h2]
    rw [hb] at hrest
    have hs : sliceFrom t ((m : Int) * ((6 : Nat) : Int) + 2)
        = some ([b2, b3, b4, b5] ++ rest) := by
      have := hrest
      simpa using this
    simp only [Nat.reduceAdd, hs]
    simp [uint32BE]

/-- Access by index into a small table, in and out of range. -/
theorem small_access (t : List Nat) (i : Int) :
    (i < 0 ∨ i ≥ ((t.length / 3 : Nat) : Int) →
      messageTable.field_small t i = some (⟨0, 0⟩, false) ∧
      messageTable.offsetByIndex_small t i = some (-1)) ∧
    (0 ≤ i → i < ((t.length / 3 : Nat) : Int) →
      ∃ b0 b1 b2 : Nat,
        (t.drop (3 * i.toNat)).take 3 = [b0, b1, b2] ∧
        messageTable.field_small t i = some (⟨b0, b1 * 256 + b2⟩, true) ∧
        messageTable.offsetByIndex_small t i = some (((b1 * 256 + b2 : Nat)) : Int)) := by
  constructor
  · intro h
    refine ⟨fieldAt_out_of_range _ _ _ t i h, ?_⟩
    by_cases h1 : i < 0
    · simp only [messageTable.offsetByIndex_small, if_pos h1]
    · have h2 : i ≥ ((t.length / messageFieldSmallSize : Nat) : Int) := by
        rcases h with h | h
        · exact absurd h h1
        · exact h
      simp only [messageTable.offsetByIndex_small, if_neg h1, if_pos h2]
  · intro h0 hlt
    have hm : i.toNat < t.length / 3 := by omega
    have hi : ((i.toNat : Nat) : Int) = i := Int.toNat_of_nonneg h0
    have := small_in_range t i.toNat hm
    rw [hi] at this
    exact this

/-- Access by index into a big table, in and out of range. -/
theorem big_access (t : List Nat) (i : Int) :
    (i < 0 ∨ i ≥ ((t.length / 6 : Nat) : Int) →
      messageTable.field_big t i = some (⟨0, 0⟩, false) ∧
      messageTable.offsetByIndex_big t i = some (-1)) ∧
    (0 ≤ i → i < ((t.length / 6 : Nat) : Int) →
      ∃ b0 b1 b2 b3 b4 b5 : Nat,
        (t.drop (6 * i.toNat)).take 6 = [b0, b1, b2, b3, b4, b5] ∧
        messageTable.field_big t i
          = some (⟨b0 * 256 + b1, ((b2 * 256 + b3) * 256 + b4) * 256 + b5⟩, true) ∧
        messageTable.offsetByIndex_big t i
          = some (((((b2 * 256 + b3) * 256 + b4) * 256 + b5 : Nat)) : Int)) := by
  constructor
  · intro h
    refine ⟨fieldAt_out_of_range _ _ _ t i h, ?_⟩
    by_cases h1 : i < 0
    · simp only [messageTable.offsetByIndex_big, if_pos h1]
    · have h2 : i ≥ ((t.length / messageFieldBigSize : Nat) : Int) := by
        rcases h with h | h
        · exact absurd h h1
        · exact h
      simp only [messageTable.offsetByIndex_big, if_neg h1, if_pos h2]
  · intro h0 hlt
    have hm : i.toNat < t.length / 6 := by omega
    have hi : ((i.toNat : Nat) : Int) = i := Int.toNat_of_nonneg h0
    have := big_in_range t i.toNat hm
    rw [hi] at this
    exact this

/-- C21: for every message table `t` (any byte slice) and every integer `i`,
with `n = floor(len(t) / 3)` in the small format and `floor(len(t) / 6)` in the
big format. Out of range (`i < 0` or `i >= n`) `field_small` and `field_big`
return the zero field with `ok = false`, and `offsetByIndex_small` and
`offsetByIndex_big` return `-1`. In range they return `ok = true` with the tag
and the end offset read big-endian from the bytes of entry `i` (small: tag
`t[3i]`, offset `t[3i+1..3i+3)`; big: tag `t[6i..6i+2)`, offset `t[6i+2..6i+6)`),
and `offsetByIndex` returns the offset component of that field. Hence `ok` is
`false` exactly when `i` is out of range, and `offsetByIndex` is `-1` exactly
when `i` is out of range. -/
theorem C21_access_by_index (t : List Nat) (i : Int) :
    ((i < 0 ∨ i ≥ ((t.length / 3 : Nat) : Int) →
        messageTable.field_small t i = some (⟨0, 0⟩, false) ∧
        messageTable.offsetByIndex_small t i = some (-1)) ∧
      (0 ≤ i → i < ((t.length / 3 : Nat) : Int) →
        ∃ b0 b1 b2 : Nat,
          (t.drop (3 * i.toNat)).take 3 = [b0, b1, b2] ∧
          messageTable.field_small t i = some (⟨b0, b1 * 256 + b2⟩, true) ∧
          messageTable.offsetByIndex_small t i = some (((b1 * 256 + b2 : Nat)) : Int)) ∧
      (∃ f ok, messageTable.field_small t i = some (f, ok) ∧
        (ok = false ↔ (i < 0 ∨ i ≥ ((t.length / 3 : Nat) : Int))) ∧
        (ok = true → messageTable.offsetByIndex_small t i = some ((f.offset : Nat) : Int))) ∧
      (messageTable.offsetByIndex_small t i = some (-1)
        ↔ (i < 0 ∨ i ≥ ((t.length / 3 : Nat) : Int)))) ∧
    ((i < 0 ∨ i ≥ ((t.length / 6 : Nat) : Int) →
        messageTable.field_big t i = some (⟨0, 0⟩, false) ∧
        messageTable.offsetByIndex_big t i = some (-1)) ∧
      (0 ≤ i → i < ((t.length / 6 : Nat) : Int) →
        ∃ b0 b1 b2 b3 b4 b5 : Nat,
          (t.drop (6 * i.toNat)).take 6 = [b0, b1, b2, b3, b4, b5] ∧
          messageTable.field_big t i
            = some (⟨b0 * 256 + b1, ((b2 * 256 + b3) * 256 + b4) * 256 + b5⟩, true) ∧
          messageTable.offsetByIndex_big t i
            = some (((((b2 * 256 + b3) * 256 + b4) * 256 + b5 : Nat)) : Int)) ∧
      (∃ f ok, messageTable.field_big t i = some (f, ok) ∧
        (ok = false ↔ (i < 0 ∨ i ≥ ((t.length / 6 : Nat) : Int))) ∧
        (ok = true → messageTable.offsetByIndex_big t i = some ((f.offset : Nat) : Int))) ∧
      (messageTable.offsetByIndex_big t i = some (-1)
        ↔ (i < 0 ∨ i ≥ ((t.length / 6 : Nat) : Int)))) := by
  obtain ⟨sout, sin⟩ := small_access t i
  obtain ⟨bout, bin⟩ := big_access t i
  refine ⟨⟨sout, sin, ?_, ?_⟩, ⟨bout, bin, ?_, ?_⟩⟩
  · by_cases h : i < 0 ∨ i ≥ ((t.length / 3 : Nat) : Int)
    · exact ⟨_, _, (sout h).1, ⟨fun _ => h, fun _ => rfl⟩, fun hc => absurd hc (by decide)⟩
    · have h0 : 0 ≤ i := by omega
      have hlt : i < ((t.length / 3 : Nat) : Int) := by omega
      obtain ⟨b0, b1, b2, _, hf, ho⟩ := sin h0 hlt
      exact ⟨_, _, hf, ⟨fun hc => absurd hc (by decide), fun hc => absurd hc h⟩, fun _ => ho⟩
  · constructor
    · intro hv
      by_contra h
      have h0 : 0 ≤ i := by omega
      have hlt : i < ((t.length / 3 : Nat) : Int) := by omega
      obtain ⟨b0, b1, b2, _, _, ho⟩ := sin h0 hlt
      rw [ho] at hv
      have := Option.some.inj hv
      omega
    · intro h
      exact (sout h).2
  · by_cases h : i < 0 ∨ i ≥ ((t.length / 6 : Nat) : Int)
    · exact ⟨_, _, (bout h).1, ⟨fun _ => h, fun _ => rfl⟩, fun hc => absurd hc (by decide)⟩
    · have h0 : 0 ≤ i := by omega
      have hlt : i < ((t.length / 6 : Nat) : Int) := by omega
      obtain ⟨b0, b1, b2, b3, b4, b5, _, hf, ho⟩ := bin h0 hlt
      exact ⟨_, _, hf, ⟨fun hc => absurd hc (by decide), fun hc => absurd hc h⟩, fun _ => ho⟩
  · constructor
    · intro hv
      by_contra h
      have h0 : 0 ≤ i := by omega
      have hlt : i < ((t.length / 6 : Nat) : Int) := by omega
      obtain ⟨b0, b1, b2, b3, b4, b5, _, _, ho⟩ := bin h0 hlt
      rw [ho] at hv
      have := Option.some.inj hv
      omega
    · intro h
      exact (bout h).2

/-- C21 at the table `[7, 1, 2, 9, 0, 5, 4]`: as a small table it holds two
entries and a trailing byte, as a big table one entry; index 2 is out of
range in both formats. -/
theorem C21_access_by_index_witness :
    (messageTable.field_small [7, 1, 2, 9, 0, 5, 4] 2 = some (⟨0, 0⟩, false) ∧
      messageTable.offsetByIndex_small [7, 1, 2, 9, 0, 5, 4] 2 = some (-1)) ∧
    (∃ b0 b1 b2 : Nat,
      (([7, 1, 2, 9, 0, 5, 4] : List Nat).drop (3 * (1 : Int).toNat)).take 3 = [b0, b1, b2] ∧
      messageTable.field_small [7, 1, 2, 9, 0, 5, 4] 1 = some (⟨b0, b1 * 256 + b2⟩, true) ∧
      messageTable.offsetByIndex_small [7, 1, 2, 9, 0, 5, 4] 1
        = some (((b1 * 256 + b2 : Nat)) : Int)) ∧
    (∃ b0 b1 b2 b3 b4 b5 : Nat,
      (([7, 1, 2, 9, 0, 5, 4] : List Nat).drop (6 * (0 : Int).toNat)).take 6
        = [b0, b1, b2, b3, b4, b5] ∧
      messageTable.field_big [7, 1, 2, 9, 0, 5, 4] 0
        = some (⟨b0 * 256 + b1, ((b2 * 256 + b3) * 256 + b4) * 256 + b5⟩, true) ∧
      messageTable.offsetByIndex_big [7, 1, 2, 9, 0, 5, 4] 0
        = some (((((b2 * 256 + b3) * 256 + b4) * 256 + b5 : Nat)) : Int)) :=
  ⟨(C21_access_by_index [7, 1, 2, 9, 0, 5, 4] 2).1.1 (Or.inr (by decide)),
   (C21_access_by_index [7, 1, 2, 9, 0, 5, 4] 1).1.2.1 (by decide) (by decide),
   (C21_access_by_index [7, 1, 2, 9, 0, 5, 4] 0).2.2.1 (by decide) (by decide)⟩

theorem evaluation_23 :
    messageTable.field_small [7, 1, 2, 9, 0, 5, 4] 1 = some (⟨9, 5⟩, true) := by decide

theorem evaluation_24 :
    messageTable.offsetByIndex_big [7, 1, 2, 9, 0, 5, 4] 0 = some 34144261 := by decide

/-! ## Theorems: the list reader -/

theorem evaluation_25 : twoElementList.Element 0 = some [1, 2] := by decide

theorem evaluation_26 : twoElementList.Element 1 = some [3] := by decide

theorem evaluation_27 : twoElementList.Element 2 = some [] := by decide

theorem evaluation_28 : invertedList.Element 0 = some [1, 2, 3, 4, 5] := by decide

theorem evaluation_29 : invertedList.Element 1 = none := by decide

theorem evaluation_30 : twoElementList.Bool constantReaders 1 = some true := by decide

/-- Out of range the two-valued offset is `(-1, -1)`. -/
theorem offsetPair_out_of_range (t : List Nat) (i : Int)
    (h : i < 0 ∨ i ≥ listTable.count t) :
    ListGo.listTable.offset t i = some (-1, -1) := by
  by_cases h1 : i < 0
  · simp only [ListGo.listTable.offset, if_pos h1]
  · have h2 : i ≥ listTable.count t := by
      rcases h with h | h
      · exact absurd h h1
      · exact h
    simp only [ListGo.listTable.offset, if_neg h1, if_pos h2]

/-- In range the two-valued offset is defined: the end is entry `i`, the start
is 0 for `i = 0` and entry `i - 1` otherwise, and neither is negative. -/
theorem offsetPair_in_range (t : List Nat) (i : Int) (h0 : 0 ≤ i)
    (hlt : i < listTable.count t) :
    ∃ start end_ : Int,
      ListGo.listTable.offset t i = some (start, end_) ∧
      0 ≤ start ∧ 0 ≤ end_ ∧
      listTable.offset t i = some end_ ∧
      (i = 0 → start = 0) ∧
      (i ≠ 0 → listTable.offset t (i - 1) = some start) := by
  have hcount : listTable.count t = ((t.length / 4 : Nat) : Int) := rfl
  have hm : i.toNat < t.length / 4 := by omega
  have hi : ((i.toNat : Nat) : Int) = i := Int.toNat_of_nonneg h0
  obtain ⟨b0, b1, b2, b3, _, hoff⟩ := listTable_offset_in_range t i.toNat hm
  rw [hi] at hoff
  have h1 : ¬ (i < 0) := by omega
  have h2 : ¬ (i ≥ listTable.count t) := by omega
  by_cases hz : i = 0
  · refine ⟨0, _, ?_, le_refl _, ?_, hoff, fun _ => rfl, fun hne => absurd hz hne⟩
    · simp only [ListGo.listTable.offset, if_neg h1, if_neg h2, if_pos hz, hoff]
    · omega
  · have hm' : (i - 1).toNat < t.length / 4 := by omega
    have hi' : (((i - 1).toNat : Nat) : Int) = i - 1 := Int.toNat_of_nonneg (by omega)
    obtain ⟨c0, c1, c2, c3, _, hprev⟩ := listTable_offset_in_range t (i - 1).toNat hm'
    rw [hi'] at hprev
    refine ⟨_, _, ?_, ?_, ?_, hoff, fun h => absurd h hz, fun _ => hprev⟩
    · simp only [ListGo.listTable.offset, if_neg h1, if_neg h2, if_neg hz, hoff, hprev]
    · omega
    · omega

/-- What `Element` returns, case by case on the pair that the table gives. -/
theorem element_cases (l : ListView) (i : Int) :
    (i < 0 ∨ i ≥ l.Len → l.Element i = some []) ∧
    (∀ start end_ : Int, ListGo.listTable.offset l.table i = some (start, end_) →
      0 ≤ start →
      (start ≤ end_ → end_ ≤ (l.data.length : Int) →
        l.Element i = some ((l.data.take end_.toNat).drop start.toNat)) ∧
      ((l.data.length : Int) < end_ → l.Element i = some []) ∧
      (end_ < start → end_ ≤ (l.data.length : Int) → l.Element i = none)) := by
  constructor
  · intro h
    have := offsetPair_out_of_range l.table i h
    simp only [ListView.Element, this]
    rfl
  · intro start end_ hoff hs
    have h1 : ¬ (start < 0) := by omega
    refine ⟨?_, ?_, ?_⟩
    · intro hle hlen
      have h2 : ¬ (end_ > (l.data.length : Int)) := by omega
      simp only [ListView.Element, hoff, if_neg h1, if_neg h2, sliceRange]
      rw [if_pos ⟨hs, hle, hlen⟩]
    · intro hgt
      have h2 : end_ > (l.data.length : Int) := hgt
      simp only [ListView.Element, hoff, if_neg h1, if_pos h2]
    · intro hinv hlen
      have h2 : ¬ (end_ > (l.data.length : Int)) := by omega
      simp only [ListView.Element, hoff, if_neg h1, if_neg h2, sliceRange]
      rw [if_neg (by omega)]

/-- C22: at the list with table entries 5 and 2 over five bytes of data,
the table gives element 1 the range `(5, 2)`; it passes both checks of
`Element` (`start >= 0`, `end <= len(data)`), and the slice expression
`l.data[5:2]` is out of range, so `Element(1)` does not return. Element 0 of
the same list is returned. -/
theorem C22_element_inverted_range :
    ListGo.listTable.offset invertedList.table 1 = some (5, 2) ∧
    invertedList.Len = 2 ∧
    invertedList.data.length = 5 ∧
    invertedList.Element 0 = some [1, 2, 3, 4, 5] ∧
    invertedList.Element 1 = none := by
  decide

/-- Out of range every getter returns its zero value. -/
theorem getter_out_of_range {α : Type} (zero : α) (read : List Nat → α) (l : ListView)
    (i : Int) (h : i < 0 ∨ i ≥ l.Len) :
    l.getter zero read i = some zero := by
  have := offsetPair_out_of_range l.table i h
  simp only [ListView.getter, this]
  rfl

/-- C23: for every list `l`, all readers, and every index `i` with `i < 0` or
`i >= Len()`: `Element(i)` is empty and every typed getter returns (it is
defined) the zero value of its type: `Bool(i) = false`; `Int8`, `Int16`,
`Int32`, `Int64`, `UInt8`, `UInt16`, `UInt32`, `UInt64` give 0; `Float32` and
`Float64` give 0; `Bytes(i) = nil`; `String(i) = ""`; `List(i)` is the empty
list `List{}` and `Message(i)` the empty message `Message{}`. -/
theorem C23_out_of_range_zero_values {M : Type} (r : Readers M) (l : ListView) (i : Int)
    (h : i < 0 ∨ i ≥ l.Len) :
    l.Element i = some [] ∧
    l.Bool r i = some false ∧
    l.Int8 r i = some 0 ∧ l.Int16 r i = some 0 ∧ l.Int32 r i = some 0 ∧
    l.Int64 r i = some 0 ∧
    l.UInt8 r i = some 0 ∧ l.UInt16 r i = some 0 ∧ l.UInt32 r i = some 0 ∧
    l.UInt64 r i = some 0 ∧
    l.Float32 r i = some 0 ∧ l.Float64 r i = some 0 ∧
    l.Bytes r i = some [] ∧
    l.String r i = some [] ∧
    l.List r i = some emptyList ∧
    l.Message r i = some r.emptyMessage :=
  ⟨(element_cases l i).1 h,
   getter_out_of_range _ _ l i h, getter_out_of_range _ _ l i h,
   getter_out_of_range _ _ l i h, getter_out_of_range _ _ l i h,
   getter_out_of_range _ _ l i h, getter_out_of_range _ _ l i h,
   getter_out_of_range _ _ l i h, getter_out_of_range _ _ l i h,
   getter_out_of_range _ _ l i h, getter_out_of_range _ _ l i h,
   getter_out_of_range _ _ l i h, getter_out_of_range _ _ l i h,
   getter_out_of_range _ _ l i h, getter_out_of_range _ _ l i h,
   getter_out_of_range _ _ l i h⟩

/-- C23 at the two-element list, index 2, with readers that never return a
zero value. -/
theorem C23_out_of_range_zero_values_witness :
    ((2 : Int) < 0 ∨ (2 : Int) ≥ twoElementList.Len) ∧
    twoElementList.Element 2 = some [] ∧
    twoElementList.Bool constantReaders 2 = some false ∧
    twoElementList.Int8 constantReaders 2 = some 0 ∧
    twoElementList.Int16 constantReaders 2 = some 0 ∧
    twoElementList.Int32 constantReaders 2 = some 0 ∧
    twoElementList.Int64 constantReaders 2 = some 0 ∧
    twoElementList.UInt8 constantReaders 2 = some 0 ∧
    twoElementList.UInt16 constantReaders 2 = some 0 ∧
    twoElementList.UInt32 constantReaders 2 = some 0 ∧
    twoElementList.UInt64 constantReaders 2 = some 0 ∧
    twoElementList.Float32 constantReaders 2 = some 0 ∧
    twoElementList.Float64 constantReaders 2 = some 0 ∧
    twoElementList.Bytes constantReaders 2 = some [] ∧
    twoElementList.String constantReaders 2 = some [] ∧
    twoElementList.List constantReaders 2 = some emptyList ∧
    twoElementList.Message constantReaders 2 = some constantReaders.emptyMessage :=
  ⟨Or.inr (by decide),
   C23_out_of_range_zero_values constantReaders twoElementList 2 (Or.inr (by decide))⟩

/-! ## Theorems: validation of a list -/

/-- The loop returns nil exactly when every index still to visit has an
element that is returned and is empty or accepted by `ReadValue`. -/
theorem validateLoop_nil_iff {ε : Type} (rv : List Nat → Option (Option ε)) (l : ListView)
    (idx : List Nat) :
    l.validateLoop rv idx = some none ↔
      ∀ i ∈ idx, ∃ data, l.Element (i : Int) = some data ∧
        (data.length = 0 ∨ rv data = some none) := by
  induction idx with
  | nil => simp [ListView.validateLoop]
  | cons i rest ih =>
    simp only [ListView.validateLoop, List.mem_cons, forall_eq_or_imp]
    cases hel : l.Element (i : Int) with
    | none => simp
    | some data =>
      by_cases hlen : data.length = 0
      · simp only [if_pos hlen, ih]
        constructor
        · intro h
          exact ⟨⟨data, rfl, Or.inl hlen⟩, h⟩
        · intro h
          exact h.2
      · simp only [if_neg hlen]
        cases hrv : rv data with
        | none =>
          constructor
          · intro h
            cases h
          · intro h
            obtain ⟨⟨d, hd, hor⟩, _⟩ := h
            cases Option.some.inj hd
            rcases hor with hor | hor
            · exact absurd hor hlen
            · rw [hrv] at hor
              cases hor
        | some res =>
          cases res with
          | some err =>
            constructor
            · intro h
              cases Option.some.inj h
            · intro h
              obtain ⟨⟨d, hd, hor⟩, _⟩ := h
              cases Option.some.inj hd
              rcases hor with hor | hor
              · exact absurd hor hlen
              · rw [hrv] at hor
                cases Option.some.inj hor
          | none =>
            simp only [ih]
            constructor
            · intro h
              exact ⟨⟨data, rfl, Or.inr hrv⟩, h⟩
            · intro h
              exact h.2

/-- Indices that pass are skipped by the loop. -/
theorem validateLoop_skip {ε : Type} (rv : List Nat → Option (Option ε)) (l : ListView)
    (pre post : List Nat)
    (h : ∀ i ∈ pre, ∃ data, l.Element (i : Int) = some data ∧
      (data.length = 0 ∨ rv data = some none)) :
    l.validateLoop rv (pre ++ post) = l.validateLoop rv post := by
  induction pre with
  | nil => rfl
  | cons i rest ih =>
    obtain ⟨data, hd, hor⟩ := h i (List.mem_cons_self _ _)
    have hrest := ih (fun j hj => h j (List.mem_cons_of_mem _ hj))
    simp only [List.cons_append, ListView.validateLoop, hd, List.append_eq]
    by_cases hlen : data.length = 0
    · simp only [if_pos hlen, hrest]
    · rcases hor with hor | hor
      · exact absurd hor hlen
      · simp only [if_neg hlen, hor, hrest]

theorem range_split (n i : Nat) (hi : i < n) :
    ∃ post : List Nat, List.range n = List.range i ++ i :: post := by
  obtain ⟨k, rfl⟩ : ∃ k, n = i + (k + 1) := ⟨n - i - 1, by omega⟩
  refine ⟨(List.range k).map (fun j => i + (j + 1)), ?_⟩
  rw [List.range_add, List.range_succ_eq_map]
  simp [Function.comp_def]

/-- Go `Validate` returns nil exactly when every element below `Len()` is
returned and is empty or accepted by `ReadValue`. -/
theorem validate_nil_iff {ε : Type} (rv : List Nat → Option (Option ε)) (l : ListView) :
    l.Validate rv = some none ↔
      ∀ i : Nat, (i : Int) < l.Len → ∃ data, l.Element (i : Int) = some data ∧
        (data.length = 0 ∨ rv data = some none) := by
  have hlen : 0 ≤ l.Len := Int.ofNat_zero_le _
  rw [ListView.Validate, validateLoop_nil_iff]
  constructor
  · intro h i hi
    exact h i (List.mem_range.2 (by omega))
  · intro h i hi
    exact h i (by have := List.mem_range.1 hi; omega)

/-- Go `Validate` returns the error of the lowest index whose element is not
empty and is rejected by `ReadValue`, when the elements below it pass. -/
theorem validate_error_lowest {ε : Type} (rv : List Nat → Option (Option ε)) (l : ListView)
    (i : Nat) (hi : (i : Int) < l.Len)
    (hbelow : ∀ j : Nat, j < i → ∃ data, l.Element (j : Int) = some data ∧
      (data.length = 0 ∨ rv data = some none))
    (data : List Nat) (err : ε) (hel : l.Element (i : Int) = some data)
    (hne : data.length ≠ 0) (hrv : rv data = some (some err)) :
    l.Validate rv = some (some err) := by
  obtain ⟨post, hsplit⟩ := range_split l.Len.toNat i (by omega)
  rw [ListView.Validate, hsplit,
    validateLoop_skip rv l _ _ (fun j hj => hbelow j (List.mem_range.1 hj))]
  simp only [ListView.validateLoop, hel, if_neg hne, hrv]

/-- Go `Validate` does not return when the lowest index that does not pass is
one whose element is not returned. -/
theorem validate_stuck {ε : Type} (rv : List Nat → Option (Option ε)) (l : ListView)
    (i : Nat) (hi : (i : Int) < l.Len)
    (hbelow : ∀ j : Nat, j < i → ∃ data, l.Element (j : Int) = some data ∧
      (data.length = 0 ∨ rv data = some none))
    (hel : l.Element (i : Int) = none) :
    l.Validate rv = none := by
  obtain ⟨post, hsplit⟩ := range_split l.Len.toNat i (by omega)
  rw [ListView.Validate, hsplit,
    validateLoop_skip rv l _ _ (fun j hj => hbelow j (List.mem_range.1 hj))]
  simp only [ListView.validateLoop, hel]

/-- C24: at the list with table entries 5 and 2 over five bytes of data and
a `ReadValue` that accepts every value, `Validate` returns neither nil nor an
error: element 0 is accepted, and at index 1 the call `Element(1)` does not
return (its range `(5, 2)` is inverted). On the two-element list with a
`ReadValue` that rejects the second element, `Validate` returns that error. -/
theorem C24_validate_inverted_range :
    invertedList.Element 0 = some [1, 2, 3, 4, 5] ∧
    acceptAll [1, 2, 3, 4, 5] = some none ∧
    invertedList.Element 1 = none ∧
    invertedList.Validate acceptAll = none ∧
    twoElementList.Validate acceptAll = some none ∧
    twoElementList.Validate rejectThree = some (some 7) := by
  decide

/-! ## Theorems: the element stack -/

theorem pushEach_stack (s : listStack) (elements : List listElement) :
    (pushEach s elements).stack = s.stack ++ elements := by
  induction elements generalizing s with
  | nil => simp [pushEach]
  | cons elem rest ih => simp [pushEach, ih, listStack.push]

/-- Popping at the offset recorded before a push of `elements` returns them and
restores the stack. -/
theorem pop_pushEach (s : listStack) (elements : List listElement) :
    (pushEach s elements).pop s.offset = some (s, elements) := by
  have hst := pushEach_stack s elements
  unfold listStack.pop listStack.offset
  rw [hst, sliceFrom_length_append, sliceTo_length_append]

theorem popEach_append (s : listStack) (a b : List Int) :
    popEach s (a ++ b) =
      match popEach s a with
      | none => none
      | some (s', tables) =>
        match popEach s' b with
        | none => none
        | some (s'', more) => some (s'', tables ++ more) := by
  induction a generalizing s with
  | nil =>
    simp only [List.nil_append, popEach]
    cases popEach s b with
    | none => rfl
    | some r => rfl
  | cons offset rest ih =>
    simp only [List.cons_append, popEach, List.append_eq]
    cases hpop : s.pop offset with
    | none => rfl
    | some r =>
      obtain ⟨s', table⟩ := r
      simp only [ih s']
      cases popEach s' rest with
      | none => rfl
      | some r' =>
        obtain ⟨s'', tables⟩ := r'
        simp only
        cases popEach s'' b with
        | none => rfl
        | some r'' => rfl

/-- Draining a built stack in reverse order of the recorded offsets. -/
theorem popEach_buildLists (s : listStack) (matrix : List (List listElement)) :
    popEach (buildLists s matrix).1 (buildLists s matrix).2.reverse
      = some (s, matrix.reverse) := by
  induction matrix generalizing s with
  | nil => rfl
  | cons elements rest ih =>
    simp only [buildLists, List.reverse_cons]
    rw [popEach_append, ih (pushEach s elements)]
    simp only [popEach, pop_pushEach]

/-- C26: for every element stack `s` and every sequence of element lists
`L1..Lk`: after recording `off_j = s.offset()` and pushing the elements of `Lj`
with `push`, for `j = 1..k` in order, the calls `pop(off_j)` for `j = k` down to 1
all return (no slice is out of range), the `j`-th of them returns exactly `Lj`
with its elements in push order, and the stack left at the end is the
original `s`. -/
theorem C26_list_stack_push_pop (s : listStack) (matrix : List (List listElement)) :
    popEach (buildLists s matrix).1 (buildLists s matrix).2.reverse
      = some (s, matrix.reverse) ∧
    (buildLists s matrix).2.length = matrix.length ∧
    (buildLists s matrix).1.stack = s.stack ++ matrix.flatten := by
  refine ⟨popEach_buildLists s matrix, ?_, ?_⟩
  · induction matrix generalizing s with
    | nil => rfl
    | cons elements rest ih => simp [buildLists, ih]
  · induction matrix generalizing s with
    | nil => simp [buildLists]
    | cons elements rest ih => simp [buildLists, ih, pushEach_stack]

theorem evaluation_31 :
    buildLists ⟨[⟨9⟩]⟩ [[⟨1⟩], [⟨2⟩, ⟨3⟩], [], [⟨4⟩]]
      = (⟨[⟨9⟩, ⟨1⟩, ⟨2⟩, ⟨3⟩, ⟨4⟩]⟩, [1, 2, 4, 4]) := by decide

theorem evaluation_32 :
    popEach ⟨[⟨9⟩, ⟨1⟩, ⟨2⟩, ⟨3⟩, ⟨4⟩]⟩ [4, 4, 2, 1]
      = some (⟨[⟨9⟩]⟩, [[⟨4⟩], [], [⟨2⟩, ⟨3⟩], [⟨1⟩]]) := by decide

/-! ## Theorems: the frame of `insert` -/

/-- C27: for every field stack `s`, every `offset` with
`0 <= offset <= len(s.stack)` and every field `f`, the call
`insert(offset, f)` returns, the stack is one entry longer, `s.stack[0:offset]`
(the tables of the enclosing messages) is unchanged, and `s.stack[offset:]` is
a permutation of the old `s.stack[offset:]` plus `f`. -/
theorem C27_insert_frame (s : messageStack) (offset : Int) (f : messageField)
    (h0 : 0 ≤ offset) (hle : offset ≤ (s.stack.length : Int)) :
    ∃ s' : messageStack,
      s.insert offset f = some s' ∧
      s'.stack.length = s.stack.length + 1 ∧
      sliceRange s.stack 0 offset = some (s.stack.take offset.toNat) ∧
      sliceRange s'.stack 0 offset = some (s.stack.take offset.toNat) ∧
      sliceFrom s.stack offset = some (s.stack.drop offset.toNat) ∧
      ∃ table' : List messageField,
        sliceFrom s'.stack offset = some table' ∧
        table'.Perm (s.stack.drop offset.toNat ++ [f]) := by
  have hslice : sliceFrom s.stack offset = some (s.stack.drop offset.toNat) := by
    unfold sliceFrom
    rw [if_pos ⟨h0, hle⟩]
  obtain ⟨hins, hcast, hn, _⟩ := insert_in_range s offset f _ hslice
  have hperm := insertLoop_perm (s.stack.drop offset.toNat).length
    (s.stack.drop offset.toNat ++ [f])
  have htake : (s.stack.take offset.toNat).length = offset.toNat := by
    rw [List.length_take]; omega
  have hlen' : (insertLoop (s.stack.drop offset.toNat ++ [f])
      (s.stack.drop offset.toNat).length).length = s.stack.length - offset.toNat + 1 := by
    rw [hperm.length_eq]; simp
  refine ⟨_, hins, ?_, ?_, ?_, hslice, _, ?_, hperm⟩
  · simp only [List.length_append, htake, hlen']
    omega
  · unfold sliceRange
    rw [if_pos ⟨le_refl _, h0, hle⟩]
    simp
  · unfold sliceRange
    rw [if_pos ⟨le_refl _, h0, by
      simp only [List.length_append, htake, hlen']; push_cast; omega⟩]
    simp only [Int.toNat_zero, List.drop_zero]
    rw [List.take_append_of_le_length (by omega), List.take_of_length_le (by omega)]
  · have := sliceFrom_length_append (s.stack.take offset.toNat)
      (insertLoop (s.stack.drop offset.toNat ++ [f]) (s.stack.drop offset.toNat).length)
    rw [htake, hcast] at this
    exact this

/-- C27 at the stack `[(1,1), (5,2), (7,3)]`, offset 1 and the field `(6,4)`:
the entry below the offset stays, the table above it becomes
`[(5,2), (6,4), (7,3)]`. -/
theorem C27_insert_frame_witness :
    ∃ s' : messageStack,
      (⟨[⟨1, 1⟩, ⟨5, 2⟩, ⟨7, 3⟩]⟩ : messageStack).insert 1 ⟨6, 4⟩ = some s' ∧
      s'.stack.length = ([⟨1, 1⟩, ⟨5, 2⟩, ⟨7, 3⟩] : List messageField).length + 1 ∧
      sliceRange ([⟨1, 1⟩, ⟨5, 2⟩, ⟨7, 3⟩] : List messageField) 0 1
        = some (([⟨1, 1⟩, ⟨5, 2⟩, ⟨7, 3⟩] : List messageField).take (1 : Int).toNat) ∧
      sliceRange s'.stack 0 1
        = some (([⟨1, 1⟩, ⟨5, 2⟩, ⟨7, 3⟩] : List messageField).take (1 : Int).toNat) ∧
      sliceFrom ([⟨1, 1⟩, ⟨5, 2⟩, ⟨7, 3⟩] : List messageField) 1
        = some (([⟨1, 1⟩, ⟨5, 2⟩, ⟨7, 3⟩] : List messageField).drop (1 : Int).toNat) ∧
      ∃ table' : List messageField,
        sliceFrom s'.stack 1 = some table' ∧
        table'.Perm (([⟨1, 1⟩, ⟨5, 2⟩, ⟨7, 3⟩] : List messageField).drop (1 : Int).toNat
          ++ [⟨6, 4⟩]) :=
  C27_insert_frame ⟨[⟨1, 1⟩, ⟨5, 2⟩, ⟨7, 3⟩]⟩ 1 ⟨6, 4⟩ (by decide) (by decide)

theorem evaluation_33 :
    (⟨[⟨1, 1⟩, ⟨5, 2⟩, ⟨7, 3⟩]⟩ : messageStack).insert 1 ⟨6, 4⟩
      = some ⟨[⟨1, 1⟩, ⟨5, 2⟩, ⟨6, 4⟩, ⟨7, 3⟩]⟩ := by decide

/-! ## Theorems: typed lists -/

/-- The loop of `ParseTypedList` ends without an error exactly when every index
still to visit has empty bytes or bytes that the element decoder accepts. -/
theorem parseLoop_none_iff {L T ε : Type} (d : ListDecoding L ε) (l : L)
    (element : List Nat → T × Int × Option ε) (idx : List Nat) :
    parseLoop d l element idx = none ↔
      ∀ i ∈ idx, (d.GetBytes l (i : Int)).length = 0 ∨
        (element (d.GetBytes l (i : Int))).2.2 = none := by
  induction idx with
  | nil => simp [parseLoop]
  | cons i rest ih =>
    simp only [parseLoop, List.mem_cons, forall_eq_or_imp]
    by_cases hlen : (d.GetBytes l (i : Int)).length = 0
    · simp only [if_pos hlen, ih]
      constructor
      · intro h
        exact ⟨Or.inl hlen, h⟩
      · intro h
        exact h.2
    · simp only [if_neg hlen]
      cases hel : (element (d.GetBytes l (i : Int))).2.2 with
      | some err =>
        constructor
        · intro h
          cases h
        · intro h
          rcases h.1 with h1 | h1
          · exact absurd h1 hlen
          · cases h1
      | none =>
        simp only [ih]
        constructor
        · intro h
          exact ⟨Or.inr trivial, h⟩
        · intro h
          exact h.2

/-- Indices that pass are skipped by the loop of `ParseTypedList`. -/
theorem parseLoop_skip {L T ε : Type} (d : ListDecoding L ε) (l : L)
    (element : List Nat → T × Int × Option ε) (pre post : List Nat)
    (h : ∀ i ∈ pre, (d.GetBytes l (i : Int)).length = 0 ∨
      (element (d.GetBytes l (i : Int))).2.2 = none) :
    parseLoop d l element (pre ++ post) = parseLoop d l element post := by
  induction pre with
  | nil => rfl
  | cons i rest ih =>
    have hi := h i (List.mem_cons_self _ _)
    have hrest := ih (fun j hj => h j (List.mem_cons_of_mem _ hj))
    simp only [List.cons_append, parseLoop, List.append_eq]
    by_cases hlen : (d.GetBytes l (i : Int)).length = 0
    · simp only [if_pos hlen, hrest]
    · rcases hi with hi | hi
      · exact absurd hi hlen
      · simp only [if_neg hlen, hi, hrest]

/-- The loop of `ParseTypedList` ends with the error of the lowest index whose
bytes are not empty and are rejected by the element decoder. -/
theorem parseLoop_lowest {L T ε : Type} (d : ListDecoding L ε) (l : L)
    (element : List Nat → T × Int × Option ε) (n i : Nat) (hi : i < n)
    (hbelow : ∀ j : Nat, j < i → (d.GetBytes l (j : Int)).length = 0 ∨
      (element (d.GetBytes l (j : Int))).2.2 = none)
    (hne : (d.GetBytes l (i : Int)).length ≠ 0) (err : ε)
    (herr : (element (d.GetBytes l (i : Int))).2.2 = some err) :
    parseLoop d l element (List.range n) = some err := by
  obtain ⟨post, hsplit⟩ := range_split n i hi
  rw [hsplit, parseLoop_skip d l element _ _ (fun j hj => hbelow j (List.mem_range.1 hj))]
  simp only [parseLoop, if_neg hne, herr]

theorem evaluation_34 :
    (ParseTypedList sampleListDecoding [1, 0, 4, 3] sampleElement).2 = (4, some 8) := by
  decide

theorem evaluation_35 :
    (ParseTypedList sampleListDecoding [] sampleElement).2 = (0, some 1) := by
  decide

theorem evaluation_36 :
    (ParseTypedList sampleListDecoding [1, 0, 2] sampleElement).1.list = [[1], [], [2]] ∧
    (ParseTypedList sampleListDecoding [1, 0, 2] sampleElement).2 = (3, none) := by
  decide

/-- The result of `ParseTypedList` in terms of `decodeList` and the loop. -/
theorem parseTypedList_ok {L T ε : Type} (d : ListDecoding L ε) (b : List Nat)
    (element : List Nat → T × Int × Option ε) (l : L) (size : Int)
    (hdec : d.decodeList b = (l, size, none)) :
    ParseTypedList d b element =
      match parseLoop d l element (List.range (d.Len l).toNat) with
      | some err => (⟨d.zeroList, none⟩, size, some err)
      | none => (⟨l, some element⟩, size, none) := by
  simp only [ParseTypedList, hdec]

/-- C30: for every byte slice `b` and element decoder `element`, with
`decodeList`, `Len` and `GetBytes` as given. When `decodeList(b)` fails,
`ParseTypedList` returns that error (with the zero typed list and the size
`decodeList` reported). When it succeeds with list `l` and size `size`: if
every element below `Len()` has empty bytes or is accepted by `element`, the
result is the typed list wrapping `l` and `element`, the size `size` and a nil
error; otherwise the result carries the error of the lowest index whose bytes
are not empty and are rejected. Hence an error is returned if and only if
`decodeList(b)` fails or `element` fails on some element with non-empty
bytes. -/
theorem C30_parse_typed_list {L T ε : Type} (d : ListDecoding L ε) (b : List Nat)
    (element : List Nat → T × Int × Option ε) :
    (∀ (l : L) (size : Int) (err : ε), d.decodeList b = (l, size, some err) →
      ParseTypedList d b element = (⟨d.zeroList, none⟩, size, some err)) ∧
    (∀ (l : L) (size : Int), d.decodeList b = (l, size, none) →
      ((∀ i : Nat, (i : Int) < d.Len l →
          (d.GetBytes l (i : Int)).length = 0 ∨
            (element (d.GetBytes l (i : Int))).2.2 = none) →
        ParseTypedList d b element = (⟨l, some element⟩, size, none)) ∧
      (∀ (i : Nat) (err : ε), (i : Int) < d.Len l →
        (∀ j : Nat, j < i → (d.GetBytes l (j : Int)).length = 0 ∨
          (element (d.GetBytes l (j : Int))).2.2 = none) →
        (d.GetBytes l (i : Int)).length ≠ 0 →
        (element (d.GetBytes l (i : Int))).2.2 = some err →
        ParseTypedList d b element = (⟨d.zeroList, none⟩, size, some err))) ∧
    ((ParseTypedList d b element).2.2 ≠ none ↔
      ((d.decodeList b).2.2 ≠ none ∨
        ∃ i : Nat, (i : Int) < d.Len (d.decodeList b).1 ∧
          (d.GetBytes (d.decodeList b).1 (i : Int)).length ≠ 0 ∧
          (element (d.GetBytes (d.decodeList b).1 (i : Int))).2.2 ≠ none)) := by
  refine ⟨?_, ?_, ?_⟩
  · intro l size err hdec
    simp only [ParseTypedList, hdec]
  · intro l size hdec
    constructor
    · intro hall
      have hloop : parseLoop d l element (List.range (d.Len l).toNat) = none :=
        (parseLoop_none_iff d l element _).2
          (fun i hi => hall i (by have := List.mem_range.1 hi; omega))
      rw [parseTypedList_ok d b element l size hdec, hloop]
    · intro i err hi hbelow hne herr
      have hloop := parseLoop_lowest d l element (d.Len l).toNat i (by omega) hbelow hne err herr
      rw [parseTypedList_ok d b element l size hdec, hloop]
  · rcases hdec : d.decodeList b with ⟨l, size, e⟩
    cases e with
    | some err =>
      simp only [ParseTypedList, hdec]
      constructor
      · intro _
        exact Or.inl (by simp)
      · intro _
        simp
    | none =>
      rw [parseTypedList_ok d b element l size hdec]
      have hiff := parseLoop_none_iff d l element (List.range (d.Len l).toNat)
      cases hloop : parseLoop d l element (List.range (d.Len l).toNat) with
      | some err =>
        simp only [ne_eq, not_true_eq_false, false_or]
        constructor
        · intro _
          by_contra hcon
          have hall : ∀ i ∈ List.range (d.Len l).toNat,
              (d.GetBytes l (i : Int)).length = 0 ∨
                (element (d.GetBytes l (i : Int))).2.2 = none := by
            intro i hi
            by_contra hnot
            apply hcon
            refine ⟨i, by have := List.mem_range.1 hi; omega, ?_, ?_⟩
            · intro h0
              exact hnot (Or.inl h0)
            · intro h0
              exact hnot (Or.inr h0)
          rw [hiff.2 hall] at hloop
          cases hloop
        · intro _
          simp
      | none =>
        simp only [ne_eq, not_true_eq_false, false_or, false_iff, not_exists, not_and,
          Decidable.not_not]
        intro i hi hne
        rcases (hiff.1 hloop) i (List.mem_range.2 (by omega)) with h | h
        · exact absurd h hne
        · exact not_not_intro h

/-- C30 on the sample decoding: the empty input is rejected by `decodeList`;
`[1, 0, 2]` parses (the empty element is skipped); in `[1, 0, 4, 3]` the
elements 2 and 3 are both rejected and the error is that of element 2. -/
theorem C30_parse_typed_list_witness :
    ParseTypedList sampleListDecoding [] sampleElement = (⟨[], none⟩, 0, some 1) ∧
    ParseTypedList sampleListDecoding [1, 0, 2] sampleElement
      = (⟨[[1], [], [2]], some sampleElement⟩, 3, none) ∧
    ParseTypedList sampleListDecoding [1, 0, 4, 3] sampleElement
      = (⟨[], none⟩, 4, some 8) :=
  ⟨(C30_parse_typed_list sampleListDecoding [] sampleElement).1 [] 0 1 (by decide),
   ((C30_parse_typed_list sampleListDecoding [1, 0, 2] sampleElement).2.1
      [[1], [], [2]] 3 (by decide)).1
      (fun i hi => by
        have h3 : i < 3 := by
          have : ((i : Int)) < 3 := hi
          omega
        interval_cases i <;> decide),
   ((C30_parse_typed_list sampleListDecoding [1, 0, 4, 3] sampleElement).2.1
      [[1], [], [4], [3]] 4 (by decide)).2 2 8 (by decide)
      (fun j hj => by interval_cases j <;> decide) (by decide) (by decide)⟩

/-! ## Theorems: the test struct -/

theorem evaluation_37 :
    EncodeTestStruct sampleStructCodec [] ⟨1, 2⟩ = ([2, 17, 4, 17, 4, 48], 6, none) := by
  decide

theorem evaluation_38 :
    EncodeTestStruct sampleStructCodec [9] ⟨-1, 300⟩
      = ([9, 1, 17, 4, 216, 17, 5, 48], 7, none) := by
  decide

theorem evaluation_39 :
    DecodeTestStruct sampleStructCodec [9, 1, 17, 4, 216, 17, 5, 48]
      = some (⟨-1, 300⟩, 0, none) := by
  decide

theorem evaluation_40 :
    DecodeTestStruct sampleStructCodec [2, 17, 4, 16]
      = some (⟨0, 0⟩, 0, some DecodeError.malformed) := by
  decide

/-- Whatever the codec and the input, the `total` that `DecodeTestStruct`
returns is 0. -/
theorem decodeTestStruct_total {ε : Type} (c : StructCodec ε) (b : List Nat)
    (r : TestStruct × Int × Option ε) (h : DecodeTestStruct c b = some r) :
    r.2.1 = 0 := by
  unfold DecodeTestStruct at h
  rcases h1 : c.DecodeStruct b with ⟨dataSize, size, e1⟩
  rw [h1] at h
  cases e1 with
  | some err =>
    cases Option.some.inj h
    rfl
  | none =>
    simp only at h
    cases h2 : sliceFrom b ((b.length : Int) - size) with
    | none => rw [h2] at h; cases h
    | some b' =>
      rw [h2] at h
      simp only at h
      cases h3 : sliceTo b' ((b'.length : Int) - (size - dataSize)) with
      | none => rw [h3] at h; cases h
      | some bY =>
        rw [h3] at h
        simp only at h
        rcases h4 : c.DecodeInt64 bY with ⟨y, n, e2⟩
        rw [h4] at h
        cases e2 with
        | some err =>
          cases Option.some.inj h
          rfl
        | none =>
          simp only at h
          cases h5 : sliceTo b' ((b'.length : Int) - (size - dataSize) - n) with
          | none => rw [h5] at h; cases h
          | some bX =>
            rw [h5] at h
            simp only at h
            rcases h6 : c.DecodeInt64 bX with ⟨x, n', e3⟩
            rw [h6] at h
            cases e3 with
            | some err =>
              cases Option.some.inj h
              rfl
            | none =>
              cases Option.some.inj h
              rfl

/-- With encoders that append and decoders that read back from the tail what
was appended, `DecodeTestStruct` returns the struct that `EncodeTestStruct`
wrote, without an error, and `EncodeTestStruct` returns the number of bytes it
appended. -/
theorem testStruct_roundtrip {ε : Type} (c : StructCodec ε)
    (encInt trailer : Int → List Nat)
    (hEncInt : ∀ b v, c.EncodeInt64 b v = (b ++ encInt v, ((encInt v).length : Int), none))
    (hDecInt : ∀ b v, c.DecodeInt64 (b ++ encInt v) = (v, ((encInt v).length : Int), none))
    (hEncStruct : ∀ b n, c.EncodeStruct b n = (b ++ trailer n, ((trailer n).length : Int), none))
    (hDecStruct : ∀ b (n : Int), 0 ≤ n → n ≤ (b.length : Int) →
      c.DecodeStruct (b ++ trailer n) = (n, n + ((trailer n).length : Int), none))
    (b : List Nat) (s : TestStruct) :
    ∃ out : List Nat,
      EncodeTestStruct c b s = (b ++ out, (out.length : Int), none) ∧
      out = encInt s.X ++ encInt s.Y
        ++ trailer (((encInt s.X).length : Int) + ((encInt s.Y).length : Int)) ∧
      DecodeTestStruct c (b ++ out) = some (s, 0, none) := by
  set nX : Int := ((encInt s.X).length : Int) with hnX
  set nY : Int := ((encInt s.Y).length : Int) with hnY
  set tr := trailer (nX + nY) with htr
  refine ⟨encInt s.X ++ encInt s.Y ++ tr, ?_, rfl, ?_⟩
  · simp only [EncodeTestStruct, hEncInt, hEncStruct, zero_add, ← hnX, ← hnY, ← htr]
    simp only [List.append_assoc, List.length_append, Nat.cast_add, ← hnX, ← hnY]
    rw [add_assoc]
  · have hdec := hDecStruct (b ++ encInt s.X ++ encInt s.Y) (nX + nY) (by omega)
      (by simp only [List.length_append, Nat.cast_add, hnX, hnY]; omega)
    have hin : b ++ (encInt s.X ++ encInt s.Y ++ tr) = b ++ encInt s.X ++ encInt s.Y ++ tr := by
      simp only [List.append_assoc]
    unfold DecodeTestStruct
    rw [hin, hdec]
    simp only
    have hlen : (((b ++ encInt s.X ++ encInt s.Y ++ tr).length : Nat) : Int)
        - (nX + nY + (tr.length : Int)) = ((b.length : Nat) : Int) := by
      simp only [List.length_append, Nat.cast_add, hnX, hnY]
      omega
    have hs1 : sliceFrom (b ++ encInt s.X ++ encInt s.Y ++ tr)
        ((((b ++ encInt s.X ++ encInt s.Y ++ tr).length : Nat) : Int)
          - (nX + nY + (tr.length : Int))) = some (encInt s.X ++ encInt s.Y ++ tr) := by
      rw [hlen]
      have := sliceFrom_length_append b (encInt s.X ++ encInt s.Y ++ tr)
      simpa only [List.append_assoc] using this
    rw [hs1]
    simp only
    have hoff1 : (((encInt s.X ++ encInt s.Y ++ tr).length : Nat) : Int)
        - (nX + nY + (tr.length : Int) - (nX + nY))
        = (((encInt s.X ++ encInt s.Y).length : Nat) : Int) := by
      simp only [List.length_append, Nat.cast_add, hnX, hnY]
      omega
    rw [hoff1, sliceTo_length_append]
    simp only
    have hd1 := hDecInt (encInt s.X) s.Y
    rw [hd1]
    simp only
    have hoff2 : (((encInt s.X ++ encInt s.Y).length : Nat) : Int) - ((encInt s.Y).length : Int)
        = (((encInt s.X).length : Nat) : Int) := by
      simp only [List.length_append, Nat.cast_add]
      omega
    rw [hoff2]
    have hs3 : sliceTo (encInt s.X ++ encInt s.Y ++ tr) (((encInt s.X).length : Nat) : Int)
        = some (encInt s.X) := by
      rw [List.append_assoc]
      exact sliceTo_length_append _ _
    rw [hs3]
    simp only
    have hd2 := hDecInt [] s.X
    rw [List.nil_append] at hd2
    rw [hd2]

/-- C29: with the struct codec of the wire grammar, `EncodeTestStruct` on the
struct `(1, 2)` appends the six bytes `[2, 17, 4, 17, 4, 48]` (the encoding of
`X`, of `Y`, and the trailer) and returns 6; `DecodeTestStruct` on those bytes
returns the struct `(1, 2)` and no error, and the total size 0, not 6. -/
theorem C29_decode_total_not_set :
    EncodeTestStruct sampleStructCodec [] ⟨1, 2⟩ = ([2, 17, 4, 17, 4, 48], 6, none) ∧
    DecodeTestStruct sampleStructCodec [2, 17, 4, 17, 4, 48] = some (⟨1, 2⟩, 0, none) := by
  decide

theorem evaluation_41 :
    sampleMessage.ser
      = [5, 16, 1, 104, 105, 0, 2, 25, 0, 0, 0, 1, 0, 0, 0, 6, 6, 8, 32,
          2, 0, 19, 7, 0, 2, 19, 6, 34] := by
  decide

theorem evaluation_42 :
    (Encoder.runErrorFree sampleCodec newEncoder sampleMessage.calls).bind Encoder.End
      = some (newEncoder, sampleMessage.ser, none) := by
  decide

theorem evaluation_43 : sampleMessage.readsBack sampleMessage.ser = true := by
  decide

theorem evaluation_44 :
    (parseMessage sampleMessage.ser).map Prod.snd = some sampleMessage.ser.length := by
  decide

theorem evaluation_45 : sampleMessage.valid = true := by
  decide

/-! ## Theorems: reading back primitives -/

theorem revVaruint_length_pos (fuel n : Nat) : 0 < (revVaruint fuel n).length := by
  cases fuel with
  | zero => simp [revVaruint]
  | succ k =>
    rw [revVaruint]
    split <;> simp

/-- A reverse varuint is read back from the tail, whatever precedes it. -/
theorem revVaruintFrom_revVaruint (fuel : Nat) :
    ∀ (n : Nat) (rest : List Nat), n < 128 ^ (fuel + 1) →
      revVaruintFrom fuel ((revVaruint fuel n).reverse ++ rest)
        = some (n, (revVaruint fuel n).length) := by
  induction fuel with
  | zero =>
    intro n rest hn
    have hn' : n < 128 := by simpa using hn
    simp [revVaruint, revVaruintFrom, Nat.mod_eq_of_lt hn', hn']
  | succ k ih =>
    intro n rest hn
    by_cases hsmall : n < 128
    · simp [revVaruint, revVaruintFrom, hsmall]
    · have hdiv : n / 128 < 128 ^ (k + 1) := by
        rw [Nat.div_lt_iff_lt_mul (by norm_num)]
        calc n < 128 ^ (k + 1 + 1) := hn
          _ = 128 ^ (k + 1) * 128 := by ring
      have hrec := ih (n / 128) rest hdiv
      have hx : ¬ (n % 128 + 128 < 128) := by omega
      simp only [revVaruint, if_neg hsmall, List.reverse_append, List.reverse_cons,
        List.reverse_nil, List.nil_append, List.singleton_append, List.cons_append,
        revVaruintFrom, if_neg hx, hrec, List.length_append, List.length_singleton]
      have hval : n / 128 * 128 + (n % 128 + 128 - 128) = n := by omega
      rw [hval]

theorem unzigzag_zigzag (v : Int) : unzigzag (zigzag v) = v := by
  unfold zigzag unzigzag
  by_cases h : 0 ≤ v
  · rw [if_pos h]
    have h2 : (2 * v).toNat % 2 = 0 := by omega
    rw [if_pos h2]
    omega
  · rw [if_neg h]
    have h2 : ¬ ((-2 * v - 1).toNat % 2 = 0) := by omega
    rw [if_neg h2]
    omega

theorem bigEndian_succ (width v : Nat) :
    bigEndian (width + 1) v = (v / 256 ^ width) % 256 :: bigEndian width v := by
  simp [bigEndian, List.range_succ]

theorem bigEndian_length (width v : Nat) : (bigEndian width v).length = width := by
  simp [bigEndian]

theorem foldl_bigEndian (width v : Nat) :
    ∀ acc : Nat, (bigEndian width v).foldl (fun a x => a * 256 + x) acc
      = acc * 256 ^ width + v % 256 ^ width := by
  induction width with
  | zero => intro acc; simp [bigEndian, Nat.mod_one]
  | succ w ih =>
    intro acc
    rw [bigEndian_succ, List.foldl_cons, ih, Nat.mod_pow_succ]
    ring

/-- A big-endian field is read back from the tail, whatever precedes it. -/
theorem bigEndianFrom_bigEndian (width v : Nat) (rest : List Nat) (hv : v < 256 ^ width) :
    bigEndianFrom width ((bigEndian width v).reverse ++ rest) = some v := by
  have hlen : (bigEndian width v).reverse.length = width := by
    rw [List.length_reverse, bigEndian_length]
  unfold bigEndianFrom
  rw [if_neg (by rw [List.length_append, hlen]; omega)]
  have htake : ((bigEndian width v).reverse ++ rest).take width = (bigEndian width v).reverse :=
    List.take_left' hlen
  rw [htake, List.reverse_reverse, foldl_bigEndian, Nat.mod_eq_of_lt hv]
  simp

theorem zigzag_lt (v : Int) (bound : Nat) (h1 : -(bound : Int) ≤ v) (h2 : v < (bound : Int)) :
    zigzag v < 2 * bound := by
  unfold zigzag
  split <;> omega

/-- Every valid primitive is read back from the tail of its bytes, whatever
precedes them, and the decoder consumes exactly those bytes. -/
theorem decodePrim_ser (p : Prim) (hvalid : p.valid = true) (pre : List Nat) :
    decodePrim (pre ++ p.ser) = some (p, p.ser.length) := by
  cases p with
  | nil => simp [decodePrim, Prim.ser, sampleCodec]
  | bool v => cases v <;> simp [decodePrim, Prim.ser, sampleCodec]
  | byte v =>
    have hv : v < 256 := by simpa [Prim.valid] using hvalid
    simp [decodePrim, Prim.ser, sampleCodec, Nat.mod_eq_of_lt hv]
  | int32 v =>
    have hv : -(2 ^ 31) ≤ v ∧ v < 2 ^ 31 := by simpa [Prim.valid] using hvalid
    have hz : zigzag v < 128 ^ (9 + 1) := by
      have := zigzag_lt v (2 ^ 31) (by push_cast; exact hv.1) (by push_cast; exact hv.2)
      norm_num at this ⊢
      omega
    have hr := fun rest => revVaruintFrom_revVaruint 9 (zigzag v) rest hz
    simp [decodePrim, Prim.ser, sampleCodec, hr, unzigzag_zigzag]
  | int64 v =>
    have hv : -(2 ^ 63) ≤ v ∧ v < 2 ^ 63 := by simpa [Prim.valid] using hvalid
    have hz : zigzag v < 128 ^ (9 + 1) := by
      have := zigzag_lt v (2 ^ 63) (by push_cast; exact hv.1) (by push_cast; exact hv.2)
      norm_num at this ⊢
      omega
    have hr := fun rest => revVaruintFrom_revVaruint 9 (zigzag v) rest hz
    simp [decodePrim, Prim.ser, sampleCodec, hr, unzigzag_zigzag]
  | uint32 v =>
    have hv : v < 2 ^ 32 := by simpa [Prim.valid] using hvalid
    have hz : v < 128 ^ (9 + 1) := by norm_num at hv ⊢; omega
    have hr := fun rest => revVaruintFrom_revVaruint 9 v rest hz
    simp [decodePrim, Prim.ser, sampleCodec, hr]
  | uint64 v =>
    have hv : v < 2 ^ 64 := by simpa [Prim.valid] using hvalid
    have hz : v < 128 ^ (9 + 1) := by norm_num at hv ⊢; omega
    have hr := fun rest => revVaruintFrom_revVaruint 9 v rest hz
    simp [decodePrim, Prim.ser, sampleCodec, hr]
  | u128 v =>
    have hv : v < 2 ^ 128 := by simpa [Prim.valid] using hvalid
    have hb := fun rest => bigEndianFrom_bigEndian 16 v rest (by norm_num at hv ⊢; omega)
    simp [decodePrim, Prim.ser, sampleCodec, hb, bigEndian_length]
  | u256 v =>
    have hv : v < 2 ^ 256 := by simpa [Prim.valid] using hvalid
    have hb := fun rest => bigEndianFrom_bigEndian 32 v rest (by norm_num at hv ⊢; omega)
    simp [decodePrim, Prim.ser, sampleCodec, hb, bigEndian_length]
  | float32 v =>
    have hv : v < 2 ^ 32 := by simpa [Prim.valid] using hvalid
    have hb := fun rest => bigEndianFrom_bigEndian 4 v rest (by norm_num at hv ⊢; omega)
    simp [decodePrim, Prim.ser, sampleCodec, hb, bigEndian_length]
  | float64 v =>
    have hv : v < 2 ^ 64 := by simpa [Prim.valid] using hvalid
    have hb := fun rest => bigEndianFrom_bigEndian 8 v rest (by norm_num at hv ⊢; omega)
    simp [decodePrim, Prim.ser, sampleCodec, hb, bigEndian_length]
  | bytes v =>
    have hv : v.length ≤ 2 ^ 32 - 1 := by simpa [Prim.valid] using hvalid
    have hz : v.length < 128 ^ (9 + 1) := by norm_num at hv ⊢; omega
    have hr := fun rest => revVaruintFrom_revVaruint 9 v.length rest hz
    simp [decodePrim, Prim.ser, hr]
    omega
  | string v =>
    have hv : v.length ≤ 2 ^ 32 - 1 := by simpa [Prim.valid] using hvalid
    have hz : v.length < 128 ^ (9 + 1) := by norm_num at hv ⊢; omega
    have hr := fun rest => revVaruintFrom_revVaruint 9 v.length rest hz
    simp [decodePrim, Prim.ser, hr]
    omega

/-! ## Theorems: parsing a composite -/

/-- The trailer of a composite is read back from the tail. -/
theorem parseTrailer_trailer (table payload rest : List Nat)
    (ht : table.length < 128 ^ (9 + 1)) (hp : payload.length < 128 ^ (9 + 1)) :
    parseTrailer ((revVaruint 9 table.length).reverse ++ ((revVaruint 9 payload.length).reverse
      ++ (table.reverse ++ (payload.reverse ++ rest))))
      = some (table, payload,
          (revVaruint 9 payload.length).length + (revVaruint 9 table.length).length) := by
  unfold parseTrailer
  rw [revVaruintFrom_revVaruint 9 _ _ ht]
  simp only
  have hd1 : ((revVaruint 9 table.length).reverse ++ ((revVaruint 9 payload.length).reverse
      ++ (table.reverse ++ (payload.reverse ++ rest)))).drop (revVaruint 9 table.length).length
      = (revVaruint 9 payload.length).reverse ++ (table.reverse ++ (payload.reverse ++ rest)) :=
    List.drop_left' (List.length_reverse _)
  rw [hd1, revVaruintFrom_revVaruint 9 _ _ hp]
  simp only
  have hd2 : ((revVaruint 9 payload.length).reverse
      ++ (table.reverse ++ (payload.reverse ++ rest))).drop (revVaruint 9 payload.length).length
      = table.reverse ++ (payload.reverse ++ rest) :=
    List.drop_left' (List.length_reverse _)
  rw [hd2]
  have hlen : ¬ ((table.reverse ++ (payload.reverse ++ rest)).length
      < table.length + payload.length) := by
    simp only [List.length_append, List.length_reverse]
    omega
  rw [if_neg hlen]
  have ht1 : (table.reverse ++ (payload.reverse ++ rest)).take table.length = table.reverse :=
    List.take_left' (List.length_reverse _)
  have ht2 : (table.reverse ++ (payload.reverse ++ rest)).drop table.length
      = payload.reverse ++ rest := List.drop_left' (List.length_reverse _)
  have ht3 : (payload.reverse ++ rest).take payload.length = payload.reverse :=
    List.take_left' (List.length_reverse _)
  rw [ht1, ht2, ht3, List.reverse_reverse, List.reverse_reverse]

/-- The bytes that `sampleCodec` appends for a list. -/
theorem encodeListMeta_eq (buf : List Nat) (bsize : Int) (table : List listElement) :
    (sampleCodec.encodeListMeta buf bsize table).1
      = buf ++ ((table.map (fun el => bigEndian 4 el.offset)).flatten
          ++ (revVaruint 9 bsize.toNat ++ (revVaruint 9 (4 * table.length) ++ [32]))) ∧
    (sampleCodec.encodeListMeta buf bsize table).2 = none := by
  simp [sampleCodec]

/-- The bytes that `sampleCodec` appends for a message. -/
theorem encodeMessageMeta_eq (buf : List Nat) (bsize : Int) (table : List messageField) :
    (sampleCodec.encodeMessageMeta buf bsize table).1
      = buf ++ (serializeTable (isBigMessage table) table
          ++ (revVaruint 9 bsize.toNat
            ++ (revVaruint 9 (serializeTable (isBigMessage table) table).length
              ++ [if isBigMessage table then 35 else 34]))) ∧
    (sampleCodec.encodeMessageMeta buf bsize table).2 = none := by
  cases hbig : isBigMessage table <;>
    simp [sampleCodec, serializeTable, smallSerialization, bigSerialization, hbig]

theorem listTableBytes_length (table : List listElement) :
    ((table.map (fun el => bigEndian 4 el.offset)).flatten).length = 4 * table.length := by
  induction table with
  | nil => rfl
  | cons el rest ih =>
    simp only [List.map_cons, List.flatten_cons, List.length_append, bigEndian_length, ih,
      List.length_cons]
    omega

/-- A list is parsed back from the tail: the view holds the table and the
payload that were written, and the size is that of the list bytes. -/
theorem parseList_bytes (pre payload : List Nat) (table : List listElement)
    (hp : payload.length < 2 ^ 32) (ht : table.length < 2 ^ 32) :
    parseList (pre ++ (sampleCodec.encodeListMeta payload (payload.length : Int) table).1)
      = some (⟨(sampleCodec.encodeListMeta payload (payload.length : Int) table).1,
            (table.map (fun el => bigEndian 4 el.offset)).flatten, payload⟩,
          (sampleCodec.encodeListMeta payload (payload.length : Int) table).1.length) := by
  set tb := (table.map (fun el => bigEndian 4 el.offset)).flatten with htb
  have htl : tb.length = 4 * table.length := listTableBytes_length table
  have hbytes : (sampleCodec.encodeListMeta payload (payload.length : Int) table).1
      = payload ++ (tb ++ (revVaruint 9 payload.length ++ (revVaruint 9 tb.length ++ [32]))) := by
    rw [(encodeListMeta_eq _ _ _).1, htl]
    simp
  rw [hbytes]
  have hrev : (pre ++ (payload ++ (tb ++ (revVaruint 9 payload.length
      ++ (revVaruint 9 tb.length ++ [32]))))).reverse
      = 32 :: ((revVaruint 9 tb.length).reverse ++ ((revVaruint 9 payload.length).reverse
          ++ (tb.reverse ++ (payload.reverse ++ pre.reverse)))) := by
    simp
  have h1 : tb.length < 128 ^ (9 + 1) := by norm_num at hp ht ⊢; omega
  have h2 : payload.length < 128 ^ (9 + 1) := by norm_num at hp ht ⊢; omega
  unfold parseList
  rw [hrev]
  simp only [if_true, parseTrailer_trailer tb payload pre.reverse h1 h2]
  have hmod : ¬ (tb.length % 4 ≠ 0) := by omega
  rw [if_neg hmod]
  simp only [Option.some.injEq, Prod.mk.injEq, ListView.mk.injEq, and_true]
  refine ⟨?_, ?_⟩
  · have hsz : (pre ++ (payload ++ (tb ++ (revVaruint 9 payload.length
        ++ (revVaruint 9 tb.length ++ [32]))))).length
        - (payload.length + tb.length + ((revVaruint 9 payload.length).length
          + (revVaruint 9 tb.length).length) + 1) = pre.length := by
      simp only [List.length_append, List.length_singleton]
      omega
    rw [hsz]
    exact List.drop_left' rfl
  · simp only [List.length_append, List.length_singleton]
    omega

/-- A message is parsed back from the tail: the view holds the table in the
width that `isBigMessage` selects, the payload size and the payload that were
written, and the size is that of the message bytes. -/
theorem parseMessage_bytes (pre payload : List Nat) (table : List messageField)
    (hp : payload.length < 2 ^ 32) (ht : table.length < 2 ^ 32) :
    parseMessage (pre ++ (sampleCodec.encodeMessageMeta payload (payload.length : Int) table).1)
      = some (⟨⟨serializeTable (isBigMessage table) table, payload.length,
              isBigMessage table⟩, payload⟩,
          (sampleCodec.encodeMessageMeta payload (payload.length : Int) table).1.length) := by
  set tb := serializeTable (isBigMessage table) table with htb
  have htl : tb.length = (if isBigMessage table then 6 else 3) * table.length := by
    rw [htb, serializeTable]
    cases isBigMessage table
    · simp [smallSerialization_length, Nat.mul_comm]
    · simp [bigSerialization_length, Nat.mul_comm]
  set ty : Nat := if isBigMessage table then 35 else 34 with hty
  have hbytes : (sampleCodec.encodeMessageMeta payload (payload.length : Int) table).1
      = payload ++ (tb ++ (revVaruint 9 payload.length ++ (revVaruint 9 tb.length ++ [ty]))) := by
    rw [(encodeMessageMeta_eq _ _ _).1]
    simp
  rw [hbytes]
  have hrev : (pre ++ (payload ++ (tb ++ (revVaruint 9 payload.length
      ++ (revVaruint 9 tb.length ++ [ty]))))).reverse
      = ty :: ((revVaruint 9 tb.length).reverse ++ ((revVaruint 9 payload.length).reverse
          ++ (tb.reverse ++ (payload.reverse ++ pre.reverse)))) := by
    simp
  have h1 : tb.length < 128 ^ (9 + 1) := by
    rw [htl]
    split <;> (norm_num at hp ht ⊢; omega)
  have h2 : payload.length < 128 ^ (9 + 1) := by norm_num at hp ht ⊢; omega
  have hty' : ty = 34 ∨ ty = 35 := by
    rw [hty]
    cases isBigMessage table <;> simp
  have hbig : decide (ty = 35) = isBigMessage table := by
    rw [hty]
    cases isBigMessage table <;> simp
  unfold parseMessage
  rw [hrev]
  simp only [if_pos hty', parseTrailer_trailer tb payload pre.reverse h1 h2, hbig]
  have hmod : ¬ (tb.length % (if isBigMessage table = true then 6 else 3) ≠ 0) := by
    rw [htl]
    cases isBigMessage table <;> simp
  rw [if_neg hmod]
  simp only [Option.some.injEq, Prod.mk.injEq, true_and]
  simp only [List.length_append, List.length_singleton]
  omega

/-! ## Theorems: the elements of a parsed list -/

theorem bigEndian_four (v : Nat) :
    bigEndian 4 v = [v / 16777216 % 256, v / 65536 % 256, v / 256 % 256, v % 256] := by
  simp [bigEndian, List.range_succ]

/-- Entry `k` of a serialized list table is read back by `listTable.offset`. -/
theorem listTable_offset_flatten (offs : List listElement)
    (hb : ∀ el ∈ offs, el.offset < 2 ^ 32) (k : Nat) (hk : k < offs.length) :
    listTable.offset ((offs.map (fun el => bigEndian 4 el.offset)).flatten) (k : Int)
      = some ((offs[k].offset : Nat) : Int) := by
  set L := offs.map (fun el => bigEndian 4 el.offset) with hL
  have hsize : ∀ b ∈ L, b.length = 4 := by
    intro b hbm
    obtain ⟨el, _, rfl⟩ := List.mem_map.1 hbm
    exact bigEndian_length 4 _
  have hlen : L.length = offs.length := by rw [hL, List.length_map]
  have hfl : L.flatten.length = 4 * offs.length := listTableBytes_length offs
  have hm : k < L.flatten.length / 4 := by omega
  obtain ⟨b0, b1, b2, b3, hbytes, hoff⟩ := listTable_offset_in_range L.flatten k hm
  have hkL : k < L.length := by omega
  have hentry := (flatten_entry 4 L hsize k hkL).2
  have hLk : L[k] = bigEndian 4 offs[k].offset := by
    simp [hL]
  rw [entryBytes, Nat.mul_comm, hbytes, hLk, bigEndian_four] at hentry
  have hv := hb offs[k] (List.getElem_mem _)
  rw [hoff]
  injection hentry with e0 hentry
  injection hentry with e1 hentry
  injection hentry with e2 hentry
  injection hentry with e3 _
  have : ((b0 * 256 + b1) * 256 + b2) * 256 + b3 = offs[k].offset := by
    norm_num at hv
    omega
  rw [this]

theorem listTable_count_flatten (offs : List listElement) :
    listTable.count ((offs.map (fun el => bigEndian 4 el.offset)).flatten)
      = (offs.length : Int) := by
  unfold listTable.count
  rw [listTableBytes_length, listElementSize]
  congr 1
  omega

/-- Element `i` of a list view over a serialized table: the bytes between the
end of the previous element and its own end. -/
theorem element_serialized (buffer done bytes rest : List Nat) (before after : List listElement)
    (hb : ∀ el ∈ before ++ ⟨done.length + bytes.length⟩ :: after, el.offset < 2 ^ 32)
    (hprev : before = [] → done = [])
    (hlast : ∀ el, before.getLast? = some el → el.offset = done.length) :
    ListView.Element
      ⟨buffer, ((before ++ ⟨done.length + bytes.length⟩ :: after).map
        (fun el => bigEndian 4 el.offset)).flatten, done ++ bytes ++ rest⟩
      (before.length : Int) = some bytes := by
  set offs := before ++ (⟨done.length + bytes.length⟩ : listElement) :: after with hoffs
  have hk : before.length < offs.length := by
    rw [hoffs, List.length_append, List.length_cons]; omega
  have hend := listTable_offset_flatten offs hb before.length hk
  have hget : offs[before.length] = ⟨done.length + bytes.length⟩ := by
    have h := getElem?_length_append before (⟨done.length + bytes.length⟩ : listElement) after
    rw [← hoffs, List.getElem?_eq_getElem hk] at h
    exact Option.some.inj h
  rw [hget] at hend
  have hcount := listTable_count_flatten offs
  have h1 : ¬ ((before.length : Int) < 0) := by omega
  have h2 : ¬ ((before.length : Int) ≥ listTable.count
      ((offs.map (fun el => bigEndian 4 el.offset)).flatten)) := by
    rw [hcount]; omega
  have hstart : (if (before.length : Int) = 0 then some (0 : Int)
      else listTable.offset ((offs.map (fun el => bigEndian 4 el.offset)).flatten)
        ((before.length : Int) - 1)) = some ((done.length : Nat) : Int) := by
    by_cases hz : before = []
    · rw [hprev hz, hz]
      simp
    · obtain ⟨init, el, rfl⟩ : ∃ init el, before = init ++ [el] :=
        ⟨before.dropLast, before.getLast hz, (List.dropLast_append_getLast hz).symm⟩
      have hel := hlast el (by simp)
      have hne : ¬ (((init ++ [el]).length : Int) = 0) := by
        simp only [List.length_append, List.length_singleton]; omega
      rw [if_neg hne]
      have hidx : (((init ++ [el]).length : Int) - 1) = ((init.length : Nat) : Int) := by
        simp only [List.length_append, List.length_singleton]; push_cast; omega
      rw [hidx, listTable_offset_flatten offs hb init.length (by
        rw [hoffs]; simp only [List.length_append, List.length_cons, List.length_singleton]
        omega)]
      have hki : init.length < offs.length := by
        rw [hoffs]; simp only [List.length_append, List.length_cons, List.length_singleton]
        omega
      have hgi : offs[init.length] = el := by
        have h := getElem?_length_append init el
          ((⟨done.length + bytes.length⟩ : listElement) :: after)
        have he : init ++ el :: (⟨done.length + bytes.length⟩ : listElement) :: after = offs := by
          rw [hoffs]; simp
        rw [he, List.getElem?_eq_getElem hki] at h
        exact Option.some.inj h
      rw [hgi, hel]
  have hpair : ListGo.listTable.offset ((offs.map (fun el => bigEndian 4 el.offset)).flatten)
      (before.length : Int)
      = some (((done.length : Nat) : Int), ((done.length + bytes.length : Nat) : Int)) := by
    simp only [ListGo.listTable.offset, if_neg h1, if_neg h2, hstart, hend]
  have h3 : ¬ (((done.length : Nat) : Int) < 0) := by omega
  have h4 : ¬ (((done.length + bytes.length : Nat) : Int)
      > ((done ++ bytes ++ rest).length : Int)) := by
    simp only [List.length_append]; push_cast; omega
  simp only [ListView.Element, hpair, if_neg h3, if_neg h4]
  unfold sliceRange
  rw [if_pos ⟨by omega, by push_cast; omega, by
    simp only [List.length_append]; push_cast; omega⟩]
  simp only [Int.toNat_ofNat]
  rw [List.append_assoc, ← List.append_assoc done bytes rest,
    List.take_left' (by rw [List.length_append]), List.drop_left' rfl]

/-! ## Theorems: the reader returns what was written -/

theorem offsets_length : ∀ (es : ValueList) (base : Nat),
    (es.offsets base).length = es.length
  | ValueList.nil, _ => rfl
  | ValueList.cons v rest, base => by
    simp [ValueList.offsets, ValueList.length, offsets_length rest]

theorem offsets_bound : ∀ (es : ValueList) (base : Nat),
    ∀ el ∈ es.offsets base, el.offset ≤ base + es.payload.length
  | ValueList.nil, _ => by simp [ValueList.offsets]
  | ValueList.cons v rest, base => by
    intro el hel
    simp only [ValueList.offsets, List.mem_cons] at hel
    simp only [ValueList.payload, List.length_append]
    rcases hel with hel | hel
    · rw [hel]; simp only; omega
    · have := offsets_bound rest _ el hel
      omega

theorem entries_tags : ∀ (fs : FieldList) (base : Nat),
    (fs.entries base).map messageField.tag = fs.tags
  | FieldList.nil, _ => rfl
  | FieldList.cons tag v rest, base => by
    simp [FieldList.entries, FieldList.tags, entries_tags rest]

theorem entries_bound : ∀ (fs : FieldList) (base : Nat),
    ∀ f ∈ fs.entries base, f.offset ≤ base + fs.payload.length
  | FieldList.nil, _ => by simp [FieldList.entries]
  | FieldList.cons tag v rest, base => by
    intro f hf
    simp only [FieldList.entries, List.mem_cons] at hf
    simp only [FieldList.payload, List.length_append]
    rcases hf with hf | hf
    · rw [hf]; simp only; omega
    · have := entries_bound rest _ f hf
      omega

theorem entries_tag_bound : ∀ (fs : FieldList) (base : Nat), fs.valid = true →
    ∀ f ∈ fs.entries base, f.tag < 65536
  | FieldList.nil, _, _ => by simp [FieldList.entries]
  | FieldList.cons tag v rest, base, hvalid => by
    intro f hf
    simp only [FieldList.valid, Bool.and_eq_true, decide_eq_true_eq] at hvalid
    simp only [FieldList.entries, List.mem_cons] at hf
    rcases hf with hf | hf
    · rw [hf]; simp only; omega
    · exact entries_tag_bound rest _ hvalid.2 f hf

theorem prim_ser_pos (p : Prim) : 0 < p.ser.length := by
  cases p <;> simp [Prim.ser, sampleCodec]

theorem ser_pos : ∀ v : Value, 0 < v.ser.length
  | Value.prim p => prim_ser_pos p
  | Value.list es => by
    rw [Value.ser, (encodeListMeta_eq _ _ _).1]
    simp
  | Value.message fs => by
    rw [Value.ser, (encodeMessageMeta_eq _ _ _).1]
    simp

theorem length_le_payload : ∀ es : ValueList, es.length ≤ es.payload.length
  | ValueList.nil => by simp [ValueList.length]
  | ValueList.cons v rest => by
    have h1 := ser_pos v
    have h2 := length_le_payload rest
    simp only [ValueList.length, ValueList.payload, List.length_append]
    omega

/-- The table that ordered insertion builds from entries with distinct 16-bit
tags and 32-bit offsets answers the lookup of every entry with its offset. -/
theorem inserted_lookup (entries : List messageField) (data : Nat)
    (hnodup : (entries.map messageField.tag).Nodup)
    (htype : ∀ f ∈ entries, f.tag < 65536 ∧ f.offset < 4294967296) :
    (entries.foldl (fun t f => t.orderedInsert tagLE f) []).length = entries.length ∧
    entries.length ≤ 65536 ∧
    ∀ f ∈ entries,
      messageMeta.offset
        ⟨serializeTable (isBigMessage (entries.foldl (fun t f => t.orderedInsert tagLE f) []))
            (entries.foldl (fun t f => t.orderedInsert tagLE f) []), data,
          isBigMessage (entries.foldl (fun t f => t.orderedInsert tagLE f) [])⟩ f.tag
        = some ((f.offset : Nat) : Int) := by
  set table := entries.foldl (fun t f => t.orderedInsert tagLE f) [] with htable
  have hp : table.Perm entries := by
    have h := foldl_orderedInsert_perm entries []
    rwa [List.nil_append] at h
  have hsorted : table.Sorted tagLE := foldl_orderedInsert_sorted entries [] List.sorted_nil
  have hnd : (table.map messageField.tag).Nodup := (hp.map _).nodup_iff.2 hnodup
  have hstrict := sorted_strict_of_nodup table hsorted hnd
  have htype' : ∀ f ∈ table, f.tag < 65536 ∧ f.offset < 4294967296 :=
    fun f hf => htype f (hp.subset hf)
  have hlen : entries.length ≤ 65536 :=
    length_le_of_nodup_tags entries hnodup (fun f hf => (htype f hf).1)
  have hl : table.length ≤ 65536 := by rw [hp.length_eq]; exact hlen
  obtain ⟨_, hfound, _⟩ := meta_offset_serialized table data hstrict htype' hl
  exact ⟨hp.length_eq, hlen, fun f hf => hfound f (hp.symm.subset hf)⟩

/-- A field whose end offset the lookup returns is read as the payload up to
that end. -/
theorem field_serialized (m : MessageView) (tag : Nat) (done bytes rest : List Nat)
    (hoff : m.meta.offset tag = some ((done.length + bytes.length : Nat) : Int))
    (hdata : m.meta.data = m.bytes.length)
    (hbytes : m.bytes = done ++ bytes ++ rest) :
    m.Field tag = some (done ++ bytes) := by
  have h1 : ¬ (((done.length + bytes.length : Nat) : Int) < 0) := by omega
  have h2 : ¬ (((done.length + bytes.length : Nat) : Int) > (m.meta.data : Int)) := by
    rw [hdata, hbytes]
    simp only [List.length_append]; push_cast; omega
  simp only [MessageView.Field, hoff, if_neg h1, if_neg h2]
  unfold sliceTo
  rw [if_pos ⟨by omega, by rw [hbytes]; simp only [List.length_append]; push_cast; omega⟩]
  simp only [Int.toNat_ofNat]
  rw [hbytes, List.take_left' (by rw [List.length_append])]

mutual
/-- Every valid value is read back from the tail of its bytes, whatever
precedes them. -/
theorem readsBack_value : ∀ (v : Value), v.valid = true → ∀ pre : List Nat,
    v.readsBack (pre ++ v.ser) = true
  | Value.prim p, hvalid, pre => by
    have hp : p.valid = true := hvalid
    simp only [Value.readsBack, Value.ser, decodePrim_ser p hp pre, decide_True]
  | Value.list es, hvalid, pre => by
    simp only [Value.valid, Bool.and_eq_true, decide_eq_true_eq] at hvalid
    obtain ⟨hes, hlen⟩ := hvalid
    have hcount : (es.offsets 0).length < 2 ^ 32 := by
      rw [offsets_length]
      exact lt_of_le_of_lt (length_le_payload es) hlen
    have hparse := parseList_bytes pre es.payload (es.offsets 0) hlen hcount
    simp only [Value.readsBack, Value.ser, hparse, Bool.and_eq_true, decide_eq_true_eq]
    constructor
    · rw [ListView.Len, listTable_count_flatten, offsets_length]
    · have := readsBack_elements es hes
        (sampleCodec.encodeListMeta es.payload (es.payload.length : Int) (es.offsets 0)).1
        [] [] [] (by
          intro el hel
          have := offsets_bound es 0 el (by simpa using hel)
          simp only [List.length_nil] at this
          omega) (fun _ => rfl) (by simp)
      simpa using this
  | Value.message fs, hvalid, pre => by
    simp only [Value.valid, Bool.and_eq_true, decide_eq_true_eq] at hvalid
    obtain ⟨⟨hfs, hlen⟩, hnodup⟩ := hvalid
    have htype : ∀ f ∈ fs.entries 0, f.tag < 65536 ∧ f.offset < 4294967296 := by
      intro f hf
      have h1 := entries_tag_bound fs 0 hfs f hf
      have h2 := entries_bound fs 0 f hf
      norm_num at hlen
      exact ⟨h1, by omega⟩
    obtain ⟨htl, hel, hlookup⟩ := inserted_lookup (fs.entries 0) fs.payload.length
      (by rw [entries_tags]; exact hnodup) htype
    have hparse := parseMessage_bytes pre fs.payload
      ((fs.entries 0).foldl (fun t f => t.orderedInsert tagLE f) []) hlen
      (by rw [htl]; norm_num; omega)
    simp only [Value.readsBack, Value.ser, hparse]
    exact readsBack_fields fs hfs _ [] [] (by simp) rfl (by simpa using hlookup)
/-- The elements of a valid list are read back through `Element`, from the
index that follows the elements already read. -/
theorem readsBack_elements : ∀ (es : ValueList), es.valid = true →
    ∀ (buffer done rest : List Nat) (before : List listElement),
      (∀ el ∈ before ++ es.offsets done.length, el.offset < 2 ^ 32) →
      (before = [] → done = []) →
      (∀ el, before.getLast? = some el → el.offset = done.length) →
      es.readsBack
        ⟨buffer, ((before ++ es.offsets done.length).map
          (fun el => bigEndian 4 el.offset)).flatten, done ++ es.payload ++ rest⟩
        before.length = true
  | ValueList.nil, _, _, _, _, _, _, _, _ => rfl
  | ValueList.cons v rest, hvalid, buffer, done, rest0, before, hb, hprev, hlast => by
    simp only [ValueList.valid, Bool.and_eq_true] at hvalid
    obtain ⟨hv, hrest⟩ := hvalid
    simp only [ValueList.readsBack, ValueList.offsets, ValueList.payload, Bool.and_eq_true]
    have hdata : done ++ (v.ser ++ rest.payload) ++ rest0
        = done ++ v.ser ++ (rest.payload ++ rest0) := by
      simp only [List.append_assoc]
    rw [hdata]
    constructor
    · rw [element_serialized buffer done v.ser (rest.payload ++ rest0) before
        (rest.offsets (done.length + v.ser.length)) (by
          simpa only [ValueList.offsets] using hb) hprev hlast]
      simpa using readsBack_value v hv []
    · have ih := readsBack_elements rest hrest buffer (done ++ v.ser) rest0
        (before ++ [⟨done.length + v.ser.length⟩]) (by
          intro el hel
          apply hb el
          simp only [ValueList.offsets]
          simpa [List.length_append] using hel) (by simp) (by
          intro el hel
          simp at hel
          rw [← hel]
          simp [List.length_append])
      simp only [List.length_append, List.length_singleton, List.append_assoc,
        List.singleton_append] at ih
      simpa only [List.append_assoc] using ih
/-- The fields of a valid message are read back through `Field`, given that
the lookup returns the end offset of each of them. -/
theorem readsBack_fields : ∀ (fs : FieldList), fs.valid = true →
    ∀ (m : MessageView) (done rest : List Nat),
      m.bytes = done ++ fs.payload ++ rest →
      m.meta.data = m.bytes.length →
      (∀ f ∈ fs.entries done.length, m.meta.offset f.tag = some ((f.offset : Nat) : Int)) →
      fs.readsBack m = true
  | FieldList.nil, _, _, _, _, _, _, _ => rfl
  | FieldList.cons tag v rest, hvalid, m, done, rest0, hbytes, hdata, hoff => by
    simp only [FieldList.valid, Bool.and_eq_true, decide_eq_true_eq] at hvalid
    obtain ⟨⟨_, hv⟩, hrest⟩ := hvalid
    have hbytes' : m.bytes = done ++ v.ser ++ (rest.payload ++ rest0) := by
      rw [hbytes, FieldList.payload]
      simp only [List.append_assoc]
    have hhead := hoff ⟨tag, done.length + v.ser.length⟩ (by simp [FieldList.entries])
    simp only [FieldList.readsBack, Bool.and_eq_true]
    constructor
    · rw [field_serialized m tag done v.ser (rest.payload ++ rest0) hhead hdata hbytes']
      exact readsBack_value v hv done
    · refine readsBack_fields rest hrest m (done ++ v.ser) rest0 ?_ hdata ?_
      · rw [hbytes']
        simp only [List.append_assoc]
      · intro f hf
        apply hoff f
        simp only [FieldList.entries, List.mem_cons]
        right
        simpa [List.length_append] using hf
end

/-! ## Theorems: the writer produces the bytes of the value -/

/-- A primitive write on a ready encoder appends the bytes of the value. -/
theorem prim_call (p : Prim) (hvalid : p.valid = true) (buf : List Nat)
    (objs : objectStack) (elems : listStack) (flds : messageStack) :
    Encoder.call sampleCodec ⟨buf, none, ⟨0, 0⟩, objs, elems, flds⟩ p.call
      = some (⟨buf ++ p.ser, none, ⟨(buf.length : Int), ((buf ++ p.ser).length : Int)⟩,
          objs, elems, flds⟩, none) := by
  cases p with
  | bytes v =>
    have hv : v.length ≤ 2 ^ 32 - 1 := by simpa [Prim.valid] using hvalid
    have hnot : ¬ (v.length > 2 ^ 32 - 1) := by omega
    have henc : sampleCodec.EncodeBytes buf v = (buf ++ (Prim.bytes v).ser, none) := by
      have h' : v.length ≤ 4294967295 := by norm_num at hv; exact hv
      simp [sampleCodec, sampleBytes, Prim.ser, h']
    simp only [Prim.call, Encoder.call, Encoder.Bytes]
    rw [writeFallible_empty _ _ rfl rfl (by rw [henc])]
    simp only [Encoder.written, henc]
  | string v =>
    have hv : v.length ≤ 2 ^ 32 - 1 := by simpa [Prim.valid] using hvalid
    have hnot : ¬ (v.length > 2 ^ 32 - 1) := by omega
    have henc : sampleCodec.EncodeString buf v = (buf ++ (Prim.string v).ser, none) := by
      have h' : v.length ≤ 4294967295 := by norm_num at hv; exact hv
      simp [sampleCodec, sampleBytes, Prim.ser, h']
    simp only [Prim.call, Encoder.call, Encoder.String]
    rw [writeFallible_empty _ _ rfl rfl (by rw [henc])]
    simp only [Encoder.written, henc]
  | nil =>
    simp only [Prim.call, Encoder.call, Encoder.Nil]
    rw [writeValue_empty _ _ rfl rfl]
    simp [Encoder.written, sampleCodec, Prim.ser]
  | bool v =>
    simp only [Prim.call, Encoder.call, Encoder.Bool]
    rw [writeValue_empty _ _ rfl rfl]
    simp [Encoder.written, sampleCodec, Prim.ser]
  | byte v =>
    simp only [Prim.call, Encoder.call, Encoder.Byte]
    rw [writeValue_empty _ _ rfl rfl]
    simp [Encoder.written, sampleCodec, Prim.ser]
  | int32 v =>
    simp only [Prim.call, Encoder.call, Encoder.Int32]
    rw [writeValue_empty _ _ rfl rfl]
    simp [Encoder.written, sampleCodec, Prim.ser]
  | int64 v =>
    simp only [Prim.call, Encoder.call, Encoder.Int64]
    rw [writeValue_empty _ _ rfl rfl]
    simp [Encoder.written, sampleCodec, Prim.ser]
  | uint32 v =>
    simp only [Prim.call, Encoder.call, Encoder.Uint32]
    rw [writeValue_empty _ _ rfl rfl]
    simp [Encoder.written, sampleCodec, Prim.ser]
  | uint64 v =>
    simp only [Prim.call, Encoder.call, Encoder.Uint64]
    rw [writeValue_empty _ _ rfl rfl]
    simp [Encoder.written, sampleCodec, Prim.ser]
  | u128 v =>
    simp only [Prim.call, Encoder.call, Encoder.U128]
    rw [writeValue_empty _ _ rfl rfl]
    simp [Encoder.written, sampleCodec, Prim.ser]
  | u256 v =>
    simp only [Prim.call, Encoder.call, Encoder.U256]
    rw [writeValue_empty _ _ rfl rfl]
    simp [Encoder.written, sampleCodec, Prim.ser]
  | float32 v =>
    simp only [Prim.call, Encoder.call, Encoder.Float32]
    rw [writeValue_empty _ _ rfl rfl]
    simp [Encoder.written, sampleCodec, Prim.ser]
  | float64 v =>
    simp only [Prim.call, Encoder.call, Encoder.Float64]
    rw [writeValue_empty _ _ rfl rfl]
    simp [Encoder.written, sampleCodec, Prim.ser]

theorem peek_push (objs : List objectEntry) (o : objectEntry) :
    objectStack.peek ⟨objs ++ [o]⟩ = some o := by
  simp [objectStack.peek]

theorem pop_push (objs : List objectEntry) (o : objectEntry) :
    (objectStack.pop ⟨objs ++ [o]⟩).1 = ⟨objs⟩ := by
  simp [objectStack.pop]

/-- The call `Element` on an unpoisoned encoder whose top object is a list. -/
theorem element_call (c : Codec) (buf : List Nat) (d : encodeData) (objs : List objectEntry)
    (start ts : Int) (elems : List listElement) (flds : messageStack) :
    Encoder.call c ⟨buf, none, d, ⟨objs ++ [⟨objectTypeList, start, ts⟩]⟩, ⟨elems⟩, flds⟩
        Call.element
      = some (⟨buf, none, ⟨0, 0⟩, ⟨objs ++ [⟨objectTypeList, start, ts⟩]⟩,
          ⟨elems ++ [⟨((d.end_ - start) % 2 ^ 32).toNat⟩]⟩, flds⟩, none) := by
  simp only [Encoder.call, Encoder.Element, peek_push]
  simp [Encoder.popData, listStack.push]

/-- The call `EndList` of `sampleCodec` on a ready encoder whose top object is
a list with the table `table`. -/
theorem endList_call (buf : List Nat) (objs : List objectEntry) (start : Int)
    (elems table : List listElement) (flds : messageStack) :
    Encoder.call sampleCodec
        ⟨buf, none, ⟨0, 0⟩, ⟨objs ++ [⟨objectTypeList, start, (elems.length : Int)⟩]⟩,
          ⟨elems ++ table⟩, flds⟩ Call.endList
      = some (⟨(sampleCodec.encodeListMeta buf ((buf.length : Int) - start) table).1, none,
          ⟨start, (((sampleCodec.encodeListMeta buf ((buf.length : Int) - start) table).1).length
            : Int)⟩, ⟨objs⟩, ⟨elems⟩, flds⟩, none) := by
  simp only [Encoder.call]
  rw [endList_unfold sampleCodec _ ⟨objectTypeList, start, (elems.length : Int)⟩ rfl
    (peek_push _ _) rfl]
  simp only [sliceFrom_length_append, (encodeListMeta_eq _ _ _).2, pop_push]
  rw [setDataOrFail_empty _ _ _ rfl]
  simp

/-- The call `Field` on an unpoisoned encoder whose top object is a message
with a table sorted by tag. -/
theorem field_call (c : Codec) (buf : List Nat) (d : encodeData) (objs : List objectEntry)
    (start : Int) (elems : listStack) (base table : List messageField) (tag : Nat)
    (hs : table.Sorted tagLE) :
    Encoder.call c
        ⟨buf, none, d, ⟨objs ++ [⟨objectTypeMessage, start, (base.length : Int)⟩]⟩, elems,
          ⟨base ++ table⟩⟩ (Call.field tag)
      = some (⟨buf, none, ⟨0, 0⟩,
          ⟨objs ++ [⟨objectTypeMessage, start, (base.length : Int)⟩]⟩, elems,
          ⟨base ++ table.orderedInsert tagLE ⟨tag, ((d.end_ - start) % 2 ^ 32).toNat⟩⟩⟩,
          none) := by
  simp only [Encoder.call, Encoder.Field, peek_push]
  simp [Encoder.popData, insert_sorted base table _ hs]

/-- The call `EndMessage` of `sampleCodec` on a ready encoder whose top object
is a message with the table `table`. -/
theorem endMessage_call (buf : List Nat) (objs : List objectEntry) (start : Int)
    (elems : listStack) (base table : List messageField) :
    Encoder.call sampleCodec
        ⟨buf, none, ⟨0, 0⟩, ⟨objs ++ [⟨objectTypeMessage, start, (base.length : Int)⟩]⟩,
          elems, ⟨base ++ table⟩⟩ Call.endMessage
      = some (⟨(sampleCodec.encodeMessageMeta buf ((buf.length : Int) - start) table).1, none,
          ⟨start,
            (((sampleCodec.encodeMessageMeta buf ((buf.length : Int) - start) table).1).length
              : Int)⟩, ⟨objs⟩, elems, ⟨base⟩⟩, none) := by
  simp only [Encoder.call]
  rw [endMessage_unfold sampleCodec _ ⟨objectTypeMessage, start, (base.length : Int)⟩ rfl
    (peek_push _ _) rfl]
  simp only [sliceFrom_length_append, (encodeMessageMeta_eq _ _ _).2, pop_push]
  rw [setDataOrFail_empty _ _ _ rfl]
  simp

theorem runErrorFree_cons (c : Codec) (e e' : Encoder) (call : Call) (calls : List Call)
    (h : e.call c call = some (e', none)) :
    Encoder.runErrorFree c e (call :: calls) = Encoder.runErrorFree c e' calls := by
  simp only [Encoder.runErrorFree, h]

mutual
/-- Writing a valid value on a ready encoder appends the bytes of the value,
sets the cursor to them and leaves the stacks as they were. -/
theorem run_value : ∀ (v : Value), v.valid = true →
    ∀ (buf : List Nat) (objs : List objectEntry) (elems : List listElement)
      (flds : List messageField) (tail : List Call),
      Encoder.runErrorFree sampleCodec ⟨buf, none, ⟨0, 0⟩, ⟨objs⟩, ⟨elems⟩, ⟨flds⟩⟩
          (v.calls ++ tail)
        = Encoder.runErrorFree sampleCodec
            ⟨buf ++ v.ser, none, ⟨(buf.length : Int), ((buf ++ v.ser).length : Int)⟩,
              ⟨objs⟩, ⟨elems⟩, ⟨flds⟩⟩ tail
  | Value.prim p, hvalid, buf, objs, elems, flds, tail => by
    have hp : p.valid = true := hvalid
    simp only [Value.calls, List.singleton_append, Value.ser]
    exact runErrorFree_cons _ _ _ _ _ (prim_call p hp buf _ _ _)
  | Value.list es, hvalid, buf, objs, elems, flds, tail => by
    simp only [Value.valid, Bool.and_eq_true, decide_eq_true_eq] at hvalid
    obtain ⟨hes, hlen⟩ := hvalid
    have hbegin : Encoder.call sampleCodec ⟨buf, none, ⟨0, 0⟩, ⟨objs⟩, ⟨elems⟩, ⟨flds⟩⟩
        Call.beginList
        = some (⟨buf, none, ⟨0, 0⟩,
            ⟨objs ++ [⟨objectTypeList, (buf.length : Int), (elems.length : Int)⟩]⟩,
            ⟨elems⟩, ⟨flds⟩⟩, none) := rfl
    have hcalls : (Value.list es).calls ++ tail
        = Call.beginList :: (es.calls ++ (Call.endList :: tail)) := by
      simp [Value.calls]
    rw [hcalls, runErrorFree_cons _ _ _ _ _ hbegin,
      run_elements es hes buf buf.length objs elems flds (elems.length : Int)
        (Call.endList :: tail) (le_refl _) (by omega),
      Nat.sub_self,
      runErrorFree_cons _ _ _ _ _ (endList_call (buf ++ es.payload) objs (buf.length : Int)
        elems (es.offsets 0) ⟨flds⟩)]
    have hsize : (((buf ++ es.payload).length : Nat) : Int) - (buf.length : Int)
        = ((es.payload.length : Nat) : Int) := by
      rw [List.length_append]; push_cast; omega
    have hbytes : (sampleCodec.encodeListMeta (buf ++ es.payload)
        ((es.payload.length : Nat) : Int) (es.offsets 0)).1 = buf ++ (Value.list es).ser := by
      rw [Value.ser, (encodeListMeta_eq _ _ _).1, (encodeListMeta_eq _ _ _).1]
      simp only [List.append_assoc]
    rw [hsize, hbytes]
  | Value.message fs, hvalid, buf, objs, elems, flds, tail => by
    simp only [Value.valid, Bool.and_eq_true, decide_eq_true_eq] at hvalid
    obtain ⟨⟨hfs, hlen⟩, _⟩ := hvalid
    have hbegin : Encoder.call sampleCodec ⟨buf, none, ⟨0, 0⟩, ⟨objs⟩, ⟨elems⟩, ⟨flds⟩⟩
        Call.beginMessage
        = some (⟨buf, none, ⟨0, 0⟩,
            ⟨objs ++ [⟨objectTypeMessage, (buf.length : Int), (flds.length : Int)⟩]⟩,
            ⟨elems⟩, ⟨flds⟩⟩, none) := rfl
    have hcalls : (Value.message fs).calls ++ tail
        = Call.beginMessage :: (fs.calls ++ (Call.endMessage :: tail)) := by
      simp [Value.calls]
    have hrun := run_fields fs hfs buf buf.length objs elems flds [] (Call.endMessage :: tail)
      (le_refl _) (by omega) List.sorted_nil
    rw [List.append_nil] at hrun
    rw [hcalls, runErrorFree_cons _ _ _ _ _ hbegin, hrun, Nat.sub_self,
      runErrorFree_cons _ _ _ _ _ (endMessage_call (buf ++ fs.payload) objs (buf.length : Int)
        ⟨elems⟩ flds ((fs.entries 0).foldl (fun t f => t.orderedInsert tagLE f) []))]
    have hsize : (((buf ++ fs.payload).length : Nat) : Int) - (buf.length : Int)
        = ((fs.payload.length : Nat) : Int) := by
      rw [List.length_append]; push_cast; omega
    have hbytes : (sampleCodec.encodeMessageMeta (buf ++ fs.payload)
        ((fs.payload.length : Nat) : Int)
        ((fs.entries 0).foldl (fun t f => t.orderedInsert tagLE f) [])).1
        = buf ++ (Value.message fs).ser := by
      rw [Value.ser, (encodeMessageMeta_eq _ _ _).1, (encodeMessageMeta_eq _ _ _).1]
      simp only [List.append_assoc]
    rw [hsize, hbytes]
/-- Writing the elements of a valid list into an open list appends their
bytes and pushes their end offsets, relative to the start of the list. -/
theorem run_elements : ∀ (es : ValueList), es.valid = true →
    ∀ (buf : List Nat) (start : Nat) (objs : List objectEntry) (elems : List listElement)
      (flds : List messageField) (ts : Int) (tail : List Call),
      start ≤ buf.length → (buf.length - start) + es.payload.length < 2 ^ 32 →
      Encoder.runErrorFree sampleCodec
          ⟨buf, none, ⟨0, 0⟩, ⟨objs ++ [⟨objectTypeList, (start : Int), ts⟩]⟩, ⟨elems⟩, ⟨flds⟩⟩
          (es.calls ++ tail)
        = Encoder.runErrorFree sampleCodec
            ⟨buf ++ es.payload, none, ⟨0, 0⟩, ⟨objs ++ [⟨objectTypeList, (start : Int), ts⟩]⟩,
              ⟨elems ++ es.offsets (buf.length - start)⟩, ⟨flds⟩⟩ tail
  | ValueList.nil, _, buf, start, objs, elems, flds, ts, tail, _, _ => by
    simp [ValueList.calls, ValueList.payload, ValueList.offsets]
  | ValueList.cons v rest, hvalid, buf, start, objs, elems, flds, ts, tail, hstart, hbound => by
    simp only [ValueList.valid, Bool.and_eq_true] at hvalid
    obtain ⟨hv, hrest⟩ := hvalid
    simp only [ValueList.payload, List.length_append] at hbound
    have hcalls : (ValueList.cons v rest).calls ++ tail
        = v.calls ++ (Call.element :: (rest.calls ++ tail)) := by
      simp [ValueList.calls]
    have hoff : ((((buf ++ v.ser).length : Nat) : Int) - (start : Int)) % 2 ^ 32
        = (((buf.length - start + v.ser.length : Nat)) : Int) := by
      rw [List.length_append]
      have e : (((buf.length + v.ser.length : Nat)) : Int) - (start : Int)
          = (((buf.length - start + v.ser.length : Nat)) : Int) := by omega
      rw [e]
      exact Int.emod_eq_of_lt (by omega) (by
        have : buf.length - start + v.ser.length < 2 ^ 32 := by omega
        exact_mod_cast this)
    rw [hcalls, run_value v hv buf _ elems flds _,
      runErrorFree_cons _ _ _ _ _ (element_call sampleCodec (buf ++ v.ser) _ objs (start : Int)
        ts elems ⟨flds⟩)]
    simp only [hoff, Int.toNat_ofNat]
    rw [run_elements rest hrest (buf ++ v.ser) start objs _ flds ts tail
      (by rw [List.length_append]; omega) (by rw [List.length_append]; omega)]
    simp only [ValueList.payload, ValueList.offsets, List.append_assoc, List.singleton_append,
      List.length_append]
    have e2 : buf.length + v.ser.length - start = buf.length - start + v.ser.length := by omega
    rw [e2]
/-- Writing the fields of a valid message into an open message appends their
bytes and inserts their entries, with end offsets relative to the start of the
message, into its table. -/
theorem run_fields : ∀ (fs : FieldList), fs.valid = true →
    ∀ (buf : List Nat) (start : Nat) (objs : List objectEntry) (elems : List listElement)
      (base table : List messageField) (tail : List Call),
      start ≤ buf.length → (buf.length - start) + fs.payload.length < 2 ^ 32 →
      table.Sorted tagLE →
      Encoder.runErrorFree sampleCodec
          ⟨buf, none, ⟨0, 0⟩, ⟨objs ++ [⟨objectTypeMessage, (start : Int), (base.length : Int)⟩]⟩,
            ⟨elems⟩, ⟨base ++ table⟩⟩ (fs.calls ++ tail)
        = Encoder.runErrorFree sampleCodec
            ⟨buf ++ fs.payload, none, ⟨0, 0⟩,
              ⟨objs ++ [⟨objectTypeMessage, (start : Int), (base.length : Int)⟩]⟩, ⟨elems⟩,
              ⟨base ++ (fs.entries (buf.length - start)).foldl
                (fun t f => t.orderedInsert tagLE f) table⟩⟩ tail
  | FieldList.nil, _, buf, start, objs, elems, base, table, tail, _, _, _ => by
    simp [FieldList.calls, FieldList.payload, FieldList.entries]
  | FieldList.cons tag v rest, hvalid, buf, start, objs, elems, base, table, tail, hstart,
      hbound, hs => by
    simp only [FieldList.valid, Bool.and_eq_true, decide_eq_true_eq] at hvalid
    obtain ⟨⟨_, hv⟩, hrest⟩ := hvalid
    simp only [FieldList.payload, List.length_append] at hbound
    have hcalls : (FieldList.cons tag v rest).calls ++ tail
        = v.calls ++ (Call.field tag :: (rest.calls ++ tail)) := by
      simp [FieldList.calls]
    have hoff : ((((buf ++ v.ser).length : Nat) : Int) - (start : Int)) % 2 ^ 32
        = (((buf.length - start + v.ser.length : Nat)) : Int) := by
      rw [List.length_append]
      have e : (((buf.length + v.ser.length : Nat)) : Int) - (start : Int)
          = (((buf.length - start + v.ser.length : Nat)) : Int) := by omega
      rw [e]
      exact Int.emod_eq_of_lt (by omega) (by
        have : buf.length - start + v.ser.length < 2 ^ 32 := by omega
        exact_mod_cast this)
    rw [hcalls, run_value v hv buf _ elems _ _,
      runErrorFree_cons _ _ _ _ _ (field_call sampleCodec (buf ++ v.ser) _ objs (start : Int)
        ⟨elems⟩ base table tag hs)]
    simp only [hoff, Int.toNat_ofNat]
    rw [run_fields rest hrest (buf ++ v.ser) start objs elems base _ tail
      (by rw [List.length_append]; omega) (by rw [List.length_append]; omega)
      (hs.orderedInsert _ _)]
    simp only [FieldList.payload, FieldList.entries, List.append_assoc, List.foldl_cons,
      List.length_append]
    have e2 : buf.length + v.ser.length - start = buf.length - start + v.ser.length := by omega
    rw [e2]
end

/-- Go `End` on an encoder that holds one finished value. -/
theorem end_finished (bytes : List Nat) :
    Encoder.End ⟨bytes, none, ⟨0, (bytes.length : Int)⟩, ⟨[]⟩, ⟨[]⟩, ⟨[]⟩⟩
      = some (newEncoder, bytes, none) := by
  have hlen : ¬ (objectStack.len ⟨[]⟩ > 0) := by simp [objectStack.len]
  simp only [Encoder.End, if_neg hlen, Encoder.popData]
  have hs : sliceRange bytes 0 (bytes.length : Int) = some bytes := by
    unfold sliceRange
    rw [if_pos ⟨le_refl _, by omega, le_refl _⟩]
    simp
  simp only [hs]
  rfl

/-- C28 (amended): writer/reader round trip. For every message whose fields are
primitives, nested messages and lists (of primitives, messages or lists),
with values in the ranges of their Go types, pairwise distinct 16-bit tags in
each message and every payload shorter than `2^32` bytes: building it through
the writer (per field the calls of its value, then `Field(tag)`; per element
its calls, then `Element`), every call returns nil and `End` returns the bytes
of the message without an error; decoding those bytes succeeds and consumes
all of them (the decoded size is `len(bytes)`); and every per-field and
per-element accessor of the decoded view, followed recursively into nested
messages and lists, returns the value that was written. The primitive and
metadata encoders are those of `sampleCodec`. -/
theorem C28_writer_reader_round_trip (fs : FieldList)
    (hvalid : (Value.message fs).valid = true) :
    ∃ (e : Encoder) (bytes : List Nat),
      Encoder.runErrorFree sampleCodec newEncoder (Value.message fs).calls = some e ∧
      e.End = some (newEncoder, bytes, none) ∧
      bytes = (Value.message fs).ser ∧
      (∃ m : MessageView, parseMessage bytes = some (m, bytes.length)) ∧
      (Value.message fs).readsBack bytes = true := by
  have hrun : Encoder.runErrorFree sampleCodec newEncoder (Value.message fs).calls
      = some ⟨(Value.message fs).ser, none, ⟨0, ((Value.message fs).ser.length : Int)⟩,
          ⟨[]⟩, ⟨[]⟩, ⟨[]⟩⟩ := by
    have h := run_value (Value.message fs) hvalid [] [] [] [] []
    rw [List.append_nil] at h
    exact h.trans (by simp [Encoder.runErrorFree])
  refine ⟨_, (Value.message fs).ser, hrun, end_finished _, rfl, ?_, ?_⟩
  · have hv := hvalid
    simp only [Value.valid, Bool.and_eq_true, decide_eq_true_eq] at hv
    obtain ⟨⟨hfs, hlen⟩, hnodup⟩ := hv
    have htype : ∀ f ∈ fs.entries 0, f.tag < 65536 ∧ f.offset < 4294967296 := by
      intro f hf
      have h1 := entries_tag_bound fs 0 hfs f hf
      have h2 := entries_bound fs 0 f hf
      norm_num at hlen
      exact ⟨h1, by omega⟩
    obtain ⟨htl, hel, _⟩ := inserted_lookup (fs.entries 0) fs.payload.length
      (by rw [entries_tags]; exact hnodup) htype
    have hparse := parseMessage_bytes [] fs.payload
      ((fs.entries 0).foldl (fun t f => t.orderedInsert tagLE f) []) hlen
      (by rw [htl]; norm_num; omega)
    rw [List.nil_append] at hparse
    exact ⟨_, hparse⟩
  · have := readsBack_value (Value.message fs) hvalid []
    rwa [List.nil_append] at this

/-- C28 (amended) at the sample message: an `int32` field 7 and, written after it,
a field 2 holding a list of a bool and a string. -/
theorem C28_writer_reader_round_trip_witness :
    ∃ (e : Encoder) (bytes : List Nat),
      Encoder.runErrorFree sampleCodec newEncoder sampleMessage.calls = some e ∧
      e.End = some (newEncoder, bytes, none) ∧
      bytes = sampleMessage.ser ∧
      (∃ m : MessageView, parseMessage bytes = some (m, bytes.length)) ∧
      sampleMessage.readsBack bytes = true :=
  C28_writer_reader_round_trip
    (FieldList.cons 7 (Value.prim (Prim.int32 (-3)))
      (FieldList.cons 2 (Value.list (ValueList.cons (Value.prim (Prim.bool true))
        (ValueList.cons (Value.prim (Prim.string [104, 105])) ValueList.nil)))
        FieldList.nil))
    (by decide)

/-! ## Theorems: validation of nested values -/

theorem evaluation_46 :
    nestedList.ser
      = [0, 0, 0, 0, 1, 1, 4, 32, 1, 1, 0, 1, 1, 3, 34, 0, 0, 0, 8, 0, 0, 0, 15, 15, 8, 32] := by
  decide

theorem evaluation_47 :
    (ReadList sampleValueReader.readList (sampleValueReader.ReadValue 2) nestedList.ser).map
      Prod.snd = some none := by
  decide

theorem evaluation_48 :
    (ReadList sampleValueReader.readList (sampleValueReader.ReadValue 1) nestedList.ser).map
      Prod.snd = none := by
  decide

theorem evaluation_49 :
    (ReadList sampleValueReader.readList (sampleValueReader.ReadValue 2)
      [0, 0, 0, 0, 1, 1, 4, 32, 7, 1, 0, 1, 1, 3, 34, 0, 0, 0, 8, 0, 0, 0, 15, 15, 8, 32]).map
      Prod.snd = some (some DecodeError.malformed) := by
  decide

/-- The loop of `Validate` keeps its result when `ReadValue` is replaced by
a reader that returns the same wherever the first returns. -/
theorem validateLoop_mono {ε : Type} (rv rv' : List Nat → Option (Option ε))
    (h : ∀ data y, rv data = some y → rv' data = some y) (l : ListView) :
    ∀ (idx : List Nat) (res : Option ε),
      l.validateLoop rv idx = some res → l.validateLoop rv' idx = some res := by
  intro idx
  induction idx with
  | nil => intro res hres; exact hres
  | cons i rest ih =>
    intro res hres
    simp only [ListView.validateLoop] at hres ⊢
    cases hel : l.Element (i : Int) with
    | none => rw [hel] at hres; cases hres
    | some data =>
      rw [hel] at hres
      simp only at hres ⊢
      by_cases hlen : data.length = 0
      · rw [if_pos hlen] at hres ⊢
        exact ih res hres
      · rw [if_neg hlen] at hres ⊢
        cases hrv : rv data with
        | none => rw [hrv] at hres; cases hres
        | some y =>
          rw [hrv] at hres
          rw [h data y hrv]
          cases y with
          | some err => exact hres
          | none => exact ih res hres

/-- The loop of message validation keeps its result likewise. -/
theorem validateFields_mono {M ε : Type} (r : ValueReader M ε)
    (rv rv' : List Nat → Option (Option ε))
    (h : ∀ data y, rv data = some y → rv' data = some y) (m : M) :
    ∀ (idx : List Nat) (res : Option ε),
      r.validateFields rv m idx = some res → r.validateFields rv' m idx = some res := by
  intro idx
  induction idx with
  | nil => intro res hres; exact hres
  | cons i rest ih =>
    intro res hres
    simp only [ValueReader.validateFields] at hres ⊢
    by_cases hlen : (r.fieldBytes m (i : Int)).length = 0
    · rw [if_pos hlen] at hres ⊢
      exact ih res hres
    · rw [if_neg hlen] at hres ⊢
      cases hrv : rv (r.fieldBytes m (i : Int)) with
      | none => rw [hrv] at hres; cases hres
      | some y =>
        rw [hrv] at hres
        rw [h _ y hrv]
        cases y with
        | some err => exact hres
        | none => exact ih res hres

theorem readList_mono {ε : Type} (readList : List Nat → ListView × Option ε)
    (rv rv' : List Nat → Option (Option ε))
    (h : ∀ data y, rv data = some y → rv' data = some y) (b : List Nat)
    (x : ListView × Option ε) (hx : ReadList readList rv b = some x) :
    ReadList readList rv' b = some x := by
  unfold ReadList at hx ⊢
  rcases hr : readList b with ⟨l, e⟩
  rw [hr] at hx
  cases e with
  | some err => exact hx
  | none =>
    simp only at hx ⊢
    cases hv : l.Validate rv with
    | none => rw [hv] at hx; cases hx
    | some res =>
      rw [hv] at hx
      have hv' : l.Validate rv' = some res := validateLoop_mono rv rv' h l _ res hv
      rw [hv']
      exact hx

theorem readMessage_mono {M ε : Type} (r : ValueReader M ε)
    (rv rv' : List Nat → Option (Option ε))
    (h : ∀ data y, rv data = some y → rv' data = some y) (b : List Nat)
    (x : M × Option ε) (hx : r.ReadMessage rv b = some x) :
    r.ReadMessage rv' b = some x := by
  unfold ValueReader.ReadMessage at hx ⊢
  rcases hr : r.readMessage b with ⟨m, e⟩
  rw [hr] at hx
  cases e with
  | some err => exact hx
  | none =>
    simp only at hx ⊢
    cases hv : r.validateFields rv m (List.range (r.fieldCount m).toNat) with
    | none => rw [hv] at hx; cases hx
    | some res =>
      rw [hv] at hx
      rw [validateFields_mono r rv rv' h m _ res hv]
      exact hx

/-- A result of `ReadValue` is kept under a larger bound on the depth. -/
theorem readValue_succ {M ε : Type} (r : ValueReader M ε) :
    ∀ (fuel : Nat) (b : List Nat) (y : Option ε),
      r.ReadValue fuel b = some y → r.ReadValue (fuel + 1) b = some y := by
  intro fuel
  induction fuel with
  | zero => intro b y h; cases h
  | succ n ih =>
    intro b y h
    rw [ValueReader.ReadValue] at h ⊢
    cases hk : r.kind b with
    | scalar => rw [hk] at h; exact h
    | list =>
      rw [hk] at h
      simp only at h ⊢
      cases hx : ReadList r.readList (r.ReadValue n) b with
      | none => rw [hx] at h; cases h
      | some x =>
        rw [hx] at h
        rw [readList_mono r.readList _ _ ih b x hx]
        exact h
    | message =>
      rw [hk] at h
      simp only at h ⊢
      cases hx : r.ReadMessage (r.ReadValue n) b with
      | none => rw [hx] at h; cases h
      | some x =>
        rw [hx] at h
        rw [readMessage_mono r _ _ ih b x hx]
        exact h

/-- C25: validation is inherited by nested composites. For every byte slice
`b` on which the validating read `ReadList` (`readList`, then `Validate`, with
`ReadValue` dispatching on the type byte and recursing within the depth bound
`fuel`) succeeds with the list `l`, and every element `b' = l.Element(i)` that is
not empty: if `b'` is itself a list, the validating read `ReadList(b')` succeeds,
and if `b'` is itself a message, the validating read of the message `b'`
succeeds, within the same bound. -/
theorem C25_validation_inherited {M ε : Type} (r : ValueReader M ε) (fuel : Nat)
    (b : List Nat) (l : ListView)
    (hread : ReadList r.readList (r.ReadValue fuel) b = some (l, none))
    (i : Int) (b' : List Nat) (hel : l.Element i = some b') (hne : b'.length ≠ 0) :
    (r.kind b' = ValueKind.list →
      ∃ l' : ListView, ReadList r.readList (r.ReadValue fuel) b' = some (l', none)) ∧
    (r.kind b' = ValueKind.message →
      ∃ m' : M, r.ReadMessage (r.ReadValue fuel) b' = some (m', none)) := by
  have hval : l.Validate (r.ReadValue fuel) = some none := by
    unfold ReadList at hread
    rcases hr : r.readList b with ⟨l0, e⟩
    rw [hr] at hread
    cases e with
    | some err => cases Option.some.inj hread
    | none =>
      simp only at hread
      cases hv : l0.Validate (r.ReadValue fuel) with
      | none => rw [hv] at hread; cases hread
      | some res =>
        rw [hv] at hread
        cases res with
        | some err => cases Option.some.inj hread
        | none =>
          have := Option.some.inj hread
          have hl : l0 = l := congrArg Prod.fst this
          rw [← hl, hv]
  have hin : 0 ≤ i ∧ i < l.Len := by
    by_contra hcon
    have hout : i < 0 ∨ i ≥ l.Len := by omega
    rw [(element_cases l i).1 hout] at hel
    cases Option.some.inj hel
    exact hne rfl
  obtain ⟨k, rfl⟩ : ∃ k : Nat, i = (k : Int) := ⟨i.toNat, by omega⟩
  obtain ⟨data, hdata, hor⟩ := (validate_nil_iff _ l).1 hval k hin.2
  rw [hel] at hdata
  cases Option.some.inj hdata
  have hrv : r.ReadValue fuel b' = some none := by
    rcases hor with h | h
    · exact absurd h hne
    · exact h
  cases fuel with
  | zero => cases hrv
  | succ n =>
    rw [ValueReader.ReadValue] at hrv
    constructor
    · intro hk
      rw [hk] at hrv
      simp only at hrv
      cases hx : ReadList r.readList (r.ReadValue n) b' with
      | none => rw [hx] at hrv; cases hrv
      | some x =>
        rw [hx] at hrv
        obtain ⟨l', e⟩ := x
        have he : e = none := Option.some.inj hrv
        subst he
        exact ⟨l', readList_mono r.readList _ _ (readValue_succ r n) b' _ hx⟩
    · intro hk
      rw [hk] at hrv
      simp only at hrv
      cases hx : r.ReadMessage (r.ReadValue n) b' with
      | none => rw [hx] at hrv; cases hrv
      | some x =>
        rw [hx] at hrv
        obtain ⟨m', e⟩ := x
        have he : e = none := Option.some.inj hrv
        subst he
        exact ⟨m', readMessage_mono r _ _ (readValue_succ r n) b' _ hx⟩

/-- C25 at the list that holds the list `[nil]` and the message `{1: true}`:
both elements validate on their own. -/
theorem C25_validation_inherited_witness :
    (∃ l' : ListView,
      ReadList sampleValueReader.readList (sampleValueReader.ReadValue 2)
        [0, 0, 0, 0, 1, 1, 4, 32] = some (l', none)) ∧
    (∃ m' : MessageView,
      sampleValueReader.ReadMessage (sampleValueReader.ReadValue 2)
        [1, 1, 0, 1, 1, 3, 34] = some (m', none)) :=
  ⟨(C25_validation_inherited sampleValueReader 2 nestedList.ser
      ⟨nestedList.ser, [0, 0, 0, 8, 0, 0, 0, 15],
        [0, 0, 0, 0, 1, 1, 4, 32, 1, 1, 0, 1, 1, 3, 34]⟩ (by decide)
      0 [0, 0, 0, 0, 1, 1, 4, 32] (by decide) (by decide)).1 (by decide),
   (C25_validation_inherited sampleValueReader 2 nestedList.ser
      ⟨nestedList.ser, [0, 0, 0, 8, 0, 0, 0, 15],
        [0, 0, 0, 0, 1, 1, 4, 32, 1, 1, 0, 1, 1, 3, 34]⟩ (by decide)
      1 [1, 1, 0, 1, 1, 3, 34] (by decide) (by decide)).2 (by decide)⟩

/-! ## Evaluation: a list with an inverted range is reached by parsing -/

theorem evaluation_50 :
    (parseList [1, 2, 3, 4, 5, 0, 0, 0, 5, 0, 0, 0, 2, 5, 8, 32]).map
        (fun x => (x.1.table, x.1.data))
      = some (invertedList.table, invertedList.data) := by
  decide

/-! ## Theorems: the send window -/

theorem evaluation_51 :
    channelState.decrementSendWindow 10 4 8 = (SendResult.ok, -6) := by decide

theorem evaluation_52 :
    channelState.decrementSendWindow 10 3 8 = (SendResult.wait, 3) := by decide

theorem evaluation_53 :
    channelState.decrementSendWindow 2147483648 5 8 = (SendResult.tooLarge, 5) := by decide

theorem evaluation_54 :
    channelState.decrementSendWindow 2147483647 (-2) (-4) = (SendResult.ok, 2147483647) := by
  decide

theorem wrapInt32_of_range (x : Int) (h1 : -(2 ^ 31) ≤ x) (h2 : x < 2 ^ 31) :
    wrapInt32 x = x := by
  unfold wrapInt32
  rw [Int.emod_eq_of_lt (by omega) (by omega)]
  omega

/-- C31 as stated fails when the subtraction leaves the `int32` range: with
the initial window -4, the send window -2 and a message of `MaxInt32` bytes, the
message is admitted by the second test (`-2 >= -4/2`) and the window becomes
`2147483647`, not `-2 - 2147483647`. -/
theorem C31_send_window_counterexample :
    channelState.decrementSendWindow 2147483647 (-2) (-4) = (SendResult.ok, 2147483647) ∧
    ¬ ((-2 : Int) ≥ 2147483647) ∧ (-2 : Int) ≥ Int.tdiv (-4) 2 ∧
    (2147483647 : Int) ≠ -2 - 2147483647 ∧ ¬ ((2147483647 : Int) < 0) := by
  decide

/-- C31, amended: one pass of `decrementSendWindow` with a single sender,
`n = len(data)`, the send window `w` and the initial window `w0` (`int32` values).
If `n > MaxInt32` the pass returns the error and leaves the window unchanged.
Otherwise the message is admitted without waiting exactly when `w >= n` or
`w >= w0/2` (Go integer division), else the pass reaches the wait with the
window unchanged; on admission the window becomes `w - n` as `int32`
arithmetic computes it, which is `w - n` itself and not negative in the first
case, and is `w - n` itself and negative in the second case whenever the
initial window is not negative; a negative window arises only in the second
case. -/
theorem C31_send_window_admission (n w w0 : Int) (hn : 0 ≤ n)
    (hw : -(2 ^ 31) ≤ w ∧ w < 2 ^ 31) :
    (n > maxInt32 →
      channelState.decrementSendWindow n w w0 = (SendResult.tooLarge, w)) ∧
    (n ≤ maxInt32 →
      ((channelState.decrementSendWindow n w w0).1 = SendResult.ok
        ↔ (w ≥ n ∨ w ≥ Int.tdiv w0 2)) ∧
      ((channelState.decrementSendWindow n w w0).1 ≠ SendResult.ok →
        channelState.decrementSendWindow n w w0 = (SendResult.wait, w)) ∧
      ((w ≥ n ∨ w ≥ Int.tdiv w0 2) →
        (channelState.decrementSendWindow n w w0).2 = wrapInt32 (w - n)) ∧
      (w ≥ n → (channelState.decrementSendWindow n w w0).2 = w - n ∧ 0 ≤ w - n) ∧
      (¬ (w ≥ n) → w ≥ Int.tdiv w0 2 → 0 ≤ w0 →
        (channelState.decrementSendWindow n w w0).2 = w - n ∧ w - n < 0) ∧
      ((channelState.decrementSendWindow n w w0).1 = SendResult.ok →
        (channelState.decrementSendWindow n w w0).2 < 0 → ¬ (w ≥ n))) := by
  have hmax : maxInt32 = 2 ^ 31 - 1 := rfl
  constructor
  · intro h
    simp only [channelState.decrementSendWindow, if_pos h]
  · intro h
    have h0 : ¬ (n > maxInt32) := by omega
    have hsub : w + -n = w - n := by ring
    by_cases h1 : w ≥ n
    · have hval : channelState.decrementSendWindow n w w0
          = (SendResult.ok, wrapInt32 (w - n)) := by
        simp only [channelState.decrementSendWindow, if_neg h0, if_pos h1, hsub]
      have hfit : wrapInt32 (w - n) = w - n :=
        wrapInt32_of_range _ (by omega) (by omega)
      rw [hval]
      refine ⟨⟨fun _ => Or.inl h1, fun _ => rfl⟩, fun hne => absurd rfl hne, fun _ => rfl,
        fun _ => ⟨hfit, by omega⟩, fun hnot => absurd h1 hnot, ?_⟩
      intro _ hneg
      rw [hfit] at hneg
      omega
    · by_cases h2 : w ≥ Int.tdiv w0 2
      · have hval : channelState.decrementSendWindow n w w0
            = (SendResult.ok, wrapInt32 (w - n)) := by
          simp only [channelState.decrementSendWindow, if_neg h0, if_neg h1, if_pos h2, hsub]
        rw [hval]
        refine ⟨⟨fun _ => Or.inr h2, fun _ => rfl⟩, fun hne => absurd rfl hne, fun _ => rfl,
          fun hge => absurd hge h1, ?_, fun _ _ => h1⟩
        intro _ _ hw0
        have hdiv : 0 ≤ Int.tdiv w0 2 := Int.tdiv_nonneg hw0 (by decide)
        have hfit : wrapInt32 (w - n) = w - n :=
          wrapInt32_of_range _ (by omega) (by omega)
        exact ⟨hfit, by omega⟩
      · have hval : channelState.decrementSendWindow n w w0 = (SendResult.wait, w) := by
          simp only [channelState.decrementSendWindow, if_neg h0, if_neg h1, if_neg h2]
        rw [hval]
        refine ⟨⟨fun hc => (by cases hc), fun hor => ?_⟩, fun _ => rfl, fun hor => ?_,
          fun hge => absurd hge h1, fun _ hge => absurd hge h2, fun hc => (by cases hc)⟩
        · rcases hor with hor | hor
          · exact absurd hor h1
          · exact absurd hor h2
        · rcases hor with hor | hor
          · exact absurd hor h1
          · exact absurd hor h2

/-- C31 at a message of 10 bytes with the send window 4 and the initial
window 8: admitted by the second test, the window becomes -6. -/
theorem C31_send_window_admission_witness :
    ((channelState.decrementSendWindow 10 4 8).1 = SendResult.ok
      ↔ ((4 : Int) ≥ 10 ∨ (4 : Int) ≥ Int.tdiv 8 2)) ∧
    (channelState.decrementSendWindow 10 4 8).2 = 4 - 10 ∧ (4 : Int) - 10 < 0 :=
  ⟨((C31_send_window_admission 10 4 8 (by decide) (by decide)).2 (by decide)).1,
   ((C31_send_window_admission 10 4 8 (by decide) (by decide)).2 (by decide)).2.2.2.2.1
     (by decide) (by decide) (by decide)⟩

/-! ## Theorems: insertion into a sorted table -/

/-- C36: for every field stack whose slice `stack[offset:]` is sorted
non-decreasing by tag, and every field `f` (its tag may already occur in the
slice): `insert(offset, f)` returns, the part of the stack below `offset` is
kept, the slice is again sorted non-decreasing by tag, and `f` is placed
immediately before the first old entry whose tag is `>= f.tag`: the old slice
splits into `before ++ after` with every tag in `before` smaller than `f.tag`
and the first entry of `after`, if any, not smaller, and the new slice is
`before ++ f :: after`. -/
theorem C36_insert_keeps_sorted (s : messageStack) (offset : Int) (f : messageField)
    (table : List messageField) (hslice : sliceFrom s.stack offset = some table)
    (hs : table.Sorted tagLE) :
    ∃ (s' : messageStack) (before after : List messageField),
      s.insert offset f = some s' ∧
      table = before ++ after ∧
      (∀ b ∈ before, b.tag < f.tag) ∧
      (∀ b, after.head? = some b → f.tag ≤ b.tag) ∧
      sliceFrom s'.stack offset = some (before ++ f :: after) ∧
      (before ++ f :: after).Sorted tagLE ∧
      s'.stack.take offset.toNat = s.stack.take offset.toNat := by
  obtain ⟨hins, hcast, hn, htab⟩ := insert_in_range s offset f table hslice
  have hloop : insertLoop (table ++ [f]) table.length = table.orderedInsert tagLE f := by
    have := insertLoop_eq_orderedInsert table f [] hs
    simpa using this
  have hsplit := List.orderedInsert_eq_take_drop tagLE f table
  set before := table.takeWhile (fun b => decide ¬ tagLE f b) with hbefore
  set after := table.dropWhile (fun b => decide ¬ tagLE f b) with hafter
  have htake : (s.stack.take offset.toNat).length = offset.toNat := by
    rw [List.length_take]; omega
  refine ⟨_, before, after, hins, (List.takeWhile_append_dropWhile _ _).symm, ?_, ?_, ?_, ?_, ?_⟩
  · intro b hb
    have := List.mem_takeWhile_imp hb
    simp only [tagLE, decide_eq_true_eq, not_le] at this
    exact this
  · intro b hb
    have h := List.head?_dropWhile_not (fun b => decide ¬ tagLE f b) table
    rw [← hafter, hb] at h
    simpa [tagLE] using h
  · rw [hloop, hsplit]
    have := sliceFrom_length_append (s.stack.take offset.toNat) (before ++ f :: after)
    rw [htake, hcast] at this
    exact this
  · rw [← hsplit]
    exact hs.orderedInsert f table
  · simp only
    rw [List.take_append_of_le_length (by omega), List.take_take, Nat.min_self]

/-- C36 at the stack `[(1,1), (5,2), (5,3), (7,4)]`, offset 1 and the field
`(5,9)`, whose tag already occurs twice in the table. -/
theorem C36_insert_keeps_sorted_witness :
    ∃ (s' : messageStack) (before after : List messageField),
      (⟨[⟨1, 1⟩, ⟨5, 2⟩, ⟨5, 3⟩, ⟨7, 4⟩]⟩ : messageStack).insert 1 ⟨5, 9⟩ = some s' ∧
      ([⟨5, 2⟩, ⟨5, 3⟩, ⟨7, 4⟩] : List messageField) = before ++ after ∧
      (∀ b ∈ before, b.tag < (⟨5, 9⟩ : messageField).tag) ∧
      (∀ b, after.head? = some b → (⟨5, 9⟩ : messageField).tag ≤ b.tag) ∧
      sliceFrom s'.stack 1 = some (before ++ ⟨5, 9⟩ :: after) ∧
      (before ++ (⟨5, 9⟩ : messageField) :: after).Sorted tagLE ∧
      s'.stack.take (1 : Int).toNat
        = ([⟨1, 1⟩, ⟨5, 2⟩, ⟨5, 3⟩, ⟨7, 4⟩] : List messageField).take (1 : Int).toNat :=
  C36_insert_keeps_sorted ⟨[⟨1, 1⟩, ⟨5, 2⟩, ⟨5, 3⟩, ⟨7, 4⟩]⟩ 1 ⟨5, 9⟩
    [⟨5, 2⟩, ⟨5, 3⟩, ⟨7, 4⟩] (by decide) (by decide)

theorem evaluation_55 :
    (⟨[⟨1, 1⟩, ⟨5, 2⟩, ⟨5, 3⟩, ⟨7, 4⟩]⟩ : messageStack).insert 1 ⟨5, 9⟩
      = some ⟨[⟨1, 1⟩, ⟨5, 9⟩, ⟨5, 2⟩, ⟨5, 3⟩, ⟨7, 4⟩]⟩ := by decide

/-! ## Theorems: soundness of the lookup on arbitrary tables -/

/-- A slice `t[m*size : m*size+size]` that is in range is entry `m`, and `m` is
below the entry count. -/
theorem sliceRange_is_entry (size : Nat) (hsize : 0 < size) (t : List Nat) (m : Nat)
    (b : List Nat)
    (h : sliceRange t ((m : Int) * (size : Int)) ((m : Int) * (size : Int) + (size : Int))
      = some b) :
    m < t.length / size ∧ b = entryBytes size t m := by
  have hfit : m * size + size ≤ t.length := by
    unfold sliceRange at h
    by_cases hc : 0 ≤ (m : Int) * (size : Int) ∧
        (m : Int) * (size : Int) ≤ (m : Int) * (size : Int) + (size : Int) ∧
        (m : Int) * (size : Int) + (size : Int) ≤ (t.length : Int)
    · have := hc.2.2
      have e : (m : Int) * (size : Int) + (size : Int) = ((m * size + size : Nat) : Int) := by
        push_cast; rfl
      rw [e] at this
      exact_mod_cast this
    · rw [if_neg hc] at h
      cases h
  have hm : m < t.length / size := by
    have h1 : (m + 1) * size ≤ t.length := by
      have : (m + 1) * size = m * size + size := by ring
      omega
    exact (Nat.le_div_iff_mul_le hsize).2 h1
  refine ⟨hm, ?_⟩
  rw [sliceRange_entry size t m hm] at h
  exact (Option.some.inj h).symm

/-- A value other than `-1` that the binary search returns is the offset of an
in-range entry with the tag searched for, whatever the table holds. -/
theorem searchLoop_sound (size : Nat) (hsize : 0 < size)
    (readTag readOffset : List Nat → Option Nat) (t : List Nat) (tag : Nat) :
    ∀ (fuel : Nat) (left right v : Int),
      searchLoop size readTag readOffset t tag fuel left right = some v → v ≠ -1 →
      ∃ (m o : Nat), m < t.length / size ∧ readTag (entryBytes size t m) = some tag ∧
        readOffset (entryBytes size t m) = some o ∧ v = (o : Int) := by
  intro fuel
  induction fuel with
  | zero => intro left right v h; cases h
  | succ fuel ih =>
    intro left right v h hv
    by_cases hle : left ≤ right
    · obtain ⟨m, hm⟩ : ∃ m : Nat, ((left + right) % 2 ^ 64) / 2 = (m : Int) :=
        ⟨(((left + right) % 2 ^ 64) / 2).toNat, by omega⟩
      simp only [searchLoop, if_pos hle, hm] at h
      cases hs : sliceRange t ((m : Int) * (size : Int))
          ((m : Int) * (size : Int) + (size : Int)) with
      | none => rw [hs] at h; cases h
      | some b =>
        rw [hs] at h
        obtain ⟨hmn, hb⟩ := sliceRange_is_entry size hsize t m b hs
        simp only at h
        cases hc : readTag b with
        | none => rw [hc] at h; cases h
        | some cur =>
          rw [hc] at h
          simp only at h
          by_cases h1 : cur < tag
          · rw [if_pos h1] at h
            exact ih _ _ v h hv
          · rw [if_neg h1] at h
            by_cases h2 : cur > tag
            · rw [if_pos h2] at h
              exact ih _ _ v h hv
            · rw [if_neg h2] at h
              have hcur : cur = tag := by omega
              cases ho : readOffset b with
              | none => rw [ho] at h; cases h
              | some o =>
                rw [ho] at h
                refine ⟨m, o, hmn, ?_, ?_, ?_⟩
                · rw [← hb, hc, hcur]
                · rw [← hb, ho]
                · exact (Option.some.inj h).symm
    · simp only [searchLoop, if_neg hle] at h
      exact absurd (Option.some.inj h).symm hv

/-- The search over the whole table, with one unit of fuel more than there are
entries, returns a value. -/
theorem search_total (size : Nat) (readTag readOffset : List Nat → Option Nat)
    (t : List Nat) (tag : Nat) (hlen : t.length < 2 ^ 63)
    (hread : ∀ b : List Nat, b.length = size →
      ∃ c o, readTag b = some c ∧ readOffset b = some o) :
    ∃ v : Int, searchLoop size readTag readOffset t tag (t.length / size + 1) 0
      (((t.length / size : Nat) : Int) - 1) = some v := by
  have key : ∀ n : Nat, n = t.length / size →
      ∃ v : Int, searchLoop size readTag readOffset t tag (n + 1) 0 ((n : Int) - 1) = some v := by
    intro n hn
    exact searchLoop_defined size readTag readOffset t tag hlen hread (n + 1) 0 ((n : Int) - 1)
      (le_refl _) (by rw [← hn]; omega) (by omega) (by push_cast; omega)
  exact key _ rfl

/-- A value other than `-1` found by the search loop over the whole table is the
offset of a field that the indexed accessor returns for an in-range index. -/
theorem search_sound_field (size : Nat) (hsize : 0 < size)
    (readTag readOffset : List Nat → Option Nat) (t : List Nat) (tag : Nat)
    (hread : ∀ b : List Nat, b.length = size →
      ∃ c o, readTag b = some c ∧ readOffset b = some o)
    (fuel : Nat) (left right v : Int)
    (h : searchLoop size readTag readOffset t tag fuel left right = some v) (hv : v ≠ -1) :
    ∃ (i o : Nat), (i : Int) < ((t.length / size : Nat) : Int) ∧
      fieldAt size readTag readOffset t (i : Int) = some (⟨tag, o⟩, true) ∧ v = (o : Int) := by
  obtain ⟨m, o, hm, ht, ho, hvo⟩ :=
    searchLoop_sound size hsize readTag readOffset t tag fuel left right v h hv
  refine ⟨m, o, by exact_mod_cast hm, ?_, hvo⟩
  rw [fieldAt_in_range size readTag readOffset t hread m hm]
  simp [entryTag, entryOffset, ht, ho]

/-- C37: the lookup is sound on an arbitrary table, sorted or not, with or
without duplicate tags: when `offset_big`, `offset_small` or format.go's
`offset` returns a value `v` other than `-1`, some index `i` below the entry
count holds an entry with the tag searched for and the offset `v` (the indexed
accessor returns that field). On a table of bytes shorter than `2^63`,
`offset_small` returns `-1` for every tag above 255. -/
theorem C37_lookup_sound (t : List Nat) (tag : Nat) :
    (∀ v : Int, messageTable.offset_big t tag = some v → v ≠ -1 →
      ∃ (i o : Nat), (i : Int) < messageTable.count t true ∧
        messageTable.field_big t (i : Int) = some (⟨tag, o⟩, true) ∧ v = (o : Int)) ∧
    (∀ v : Int, messageTable.offset_small t tag = some v → v ≠ -1 →
      ∃ (i o : Nat), (i : Int) < messageTable.count t false ∧
        messageTable.field_small t (i : Int) = some (⟨tag, o⟩, true) ∧ v = (o : Int)) ∧
    (∀ v : Int, FormatGo.messageTable.offset t tag = some v → v ≠ -1 →
      ∃ (i o : Nat), (i : Int) < FormatGo.messageTable.count t ∧
        FormatGo.messageTable.field t (i : Int) = some (⟨tag, o⟩, true) ∧ v = (o : Int)) ∧
    (t.length < 2 ^ 63 → (∀ b ∈ t, b < 256) → 255 < tag →
      messageTable.offset_small t tag = some (-1)) := by
  refine ⟨?_, ?_, ?_, ?_⟩
  · intro v h hv
    exact search_sound_field messageFieldBigSize (by decide) bigTag bigOffset t tag big_reads
      _ _ _ v h hv
  · intro v h hv
    exact search_sound_field messageFieldSmallSize (by decide) smallTag smallOffset t tag
      small_reads _ _ _ v h hv
  · intro v h hv
    unfold FormatGo.messageTable.offset at h
    by_cases hn : t.length / messageFieldSize = 0
    · simp only [hn, if_true] at h
      exact absurd (Option.some.inj h).symm hv
    · simp only [if_neg hn] at h
      exact search_sound_field messageFieldSize (by decide) bigTag bigOffset t tag big_reads
        _ _ _ v h hv
  · intro hlen hbytes htag
    obtain ⟨v, hv⟩ := search_total messageFieldSmallSize smallTag smallOffset t tag hlen
      small_reads
    have hv2 : messageTable.offset_small t tag = some v := hv
    rw [hv2]
    by_cases hneg : v = -1
    · rw [hneg]
    · exfalso
      obtain ⟨m, o, _, ht, _, _⟩ :=
        searchLoop_sound messageFieldSmallSize (by decide) smallTag smallOffset t tag _ _ _ v
          hv hneg
      have hmem : tag ∈ t := by
        unfold smallTag at ht
        have h1 : tag ∈ entryBytes messageFieldSmallSize t m := (List.getElem?_eq_some.1 ht).2 ▸ List.getElem_mem _
        unfold entryBytes at h1
        exact List.mem_of_mem_drop (List.mem_of_mem_take h1)
      have := hbytes tag hmem
      omega

/-- C37 at the unsorted table with a duplicate tag `[(7, 1), (7, 2), (3, 4)]`:
the big lookup of tag 7 returns 2, the offset of entry 1; the small lookup of
tag 300 on a three-byte table returns `-1`. -/
theorem C37_lookup_sound_witness :
    (∃ (i o : Nat),
      (i : Int) < messageTable.count [0, 7, 0, 0, 0, 1, 0, 7, 0, 0, 0, 2, 0, 3, 0, 0, 0, 4] true ∧
      messageTable.field_big [0, 7, 0, 0, 0, 1, 0, 7, 0, 0, 0, 2, 0, 3, 0, 0, 0, 4] (i : Int)
        = some (⟨7, o⟩, true) ∧ (2 : Int) = (o : Int)) ∧
    messageTable.offset_small [1, 0, 2] 300 = some (-1) :=
  ⟨(C37_lookup_sound [0, 7, 0, 0, 0, 1, 0, 7, 0, 0, 0, 2, 0, 3, 0, 0, 0, 4] 7).1 2
      (by decide) (by decide),
   (C37_lookup_sound [1, 0, 2] 300).2.2.2 (by decide) (by decide) (by decide)⟩

/-! ## Theorems: format.go and the big format, totality of the accessors -/

/-- C39: the fixed-width accessors of format.go and the big-format accessors of
format_message.go are the same functions: for every byte slice `t`, every
integer `i` and every tag, `count() = count(true)`, `field(i) = field_big(i)`,
`fields() = fields(true)` and `offset(tag) = offset_big(tag)`. -/
theorem C39_format_go_is_big_format (t : List Nat) (i : Int) (tag : Nat) :
    FormatGo.messageTable.count t = messageTable.count t true ∧
    FormatGo.messageTable.field t i = messageTable.field_big t i ∧
    FormatGo.messageTable.fields t = messageTable.fields t true ∧
    FormatGo.messageTable.offset t tag = messageTable.offset_big t tag := by
  refine ⟨rfl, rfl, rfl, ?_⟩
  unfold FormatGo.messageTable.offset messageTable.offset_big
  have hsize : messageFieldSize = messageFieldBigSize := rfl
  rw [hsize]
  by_cases hn : t.length / messageFieldBigSize = 0
  · simp only [hn, if_true]
    simp [searchLoop]
  · simp only [if_neg hn]

/-- A monadic left fold whose step always returns a value returns a value. -/
theorem foldlM_defined {α β : Type} (f : β → α → Option β) (l : List α)
    (h : ∀ (b : β) (a : α), a ∈ l → ∃ r, f b a = some r) :
    ∀ b : β, ∃ r, l.foldlM f b = some r := by
  induction l with
  | nil => intro b; exact ⟨b, rfl⟩
  | cons a l ih =>
    intro b
    obtain ⟨r, hr⟩ := h b a (List.mem_cons_self _ _)
    obtain ⟨r2, hr2⟩ := ih (fun b x hx => h b x (List.mem_cons_of_mem _ hx)) r
    exact ⟨r2, by simp [List.foldlM, hr, hr2]⟩

/-- Go `listTable.offset(i)` returns a value for every table and every index. -/
theorem listTable_offset_total (t : List Nat) (i : Int) :
    ∃ v : Int, listTable.offset t i = some v := by
  by_cases h0 : i < 0
  · exact ⟨-1, by simp [listTable.offset, h0]⟩
  · by_cases hn : i ≥ listTable.count t
    · exact ⟨-1, by simp only [listTable.offset, if_neg h0, if_pos hn]⟩
    · have hm : i.toNat < t.length / 4 := by
        have : i < ((t.length / 4 : Nat) : Int) := by
          simpa [listTable.count, listElementSize] using hn
        omega
      obtain ⟨b0, b1, b2, b3, _, h⟩ := listTable_offset_in_range t i.toNat hm
      have hi : ((i.toNat : Nat) : Int) = i := Int.toNat_of_nonneg (by omega)
      rw [hi] at h
      exact ⟨_, h⟩

/-- C38: the table accessors are total. For every byte slice `t` (of a length
below `2^63`, as every Go slice; the length need not be a multiple of the entry
width), every integer `i` and every tag, `listTable.offset`,
`listTable.elements`, `field_big`, `field_small`, `offsetByIndex_big`,
`offsetByIndex_small`, `fields`, `offset_big` and `offset_small` return a value:
no slice expression is out of range and the binary search ends within
`count + 1` iterations. `count` is a number of entries that fit in `t`. -/
theorem C38_accessors_total (t : List Nat) (hlen : t.length < 2 ^ 63) (i : Int) (tag : Nat) :
    (∃ v, listTable.offset t i = some v) ∧
    (∃ es, listTable.elements t = some es) ∧
    (∀ big : Bool, 0 ≤ messageTable.count t big ∧
      messageTable.count t big
        * ((if big then messageFieldBigSize else messageFieldSmallSize : Nat) : Int)
        ≤ (t.length : Int)) ∧
    (∃ f, messageTable.field_big t i = some f) ∧
    (∃ f, messageTable.field_small t i = some f) ∧
    (∃ v, messageTable.offsetByIndex_big t i = some v) ∧
    (∃ v, messageTable.offsetByIndex_small t i = some v) ∧
    (∀ big : Bool, ∃ fs, messageTable.fields t big = some fs) ∧
    (∃ v, messageTable.offset_big t tag = some v) ∧
    (∃ v, messageTable.offset_small t tag = some v) := by
  have hbig : (∃ f, messageTable.field_big t i = some f) ∧
      (∃ v, messageTable.offsetByIndex_big t i = some v) := by
    by_cases h : i < 0 ∨ i ≥ ((t.length / 6 : Nat) : Int)
    · obtain ⟨h1, h2⟩ := (big_access t i).1 h
      exact ⟨⟨_, h1⟩, ⟨_, h2⟩⟩
    · obtain ⟨_, _, _, _, _, _, _, h1, h2⟩ := (big_access t i).2 (by omega) (by omega)
      exact ⟨⟨_, h1⟩, ⟨_, h2⟩⟩
  have hsmall : (∃ f, messageTable.field_small t i = some f) ∧
      (∃ v, messageTable.offsetByIndex_small t i = some v) := by
    by_cases h : i < 0 ∨ i ≥ ((t.length / 3 : Nat) : Int)
    · obtain ⟨h1, h2⟩ := (small_access t i).1 h
      exact ⟨⟨_, h1⟩, ⟨_, h2⟩⟩
    · obtain ⟨_, _, _, _, h1, h2⟩ := (small_access t i).2 (by omega) (by omega)
      exact ⟨⟨_, h1⟩, ⟨_, h2⟩⟩
  refine ⟨listTable_offset_total t i, ?_, ?_, hbig.1, hsmall.1, hbig.2, hsmall.2, ?_,
    search_total messageFieldBigSize bigTag bigOffset t tag hlen big_reads,
    search_total messageFieldSmallSize smallTag smallOffset t tag hlen small_reads⟩
  · unfold listTable.elements
    apply foldlM_defined
    intro b a _
    obtain ⟨v, hv⟩ := listTable_offset_total t (a : Int)
    exact ⟨_, by rw [hv]⟩
  · intro big
    cases big
    · simp only [messageTable.count, Bool.false_eq_true, if_false, messageFieldSmallSize_eq]
      have := Nat.div_mul_le_self t.length 3
      constructor
      · exact Int.ofNat_zero_le _
      · exact_mod_cast this
    · simp only [messageTable.count, if_true, messageFieldBigSize_eq]
      have := Nat.div_mul_le_self t.length 6
      constructor
      · exact Int.ofNat_zero_le _
      · exact_mod_cast this
  · intro big
    cases big
    · exact ⟨_, collectFields_eq messageFieldSmallSize smallTag smallOffset t small_reads⟩
    · exact ⟨_, collectFields_eq messageFieldBigSize bigTag bigOffset t big_reads⟩

/-- C38 at the seven-byte table `[0, 0, 0, 5, 0, 0, 1]` (one list entry and
three bytes more, two small entries and one byte more, one big entry and one
byte more): every accessor returns a value at index 1 and tag 5. -/
theorem C38_accessors_total_witness :
    (∃ v, listTable.offset [0, 0, 0, 5, 0, 0, 1] 1 = some v) ∧
    (∃ es, listTable.elements [0, 0, 0, 5, 0, 0, 1] = some es) ∧
    (∃ f, messageTable.field_small [0, 0, 0, 5, 0, 0, 1] 1 = some f) ∧
    (∃ v, messageTable.offset_small [0, 0, 0, 5, 0, 0, 1] 5 = some v) :=
  ⟨(C38_accessors_total [0, 0, 0, 5, 0, 0, 1] (by decide) 1 5).1,
   (C38_accessors_total [0, 0, 0, 5, 0, 0, 1] (by decide) 1 5).2.1,
   (C38_accessors_total [0, 0, 0, 5, 0, 0, 1] (by decide) 1 5).2.2.2.2.1,
   (C38_accessors_total [0, 0, 0, 5, 0, 0, 1] (by decide) 1 5).2.2.2.2.2.2.2.2.2⟩

theorem evaluation_56 :
    listTable.elements [0, 0, 0, 5, 0, 0, 1, 2, 9] = some [⟨5⟩, ⟨258⟩] := by decide

theorem evaluation_57 : listTable.offset [0, 0, 0, 5, 0, 0, 1] 1 = some (-1) := by decide

theorem evaluation_58 :
    messageTable.offset_small [0, 0, 0, 5, 0, 0, 1] 5 = some 0 := by decide

/-! ## Theorems: validation skips the elements that cannot be addressed -/

/-- An element whose table entry lies beyond the payload is returned empty. -/
theorem element_past_payload (l : ListView) (i : Nat) (hi : (i : Int) < l.Len) (v : Int)
    (hv : listTable.offset l.table (i : Int) = some v) (hpast : (l.data.length : Int) < v) :
    l.Element (i : Int) = some [] := by
  obtain ⟨start, end_, hpair, hstart, _, hend, _, _⟩ :=
    offsetPair_in_range l.table (i : Int) (Int.ofNat_zero_le _) hi
  have he : end_ = v := by
    rw [hv] at hend
    exact (Option.some.inj hend).symm
  exact ((element_cases l (i : Int)).2 start end_ hpair hstart).2.1 (by rw [he]; exact hpast)

/-- C40: `List.Validate` skips the elements it cannot address. For every list
in which each element below `Len()` has empty `Element(i)` bytes or is accepted
by `ReadValue`, `Validate` returns nil; and a list whose every table entry lies
beyond the end of the payload validates, whatever `ReadValue` does. -/
theorem C40_validate_skips_unaddressable {ε : Type} (rv : List Nat → Option (Option ε))
    (l : ListView) :
    ((∀ i : Nat, (i : Int) < l.Len → ∃ data, l.Element (i : Int) = some data ∧
        (data.length = 0 ∨ rv data = some none)) →
      l.Validate rv = some none) ∧
    ((∀ i : Nat, (i : Int) < l.Len → ∃ v : Int,
        listTable.offset l.table (i : Int) = some v ∧ (l.data.length : Int) < v) →
      (∀ i : Nat, (i : Int) < l.Len → l.Element (i : Int) = some []) ∧
      l.Validate rv = some none) := by
  constructor
  · exact (validate_nil_iff rv l).2
  · intro h
    have hel : ∀ i : Nat, (i : Int) < l.Len → l.Element (i : Int) = some [] := by
      intro i hi
      obtain ⟨v, hv, hpast⟩ := h i hi
      exact element_past_payload l i hi v hv hpast
    exact ⟨hel, (validate_nil_iff rv l).2 (fun i hi => ⟨[], hel i hi, Or.inl rfl⟩)⟩

/-- C40 at the list with the table entries 9 and 12 over three bytes of payload
and a `ReadValue` that rejects every value: both elements are returned empty
and `Validate` returns nil. -/
theorem C40_validate_skips_unaddressable_witness :
    (∀ i : Nat, (i : Int) < (⟨[], [0, 0, 0, 9, 0, 0, 0, 12], [1, 2, 3]⟩ : ListView).Len →
      (⟨[], [0, 0, 0, 9, 0, 0, 0, 12], [1, 2, 3]⟩ : ListView).Element (i : Int) = some []) ∧
    (⟨[], [0, 0, 0, 9, 0, 0, 0, 12], [1, 2, 3]⟩ : ListView).Validate
      (fun _ => some (some (7 : Nat))) = some none :=
  (C40_validate_skips_unaddressable (fun _ => some (some (7 : Nat)))
    ⟨[], [0, 0, 0, 9, 0, 0, 0, 12], [1, 2, 3]⟩).2 (by
      intro i hi
      have h2 : i < 2 := by
        have : (⟨[], [0, 0, 0, 9, 0, 0, 0, 12], [1, 2, 3]⟩ : ListView).Len = 2 := by decide
        rw [this] at hi
        omega
      interval_cases i
      · exact ⟨9, by decide, by decide⟩
      · exact ⟨12, by decide, by decide⟩)

theorem evaluation_59 :
    (⟨[], [0, 0, 0, 9, 0, 0, 0, 12], [1, 2, 3]⟩ : ListView).Validate
      (fun _ => some (some (7 : Nat))) = some none := by decide

theorem evaluation_60 :
    (⟨[], [0, 0, 0, 2, 0, 0, 0, 12], [1, 2, 3]⟩ : ListView).Validate
      (fun _ => some (some (7 : Nat))) = some (some 7) := by decide

/-! ## Theorems: the effect of a successful write, case by case -/

theorem stack_of_peek_split (s : objectStack) (o : objectEntry) (h : s.peek = some o) :
    s.stack = s.stack.dropLast ++ [o] ∧ s.pop.1 = ⟨s.stack.dropLast⟩ :=
  ⟨stack_of_peek s o h, rfl⟩

/-- A successful primitive write, in terms of the output of its encoder. -/
theorem primitive_step (c : Codec) (e e' : Encoder) (call : Call)
    (hprim : call.isPrimitive = true) (herr : e.err = none)
    (h : e.call c call = some (e', none)) : Step c e e' call := by
  have hv : ∀ encode : List Nat → List Nat,
      some (e.writeValue encode) = some (e', none) →
      e.data = ⟨0, 0⟩ ∧ e' = e.written (encode e.buf) := by
    intro encode hw
    have hw' := Option.some.inj hw
    refine ⟨?_, writeValue_ok e e' encode herr hw'⟩
    simp only [Encoder.writeValue, herr] at hw'
    exact (setDataOrFail_ok _ _ _ _ hw').1
  have hf : ∀ encode : List Nat → List Nat × Option EncodeError,
      some (e.writeFallible encode) = some (e', none) →
      e.data = ⟨0, 0⟩ ∧ (encode e.buf).2 = none ∧ e' = e.written (encode e.buf).1 := by
    intro encode hw
    have hw' := Option.some.inj hw
    have henc := writeFallible_ok e e' encode herr hw'
    refine ⟨?_, henc, writeFallible_ok_state e e' encode herr hw'⟩
    simp only [Encoder.writeFallible, herr, henc] at hw'
    exact (setDataOrFail_ok _ _ _ _ hw').1
  cases call
  case nil =>
    obtain ⟨h1, h2⟩ := hv c.EncodeNil h
    exact Step.primitive _ rfl h1 (fun v hc => by cases hc) (fun v hc => by cases hc) h2
  case bool v =>
    obtain ⟨h1, h2⟩ := hv (fun buf => c.EncodeBool buf v) h
    exact Step.primitive _ rfl h1 (fun v hc => by cases hc) (fun v hc => by cases hc) h2
  case byte v =>
    obtain ⟨h1, h2⟩ := hv (fun buf => c.EncodeByte buf v) h
    exact Step.primitive _ rfl h1 (fun v hc => by cases hc) (fun v hc => by cases hc) h2
  case int32 v =>
    obtain ⟨h1, h2⟩ := hv (fun buf => c.EncodeInt32 buf v) h
    exact Step.primitive _ rfl h1 (fun v hc => by cases hc) (fun v hc => by cases hc) h2
  case int64 v =>
    obtain ⟨h1, h2⟩ := hv (fun buf => c.EncodeInt64 buf v) h
    exact Step.primitive _ rfl h1 (fun v hc => by cases hc) (fun v hc => by cases hc) h2
  case uint32 v =>
    obtain ⟨h1, h2⟩ := hv (fun buf => c.EncodeUint32 buf v) h
    exact Step.primitive _ rfl h1 (fun v hc => by cases hc) (fun v hc => by cases hc) h2
  case uint64 v =>
    obtain ⟨h1, h2⟩ := hv (fun buf => c.EncodeUint64 buf v) h
    exact Step.primitive _ rfl h1 (fun v hc => by cases hc) (fun v hc => by cases hc) h2
  case u128 v =>
    obtain ⟨h1, h2⟩ := hv (fun buf => c.EncodeU128 buf v) h
    exact Step.primitive _ rfl h1 (fun v hc => by cases hc) (fun v hc => by cases hc) h2
  case u256 v =>
    obtain ⟨h1, h2⟩ := hv (fun buf => c.EncodeU256 buf v) h
    exact Step.primitive _ rfl h1 (fun v hc => by cases hc) (fun v hc => by cases hc) h2
  case float32 v =>
    obtain ⟨h1, h2⟩ := hv (fun buf => c.EncodeFloat32 buf v) h
    exact Step.primitive _ rfl h1 (fun v hc => by cases hc) (fun v hc => by cases hc) h2
  case float64 v =>
    obtain ⟨h1, h2⟩ := hv (fun buf => c.EncodeFloat64 buf v) h
    exact Step.primitive _ rfl h1 (fun v hc => by cases hc) (fun v hc => by cases hc) h2
  case bytes v =>
    obtain ⟨h1, h2, h3⟩ := hf (fun buf => c.EncodeBytes buf v) h
    exact Step.primitive _ rfl h1 (fun w hc => by cases hc; exact h2)
      (fun v hc => by cases hc) h3
  case string v =>
    obtain ⟨h1, h2, h3⟩ := hf (fun buf => c.EncodeString buf v) h
    exact Step.primitive _ rfl h1 (fun v hc => by cases hc)
      (fun w hc => by cases hc; exact h2) h3
  all_goals simp [Call.isPrimitive] at hprim

/-- What a write call that returns nil on an unpoisoned encoder does. -/
theorem call_ok_step (c : Codec) (e e' : Encoder) (call : Call)
    (herr : e.err = none) (h : e.call c call = some (e', none)) : Step c e e' call := by
  cases call
  any_goals first | exact primitive_step c e e' _ rfl herr h | skip
  case beginList =>
    have h' : e.BeginList = (e', none) := Option.some.inj h
    simp only [Encoder.BeginList, herr] at h'
    exact Step.begin_ _ ⟨objectTypeList, (e.buf.length : Int), e.elements.offset⟩
      (Or.inl ⟨rfl, rfl⟩) rfl (fun _ => rfl) (fun hk => by cases hk)
      (by rw [← (Prod.mk.inj h').1, herr]; rfl)
  case beginMessage =>
    have h' : e.BeginMessage = (e', none) := Option.some.inj h
    simp only [Encoder.BeginMessage, herr] at h'
    exact Step.begin_ _ ⟨objectTypeMessage, (e.buf.length : Int), e.fields.offset⟩
      (Or.inr (Or.inl ⟨rfl, rfl⟩)) rfl (fun hk => by cases hk) (fun _ => rfl)
      (by rw [← (Prod.mk.inj h').1, herr]; rfl)
  case beginStruct =>
    have h' : e.BeginStruct = (e', none) := Option.some.inj h
    simp only [Encoder.BeginStruct, herr] at h'
    exact Step.begin_ _ ⟨objectTypeStruct, (e.buf.length : Int), 0⟩
      (Or.inr (Or.inr ⟨rfl, rfl⟩)) rfl (fun hk => by cases hk) (fun hk => by cases hk)
      (by rw [← (Prod.mk.inj h').1, herr]; rfl)
  case element =>
    have h' : e.Element = (e', none) := Option.some.inj h
    simp only [Encoder.Element, herr] at h'
    cases hp : e.objects.peek with
    | none => rw [hp] at h'; exact absurd h' (fail_ne_ok _ _ _)
    | some o =>
      rw [hp] at h'
      by_cases hk : o.type_ ≠ objectTypeList
      · simp only [if_pos hk] at h'; exact absurd h' (fail_ne_ok _ _ _)
      · simp only [if_neg hk, Encoder.popData, listStack.push] at h'
        exact Step.element o _ (stack_of_peek_split _ _ hp).1 (not_not.1 hk)
          (by rw [← (Prod.mk.inj h').1, herr])
  case structField =>
    have h' : e.StructField = (e', none) := Option.some.inj h
    simp only [Encoder.StructField, herr] at h'
    cases hp : e.objects.peek with
    | none => rw [hp] at h'; exact absurd h' (fail_ne_ok _ _ _)
    | some o =>
      rw [hp] at h'
      by_cases hk : o.type_ ≠ objectTypeStruct
      · simp only [if_pos hk] at h'; exact absurd h' (fail_ne_ok _ _ _)
      · simp only [if_neg hk, Encoder.popData] at h'
        exact Step.structField o _ (stack_of_peek_split _ _ hp).1 (not_not.1 hk)
          (by rw [← (Prod.mk.inj h').1, herr])
  case field tag =>
    have h' : e.Field tag = some (e', none) := h
    cases hp : e.objects.peek with
    | none =>
      simp only [Encoder.Field, herr, hp] at h'
      exact absurd (Option.some.inj h') (fail_ne_ok _ _ _)
    | some o =>
      by_cases hk : o.type_ ≠ objectTypeMessage
      · simp only [Encoder.Field, herr, hp, if_pos hk] at h'
        exact absurd (Option.some.inj h') (fail_ne_ok _ _ _)
      · simp only [Encoder.Field, herr, hp, if_neg hk, Encoder.popData] at h'
        cases hins : e.fields.insert o.tableStart
            ⟨tag, ((e.data.end_ - o.start) % 2 ^ 32).toNat⟩ with
        | none => rw [hins] at h'; exact Option.noConfusion h'
        | some fields =>
          rw [hins] at h'
          exact Step.field tag o _ fields (stack_of_peek_split _ _ hp).1 (not_not.1 hk) hins
            (by rw [← (Prod.mk.inj (Option.some.inj h')).1, herr])
  case endList =>
    have h' : e.EndList c = some (e', none) := h
    cases hp : e.objects.peek with
    | none =>
      have hpop : e.objects.pop.2 = none := hp
      simp only [Encoder.EndList, herr, hpop] at h'
      exact absurd (Option.some.inj h') (fail_ne_ok _ _ _)
    | some o =>
      have hpop : e.objects.pop.2 = some o := hp
      by_cases hk : o.type_ = objectTypeList
      · rw [endList_unfold c e o herr hp hk] at h'
        cases hs : sliceFrom e.elements.stack o.tableStart with
        | none => rw [hs] at h'; exact Option.noConfusion h'
        | some table =>
          rw [hs] at h'
          cases henc : (c.encodeListMeta e.buf ((e.buf.length : Int) - o.start) table).2 with
          | some err =>
            simp only [henc] at h'
            exact absurd (Option.some.inj h') (fail_ne_ok _ _ _)
          | none =>
            simp only [henc] at h'
            obtain ⟨hd, he⟩ := setDataOrFail_ok _ _ _ _ (Option.some.inj h')
            exact Step.endList o _ table (stack_of_peek_split _ _ hp).1 hk hs hd henc
              (by rw [he]; rfl)
      · simp only [Encoder.EndList, herr, hpop, if_pos hk] at h'
        exact absurd (Option.some.inj h') (fail_ne_ok _ _ _)
  case endMessage =>
    have h' : e.EndMessage c = some (e', none) := h
    cases hp : e.objects.peek with
    | none =>
      have hpop : e.objects.pop.2 = none := hp
      simp only [Encoder.EndMessage, herr, hpop] at h'
      exact absurd (Option.some.inj h') (fail_ne_ok _ _ _)
    | some o =>
      have hpop : e.objects.pop.2 = some o := hp
      by_cases hk : o.type_ = objectTypeMessage
      · rw [endMessage_unfold c e o herr hp hk] at h'
        cases hs : sliceFrom e.fields.stack o.tableStart with
        | none => rw [hs] at h'; exact Option.noConfusion h'
        | some table =>
          rw [hs] at h'
          cases henc : (c.encodeMessageMeta e.buf ((e.buf.length : Int) - o.start) table).2 with
          | some err =>
            simp only [henc] at h'
            exact absurd (Option.some.inj h') (fail_ne_ok _ _ _)
          | none =>
            simp only [henc] at h'
            obtain ⟨hd, he⟩ := setDataOrFail_ok _ _ _ _ (Option.some.inj h')
            exact Step.endMessage o _ table (stack_of_peek_split _ _ hp).1 hk hs hd henc
              (by rw [he]; rfl)
      · simp only [Encoder.EndMessage, herr, hpop, if_pos hk] at h'
        exact absurd (Option.some.inj h') (fail_ne_ok _ _ _)
  case endStruct =>
    have h' : e.EndStruct c = (e', none) := Option.some.inj h
    cases hp : e.objects.peek with
    | none =>
      have hpop : e.objects.pop.2 = none := hp
      simp only [Encoder.EndStruct, herr, hpop] at h'
      exact absurd h' (fail_ne_ok _ _ _)
    | some o =>
      have hpop : e.objects.pop.2 = some o := hp
      by_cases hk : o.type_ = objectTypeStruct
      · rw [endStruct_unfold c e o herr hp hk] at h'
        cases henc : (c.encodeStruct e.buf ((e.buf.length : Int) - o.start)).2 with
        | some err =>
          simp only [henc] at h'
          exact absurd h' (fail_ne_ok _ _ _)
        | none =>
          simp only [henc] at h'
          obtain ⟨hd, he⟩ := setDataOrFail_ok _ _ _ _ h'
          exact Step.endStruct o _ (stack_of_peek_split _ _ hp).1 hk hd henc
            (by rw [he]; rfl)
      · simp only [Encoder.EndStruct, herr, hpop, if_pos hk] at h'
        exact absurd h' (fail_ne_ok _ _ _)

/-! ## Theorems: invariants of the writer state -/

theorem reset_eq (e : Encoder) : e.Reset = newEncoder := rfl

theorem init_eq (e : Encoder) (b : List Nat) : e.Init b = newEncoder := rfl

/-- A property of unpoisoned states that holds for a fresh encoder and is kept
by every successful write holds in every unpoisoned state reached by public
operations. -/
theorem runOps_invariant (c : Codec) (P : Encoder → Prop) (hfresh : P newEncoder)
    (hstep : ∀ (e e' : Encoder) (call : Call), e.err = none → P e → Step c e e' call → P e') :
    ∀ (ops : List Op) (e e' : Encoder), (e.err = none → P e) →
      Encoder.runOps c e ops = some e' → e'.err = none → P e' := by
  intro ops
  induction ops with
  | nil =>
    intro e e' hP h herr
    have := Option.some.inj h
    subst this
    exact hP herr
  | cons op ops ih =>
    intro e e' hP h herr
    simp only [Encoder.runOps] at h
    cases hop : e.op c op with
    | none => rw [hop] at h; exact Option.noConfusion h
    | some e1 =>
      rw [hop] at h
      refine ih e1 e' ?_ h herr
      intro herr1
      cases op with
      | reset =>
        have := Option.some.inj hop
        rw [← this, reset_eq]
        exact hfresh
      | init b =>
        have := Option.some.inj hop
        rw [← this, init_eq]
        exact hfresh
      | finish =>
        simp only [Encoder.op] at hop
        cases he : e.err with
        | some err =>
          simp only [Encoder.End, he, Option.map_some'] at hop
          have := Option.some.inj hop
          rw [← this] at herr1
          rw [he] at herr1
          exact Option.noConfusion herr1
        | none =>
          by_cases hlen : e.objects.len > 0
          · simp only [Encoder.End, he, if_pos hlen, Option.map_some'] at hop
            have := Option.some.inj hop
            rw [← this]
            exact hP he
          · simp only [Encoder.End, he, if_neg hlen, Encoder.popData] at hop
            cases hs : sliceRange e.buf e.data.start e.data.end_ with
            | none => rw [hs] at hop; exact Option.noConfusion hop
            | some b =>
              rw [hs] at hop
              have := Option.some.inj hop
              rw [← this]
              exact hfresh
      | write call =>
        simp only [Encoder.op] at hop
        cases hc : e.call c call with
        | none => rw [hc] at hop; exact Option.noConfusion hop
        | some r =>
          obtain ⟨e2, res⟩ := r
          rw [hc] at hop
          have h12 : e2 = e1 := Option.some.inj hop
          subst h12
          cases he : e.err with
          | some err =>
            have hno := (poisoned_noop c e err he).1 call
            rw [hno] at hc
            have := (Prod.mk.inj (Option.some.inj hc)).1
            rw [← this, he] at herr1
            exact Option.noConfusion herr1
          | none =>
            cases res with
            | some err =>
              have := call_error_is_stored c e e2 call err he hc
              rw [this] at herr1
              exact Option.noConfusion herr1
            | none => exact hstep e e2 call he (hP he) (call_ok_step c e e2 call he hc)

theorem ndb_mono (b b' : Int) (xs : List Int) (h : NonDecreasingBelow b xs) (hb : b ≤ b') :
    NonDecreasingBelow b' xs :=
  ⟨h.1, fun x hx => le_trans (h.2 x hx) hb⟩

theorem ndb_push (b b' x : Int) (xs : List Int) (h : NonDecreasingBelow b xs) (hb : b ≤ x)
    (hx : x ≤ b') : NonDecreasingBelow b' (xs ++ [x]) := by
  constructor
  · rw [List.pairwise_append]
    refine ⟨h.1, List.pairwise_singleton _ _, ?_⟩
    intro a ha y hy
    rw [List.mem_singleton] at hy
    subst hy
    exact le_trans (h.2 a ha) hb
  · intro y hy
    rcases List.mem_append.1 hy with hy | hy
    · exact le_trans (le_trans (h.2 y hy) hb) hx
    · rw [List.mem_singleton] at hy
      subst hy
      exact hx

theorem ndb_pop (b x : Int) (xs : List Int) (h : NonDecreasingBelow b (xs ++ [x])) :
    NonDecreasingBelow x xs ∧ x ≤ b := by
  obtain ⟨hp, hb⟩ := h
  rw [List.pairwise_append] at hp
  exact ⟨⟨hp.1, fun y hy => hp.2.2 y hy x (List.mem_singleton_self x)⟩,
    hb x (List.mem_append_right _ (List.mem_singleton_self x))⟩

theorem tableStarts_append_same (kind : objectType) (objs : List objectEntry) (o : objectEntry)
    (h : o.type_ = kind) :
    tableStarts kind (objs ++ [o]) = tableStarts kind objs ++ [o.tableStart] := by
  simp [tableStarts, List.filter_append, h]

theorem tableStarts_append_other (kind : objectType) (objs : List objectEntry) (o : objectEntry)
    (h : o.type_ ≠ kind) : tableStarts kind (objs ++ [o]) = tableStarts kind objs := by
  simp [tableStarts, List.filter_append, h]

/-- The output of a primitive encoder extends the buffer. -/
theorem encodePrimitive_extends (c : Codec) (happ : c.Appends) (buf : List Nat) (call : Call) :
    Extends buf (c.encodePrimitive buf call) := by
  cases call
  case nil => exact happ.EncodeNil _
  case bool v => exact happ.EncodeBool _ v
  case byte v => exact happ.EncodeByte _ v
  case int32 v => exact happ.EncodeInt32 _ v
  case int64 v => exact happ.EncodeInt64 _ v
  case uint32 v => exact happ.EncodeUint32 _ v
  case uint64 v => exact happ.EncodeUint64 _ v
  case u128 v => exact happ.EncodeU128 _ v
  case u256 v => exact happ.EncodeU256 _ v
  case float32 v => exact happ.EncodeFloat32 _ v
  case float64 v => exact happ.EncodeFloat64 _ v
  case bytes v => exact happ.EncodeBytes _ v
  case string v => exact happ.EncodeString _ v
  all_goals exact extends_refl _

/-- An insertion adds one entry to the field stack. -/
theorem insert_length (s s' : messageStack) (offset : Int) (f : messageField)
    (h : s.insert offset f = some s') : s'.stack.length = s.stack.length + 1 := by
  unfold messageStack.insert at h
  simp only at h
  cases hs : sliceFrom (s.stack ++ [f]) offset with
  | none => rw [hs] at h; exact Option.noConfusion h
  | some table =>
    rw [hs] at h
    have := Option.some.inj h
    rw [← this]
    obtain ⟨_, _, htab, _⟩ := sliceFrom_in_range _ _ _ hs
    show (List.take offset.toNat (s.stack ++ [f])
      ++ insertLoop table (table.length - 1)).length = s.stack.length + 1
    rw [List.length_append, (insertLoop_perm _ table).length_eq, htab, ← List.length_append,
      List.take_append_drop, List.length_append, List.length_singleton]

/-- The length of the stack after a pop at an offset inside it. -/
theorem take_length_of_slice {α : Type} (s table : List α) (lo : Int)
    (h : sliceFrom s lo = some table) : ((s.take lo.toNat).length : Int) = lo := by
  obtain ⟨h0, h1, _, _⟩ := sliceFrom_in_range _ _ _ h
  rw [List.length_take]
  omega

/-- A successful write keeps the invariant of the stacks. -/
theorem stacksInv_step (c : Codec) (happ : c.Appends) (e e' : Encoder) (call : Call)
    (hinv : e.StacksInv) (h : Step c e e' call) : e'.StacksInv := by
  obtain ⟨hs, hl, hm, h0⟩ := hinv
  cases h with
  | primitive _ hprim hdata hfail hfail2 he =>
    subst he
    have hlen := extends_length _ _ (encodePrimitive_extends c happ e.buf call)
    exact ⟨ndb_mono _ _ _ hs hlen, hl, hm, h0⟩
  | begin_ _ o hcall hstart hlist hmessage he =>
    subst he
    refine ⟨?_, ?_, ?_, ?_⟩
    · show NonDecreasingBelow _ ((e.objects.stack ++ [o]).map _)
      rw [List.map_append]
      exact ndb_push _ _ _ _ hs (le_of_eq hstart.symm) (le_of_eq hstart)
    · show NonDecreasingBelow _ (tableStarts _ (e.objects.stack ++ [o]))
      by_cases hk : o.type_ = objectTypeList
      · rw [tableStarts_append_same _ _ _ hk]
        exact ndb_push _ _ _ _ hl (le_of_eq (hlist hk).symm) (le_of_eq (hlist hk))
      · rw [tableStarts_append_other _ _ _ hk]; exact hl
    · show NonDecreasingBelow _ (tableStarts _ (e.objects.stack ++ [o]))
      by_cases hk : o.type_ = objectTypeMessage
      · rw [tableStarts_append_same _ _ _ hk]
        exact ndb_push _ _ _ _ hm (le_of_eq (hmessage hk).symm) (le_of_eq (hmessage hk))
      · rw [tableStarts_append_other _ _ _ hk]; exact hm
    · intro x hx
      rcases List.mem_append.1 hx with hx | hx
      · exact h0 x hx
      · rw [List.mem_singleton] at hx
        subst hx
        rw [hstart]
        exact Int.ofNat_zero_le _
  | element o below hstack hkind he =>
    subst he
    refine ⟨hs, ndb_mono _ _ _ hl ?_, hm, h0⟩
    show (e.elements.stack.length : Int) ≤ ((e.elements.stack ++ [_]).length : Int)
    rw [List.length_append]; push_cast; omega
  | structField o below hstack hkind he =>
    subst he
    exact ⟨hs, hl, hm, h0⟩
  | field tag o below fields hstack hkind hinsert he =>
    subst he
    refine ⟨hs, hl, ndb_mono _ _ _ hm ?_, h0⟩
    show (e.fields.stack.length : Int) ≤ (fields.stack.length : Int)
    rw [insert_length _ _ _ _ hinsert]; push_cast; omega
  | endList o below table hstack hkind htable hdata henc he =>
    subst he
    have hlen := extends_length _ _
      (happ.encodeListMeta e.buf ((e.buf.length : Int) - o.start) table)
    rw [hstack, List.map_append] at hs
    rw [hstack, tableStarts_append_same _ _ _ hkind] at hl
    rw [hstack, tableStarts_append_other _ _ _ (by rw [hkind]; decide)] at hm
    obtain ⟨hs1, hs2⟩ := ndb_pop _ _ _ hs
    obtain ⟨hl1, _⟩ := ndb_pop _ _ _ hl
    refine ⟨ndb_mono _ _ _ hs1 (le_trans hs2 hlen), ?_, hm, ?_⟩
    · show NonDecreasingBelow ((e.elements.stack.take o.tableStart.toNat).length : Int) _
      rw [take_length_of_slice _ _ _ htable]
      exact hl1
    · intro x hx
      exact h0 x (by rw [hstack]; exact List.mem_append_left _ hx)
  | endMessage o below table hstack hkind htable hdata henc he =>
    subst he
    have hlen := extends_length _ _
      (happ.encodeMessageMeta e.buf ((e.buf.length : Int) - o.start) table)
    rw [hstack, List.map_append] at hs
    rw [hstack, tableStarts_append_other _ _ _ (by rw [hkind]; decide)] at hl
    rw [hstack, tableStarts_append_same _ _ _ hkind] at hm
    obtain ⟨hs1, hs2⟩ := ndb_pop _ _ _ hs
    obtain ⟨hm1, _⟩ := ndb_pop _ _ _ hm
    refine ⟨ndb_mono _ _ _ hs1 (le_trans hs2 hlen), hl, ?_, ?_⟩
    · show NonDecreasingBelow ((e.fields.stack.take o.tableStart.toNat).length : Int) _
      rw [take_length_of_slice _ _ _ htable]
      exact hm1
    · intro x hx
      exact h0 x (by rw [hstack]; exact List.mem_append_left _ hx)
  | endStruct o below hstack hkind hdata henc he =>
    subst he
    have hlen := extends_length _ _
      (happ.encodeStruct e.buf ((e.buf.length : Int) - o.start))
    rw [hstack, List.map_append] at hs
    rw [hstack, tableStarts_append_other _ _ _ (by rw [hkind]; decide)] at hl
    rw [hstack, tableStarts_append_other _ _ _ (by rw [hkind]; decide)] at hm
    obtain ⟨hs1, hs2⟩ := ndb_pop _ _ _ hs
    refine ⟨ndb_mono _ _ _ hs1 (le_trans hs2 hlen), hl, hm, ?_⟩
    intro x hx
    exact h0 x (by rw [hstack]; exact List.mem_append_left _ hx)

theorem newEncoder_stacksInv : newEncoder.StacksInv :=
  ⟨⟨List.Pairwise.nil, fun _ hx => absurd hx (List.not_mem_nil _)⟩,
   ⟨List.Pairwise.nil, fun _ hx => absurd hx (List.not_mem_nil _)⟩,
   ⟨List.Pairwise.nil, fun _ hx => absurd hx (List.not_mem_nil _)⟩,
   fun _ hx => absurd hx (List.not_mem_nil _)⟩

/-- C32: invariant of the writer state. In every state reached from a fresh
encoder by a sequence of public operations (the write calls, `End`, `Init`,
`Reset`) in which the stored error is nil, with primitive and metadata encoders
that only append to the buffer, the starts of the objects on the object stack,
bottom to top, do not decrease and are at most `len(buf)`; the `tableStart`
values of the list objects do not decrease and are at most the length of the
element stack; the `tableStart` values of the message objects do not decrease
and are at most the length of the field stack. -/
theorem C32_writer_state_invariant (c : Codec) (happ : c.Appends) (ops : List Op)
    (e : Encoder) (hrun : Encoder.runOps c newEncoder ops = some e) (herr : e.err = none) :
    NonDecreasingBelow (e.buf.length : Int) (e.objects.stack.map (fun o => o.start)) ∧
    NonDecreasingBelow (e.elements.stack.length : Int)
      (tableStarts objectTypeList e.objects.stack) ∧
    NonDecreasingBelow (e.fields.stack.length : Int)
      (tableStarts objectTypeMessage e.objects.stack) := by
  have h := runOps_invariant c Encoder.StacksInv newEncoder_stacksInv
    (fun e e' call _ hinv hstep => stacksInv_step c happ e e' call hinv hstep)
    ops newEncoder e (fun _ => newEncoder_stacksInv) hrun herr
  exact ⟨h.1, h.2.1, h.2.2.1⟩

/-- C32 at the state after `BeginList`, `Nil`, `Element`, `BeginMessage`, `Nil`:
the starts 0, 1 are at most `len(buf) = 2`, the list table starts at 0 in an
element stack of length 1 and the message table at 0 in an empty field stack. -/
theorem C32_writer_state_invariant_witness :
    NonDecreasingBelow (nestedOpenState.buf.length : Int)
      (nestedOpenState.objects.stack.map (fun o => o.start)) ∧
    NonDecreasingBelow (nestedOpenState.elements.stack.length : Int)
      (tableStarts objectTypeList nestedOpenState.objects.stack) ∧
    NonDecreasingBelow (nestedOpenState.fields.stack.length : Int)
      (tableStarts objectTypeMessage nestedOpenState.objects.stack) :=
  C32_writer_state_invariant sampleCodec sampleCodec_appends
    [Op.write Call.beginList, Op.write Call.nil, Op.write Call.element,
      Op.write Call.beginMessage, Op.write Call.nil]
    nestedOpenState (by decide) rfl

theorem evaluation_61 :
    Encoder.runOps sampleCodec newEncoder
      [Op.write Call.beginList, Op.write Call.nil, Op.finish, Op.write Call.element,
        Op.write Call.endList, Op.finish, Op.write Call.nil]
      = some ⟨[0], none, ⟨0, 1⟩, ⟨[]⟩, ⟨[]⟩, ⟨[]⟩⟩ := by decide

theorem evaluation_62 :
    Encoder.runOps sampleCodec newEncoder
      [Op.write Call.element, Op.write Call.nil, Op.init [1, 2, 3], Op.write Call.beginStruct]
      = some ⟨[], none, ⟨0, 0⟩, ⟨[⟨objectTypeStruct, 0, 0⟩]⟩, ⟨[]⟩, ⟨[]⟩⟩ := by decide

/-! ## Theorems: the data cursor -/

theorem revVaruint_length_positive (fuel n : Nat) : 0 < (revVaruint fuel n).length := by
  cases fuel with
  | zero => simp [revVaruint]
  | succ k =>
    unfold revVaruint
    by_cases h : n < 128
    · simp [h]
    · simp [h]

/-- The codec instance that follows the wire grammar appends at least one byte. -/
theorem sampleCodec_grows : sampleCodec.Grows := by
  constructor
  case EncodeBytes =>
    intro buf v h
    unfold sampleCodec sampleBytes at h ⊢
    by_cases hv : v.length > 2 ^ 32 - 1
    · simp only [if_pos hv] at h; cases h
    · simp only [if_neg hv, List.length_append, List.length_singleton]; omega
  case EncodeString =>
    intro buf v h
    unfold sampleCodec sampleBytes at h ⊢
    by_cases hv : v.length > 2 ^ 32 - 1
    · simp only [if_pos hv] at h; cases h
    · simp only [if_neg hv, List.length_append, List.length_singleton]; omega
  all_goals
    intros
    simp only [sampleCodec, List.length_append, List.length_singleton, List.length_cons]
    omega

/-- The output of a primitive encoder that reports no error is longer than the
buffer, when the encoders append at least one byte. -/
theorem encodePrimitive_grows (c : Codec) (hgrow : c.Grows) (buf : List Nat) (call : Call)
    (hprim : call.isPrimitive = true)
    (hfail : ∀ v, call = Call.bytes v → (c.EncodeBytes buf v).2 = none)
    (hfail2 : ∀ v, call = Call.string v → (c.EncodeString buf v).2 = none) :
    buf.length < (c.encodePrimitive buf call).length := by
  cases call
  case nil => exact hgrow.EncodeNil _
  case bool v => exact hgrow.EncodeBool _ v
  case byte v => exact hgrow.EncodeByte _ v
  case int32 v => exact hgrow.EncodeInt32 _ v
  case int64 v => exact hgrow.EncodeInt64 _ v
  case uint32 v => exact hgrow.EncodeUint32 _ v
  case uint64 v => exact hgrow.EncodeUint64 _ v
  case u128 v => exact hgrow.EncodeU128 _ v
  case u256 v => exact hgrow.EncodeU256 _ v
  case float32 v => exact hgrow.EncodeFloat32 _ v
  case float64 v => exact hgrow.EncodeFloat64 _ v
  case bytes v => exact hgrow.EncodeBytes _ v (hfail v rfl)
  case string v => exact hgrow.EncodeString _ v (hfail2 v rfl)
  all_goals simp [Call.isPrimitive] at hprim

/-- The cursor after a call that completes a value, on a state that satisfies
the invariant of the stacks: a non-empty range that ends at the end of the
buffer. -/
theorem completed_cursor (c : Codec) (hgrow : c.Grows) (e e' : Encoder)
    (call : Call) (hinv : e.StacksInv) (h : Step c e e' call)
    (hcall : call.completesValue = true) :
    0 ≤ e'.data.start ∧ e'.data.start < e'.data.end_ ∧
    e'.data.end_ = (e'.buf.length : Int) := by
  obtain ⟨hs, _, _, h0⟩ := hinv
  have htop : ∀ (o : objectEntry) (below : List objectEntry),
      e.objects.stack = below ++ [o] → 0 ≤ o.start ∧ o.start ≤ (e.buf.length : Int) := by
    intro o below hstack
    have hmem : o ∈ e.objects.stack := by
      rw [hstack]; exact List.mem_append_right _ (List.mem_singleton_self o)
    exact ⟨h0 o hmem, hs.2 o.start (List.mem_map.2 ⟨o, hmem, rfl⟩)⟩
  cases h with
  | primitive _ hprim hdata hfail hfail2 he =>
    subst he
    have := encodePrimitive_grows c hgrow e.buf call hprim hfail hfail2
    refine ⟨Int.ofNat_zero_le _, ?_, rfl⟩
    show (e.buf.length : Int) < ((c.encodePrimitive e.buf call).length : Int)
    omega
  | begin_ _ o hc hstart hlist hmessage he =>
    rcases hc with ⟨hc, _⟩ | ⟨hc, _⟩ | ⟨hc, _⟩ <;> rw [hc] at hcall <;> cases hcall
  | element o below hstack hkind he => cases hcall
  | structField o below hstack hkind he => cases hcall
  | field tag o below fields hstack hkind hinsert he => cases hcall
  | endList o below table hstack hkind htable hdata henc he =>
    subst he
    obtain ⟨h1, h2⟩ := htop o below hstack
    have := hgrow.encodeListMeta _ _ _ henc
    refine ⟨h1, ?_, rfl⟩
    show o.start < ((c.encodeListMeta e.buf ((e.buf.length : Int) - o.start) table).1.length : Int)
    omega
  | endMessage o below table hstack hkind htable hdata henc he =>
    subst he
    obtain ⟨h1, h2⟩ := htop o below hstack
    have := hgrow.encodeMessageMeta _ _ _ henc
    refine ⟨h1, ?_, rfl⟩
    show o.start
      < ((c.encodeMessageMeta e.buf ((e.buf.length : Int) - o.start) table).1.length : Int)
    omega
  | endStruct o below hstack hkind hdata henc he =>
    subst he
    obtain ⟨h1, h2⟩ := htop o below hstack
    have := hgrow.encodeStruct _ _ henc
    refine ⟨h1, ?_, rfl⟩
    show o.start < ((c.encodeStruct e.buf ((e.buf.length : Int) - o.start)).1.length : Int)
    omega

/-- A successful write keeps the invariant of the cursor, on a state that
satisfies the invariant of the stacks. -/
theorem cursorInv_step (c : Codec) (hgrow : c.Grows) (e e' : Encoder) (call : Call)
    (hinv : e.StacksInv) (hcur : e.CursorInv) (h : Step c e e' call) : e'.CursorInv := by
  by_cases hcall : call.completesValue = true
  · exact Or.inr (completed_cursor c hgrow e e' call hinv h hcall)
  · cases h with
    | primitive _ hprim hdata hfail hfail2 he =>
      exfalso
      apply hcall
      cases call <;> first | rfl | (simp [Call.isPrimitive] at hprim)
    | begin_ _ o hc hstart hlist hmessage he =>
      subst he
      exact hcur
    | element o below hstack hkind he => subst he; exact Or.inl rfl
    | structField o below hstack hkind he => subst he; exact Or.inl rfl
    | field tag o below fields hstack hkind hinsert he => subst he; exact Or.inl rfl
    | endList o below table hstack hkind htable hdata henc he => exact absurd rfl hcall
    | endMessage o below table hstack hkind htable hdata henc he => exact absurd rfl hcall
    | endStruct o below hstack hkind hdata henc he => exact absurd rfl hcall

/-- What `setData` answers: the error exactly when the cursor is not `(0, 0)`,
and then the cursor is kept. -/
theorem setData_rejects_iff (e : Encoder) (start end_ : Int) :
    ((e.setData start end_).2 ≠ none ↔ e.data ≠ ⟨0, 0⟩) ∧
    ((e.setData start end_).2 = none → (e.setData start end_).1.data = ⟨start, end_⟩) := by
  unfold Encoder.setData
  by_cases hd : e.data.start ≠ 0 ∨ e.data.end_ ≠ 0
  · rw [if_pos hd]
    refine ⟨⟨fun _ hz => ?_, fun _ => by simp⟩, fun h => by simp at h⟩
    rw [hz] at hd
    simp at hd
  · rw [if_neg hd]
    refine ⟨⟨fun h => absurd rfl h, fun hne => absurd ?_ hne⟩, fun _ => rfl⟩
    have h1 : e.data.start = 0 := by
      by_contra hc; exact hd (Or.inl hc)
    have h2 : e.data.end_ = 0 := by
      by_contra hc; exact hd (Or.inr hc)
    cases hdata : e.data with
    | mk a b =>
      rw [hdata] at h1 h2
      simp only at h1 h2
      rw [h1, h2]

/-- C33: the `(0, 0)` sentinel encodes "no outstanding value". In every state
reached from a fresh encoder by public operations in which the stored error is
nil, with primitive and metadata encoders that append at least one byte, the
data cursor is `(0, 0)` or satisfies `0 <= start < end = len(buf)`; `setData`
returns its error exactly when the cursor is not `(0, 0)`; and every call that
completes a value (a primitive write or an `End*` of a composite) and returns
nil leaves a cursor with `0 <= start < end = len(buf)`, which is not `(0, 0)`. -/
theorem C33_cursor_sentinel (c : Codec) (happ : c.Appends) (hgrow : c.Grows)
    (ops : List Op) (e : Encoder)
    (hrun : Encoder.runOps c newEncoder ops = some e) (herr : e.err = none) :
    (e.data = ⟨0, 0⟩ ∨
      (0 ≤ e.data.start ∧ e.data.start < e.data.end_ ∧
        e.data.end_ = (e.buf.length : Int))) ∧
    (∀ start end_ : Int, (e.setData start end_).2 ≠ none ↔ e.data ≠ ⟨0, 0⟩) ∧
    (∀ (call : Call) (e' : Encoder), call.completesValue = true →
      e.call c call = some (e', none) →
      e'.data ≠ ⟨0, 0⟩ ∧ 0 ≤ e'.data.start ∧ e'.data.start < e'.data.end_ ∧
        e'.data.end_ = (e'.buf.length : Int)) := by
  have h := runOps_invariant c (fun x => x.StacksInv ∧ x.CursorInv)
    ⟨newEncoder_stacksInv, Or.inl rfl⟩
    (fun x x' call _ hinv hstep =>
      ⟨stacksInv_step c happ x x' call hinv.1 hstep,
        cursorInv_step c hgrow x x' call hinv.1 hinv.2 hstep⟩)
    ops newEncoder e (fun _ => ⟨newEncoder_stacksInv, Or.inl rfl⟩) hrun herr
  refine ⟨h.2, fun start end_ => (setData_rejects_iff e start end_).1, ?_⟩
  intro call e' hcall hc
  have hcur := completed_cursor c hgrow e e' call h.1 (call_ok_step c e e' call herr hc) hcall
  refine ⟨?_, hcur⟩
  intro hz
  rw [hz] at hcur
  exact absurd hcur.2.1 (lt_irrefl _)

/-- C33 at the state after `BeginList`, `Nil`, `Element`, `BeginMessage`, `Nil`:
the cursor `(1, 2)` ends at `len(buf) = 2`, `setData` rejects a further value,
and the state after `BeginList`, `Nil`, `Element` accepts `EndList`, which
leaves the cursor `(0, 8)`. -/
theorem C33_cursor_sentinel_witness :
    (nestedOpenState.data = ⟨0, 0⟩ ∨
      (0 ≤ nestedOpenState.data.start ∧
        nestedOpenState.data.start < nestedOpenState.data.end_ ∧
        nestedOpenState.data.end_ = (nestedOpenState.buf.length : Int))) ∧
    (∀ start end_ : Int,
      (nestedOpenState.setData start end_).2 ≠ none ↔ nestedOpenState.data ≠ ⟨0, 0⟩) ∧
    (listClosedState.data ≠ ⟨0, 0⟩ ∧ 0 ≤ listClosedState.data.start ∧
      listClosedState.data.start < listClosedState.data.end_ ∧
      listClosedState.data.end_ = (listClosedState.buf.length : Int)) :=
  ⟨(C33_cursor_sentinel sampleCodec sampleCodec_appends sampleCodec_grows
      [Op.write Call.beginList, Op.write Call.nil, Op.write Call.element,
        Op.write Call.beginMessage, Op.write Call.nil]
      nestedOpenState (by decide) rfl).1,
   (C33_cursor_sentinel sampleCodec sampleCodec_appends sampleCodec_grows
      [Op.write Call.beginList, Op.write Call.nil, Op.write Call.element,
        Op.write Call.beginMessage, Op.write Call.nil]
      nestedOpenState (by decide) rfl).2.1,
   (C33_cursor_sentinel sampleCodec sampleCodec_appends sampleCodec_grows
      [Op.write Call.beginList, Op.write Call.nil, Op.write Call.element]
      listElementState (by decide) rfl).2.2 Call.endList listClosedState rfl (by decide)⟩

/-! ## Theorems: composite writes leave the stacks as they were -/

theorem extends_trans (a b d : List Nat) (h1 : Extends a b) (h2 : Extends b d) :
    Extends a d := by
  obtain ⟨s1, rfl⟩ := h1
  obtain ⟨s2, rfl⟩ := h2
  exact ⟨s1 ++ s2, List.append_assoc _ _ _⟩

/-- The lengths of a chain are at least the lengths it starts from. -/
theorem chain_le (ne nf : Int) :
    ∀ (objs : List objectEntry) (le lf : Int), Chain ne nf objs le lf → ne ≤ le ∧ nf ≤ lf := by
  intro objs
  induction objs with
  | nil =>
    intro le lf h
    exact ⟨le_of_eq h.1, le_of_eq h.2⟩
  | cons o below ih =>
    intro le lf h
    rcases h with ⟨_, h1, h2⟩ | ⟨_, h1, h2⟩ | ⟨_, h2⟩
    · obtain ⟨h3, h4⟩ := ih _ _ h2
      exact ⟨le_trans h3 h1, h4⟩
    · obtain ⟨h3, h4⟩ := ih _ _ h2
      exact ⟨h3, le_trans h4 h1⟩
    · exact ih _ _ h2

/-- The top object of a state inside a composite is the head of `above`. -/
theorem inside_top (base above below : List objectEntry) (o : objectEntry)
    (hne : above ≠ [])
    (h : base ++ above.reverse = below ++ [o]) :
    ∃ rest : List objectEntry, above = o :: rest ∧ below = base ++ rest.reverse := by
  cases above with
  | nil => exact absurd rfl hne
  | cons a rest =>
    rw [List.reverse_cons, ← List.append_assoc] at h
    obtain ⟨h1, h2⟩ := List.append_inj' h rfl
    have ha : a = o := by
      have := List.cons.inj h2
      exact this.1
    exact ⟨rest, by rw [ha], h1.symm⟩

theorem getLast_ne_nil {α : Type} (l : List α) (a : α) (h : l.getLast? = some a) : l ≠ [] := by
  intro hl
  rw [hl] at h
  cases h

theorem getLast_tail {α : Type} (a b : α) (rest : List α) (hne : rest ≠ [])
    (h : (a :: rest).getLast? = some b) : rest.getLast? = some b := by
  cases rest with
  | nil => exact absurd rfl hne
  | cons x xs =>
    rw [List.getLast?_cons_cons] at h
    exact h

theorem take_push {α : Type} (stack : List α) (x : α) (n : Nat) (base : List α)
    (hn : (n : Int) ≤ (stack.length : Int)) (h : stack.take n = base) :
    (stack ++ [x]).take n = base := by
  rw [List.take_append_of_le_length (by omega)]
  exact h

theorem take_pop {α : Type} (stack : List α) (t : Int) (n : Nat) (base : List α)
    (hn : (n : Int) ≤ t) (h : stack.take n = base) :
    (stack.take t.toNat).take n = base := by
  rw [List.take_take, Nat.min_eq_left (by omega)]
  exact h

/-- The field stack after an insertion at an offset inside the stack. -/
theorem insert_inside (s s' : messageStack) (offset : Int) (f : messageField)
    (h0 : 0 ≤ offset) (h1 : offset ≤ (s.stack.length : Int))
    (h : s.insert offset f = some s') :
    ∃ table : List messageField, s'.stack = s.stack.take offset.toNat ++ table := by
  have hs : sliceFrom s.stack offset = some (s.stack.drop offset.toNat) := by
    unfold sliceFrom
    rw [if_pos ⟨h0, h1⟩]
  rw [(insert_in_range s offset f _ hs).1] at h
  have := Option.some.inj h
  exact ⟨_, by rw [← this]⟩

/-- A successful write that leaves the composite open keeps the state inside it. -/
theorem inside_step (c : Codec) (happ : c.Appends) (s e e' : Encoder) (o : objectEntry)
    (call : Call) (hin : Encoder.Inside s o e) (h : Step c e e' call)
    (hdepth : s.objects.stack.length < e'.objects.stack.length) :
    Encoder.Inside s o e' := by
  obtain ⟨herr, above, hobj, hlast, hchain, hel, hfl, hbuf⟩ := hin
  have hne : above ≠ [] := getLast_ne_nil _ _ hlast
  have hle := chain_le _ _ _ _ _ hchain
  cases h with
  | primitive _ hprim hdata hfail hfail2 he =>
    subst he
    exact ⟨herr, above, hobj, hlast, hchain, hel, hfl,
      extends_trans _ _ _ hbuf (encodePrimitive_extends c happ e.buf call)⟩
  | begin_ _ o1 hcall hstart hlist hmessage he =>
    subst he
    refine ⟨herr, o1 :: above, ?_, ?_, ?_, hel, hfl, hbuf⟩
    · show e.objects.stack ++ [o1] = _
      rw [List.reverse_cons, ← List.append_assoc, hobj]
    · cases above with
      | nil => exact absurd rfl hne
      | cons a rest => rw [List.getLast?_cons_cons]; exact hlast
    · rcases hcall with ⟨_, hk⟩ | ⟨_, hk⟩ | ⟨_, hk⟩
      · exact Or.inl ⟨hk, le_of_eq (hlist hk), by rw [hlist hk]; exact hchain⟩
      · exact Or.inr (Or.inl ⟨hk, le_of_eq (hmessage hk), by rw [hmessage hk]; exact hchain⟩)
      · exact Or.inr (Or.inr ⟨hk, hchain⟩)
  | element o1 below hstack hkind he =>
    subst he
    obtain ⟨rest, habove, _⟩ := inside_top _ _ _ _ hne (hobj.symm.trans hstack)
    refine ⟨herr, above, hobj, hlast, ?_, take_push _ _ _ _ hle.1 hel, hfl, hbuf⟩
    rw [habove] at hchain ⊢
    rcases hchain with ⟨hk, h1, h2⟩ | ⟨hk, _, _⟩ | ⟨hk, _⟩
    · refine Or.inl ⟨hk, ?_, h2⟩
      show o1.tableStart ≤ ((e.elements.stack ++ [_]).length : Int)
      rw [List.length_append, List.length_singleton]; push_cast; omega
    · rw [hkind] at hk; cases hk
    · rw [hkind] at hk; cases hk
  | structField o1 below hstack hkind he =>
    subst he
    exact ⟨herr, above, hobj, hlast, hchain, hel, hfl, hbuf⟩
  | field tag o1 below fields hstack hkind hinsert he =>
    subst he
    obtain ⟨rest, habove, _⟩ := inside_top _ _ _ _ hne (hobj.symm.trans hstack)
    rw [habove] at hchain
    rcases hchain with ⟨hk, _, _⟩ | ⟨hk, h1, h2⟩ | ⟨hk, _⟩
    · rw [hkind] at hk; cases hk
    · have hlow := (chain_le _ _ _ _ _ h2).2
      obtain ⟨table, htab⟩ := insert_inside e.fields fields o1.tableStart
        ⟨tag, ((e.data.end_ - o1.start) % 2 ^ 32).toNat⟩ (by omega) h1 hinsert
      have hlen := insert_length _ _ _ _ hinsert
      refine ⟨herr, above, hobj, hlast, ?_, hel, ?_, hbuf⟩
      · rw [habove]
        refine Or.inr (Or.inl ⟨hk, ?_, ?_⟩)
        · show o1.tableStart ≤ (fields.stack.length : Int)
          rw [hlen]; push_cast; omega
        · exact h2
      · show fields.stack.take _ = _
        rw [htab, List.take_append_of_le_length (by rw [List.length_take]; omega)]
        exact take_pop _ _ _ _ hlow hfl
    · rw [hkind] at hk; cases hk
  | endList o1 below table hstack hkind htable hdata henc he =>
    subst he
    obtain ⟨rest, habove, hbelow⟩ := inside_top _ _ _ _ hne (hobj.symm.trans hstack)
    have hrest : rest ≠ [] := by
      intro hr
      rw [hr] at hbelow
      simp only [List.reverse_nil, List.append_nil] at hbelow
      have : s.objects.stack.length < below.length := hdepth
      rw [hbelow] at this
      exact absurd this (lt_irrefl _)
    rw [habove] at hchain hlast
    rcases hchain with ⟨hk, h1, h2⟩ | ⟨hk, _, _⟩ | ⟨hk, _⟩
    · have hlow := (chain_le _ _ _ _ _ h2).1
      refine ⟨herr, rest, hbelow, getLast_tail _ _ _ hrest hlast, ?_,
        take_pop _ _ _ _ hlow hel, hfl,
        extends_trans _ _ _ hbuf (happ.encodeListMeta _ _ _)⟩
      show Chain _ _ rest ((e.elements.stack.take o1.tableStart.toNat).length : Int) _
      rw [take_length_of_slice _ _ _ htable]
      exact h2
    · rw [hkind] at hk; cases hk
    · rw [hkind] at hk; cases hk
  | endMessage o1 below table hstack hkind htable hdata henc he =>
    subst he
    obtain ⟨rest, habove, hbelow⟩ := inside_top _ _ _ _ hne (hobj.symm.trans hstack)
    have hrest : rest ≠ [] := by
      intro hr
      rw [hr] at hbelow
      simp only [List.reverse_nil, List.append_nil] at hbelow
      have : s.objects.stack.length < below.length := hdepth
      rw [hbelow] at this
      exact absurd this (lt_irrefl _)
    rw [habove] at hchain hlast
    rcases hchain with ⟨hk, _, _⟩ | ⟨hk, h1, h2⟩ | ⟨hk, _⟩
    · rw [hkind] at hk; cases hk
    · have hlow := (chain_le _ _ _ _ _ h2).2
      refine ⟨herr, rest, hbelow, getLast_tail _ _ _ hrest hlast, ?_, hel,
        take_pop _ _ _ _ hlow hfl,
        extends_trans _ _ _ hbuf (happ.encodeMessageMeta _ _ _)⟩
      show Chain _ _ rest _ ((e.fields.stack.take o1.tableStart.toNat).length : Int)
      rw [take_length_of_slice _ _ _ htable]
      exact h2
    · rw [hkind] at hk; cases hk
  | endStruct o1 below hstack hkind hdata henc he =>
    subst he
    obtain ⟨rest, habove, hbelow⟩ := inside_top _ _ _ _ hne (hobj.symm.trans hstack)
    have hrest : rest ≠ [] := by
      intro hr
      rw [hr] at hbelow
      simp only [List.reverse_nil, List.append_nil] at hbelow
      have : s.objects.stack.length < below.length := hdepth
      rw [hbelow] at this
      exact absurd this (lt_irrefl _)
    rw [habove] at hchain hlast
    rcases hchain with ⟨hk, _, _⟩ | ⟨hk, _, _⟩ | ⟨hk, h2⟩
    · rw [hkind] at hk; cases hk
    · rw [hkind] at hk; cases hk
    · exact ⟨herr, rest, hbelow, getLast_tail _ _ _ hrest hlast, h2, hel, hfl,
        extends_trans _ _ _ hbuf (happ.encodeStruct _ _)⟩

/-- A run that keeps the composite open keeps the state inside it. -/
theorem runAbove_inside (c : Codec) (happ : c.Appends) (s : Encoder) (o : objectEntry) :
    ∀ (calls : List Call) (e e' : Encoder), Encoder.Inside s o e →
      Encoder.runAbove c s.objects.stack.length e calls = some e' →
      Encoder.Inside s o e' := by
  intro calls
  induction calls with
  | nil =>
    intro e e' hin h
    have := Option.some.inj h
    subst this
    exact hin
  | cons call calls ih =>
    intro e e' hin h
    rw [Encoder.runAbove] at h
    cases hres : e.call c call with
    | none => rw [hres] at h; exact Option.noConfusion h
    | some r =>
      obtain ⟨e1, r1⟩ := r
      cases r1 with
      | some err => rw [hres] at h; exact Option.noConfusion h
      | none =>
        rw [hres] at h
        simp only at h
        by_cases hd : s.objects.stack.length < e1.objects.stack.length
        · rw [if_pos hd] at h
          exact ih e1 e' (inside_step c happ s e e1 o call hin
            (call_ok_step c e e1 call hin.1 hres) hd) h
        · rw [if_neg hd] at h
          exact Option.noConfusion h

theorem listStack_eq (a b : listStack) (h : a.stack = b.stack) : a = b := by
  cases a; cases b; simp only at h; rw [h]

theorem messageStack_eq (a b : messageStack) (h : a.stack = b.stack) : a = b := by
  cases a; cases b; simp only at h; rw [h]

theorem objectStack_eq (a b : objectStack) (h : a.stack = b.stack) : a = b := by
  cases a; cases b; simp only at h; rw [h]

/-- The state right after a `Begin*` lies inside the composite it opened. -/
theorem inside_begin (c : Codec) (s s1 : Encoder) (call : Call) (herr : s.err = none)
    (hb : call = Call.beginList ∨ call = Call.beginMessage ∨ call = Call.beginStruct)
    (h : s.call c call = some (s1, none)) :
    ∃ o : objectEntry, Encoder.Inside s o s1 ∧ o.start = (s.buf.length : Int) ∧
      ((call = Call.beginList ∧ o.type_ = objectTypeList) ∨
        (call = Call.beginMessage ∧ o.type_ = objectTypeMessage) ∨
        (call = Call.beginStruct ∧ o.type_ = objectTypeStruct)) := by
  have hstep := call_ok_step c s s1 call herr h
  cases hstep with
  | begin_ _ o hcall hstart hlist hmessage he =>
    subst he
    refine ⟨o, ⟨herr, [o], rfl, rfl, ?_, List.take_length _, List.take_length _,
      extends_refl _⟩, hstart, hcall⟩
    rcases hcall with ⟨_, hk⟩ | ⟨_, hk⟩ | ⟨_, hk⟩
    · exact Or.inl ⟨hk, le_of_eq (hlist hk), (hlist hk).symm, rfl⟩
    · exact Or.inr (Or.inl ⟨hk, le_of_eq (hmessage hk), rfl, (hmessage hk).symm⟩)
    · exact Or.inr (Or.inr ⟨hk, rfl, rfl⟩)
  | primitive _ hprim _ _ _ _ =>
    rcases hb with hb | hb | hb <;> rw [hb] at hprim <;> cases hprim
  | element _ _ _ _ _ => rcases hb with hb | hb | hb <;> cases hb
  | structField _ _ _ _ _ => rcases hb with hb | hb | hb <;> cases hb
  | field _ _ _ _ _ _ _ _ => rcases hb with hb | hb | hb <;> cases hb
  | endList _ _ _ _ _ _ _ _ _ => rcases hb with hb | hb | hb <;> cases hb
  | endMessage _ _ _ _ _ _ _ _ _ => rcases hb with hb | hb | hb <;> cases hb
  | endStruct _ _ _ _ _ _ _ => rcases hb with hb | hb | hb <;> cases hb

/-- The call that closes the composite `o` opened in the state `s`: it is the
`End*` of the kind of `o`, and it restores the three stacks of `s`. -/
theorem inside_close (c : Codec) (happ : c.Appends) (s e e' : Encoder) (o : objectEntry)
    (call : Call) (hin : Encoder.Inside s o e) (h : Step c e e' call)
    (hdepth : e'.objects.stack.length = s.objects.stack.length) :
    ((call = Call.endList ∧ o.type_ = objectTypeList) ∨
      (call = Call.endMessage ∧ o.type_ = objectTypeMessage) ∨
      (call = Call.endStruct ∧ o.type_ = objectTypeStruct)) ∧
    e'.objects = s.objects ∧ e'.elements = s.elements ∧ e'.fields = s.fields ∧
    Extends s.buf e'.buf ∧ e'.data = ⟨o.start, (e'.buf.length : Int)⟩ := by
  obtain ⟨herr, above, hobj, hlast, hchain, hel, hfl, hbuf⟩ := hin
  have hne : above ≠ [] := getLast_ne_nil _ _ hlast
  have hdeep : s.objects.stack.length < e.objects.stack.length := by
    rw [hobj, List.length_append, List.length_reverse]
    have : 0 < above.length := List.length_pos.2 hne
    omega
  have hclosed : ∀ (o1 : objectEntry) (below : List objectEntry),
      e.objects.stack = below ++ [o1] → below.length = s.objects.stack.length →
      above = [o] ∧ o1 = o ∧ below = s.objects.stack := by
    intro o1 below hstack hlen
    obtain ⟨rest, habove, hbelow⟩ := inside_top _ _ _ _ hne (hobj.symm.trans hstack)
    have hrest : rest = [] := by
      rw [hbelow, List.length_append, List.length_reverse] at hlen
      exact List.length_eq_zero.1 (by omega)
    subst hrest
    rw [habove] at hlast
    have ho : o1 = o := Option.some.inj hlast
    exact ⟨by rw [habove, ho], ho, by simpa using hbelow⟩
  cases h with
  | primitive _ hprim hdata hfail hfail2 he =>
    subst he
    exact absurd hdepth (ne_of_gt hdeep)
  | begin_ _ o1 hcall hstart hlist hmessage he =>
    subst he
    have : (e.objects.stack ++ [o1]).length = s.objects.stack.length := hdepth
    rw [List.length_append, List.length_singleton] at this
    omega
  | element o1 below hstack hkind he =>
    subst he
    exact absurd hdepth (ne_of_gt hdeep)
  | structField o1 below hstack hkind he =>
    subst he
    exact absurd hdepth (ne_of_gt hdeep)
  | field tag o1 below fields hstack hkind hinsert he =>
    subst he
    exact absurd hdepth (ne_of_gt hdeep)
  | endList o1 below table hstack hkind htable hdata henc he =>
    subst he
    obtain ⟨habove, ho, hbelow⟩ := hclosed o1 below hstack hdepth
    subst ho
    rw [habove] at hchain
    rcases hchain with ⟨hk, h1, h2, h3⟩ | ⟨hk, _, _⟩ | ⟨hk, _⟩
    · refine ⟨Or.inl ⟨rfl, hkind⟩, objectStack_eq _ _ hbelow, listStack_eq _ _ ?_,
        messageStack_eq _ _ ?_, extends_trans _ _ _ hbuf (happ.encodeListMeta _ _ _), rfl⟩
      · show e.elements.stack.take o1.tableStart.toNat = s.elements.stack
        rw [← h2, Int.toNat_ofNat]
        exact hel
      · show e.fields.stack = s.fields.stack
        have hlen : s.fields.stack.length = e.fields.stack.length := by exact_mod_cast h3
        rw [hlen, List.take_length] at hfl
        exact hfl
    · rw [hkind] at hk; cases hk
    · rw [hkind] at hk; cases hk
  | endMessage o1 below table hstack hkind htable hdata henc he =>
    subst he
    obtain ⟨habove, ho, hbelow⟩ := hclosed o1 below hstack hdepth
    subst ho
    rw [habove] at hchain
    rcases hchain with ⟨hk, _, _⟩ | ⟨hk, h1, h2, h3⟩ | ⟨hk, _⟩
    · rw [hkind] at hk; cases hk
    · refine ⟨Or.inr (Or.inl ⟨rfl, hkind⟩), objectStack_eq _ _ hbelow, listStack_eq _ _ ?_,
        messageStack_eq _ _ ?_, extends_trans _ _ _ hbuf (happ.encodeMessageMeta _ _ _), rfl⟩
      · show e.elements.stack = s.elements.stack
        have hlen : s.elements.stack.length = e.elements.stack.length := by exact_mod_cast h2
        rw [hlen, List.take_length] at hel
        exact hel
      · show e.fields.stack.take o1.tableStart.toNat = s.fields.stack
        rw [← h3, Int.toNat_ofNat]
        exact hfl
    · rw [hkind] at hk; cases hk
  | endStruct o1 below hstack hkind hdata henc he =>
    subst he
    obtain ⟨habove, ho, hbelow⟩ := hclosed o1 below hstack hdepth
    subst ho
    rw [habove] at hchain
    rcases hchain with ⟨hk, _, _⟩ | ⟨hk, _, _⟩ | ⟨hk, h2, h3⟩
    · rw [hkind] at hk; cases hk
    · rw [hkind] at hk; cases hk
    · refine ⟨Or.inr (Or.inr ⟨rfl, hkind⟩), objectStack_eq _ _ hbelow, listStack_eq _ _ ?_,
        messageStack_eq _ _ ?_, extends_trans _ _ _ hbuf (happ.encodeStruct _ _), rfl⟩
      · show e.elements.stack = s.elements.stack
        have hlen : s.elements.stack.length = e.elements.stack.length := by exact_mod_cast h2
        rw [hlen, List.take_length] at hel
        exact hel
      · show e.fields.stack = s.fields.stack
        have hlen : s.fields.stack.length = e.fields.stack.length := by exact_mod_cast h3
        rw [hlen, List.take_length] at hfl
        exact hfl

/-- C35: composite writes are stack-neutral. Let `BeginList`, `BeginMessage`
or `BeginStruct` be called in an unpoisoned state `S`, let the calls that
follow return nil and keep the object stack deeper than in `S`, and let the
next call return nil and bring the object stack back to its depth in `S` (it
pops the object that the `Begin*` pushed), giving the state `S'`. Then that
call is the `End*` of the same kind, `S'` has the object stack, the element
stack and the field stack of `S`, the buffer of `S` is a prefix of the buffer
of `S'`, and the data cursor of `S'` is `(len(buf of S), len(buf of S'))`.
The encoders are assumed to only append. -/
theorem C35_composite_stack_neutral (c : Codec) (happ : c.Appends)
    (S S1 S2 S' : Encoder) (opening closing : Call) (between : List Call)
    (herr : S.err = none)
    (hopening : opening = Call.beginList ∨ opening = Call.beginMessage ∨
      opening = Call.beginStruct)
    (hbegin : S.call c opening = some (S1, none))
    (hrun : Encoder.runAbove c S.objects.stack.length S1 between = some S2)
    (hclose : S2.call c closing = some (S', none))
    (hdepth : S'.objects.stack.length = S.objects.stack.length) :
    ((opening = Call.beginList ∧ closing = Call.endList) ∨
      (opening = Call.beginMessage ∧ closing = Call.endMessage) ∨
      (opening = Call.beginStruct ∧ closing = Call.endStruct)) ∧
    S'.objects = S.objects ∧ S'.elements = S.elements ∧ S'.fields = S.fields ∧
    Extends S.buf S'.buf ∧
    S'.data = ⟨(S.buf.length : Int), (S'.buf.length : Int)⟩ := by
  obtain ⟨o, hin1, hstart, hkind⟩ := inside_begin c S S1 opening herr hopening hbegin
  have hin2 := runAbove_inside c happ S o between S1 S2 hin1 hrun
  obtain ⟨hcall, hobj, hel, hfl, hbuf, hdata⟩ :=
    inside_close c happ S S2 S' o closing hin2 (call_ok_step c S2 S' closing hin2.1 hclose)
      hdepth
  refine ⟨?_, hobj, hel, hfl, hbuf, by rw [hdata, hstart]⟩
  rcases hkind with ⟨h1, k1⟩ | ⟨h1, k1⟩ | ⟨h1, k1⟩ <;>
    rcases hcall with ⟨h2, k2⟩ | ⟨h2, k2⟩ | ⟨h2, k2⟩ <;>
    first
      | exact Or.inl ⟨h1, h2⟩
      | exact Or.inr (Or.inl ⟨h1, h2⟩)
      | exact Or.inr (Or.inr ⟨h1, h2⟩)
      | (rw [k1] at k2; cases k2)

/-- C35 at the state after `BeginMessage`, `Bool(true)`, `Field(1)`: a list
with a nested struct is written there and closed by `EndList`; the stacks are
those of the starting state, the buffer `[1]` is a prefix of the new buffer and
the cursor is `(1, len(buf))`. -/
theorem C35_composite_stack_neutral_witness :
    Encoder.runErrorFree sampleCodec messageFieldState
      [Call.beginList, Call.nil, Call.element, Call.beginStruct, Call.nil,
        Call.structField, Call.endStruct, Call.element, Call.endList]
      = some listInMessageState ∧
    listInMessageState.objects = messageFieldState.objects ∧
    listInMessageState.elements = messageFieldState.elements ∧
    listInMessageState.fields = messageFieldState.fields ∧
    Extends messageFieldState.buf listInMessageState.buf ∧
    listInMessageState.data
      = ⟨(messageFieldState.buf.length : Int), (listInMessageState.buf.length : Int)⟩ :=
  ⟨by decide,
    (C35_composite_stack_neutral sampleCodec sampleCodec_appends messageFieldState
      ⟨[1], none, ⟨0, 0⟩,
        ⟨[⟨objectTypeMessage, 0, 0⟩, ⟨objectTypeList, 1, 0⟩]⟩, ⟨[]⟩, ⟨[⟨1, 1⟩]⟩⟩
      ⟨[1, 0, 0, 1, 48], none, ⟨0, 0⟩,
        ⟨[⟨objectTypeMessage, 0, 0⟩, ⟨objectTypeList, 1, 0⟩]⟩, ⟨[⟨1⟩, ⟨4⟩]⟩, ⟨[⟨1, 1⟩]⟩⟩
      listInMessageState Call.beginList Call.endList
      [Call.nil, Call.element, Call.beginStruct, Call.nil, Call.structField, Call.endStruct,
        Call.element]
      rfl (Or.inl rfl) (by decide) (by decide) (by decide) (by decide)).2⟩

theorem evaluation_63 :
    Encoder.runAbove sampleCodec 1
      ⟨[1], none, ⟨0, 0⟩,
        ⟨[⟨objectTypeMessage, 0, 0⟩, ⟨objectTypeList, 1, 0⟩]⟩, ⟨[]⟩, ⟨[⟨1, 1⟩]⟩⟩
      [Call.nil, Call.element, Call.endList, Call.nil] = none := by decide

/-! ## Theorems: element offsets of the open lists -/

/-- The tables of the open lists stay well formed when the buffer grows. -/
theorem listsOk_mono (n n' : Int) (hn : n ≤ n') :
    ∀ (objs : List objectEntry) (estack : List listElement),
      ListsOk n objs estack → ListsOk n' objs estack := by
  intro objs
  induction objs with
  | nil => intro estack _; trivial
  | cons o below ih =>
    intro estack h
    obtain ⟨h0, h1, h2⟩ := h
    refine ⟨h0, by omega, ?_⟩
    rcases h2 with ⟨hk, table, hs, hprop, hrest⟩ | ⟨hk, hrest⟩
    · refine Or.inl ⟨hk, table, hs, ?_, ih _ hrest⟩
      intro hsmall
      obtain ⟨hp, hb⟩ := hprop (by omega)
      exact ⟨hp, fun x hx => by have := hb x hx; omega⟩
    · exact Or.inr ⟨hk, ih _ hrest⟩

/-- The invariant after a pop of the top object. -/
theorem listsOk_pop (n : Int) (o : objectEntry) (below : List objectEntry)
    (estack : List listElement) (h : ListsOk n (o :: below) estack) :
    (o.type_ = objectTypeList → ListsOk n below (estack.take o.tableStart.toNat)) ∧
    (o.type_ ≠ objectTypeList → ListsOk n below estack) := by
  obtain ⟨_, _, h2⟩ := h
  rcases h2 with ⟨hk, _, _, _, hrest⟩ | ⟨hk, hrest⟩
  · exact ⟨fun _ => hrest, fun hne => absurd hk hne⟩
  · exact ⟨fun hk2 => absurd hk2 hk, fun _ => hrest⟩

/-- A successful write call keeps the invariant, provided an `Element` call is
made while a value is outstanding. -/
theorem listsInv_step (c : Codec) (happ : c.Appends) (e e' : Encoder) (call : Call)
    (hinv : e.ListsInv) (h : Step c e e' call)
    (hout : call = Call.element → e.data ≠ ⟨0, 0⟩) : e'.ListsInv := by
  obtain ⟨herr, hdata, hok⟩ := hinv
  cases h with
  | primitive _ hprim hd hfail hfail2 he =>
    subst he
    have hlen := extends_length _ _ (encodePrimitive_extends c happ e.buf call)
    exact ⟨herr, Or.inr rfl, listsOk_mono _ _ hlen _ _ hok⟩
  | begin_ _ o hcall hstart hlist hmessage he =>
    subst he
    refine ⟨herr, hdata, ?_⟩
    show ListsOk _ (e.objects.stack ++ [o]).reverse _
    rw [List.reverse_append, List.reverse_singleton, List.singleton_append]
    refine ⟨by rw [hstart]; exact Int.ofNat_zero_le _, le_of_eq hstart, ?_⟩
    by_cases hk : o.type_ = objectTypeList
    · refine Or.inl ⟨hk, [], ?_, fun _ => ⟨List.Pairwise.nil,
        fun x hx => absurd hx (List.not_mem_nil x)⟩, ?_⟩
      · have := sliceFrom_length_append e.elements.stack []
        rw [List.append_nil] at this
        rw [hlist hk]; exact this
      · rw [hlist hk, Int.toNat_ofNat, List.take_length]
        exact hok
    · exact Or.inr ⟨hk, hok⟩
  | element o below hstack hkind he =>
    subst he
    have hne := hout rfl
    have hend : e.data.end_ = (e.buf.length : Int) := by
      rcases hdata with hz | hz
      · exact absurd hz hne
      · exact hz
    rw [hstack, List.reverse_append, List.reverse_singleton, List.singleton_append] at hok
    obtain ⟨h0, h1, h2⟩ := hok
    refine ⟨herr, Or.inl rfl, ?_⟩
    show ListsOk _ e.objects.stack.reverse (e.elements.stack ++ [_])
    rw [hstack, List.reverse_append, List.reverse_singleton, List.singleton_append]
    refine ⟨h0, h1, ?_⟩
    rcases h2 with ⟨hk, table, hs, hprop, hrest⟩ | ⟨hk, _⟩
    · obtain ⟨hr0, hr1, htab, _⟩ := sliceFrom_in_range _ _ _ hs
      have hn : o.tableStart.toNat ≤ e.elements.stack.length := by omega
      refine Or.inl ⟨hk, table ++ [⟨((e.data.end_ - o.start) % 2 ^ 32).toNat⟩], ?_, ?_, ?_⟩
      · unfold sliceFrom
        rw [if_pos ⟨hr0, by rw [List.length_append]; push_cast; omega⟩,
          List.drop_append_of_le_length hn, htab]
      · intro hsmall0
        have hsmall : (e.buf.length : Int) - o.start < 2 ^ 32 := hsmall0
        obtain ⟨hp, hb⟩ := hprop hsmall
        have hoff : (((e.data.end_ - o.start) % 2 ^ 32).toNat : Int)
            = (e.buf.length : Int) - o.start := by
          rw [hend]
          have hmod : ((e.buf.length : Int) - o.start) % 2 ^ 32
              = (e.buf.length : Int) - o.start :=
            Int.emod_eq_of_lt (by omega) hsmall
          rw [hmod]
          exact Int.toNat_of_nonneg (by omega)
        constructor
        · rw [List.pairwise_append]
          refine ⟨hp, List.pairwise_singleton _ _, ?_⟩
          intro a ha b hb'
          rw [List.mem_singleton] at hb'
          subst hb'
          have := hb a ha
          show a.offset ≤ ((e.data.end_ - o.start) % 2 ^ 32).toNat
          omega
        · intro x hx
          rcases List.mem_append.1 hx with hx | hx
          · exact hb x hx
          · rw [List.mem_singleton] at hx
            subst hx
            show (((e.data.end_ - o.start) % 2 ^ 32).toNat : Int)
              ≤ (e.buf.length : Int) - o.start
            omega
      · rw [List.take_append_of_le_length hn]
        exact hrest
    · exact absurd hkind hk
  | structField o below hstack hkind he =>
    subst he
    exact ⟨herr, Or.inl rfl, hok⟩
  | field tag o below fields hstack hkind hinsert he =>
    subst he
    exact ⟨herr, Or.inl rfl, hok⟩
  | endList o below table hstack hkind htable hd henc he =>
    subst he
    have hlen := extends_length _ _
      (happ.encodeListMeta e.buf ((e.buf.length : Int) - o.start) table)
    rw [hstack, List.reverse_append, List.reverse_singleton, List.singleton_append] at hok
    exact ⟨herr, Or.inr rfl, listsOk_mono _ _ hlen _ _ ((listsOk_pop _ _ _ _ hok).1 hkind)⟩
  | endMessage o below table hstack hkind htable hd henc he =>
    subst he
    have hlen := extends_length _ _
      (happ.encodeMessageMeta e.buf ((e.buf.length : Int) - o.start) table)
    rw [hstack, List.reverse_append, List.reverse_singleton, List.singleton_append] at hok
    exact ⟨herr, Or.inr rfl,
      listsOk_mono _ _ hlen _ _ ((listsOk_pop _ _ _ _ hok).2 (by rw [hkind]; decide))⟩
  | endStruct o below hstack hkind hd henc he =>
    subst he
    have hlen := extends_length _ _
      (happ.encodeStruct e.buf ((e.buf.length : Int) - o.start))
    rw [hstack, List.reverse_append, List.reverse_singleton, List.singleton_append] at hok
    exact ⟨herr, Or.inr rfl,
      listsOk_mono _ _ hlen _ _ ((listsOk_pop _ _ _ _ hok).2 (by rw [hkind]; decide))⟩

theorem newEncoder_listsInv : newEncoder.ListsInv :=
  ⟨rfl, Or.inl rfl, trivial⟩

/-- The invariant holds along every run in which each `Element` call is made
while a value is outstanding. -/
theorem runOutstanding_inv (c : Codec) (happ : c.Appends) :
    ∀ (calls : List Call) (e e' : Encoder), e.ListsInv →
      Encoder.runOutstanding c e calls = some e' → e'.ListsInv := by
  intro calls
  induction calls with
  | nil =>
    intro e e' hinv h
    have := Option.some.inj h
    subst this
    exact hinv
  | cons call calls ih =>
    intro e e' hinv h
    rw [Encoder.runOutstanding] at h
    by_cases hcond : elementOutstanding e call = true
    · rw [if_pos hcond] at h
      cases hres : e.call c call with
      | none => rw [hres] at h; exact Option.noConfusion h
      | some r =>
        obtain ⟨e1, r1⟩ := r
        cases r1 with
        | some err => rw [hres] at h; exact Option.noConfusion h
        | none =>
          rw [hres] at h
          refine ih e1 e' (listsInv_step c happ e e1 call hinv
            (call_ok_step c e e1 call hinv.1 hres) ?_) h
          intro hcall
          subst hcall
          simpa [elementOutstanding] using hcond
    · rw [if_neg hcond] at h
      exact Option.noConfusion h

theorem runOutstanding_cons (c : Codec) (e e' : Encoder) (call : Call) (calls : List Call)
    (hcond : elementOutstanding e call = true) (h : e.call c call = some (e', none)) :
    Encoder.runOutstanding c e (call :: calls) = Encoder.runOutstanding c e' calls := by
  simp only [Encoder.runOutstanding, hcond, if_true, h]

/-- The run `BeginList`, `Nil`, `Element`, `Bytes(v)`, `Element` for a bytes
value of at most `2^32 - 1` bytes. -/
theorem run_two_elements (v : List Nat) (hv : v.length ≤ 2 ^ 32 - 1) :
    Encoder.runOutstanding sampleCodec newEncoder
      [Call.beginList, Call.nil, Call.element, Call.bytes v, Call.element]
      = some (twoElementsState v) := by
  have h3 : Encoder.runOutstanding sampleCodec newEncoder
      [Call.beginList, Call.nil, Call.element, Call.bytes v, Call.element]
      = Encoder.runOutstanding sampleCodec listElementState [Call.bytes v, Call.element] := by
    rw [runOutstanding_cons sampleCodec newEncoder openListState Call.beginList _ rfl
        (by decide),
      runOutstanding_cons sampleCodec openListState listValueState Call.nil _ rfl (by decide),
      runOutstanding_cons sampleCodec listValueState listElementState Call.element _
        (by decide) (by decide)]
  have hvalid : (Prim.bytes v).valid = true := by
    simp only [Prim.valid, decide_eq_true_eq]; exact hv
  have h4 := prim_call (Prim.bytes v) hvalid [0] ⟨[⟨objectTypeList, 0, 0⟩]⟩ ⟨[⟨1⟩]⟩ ⟨[]⟩
  have h5 := element_call sampleCodec ([0] ++ (Prim.bytes v).ser)
    ⟨(([0] : List Nat).length : Int), (([0] ++ (Prim.bytes v).ser).length : Int)⟩ []
    0 0 [⟨1⟩] ⟨[]⟩
  rw [h3, runOutstanding_cons sampleCodec listElementState _ (Call.bytes v) _ rfl h4]
  refine (runOutstanding_cons sampleCodec _ _ Call.element _
    (by simp [elementOutstanding]) h5).trans ?_
  simp only [Encoder.runOutstanding, twoElementsState, Prim.ser, List.nil_append,
    List.length_append, List.length_singleton, List.length_nil, List.length_cons,
    List.append_nil, List.singleton_append, List.cons_append, sub_zero]
  congr 3
  simp only [List.cons.injEq, true_and, and_true, listElement.mk.injEq]
  omega

/-- The run `BeginList`, `Nil`, `Element`, `Bytes(v)`, `Element` for a value `v`
of `2^32 - 7` bytes: the buffer holds `2^32` bytes and the table is `[1, 0]`. -/
theorem two_elements_wrap (v : List Nat) (hlen : v.length = 4294967289) :
    Encoder.runOutstanding sampleCodec newEncoder
      [Call.beginList, Call.nil, Call.element, Call.bytes v, Call.element]
      = some (twoElementsState v) ∧
    (twoElementsState v).objects.peek = some ⟨objectTypeList, 0, 0⟩ ∧
    (twoElementsState v).buf.length = 2 ^ 32 ∧
    sliceFrom (twoElementsState v).elements.stack 0 = some [⟨1⟩, ⟨0⟩] := by
  have hvar : (revVaruint 9 4294967289).length = 5 := by decide
  refine ⟨run_two_elements _ (by rw [hlen]; decide), rfl, ?_, ?_⟩
  · simp only [twoElementsState, List.length_append, List.length_singleton, List.length_nil,
      hlen, hvar]
    norm_num
  · have hoff : (twoElementsState v).elements.stack = [⟨1⟩, ⟨0⟩] := by
      simp only [twoElementsState, hlen, hvar]
      norm_num
    rw [hoff]
    rfl

/-- The offsets that `Element` stores are truncated to 32 bits: after
`BeginList`, `Nil`, `Element`, `Bytes(v)`, `Element` with a value `v` of
`2^32 - 7` bytes (each `Element` called with a value outstanding, no call
returns an error) the buffer holds `2^32` bytes and the table of the open list
is `[1, 0]`: the second offset `uint32(2^32)` is 0, below the first. A list
metadata encoder that accepts a body of that size is handed this table. -/
theorem element_offsets_wrap :
    Encoder.runOutstanding sampleCodec newEncoder
      [Call.beginList, Call.nil, Call.element, Call.bytes (List.replicate (2 ^ 32 - 7) 0),
        Call.element]
      = some (twoElementsState (List.replicate (2 ^ 32 - 7) 0)) ∧
    (twoElementsState (List.replicate (2 ^ 32 - 7) 0)).objects.peek
      = some ⟨objectTypeList, 0, 0⟩ ∧
    (twoElementsState (List.replicate (2 ^ 32 - 7) 0)).buf.length = 2 ^ 32 ∧
    sliceFrom (twoElementsState (List.replicate (2 ^ 32 - 7) 0)).elements.stack 0
      = some [⟨1⟩, ⟨0⟩] ∧
    ¬ List.Pairwise elementLE [⟨1⟩, ⟨0⟩] :=
  ⟨(two_elements_wrap _ (by rw [List.length_replicate]; norm_num)).1,
   (two_elements_wrap _ (by rw [List.length_replicate]; norm_num)).2.1,
   (two_elements_wrap _ (by rw [List.length_replicate]; norm_num)).2.2.1,
   (two_elements_wrap _ (by rw [List.length_replicate]; norm_num)).2.2.2,
   by decide⟩

/-- The table of a list with a body shorter than `2^32` bytes: for every
error-free sequence of writer calls on a fresh encoder (with encoders that only
append) in which each `Element` call is made while a value is outstanding, when
a list `o` is on top of the object stack and its body `len(buf) - o.start` is
shorter than `2^32` bytes, the table `elements.stack[o.tableStart:]` has
non-decreasing offsets, each at most that body size; and an `EndList` that
returns nil there has passed this body size and this table to the list
metadata encoder. -/
theorem element_offsets_small_body (c : Codec) (happ : c.Appends) (calls : List Call) (e : Encoder)
    (o : objectEntry) (hrun : Encoder.runOutstanding c newEncoder calls = some e)
    (hp : e.objects.peek = some o) (hk : o.type_ = objectTypeList)
    (hsmall : (e.buf.length : Int) - o.start < 2 ^ 32) :
    ∃ table : List listElement,
      sliceFrom e.elements.stack o.tableStart = some table ∧
      table.Pairwise elementLE ∧
      (∀ x ∈ table, ((x.offset : Nat) : Int) ≤ (e.buf.length : Int) - o.start) ∧
      (∀ e' : Encoder, e.call c Call.endList = some (e', none) →
        e'.buf = (c.encodeListMeta e.buf ((e.buf.length : Int) - o.start) table).1) := by
  have hinv := runOutstanding_inv c happ calls newEncoder e newEncoder_listsInv hrun
  obtain ⟨herr, _, hok⟩ := hinv
  have hstack := stack_of_peek _ _ hp
  rw [hstack, List.reverse_append, List.reverse_singleton, List.singleton_append] at hok
  obtain ⟨_, _, h2⟩ := hok
  rcases h2 with ⟨_, table, hs, hprop, _⟩ | ⟨hne, _⟩
  · obtain ⟨hpair, hb⟩ := hprop hsmall
    refine ⟨table, hs, hpair, hb, ?_⟩
    intro e' hcall
    have hcall' : e.EndList c = some (e', none) := hcall
    rw [endList_unfold c e o herr hp hk, hs] at hcall'
    cases henc : (c.encodeListMeta e.buf ((e.buf.length : Int) - o.start) table).2 with
    | some err =>
      simp only [henc] at hcall'
      exact absurd (Option.some.inj hcall') (fail_ne_ok _ _ _)
    | none =>
      simp only [henc] at hcall'
      obtain ⟨_, he⟩ := setDataOrFail_ok _ _ _ _ (Option.some.inj hcall')
      rw [he]
  · exact absurd hk hne

/-- The run `BeginList`, `Nil`, `Element`, `Bytes([7])`, `Element`: the table
`[1, 4]` of the open list has non-decreasing offsets, each at most the body
size 4. -/
theorem element_offsets_small_body_sample :
    ∃ table : List listElement,
      sliceFrom (twoElementsState [7]).elements.stack 0 = some table ∧
      table.Pairwise elementLE ∧
      (∀ x ∈ table,
        ((x.offset : Nat) : Int) ≤ ((twoElementsState [7]).buf.length : Int) - 0) ∧
      (∀ e' : Encoder,
        (twoElementsState [7]).call sampleCodec Call.endList = some (e', none) →
        e'.buf = (sampleCodec.encodeListMeta (twoElementsState [7]).buf
          (((twoElementsState [7]).buf.length : Int) - 0) table).1) :=
  element_offsets_small_body sampleCodec sampleCodec_appends
    [Call.beginList, Call.nil, Call.element, Call.bytes [7], Call.element]
    (twoElementsState [7]) ⟨objectTypeList, 0, 0⟩ (by decide) rfl rfl (by decide)

theorem evaluation_64 :
    twoElementsState [7]
      = ⟨[0, 7, 1, 24], none, ⟨0, 0⟩, ⟨[⟨objectTypeList, 0, 0⟩]⟩, ⟨[⟨1⟩, ⟨4⟩]⟩, ⟨[]⟩⟩ := by
  decide

theorem evaluation_65 :
    Encoder.runOutstanding sampleCodec newEncoder
      [Call.beginList, Call.element] = none ∧
    Encoder.runErrorFree sampleCodec newEncoder [Call.beginList, Call.element]
      = some ⟨[], none, ⟨0, 0⟩, ⟨[⟨objectTypeList, 0, 0⟩]⟩, ⟨[⟨0⟩]⟩, ⟨[]⟩⟩ := by
  decide

/-- C28 as stated fails for a message in which a tag is written twice: the
calls `BeginMessage`, `Bool(true)`, `Field(1)`, `Bool(false)`, `Field(1)`,
`EndMessage` all return nil and `End` returns 11 bytes without an error; the
bytes parse as a message and are consumed in full; `Field(1)` of the decoded
view gives the bytes of the second value, so the first field written (`true`)
reads back as `false`. -/
theorem C28_round_trip_counterexample :
    duplicateTagMessage.calls
      = [Call.beginMessage, Call.bool true, Call.field 1, Call.bool false, Call.field 1,
          Call.endMessage] ∧
    Encoder.runErrorFree sampleCodec newEncoder duplicateTagMessage.calls
      = some ⟨[1, 2, 1, 0, 2, 1, 0, 1, 2, 6, 34], none, ⟨0, 11⟩, ⟨[]⟩, ⟨[]⟩, ⟨[]⟩⟩ ∧
    Encoder.End ⟨[1, 2, 1, 0, 2, 1, 0, 1, 2, 6, 34], none, ⟨0, 11⟩, ⟨[]⟩, ⟨[]⟩, ⟨[]⟩⟩
      = some (newEncoder, [1, 2, 1, 0, 2, 1, 0, 1, 2, 6, 34], none) ∧
    parseMessage [1, 2, 1, 0, 2, 1, 0, 1, 2, 6, 34]
      = some (⟨⟨[1, 0, 2, 1, 0, 1], 2, false⟩, [1, 2]⟩, 11) ∧
    MessageView.Field ⟨⟨[1, 0, 2, 1, 0, 1], 2, false⟩, [1, 2]⟩ 1 = some [1, 2] ∧
    (decodePrim [1, 2]).map Prod.fst = some (Prim.bool false) ∧
    duplicateTagMessage.readsBack [1, 2, 1, 0, 2, 1, 0, 1, 2, 6, 34] = false ∧
    duplicateTagMessage.valid = false := by
  decide

/-! ## Theorems: the table handed over by `EndList` -/

/-- With the list metadata encoder of `sampleCodec`, which reports no error,
`EndList` returns nil in the state reached with a value of `2^32 - 7` bytes and
hands the body size `2^32` and the table `[1, 0]` to the encoder. -/
theorem element_offsets_wrap_end (v : List Nat) (hlen : v.length = 4294967289) :
    ∃ e' : Encoder,
      (twoElementsState v).call sampleCodec Call.endList = some (e', none) ∧
      e'.buf = (sampleCodec.encodeListMeta (twoElementsState v).buf (2 ^ 32)
        [⟨1⟩, ⟨0⟩]).1 := by
  have hvar : (revVaruint 9 4294967289).length = 5 := by decide
  have hbuf : (((twoElementsState v).buf.length : Nat) : Int) - 0 = 2 ^ 32 := by
    simp only [twoElementsState, List.length_append, List.length_singleton, List.length_nil,
      hlen, hvar]
    norm_num
  have hstack : (twoElementsState v).elements.stack = [⟨1⟩, ⟨0⟩] := by
    simp only [twoElementsState, hlen, hvar]
    norm_num
  have hcall := endList_call (twoElementsState v).buf [] 0 [] [⟨1⟩, ⟨0⟩] ⟨[]⟩
  rw [hbuf] at hcall
  have hstate : twoElementsState v
      = ⟨(twoElementsState v).buf, none, ⟨0, 0⟩,
          ⟨[] ++ [⟨objectTypeList, 0, (([] : List listElement).length : Int)⟩]⟩,
          ⟨[] ++ [⟨1⟩, ⟨0⟩]⟩, ⟨[]⟩⟩ := by
    have h1 : (twoElementsState v).elements = ⟨[⟨1⟩, ⟨0⟩]⟩ := listStack_eq _ _ hstack
    calc twoElementsState v
        = ⟨(twoElementsState v).buf, none, ⟨0, 0⟩, ⟨[⟨objectTypeList, 0, 0⟩]⟩,
            (twoElementsState v).elements, ⟨[]⟩⟩ := rfl
      _ = _ := by rw [h1]; rfl
  rw [← hstate] at hcall
  exact ⟨_, hcall, rfl⟩

theorem checkedCodec_appends : checkedCodec.Appends := by
  constructor
  case encodeListMeta =>
    intro buf bsize table
    show Extends buf (if bsize ≥ 2 ^ 32 then (buf, some (EncodeError.encoding 1))
      else sampleCodec.encodeListMeta buf bsize table).1
    by_cases h : bsize ≥ 2 ^ 32
    · rw [if_pos h]; exact extends_refl _
    · rw [if_neg h]; exact sampleCodec_appends.encodeListMeta _ _ _
  case EncodeNil => exact sampleCodec_appends.EncodeNil
  case EncodeBool => exact sampleCodec_appends.EncodeBool
  case EncodeByte => exact sampleCodec_appends.EncodeByte
  case EncodeInt32 => exact sampleCodec_appends.EncodeInt32
  case EncodeInt64 => exact sampleCodec_appends.EncodeInt64
  case EncodeUint32 => exact sampleCodec_appends.EncodeUint32
  case EncodeUint64 => exact sampleCodec_appends.EncodeUint64
  case EncodeU128 => exact sampleCodec_appends.EncodeU128
  case EncodeU256 => exact sampleCodec_appends.EncodeU256
  case EncodeFloat32 => exact sampleCodec_appends.EncodeFloat32
  case EncodeFloat64 => exact sampleCodec_appends.EncodeFloat64
  case EncodeBytes => exact sampleCodec_appends.EncodeBytes
  case EncodeString => exact sampleCodec_appends.EncodeString
  case encodeMessageMeta => exact sampleCodec_appends.encodeMessageMeta
  case encodeStruct => exact sampleCodec_appends.encodeStruct

theorem checkedCodec_checked : checkedCodec.ListBodyChecked := by
  intro buf bsize table h
  show (if bsize ≥ 2 ^ 32 then (buf, some (EncodeError.encoding 1))
    else sampleCodec.encodeListMeta buf bsize table).2 ≠ none
  rw [if_pos h]
  exact fun hc => Option.noConfusion hc

/-- C34: for every error-free sequence of writer calls on a fresh encoder in
which each `Element` call is made while a value is outstanding, an `EndList`
that returns nil after it closes a list `o` on top of the object stack and
hands the body size `len(buf) - o.start` and the table
`elements.stack[o.tableStart:]` to the list metadata encoder; that table has
non-decreasing offsets, each at most that body size. The encoders are assumed
to only append, and the list metadata encoder to report an error for a body
of `2^32` bytes or more. -/
theorem C34_element_offsets (c : Codec) (happ : c.Appends) (hchecked : c.ListBodyChecked)
    (calls : List Call) (e e' : Encoder)
    (hrun : Encoder.runOutstanding c newEncoder calls = some e)
    (hend : e.call c Call.endList = some (e', none)) :
    ∃ (o : objectEntry) (table : List listElement),
      e.objects.peek = some o ∧ o.type_ = objectTypeList ∧
      sliceFrom e.elements.stack o.tableStart = some table ∧
      (c.encodeListMeta e.buf ((e.buf.length : Int) - o.start) table).2 = none ∧
      e'.buf = (c.encodeListMeta e.buf ((e.buf.length : Int) - o.start) table).1 ∧
      table.Pairwise elementLE ∧
      (∀ x ∈ table, ((x.offset : Nat) : Int) ≤ (e.buf.length : Int) - o.start) := by
  have hinv := runOutstanding_inv c happ calls newEncoder e newEncoder_listsInv hrun
  obtain ⟨herr, _, hok⟩ := hinv
  have hstep := call_ok_step c e e' Call.endList herr hend
  cases hstep with
  | endList o below table hstack hkind htable hdata henc he =>
    have hp : e.objects.peek = some o := by
      unfold objectStack.peek
      rw [hstack]
      simp
    have hsmall : (e.buf.length : Int) - o.start < 2 ^ 32 := by
      by_contra hbig
      exact hchecked _ _ _ (not_lt.1 hbig) henc
    rw [hstack, List.reverse_append, List.reverse_singleton, List.singleton_append] at hok
    obtain ⟨_, _, h2⟩ := hok
    rcases h2 with ⟨_, table0, hs, hprop, _⟩ | ⟨hne, _⟩
    · have htab : table0 = table := by
        rw [hs] at htable
        exact Option.some.inj htable
      subst htab
      obtain ⟨hpair, hb⟩ := hprop hsmall
      exact ⟨o, table0, hp, hkind, hs, henc, by rw [he], hpair, hb⟩
    · exact absurd hkind hne
  | primitive _ hprim _ _ _ _ => cases hprim
  | begin_ _ _ hcall _ _ _ _ =>
    rcases hcall with ⟨hc, _⟩ | ⟨hc, _⟩ | ⟨hc, _⟩ <;> cases hc

/-- C34 at the run `BeginList`, `Nil`, `Element`, `Bytes([7])`, `Element`
followed by `EndList`, with a list metadata encoder that checks the body size:
the table `[1, 4]` handed over has non-decreasing offsets, each at most the
body size 4. -/
theorem C34_element_offsets_witness :
    ∃ (o : objectEntry) (table : List listElement),
      (twoElementsState [7]).objects.peek = some o ∧ o.type_ = objectTypeList ∧
      sliceFrom (twoElementsState [7]).elements.stack o.tableStart = some table ∧
      (checkedCodec.encodeListMeta (twoElementsState [7]).buf
        (((twoElementsState [7]).buf.length : Int) - o.start) table).2 = none ∧
      twoElementsClosedState.buf = (checkedCodec.encodeListMeta (twoElementsState [7]).buf
        (((twoElementsState [7]).buf.length : Int) - o.start) table).1 ∧
      table.Pairwise elementLE ∧
      (∀ x ∈ table,
        ((x.offset : Nat) : Int) ≤ ((twoElementsState [7]).buf.length : Int) - o.start) :=
  C34_element_offsets checkedCodec checkedCodec_appends checkedCodec_checked
    [Call.beginList, Call.nil, Call.element, Call.bytes [7], Call.element]
    (twoElementsState [7]) twoElementsClosedState (by decide) (by decide)

theorem evaluation_66 :
    Encoder.runOutstanding checkedCodec newEncoder
      [Call.beginList, Call.nil, Call.element, Call.bytes [7], Call.element, Call.endList]
      = some twoElementsClosedState ∧
    (checkedCodec.encodeListMeta [] (2 ^ 32) []).2 = some (EncodeError.encoding 1) ∧
    (checkedCodec.encodeListMeta [] (2 ^ 32 - 1) []).2 = none := by
  decide

end Spec
